import Mathlib

/-!
Multi-attribute linear-hashed files.

A shallow embedding of `tuple.c`, `reln.c`, `select.c` and `project.c`.

Conventions of the embedding.
* A C string is the list of its characters before the terminating NUL.
* `Count`, `Offset` and `Bits` values are natural numbers; `Bits` is a 32-bit word and
  the one place where the width is visible (`~unknown` in `setup`) is written out.
* A `PageID` is `Option Nat`; `none` is the sentinel `NO_PAGE`.
* A function returns `none` where the C code faults (a read outside an array or a file,
  a failed `assert`) or where a loop does not terminate within its fuel.
* A scratch buffer `char buf[MAXTUPLEN]` into which a stored tuple is copied (`tup` in
  `lh_split`, `temp` in `nextMatchTup`, the output buffer of `projectTuple`) is modelled by
  its size: a copy of more bytes than it has is a fault. The buffer `temp` of `strMatch`,
  which receives at most `strlen(s)` bytes of the value `s`, and heap management are not
  modelled.
-/

namespace MALH

/-! ## tuple.c -/

/-- A C string: the characters before the terminating NUL. -/
abbrev CStr := List Char

/-- The array read `vals[i]` of a string from an array of strings. -/
def strAt (vals : List CStr) (i : Nat) : CStr := vals.getD i []

/-- The `tupleVals` scan: the fields of `t` between the commas, in order. -/
def tupleVals : CStr → List CStr
  | [] => [[]]
  | c :: cs =>
    if c = ',' then [] :: tupleVals cs
    else match tupleVals cs with
      | v :: vs => (c :: v) :: vs
      | [] => [[c]]

/-- `tupleVals(t, vals)` into an array `vals` of `n` pointers: every slot is written and
none is written outside the array iff `t` has exactly `n` fields. -/
def tupleValsN (n : Nat) (t : CStr) : Option (List CStr) :=
  if (tupleVals t).length = n then some (tupleVals t) else none

/-- First loop of `strMatch`: `i` is the index of the head of the remaining pattern, the
result is `(n_kn, last)` when the loop ends. -/
def countKnown : CStr → Nat → Nat → Int → Nat × Int
  | [], _, n_kn, last => (n_kn, last)
  | c :: cs, i, n_kn, last =>
    if c = '%' then countKnown cs (i + 1) (if (i : Int) > last + 1 then n_kn + 1 else n_kn) i
    else countKnown cs (i + 1) n_kn last

/-- The bytes `p[lo .. hi)` copied by `memcpy(pat[j], p + last + 1, slen)`. -/
def slice (p : CStr) (lo hi : Nat) : CStr := (p.drop lo).take (hi - lo)

/-- Second loop of `strMatch` (`for (i = 0; i <= plen; i++)`): the known sections of the
pattern `p`, in order. The first argument is `p + i`. -/
def gatherKnown (p : CStr) : CStr → Nat → Int → List CStr
  | [], i, last =>
    -- `p[i] == '\0'`
    if (i : Int) > last + 1 then [slice p (last + 1).toNat i] else []
  | c :: cs, i, last =>
    if c = '%' then
      (if (i : Int) > last + 1 then [slice p (last + 1).toNat i] else [])
        ++ gatherKnown p cs (i + 1) i
    else gatherKnown p cs (i + 1) last

/-- Outcome of the search for one known section. -/
inductive Find where
  /-- the section was found and `j` has moved past it -/
  | found (j : Nat)
  /-- the `while` loop ended with `found == FALSE` -/
  | missing
  /-- an anchored section was seen at the wrong offset: `return FALSE` -/
  | reject
  deriving DecidableEq, Repr

/-- The `while ((found == FALSE) && (sublen <= slen - j))` loop of `strMatch` for the
section `sub`; the second argument is `s + j`. `first` is `i == 0 && knownStart == 0`,
`final` is `i == n_kn - 1 && knownEnd >= 0`. The comparison of `sub` with the next `sublen`
bytes of the value goes through `char temp[MAXTUPLEN]` in the C code; the copy is of
`sublen <= slen - j` bytes and a terminator, within the buffer for every value shorter than
`MAXTUPLEN`, and the buffer is not modelled. -/
def findKnown (sub : CStr) (first final : Bool) (knownEnd : Int) : CStr → Nat → Find
  | [], j =>
    if sub.length ≤ 0 then
      if first && j != 0 then Find.reject
      else if final && (j : Int) != knownEnd then Find.reject
      else Find.found (j + sub.length)
    else Find.missing
  | c :: rest, j =>
    if sub.length ≤ (c :: rest).length then
      if (c :: rest).take sub.length = sub then
        if first && j != 0 then Find.reject
        else if final && (j : Int) != knownEnd then Find.reject
        else Find.found (j + sub.length)
      else findKnown sub first final knownEnd rest (j + 1)
    else Find.missing

/-- The `for (int i = 0; i < n_kn; i++)` loop of `strMatch`; `k` counts the remaining
iterations `n_kn - i`. The result is `result == 0`. -/
def matchKnown (pat : List CStr) (s : CStr) (n_kn : Nat) (knownStart knownEnd : Int) :
    Nat → Nat → Nat → Bool
  | 0, _, _ => true
  | k + 1, i, j =>
    match findKnown (strAt pat i) (i == 0 && knownStart == 0)
        ((i : Int) == (n_kn : Int) - 1 && decide (knownEnd ≥ 0)) knownEnd (s.drop j) j with
    | Find.found j1 => matchKnown pat s n_kn knownStart knownEnd k (i + 1) j1
    | Find.missing => false
    | Find.reject => false

/-- The function `strMatch(p, s)`. -/
def strMatch (p s : CStr) : Bool :=
  let plen : Int := p.length
  let slen : Int := s.length
  let (n_kn0, last) := countKnown p 0 0 (-1)
  if plen > last + 1 ∧ slen - plen + last + 1 < 0 then false
  else
    let n_kn := if plen > last + 1 then n_kn0 + 1 else n_kn0
    let knownEnd : Int := if plen > last + 1 then slen - plen + last + 1 else -1
    let knownStart : Int := if p.head? = some '%' then -1 else 0
    if last = -1 then decide (p = s)
    else if n_kn = 0 then true
    else matchKnown (gatherKnown p p 0 (-1)) s n_kn knownStart knownEnd n_kn 0 0

/-- The loop of `tupValMatch` over the attributes `i`, with `k = nAttr - i` iterations
left; `ptv[i]` and `v[i]` are array reads. -/
def tupValLoop (ptv v : List CStr) : Nat → Nat → Option Bool
  | 0, _ => some true
  | k + 1, i =>
    match ptv[i]? with
    | none => none
    | some q =>
      if q = ['?'] then tupValLoop ptv v k (i + 1)
      else match v[i]? with
        | none => none
        | some x => if strMatch q x then tupValLoop ptv v k (i + 1) else some false

/-- The function `tupValMatch(nAttr, ptv, t)`. -/
def tupValMatch (nAttr : Nat) (ptv : List CStr) (t : CStr) : Option Bool :=
  match tupleValsN nAttr t with
  | none => none
  | some v => tupValLoop ptv v nAttr 0

/-- The function `tupleMatch(r, pt, t)` for a relation with `na` attributes. -/
def tupleMatch (na : Nat) (pt t : CStr) : Option Bool :=
  match tupleValsN na pt with
  | none => none
  | some ptv => tupValMatch na ptv t

/-! ### The reading of `%` patterns in the specification -/

/-- Replace the `%` signs of the pattern by the given strings, in order. -/
def fillPattern : CStr → List CStr → CStr
  | [], _ => []
  | c :: p, fs => if c = '%' then fs.headD [] ++ fillPattern p fs.tail else c :: fillPattern p fs

/-- The value `v` is the pattern with each `%` replaced by some string. -/
def LikeMatch (p v : CStr) : Prop := ∃ fs : List CStr, fillPattern p fs = v


/-! ## Bits, hash and choice vector

`bits.c`, `hash.c` and `chvec.c` are not among the sources. -/

/-- Modelled from the spec: `MAXCHVEC`, "the width of the composite hash in bits"
(`defs.h` is not among the sources). -/
def MAXCHVEC : Nat := 32

/-- Modelled from the spec: the bit utility "test a bit position" of `bits.c`. -/
def bitIsSet (val pos : Nat) : Bool := val.testBit pos

/-- Modelled from the spec: the bit utility "set a bit position" of `bits.c`. -/
def setBit (val pos : Nat) : Nat := val ||| 2 ^ pos

/-- Modelled from the spec: the bit utility "extract low-k bits" of `bits.c`. -/
def getLower (val nbits : Nat) : Nat := val % 2 ^ nbits

/-- One entry `(att, bit)` of the choice vector. -/
structure ChVecItem where
  att : Nat
  bit : Nat
  deriving DecidableEq, Repr, Inhabited

/-- The array read `cv[j]`, for `j < MAXCHVEC`. -/
def cvAt (cv : List ChVecItem) (j : Nat) : ChVecItem := cv.getD j ⟨0, 0⟩

/-- First inner loop of `tupleHash` for attribute `i` with value `v`: `attr_hash` when
the loop is left; `k` iterations remain and `j` is the loop index. -/
def attrHashLoop (hash_any : CStr → Nat) (cv : List ChVecItem) (v : CStr) (i : Nat) :
    Nat → Nat → Nat
  | 0, _ => 0
  | k + 1, j =>
    if (cvAt cv j).att = i then hash_any v else attrHashLoop hash_any cv v i k (j + 1)

/-- Second inner loop of `tupleHash` for attribute `i`: the bits of `hash` taken from
`attr_hash`. -/
def attrBitsLoop (cv : List ChVecItem) (attr_hash i : Nat) : Nat → Nat → Nat → Nat
  | 0, _, hash => hash
  | k + 1, j, hash =>
    attrBitsLoop cv attr_hash i k (j + 1)
      (if (cvAt cv j).att = i && bitIsSet attr_hash (cvAt cv j).bit then setBit hash j else hash)

/-- Outer loop of `tupleHash` over the attributes. -/
def tupleHashLoop (hash_any : CStr → Nat) (cv : List ChVecItem) (vals : List CStr) :
    Nat → Nat → Nat → Nat
  | 0, _, hash => hash
  | k + 1, i, hash =>
    let attr_hash := attrHashLoop hash_any cv (strAt vals i) i MAXCHVEC 0
    tupleHashLoop hash_any cv vals k (i + 1) (attrBitsLoop cv attr_hash i MAXCHVEC 0 hash)

/-- The function `tupleHash(r, t)` for a relation with `nattrs` attributes and choice
vector `cv`; `hash_any` is the per-value hash of `hash.c`. -/
def tupleHash (hash_any : CStr → Nat) (nattrs : Nat) (cv : List ChVecItem) (t : CStr) :
    Option Nat :=
  match tupleValsN nattrs t with
  | none => none
  | some vals => some (tupleHashLoop hash_any cv vals nattrs 0 0)

/-- The composite hash as the specification defines it: for each `j` in
`[0, MAXCHVEC)`, bit `j` is set when bit `cv[j].bit` of the hash of value `cv[j].att`
is 1. `k` positions remain from `j` on. -/
def compositeHash (hash_any : CStr → Nat) (cv : List ChVecItem) (vals : List CStr) :
    Nat → Nat → Nat → Nat
  | 0, _, hash => hash
  | k + 1, j, hash =>
    compositeHash hash_any cv vals k (j + 1)
      (if bitIsSet (hash_any (strAt vals (cvAt cv j).att)) (cvAt cv j).bit
        then setBit hash j else hash)

/-! ## Pages

`page.c` is not among the sources; `page.h` gives the record. -/

/-- Modelled from the spec: `PAGESIZE` of `defs.h`. -/
def PAGESIZE : Nat := 1024

/-- Modelled from the spec: `MAXTUPLEN` of `defs.h`, "implementation constant, e.g. 200
bytes". -/
def MAXTUPLEN : Nat := 200

/-- Size of the data area of a page, `PAGESIZE - 2*sizeof(Offset) - sizeof(Count)` with
4-byte `Offset` and `Count`. -/
def dataSize : Nat := PAGESIZE - 2 * 4 - 4

/-- The record `struct PageRep`. -/
structure Page where
  free : Nat
  ovflow : Option Nat
  ntuples : Nat
  data : List Char
  deriving DecidableEq, Repr

/-- Modelled from the spec: `new_page`, a zeroed buffer with `free=0`, `ntuples=0`,
`ovflow=NO_PAGE`. -/
def newPage : Page := ⟨0, none, 0, List.replicate dataSize '\x00'⟩

/-- Modelled from the spec: `free_space(page) = PAGESIZE − header_size − free`. -/
def pageFreeSpace (p : Page) : Nat := dataSize - p.free

/-- Modelled from the spec: `add_to_page` "succeeds iff `strlen(tuple)+1 ≤
free_space(page)`; appends the tuple bytes plus a terminating NUL at `free`; increments
`ntuples`; advances `free`". `none` is the result Full, with the page unchanged. -/
def addToPage (p : Page) (t : CStr) : Option Page :=
  if t.length + 1 ≤ pageFreeSpace p then
    some { p with
      free := p.free + (t.length + 1)
      ntuples := p.ntuples + 1
      data := p.data.take p.free ++ (t ++ ['\x00']) ++ p.data.drop (p.free + (t.length + 1)) }
  else none

/-- The tuples held by a byte region: its NUL-terminated strings in order; `cur` is the
string read since the last NUL. -/
def splitNul : List Char → CStr → List CStr
  | [], _ => []
  | c :: cs, cur => if c = '\x00' then cur :: splitNul cs [] else splitNul cs (cur ++ [c])

/-- The tuples stored in a page, read from `data[0 .. free)`. -/
def pageTuples (p : Page) : List CStr := splitNul (p.data.take p.free) []

/-! ## reln.c -/

/-- The record `struct RelnRep`, with the data and overflow files as lists of pages. -/
structure Reln where
  nattrs : Nat
  depth : Nat
  sp : Nat
  npages : Nat
  ntups : Nat
  cv : List ChVecItem
  mode : Char
  data : List Page
  ovflow : List Page
  deriving DecidableEq, Repr

/-- Modelled from the spec: `get_page(file, id)` on the data (`isOvf = false`) or the
overflow file; a page that is not in the file cannot be read. -/
def getPage (r : Reln) (isOvf : Bool) (pid : Nat) : Option Page :=
  if isOvf then r.ovflow[pid]? else r.data[pid]?

/-- Modelled from the spec: `put_page(file, id, page)`, for a page that is in the file. -/
def putPage (r : Reln) (isOvf : Bool) (pid : Nat) (p : Page) : Option Reln :=
  if isOvf then
    if pid < r.ovflow.length then some { r with ovflow := r.ovflow.set pid p } else none
  else
    if pid < r.data.length then some { r with data := r.data.set pid p } else none

/-- Modelled from the spec: `add_page` on the overflow file appends a fresh page and returns
its id. -/
def addOvflowPage (r : Reln) : Nat × Reln :=
  (r.ovflow.length, { r with ovflow := r.ovflow ++ [newPage] })

/-- Modelled from the spec: `parse_choice_vector` accepts "exactly `MAXCHVEC` entries;
each `ai < nattrs`, `bi < 32`". The argument is the list of parsed entries. -/
def validChVec (nattrs : Nat) (cv : List ChVecItem) : Bool :=
  cv.length == MAXCHVEC && cv.all (fun e => decide (e.att < nattrs) && decide (e.bit < 32))

/-- The function `newRelation(name, nattrs, npages, d, cv)`: the relation that the three
files hold afterwards. -/
def newRelation (nattrs npages d : Nat) (cv : List ChVecItem) : Option Reln :=
  if validChVec nattrs cv then
    some ⟨nattrs, d, 0, npages, 0, cv, 'w', List.replicate npages newPage, []⟩
  else none

/-- The `while (done == FALSE)` loop of `flushToBuck` and the code after it. `p` is the
page in hand, `pid` its id and `isOvf` its file. -/
def flushLoop (r : Reln) (buf : Page) : Nat → Page → Nat → Bool → Option Reln
  | 0, _, _, _ => none
  | fuel + 1, p, pid, isOvf =>
    if p.ntuples = 0 then
      putPage r isOvf pid { buf with ovflow := p.ovflow }
    else
      match p.ovflow with
      | none =>
        -- `break`, then `done == FALSE`: a new overflow page at the end of the chain
        let (ovf, r1) := addOvflowPage r
        match putPage r1 isOvf pid { p with ovflow := some ovf } with
        | none => none
        | some r2 => putPage r2 true ovf buf
      | some ovf =>
        match getPage r true ovf with
        | none => none
        | some p1 => flushLoop r buf fuel p1 ovf true

/-- The function `flushToBuck(r, bid, buf)`. The loop reads one page per iteration and
writes nothing before it ends, so it ends within `#overflow pages + 1` iterations or
never. -/
def flushToBuck (r : Reln) (bid : Nat) (buf : Page) : Option Reln :=
  match getPage r false bid with
  | none => none
  | some p => flushLoop r buf (r.ovflow.length + 1) p bid false

/-- The body of `if (*c == '\0')` in `lh_split` for the tuple `tup`: the tuple goes to
the `stay` or to the `move` buffer, which is flushed first when it is full. -/
def splitTuple (hash_any : CStr → Nat) (newBid : Nat) (tup : CStr) (r : Reln)
    (stay move : Page) : Option (Reln × Page × Page) :=
  match tupleHash hash_any r.nattrs r.cv tup with
  | none => none
  | some tupHash =>
    if bitIsSet tupHash r.depth = false then
      match addToPage stay tup with
      | some stay1 => some (r, stay1, move)
      | none =>
        match flushToBuck r r.sp stay with
        | none => none
        | some r1 => some (r1, (addToPage newPage tup).getD newPage, move)
    else
      match addToPage move tup with
      | some move1 => some (r, stay, move1)
      | none =>
        match flushToBuck r newBid move with
        | none => none
        | some r1 => some (r1, stay, (addToPage newPage tup).getD newPage)

/-- The loop `while (c < p->data + p->free)` of `lh_split` over the bytes of one page;
`cur` is the string between `start` and `c`. At a NUL the `c - start + 1` bytes of the
tuple and its terminator are copied into `char tup[MAXTUPLEN]`. -/
def splitScan (hash_any : CStr → Nat) (newBid : Nat) :
    List Char → CStr → Reln → Page → Page → Option (Reln × Page × Page)
  | [], _, r, stay, move => some (r, stay, move)
  | c :: cs, cur, r, stay, move =>
    if c = '\x00' then
      if cur.length + 1 ≤ MAXTUPLEN then
        match splitTuple hash_any newBid cur r stay move with
        | none => none
        | some (r1, stay1, move1) => splitScan hash_any newBid cs [] r1 stay1 move1
      else none
    else splitScan hash_any newBid cs (cur ++ [c]) r stay move

/-- The page `p` after `p->free = 0; p->ntuples = 0; memset(p->data, 0, dataSize)` in
`lh_split`; the link `ovflow` stays. -/
def clearPage (p : Page) : Page :=
  { p with free := 0, ntuples := 0
           data := List.replicate dataSize '\x00' ++ p.data.drop dataSize }

/-- The loop `while (finished != TRUE)` of `lh_split` over the pages of the split
bucket. -/
def splitLoop (hash_any : CStr → Nat) (newBid : Nat) :
    Nat → Reln → Nat → Bool → Page → Page → Option (Reln × Page × Page)
  | 0, _, _, _, _, _ => none
  | fuel + 1, r, curPid, isOvf, stay, move =>
    match getPage r isOvf curPid with
    | none => none
    | some p =>
      match splitScan hash_any newBid (p.data.take p.free) [] r stay move with
      | none => none
      | some (r1, stay1, move1) =>
        match putPage r1 isOvf curPid (clearPage p) with
        | none => none
        | some r2 =>
          match p.ovflow with
          | none => some (r2, stay1, move1)
          | some ovf => splitLoop hash_any newBid fuel r2 ovf true stay1 move1

/-- The function `lh_split(r)`. -/
def lh_split (hash_any : CStr → Nat) (r : Reln) : Option Reln :=
  let newBid := r.data.length
  let r0 : Reln := { r with data := r.data ++ [newPage], npages := r.npages + 1 }
  match splitLoop hash_any newBid (r0.ovflow.length + 1) r0 r0.sp false newPage newPage with
  | none => none
  | some (r1, stay, move) =>
    match (if stay.ntuples > 0 then flushToBuck r1 r1.sp stay else some r1) with
    | none => none
    | some r2 => if move.ntuples > 0 then flushToBuck r2 newBid move else some r2

/-- The scan of the overflow chain in `addToRelation` (`while (ovp != NO_PAGE)`) and the
code after it; `prev` is `(prevp, prevpg)` once there is one. -/
def ovflowInsert (t : CStr) (p : Nat) :
    Nat → Reln → Option Nat → Option (Nat × Page) → Option (Reln × Option Nat)
  | 0, _, _, _ => none
  | fuel + 1, r, ovp, prev =>
    match ovp with
    | some o =>
      match getPage r true o with
      | none => none
      | some ovpg =>
        match addToPage ovpg t with
        | none => ovflowInsert t p fuel r ovpg.ovflow (some (o, ovpg))
        | some ovpg1 =>
          match putPage r true o ovpg1 with
          | none => none
          | some r1 => some ({ r1 with ntups := r1.ntups + 1 }, some p)
    | none =>
      match prev with
      | none => none
      | some (prevp, prevpg) =>
        let (newp, r1) := addOvflowPage r
        match getPage r1 true newp with
        | none => none
        | some newpg =>
          match addToPage newpg t with
          | none => some (r1, none)
          | some newpg1 =>
            match putPage r1 true newp newpg1 with
            | none => none
            | some r2 =>
              match putPage r2 true prevp { prevpg with ovflow := some newp } with
              | none => none
              | some r3 => some ({ r3 with ntups := r3.ntups + 1 }, some p)

/-- The page capacity `Pcap = floor(102.4/r->nattrs)` of `addToRelation`, in integer
arithmetic. -/
def Pcap (nattrs : Nat) : Nat := 1024 / (10 * nattrs)

/-- The split step at the head of `addToRelation`. -/
def splitIfDue (hash_any : CStr → Nat) (r : Reln) : Option Reln :=
  if r.ntups > 0 ∧ r.ntups % Pcap r.nattrs = 0 then
    match lh_split hash_any r with
    | none => none
    | some r1 =>
      if r1.sp + 1 < 2 ^ r1.depth then some { r1 with sp := r1.sp + 1 }
      else some { r1 with sp := 0, depth := r1.depth + 1 }
  else some r

/-- The bucket of the hash `h` in `addToRelation`. -/
def bucketOf (r : Reln) (h : Nat) : Nat :=
  if r.depth = 0 then 0
  else
    let p := getLower h r.depth
    if p < r.sp then getLower h (r.depth + 1) else p

/-- The function `addToRelation(r, t)`: the relation afterwards and the returned page
id, `none` for `NO_PAGE`. -/
def addToRelation (hash_any : CStr → Nat) (r : Reln) (t : CStr) :
    Option (Reln × Option Nat) :=
  if r.nattrs = 0 ∨ Pcap r.nattrs = 0 then none
  else
    match splitIfDue hash_any r with
    | none => none
    | some r =>
      match tupleHash hash_any r.nattrs r.cv t with
      | none => none
      | some h =>
        let p := bucketOf r h
        match getPage r false p with
        | none => none
        | some pg =>
          match addToPage pg t with
          | some pg1 =>
            match putPage r false p pg1 with
            | none => none
            | some r1 => some ({ r1 with ntups := r1.ntups + 1 }, some p)
          | none =>
            match pg.ovflow with
            | none =>
              let (newp, r1) := addOvflowPage r
              match putPage r1 false p { pg with ovflow := some newp } with
              | none => none
              | some r2 =>
                match getPage r2 true newp with
                | none => none
                | some newpg =>
                  match addToPage newpg t with
                  | none => some (r2, none)
                  | some newpg1 =>
                    match putPage r2 true newp newpg1 with
                    | none => none
                    | some r3 => some ({ r3 with ntups := r3.ntups + 1 }, some p)
            | some ovp => ovflowInsert t p (r.ovflow.length + 1) r (some ovp) none


/-! ## select.c -/

/-- The record `struct SelectionRep`; `rel` stands for the relation as it is during the
scan. -/
structure Selection where
  rel : Reln
  qHash : Nat
  known : Nat
  curPage : Page
  is_ovflow : Bool
  curtupOffset : Nat
  curBid : Nat
  maxBid : Nat
  qvals : List CStr
  deriving DecidableEq, Repr

/-- The function `known_attr(s)`. -/
def known_attr (s : CStr) : Bool := !(s == ['?'] || s.contains '%')

/-- The read `cv[j].att` in `setup`, where `j` runs up to `MAXCHVEC` inclusive: the byte
after the array `cv` in `struct RelnRep` is `mode`. -/
def cvAttAt (r : Reln) (j : Nat) : Nat :=
  if j < MAXCHVEC then (cvAt r.cv j).att else r.mode.toNat

/-- The loop `for (int j = 0; j <= MAXCHVEC; j++)` of `setup` for the unknown attribute
`i`. Setting bit `MAXCHVEC` of a 32-bit word is a fault. -/
def unknownBits (r : Reln) (i : Nat) : Nat → Nat → Nat → Option Nat
  | 0, _, unknown => some unknown
  | k + 1, j, unknown =>
    if cvAttAt r j = i then
      if j < MAXCHVEC then unknownBits r i k (j + 1) (setBit unknown j) else none
    else unknownBits r i k (j + 1) unknown

/-- The loop of `setup` over the attributes. -/
def unknownLoop (r : Reln) (qvals : List CStr) : Nat → Nat → Nat → Option Nat
  | 0, _, unknown => some unknown
  | k + 1, i, unknown =>
    if known_attr (strAt qvals i) = false then
      match unknownBits r i (MAXCHVEC + 1) 0 unknown with
      | none => none
      | some u => unknownLoop r qvals k (i + 1) u
    else unknownLoop r qvals k (i + 1) unknown

/-- The complement `~x` of a 32-bit word. -/
def bitsNot (x : Nat) : Nat := 4294967295 ^^^ x

/-- The function `setup(r, q, new)`: the values `(qvals, known, qHash)` it stores. -/
def setup (hash_any : CStr → Nat) (r : Reln) (q : CStr) : Option (List CStr × Nat × Nat) :=
  match tupleValsN r.nattrs q with
  | none => none
  | some qvals =>
    match unknownLoop r qvals r.nattrs 0 0 with
    | none => none
    | some unknown =>
      let known := bitsNot unknown
      match tupleHash hash_any r.nattrs r.cv q with
      | none => none
      | some h => some (qvals, known, h &&& known)

/-- The candidate test of `moveToNextPage` for the bucket `bid`. -/
def isCandidate (s : Selection) (bid : Nat) : Bool :=
  let masked := (s.known &&& bid) ^^^ s.qHash
  let d := s.rel.depth
  getLower masked (d + 1) == 0 || (decide (bid ≥ s.rel.sp) && getLower masked d == 0)

/-- The loop `for (int bid = s->curBid + 1; bid <= s->maxBid; bid++)` of
`moveToNextPage`, with `k` values of `bid` left: the next matching bucket, if any. -/
def nextBucket (s : Selection) : Nat → Nat → Option Nat
  | 0, _ => none
  | k + 1, bid => if isCandidate s bid then some bid else nextBucket s k (bid + 1)

/-- The function `moveToNextPage(s)`: `some none` is the result -1 (the selection is
unchanged), `some (some s1)` the result OK. -/
def moveToNextPage (s : Selection) : Option (Option Selection) :=
  match s.curPage.ovflow with
  | some next_ovf =>
    match getPage s.rel true next_ovf with
    | none => none
    | some pg => some (some { s with curPage := pg, curtupOffset := 0, is_ovflow := true })
  | none =>
    match nextBucket s (s.maxBid - s.curBid) (s.curBid + 1) with
    | none => some none
    | some bid =>
      match getPage s.rel false bid with
      | none => none
      | some pg =>
        some (some { s with curBid := bid, curPage := pg, curtupOffset := 0, is_ovflow := false })

/-- The C string that starts at the head of a byte region. -/
def cstr (bytes : List Char) : CStr := bytes.takeWhile (· != '\x00')

/-- The loop `while ((c < p->data + p->free) && (succeed != OK))` of `nextMatchTup` on
the page data, run for at most `k` iterations. The result is the tuple copied to `*t`, if
any, and the offset `curtupOffset` afterwards. At a NUL the `c - c0 + 1` bytes from `c0` on
are copied into `char temp[MAXTUPLEN]`. -/
def matchScan (nAttr : Nat) (qvals : List CStr) (data : List Char) (free : Nat) :
    Nat → Nat → Nat → Option (Option CStr × Nat)
  | 0, c0, _ => some (none, c0)
  | k + 1, c0, c =>
    if c < free then
      match data[c]? with
      | none => none
      | some ch =>
        if ch = '\x00' then
          if c - c0 + 1 ≤ MAXTUPLEN then
            match tupValMatch nAttr qvals (cstr ((data.drop c0).take (c - c0 + 1))) with
            | none => none
            | some true => some (some (cstr ((data.drop c0).take (c - c0 + 1))), c + 1)
            | some false => matchScan nAttr qvals data free k (c + 1) (c + 2)
          else none
        else matchScan nAttr qvals data free k c0 (c + 1)
    else some (none, c0)

/-- The function `nextMatchTup(s, t)`: the tuple stored in `*t` (`none` with the result
-1) and the selection afterwards. The loop moves `c` forward in every iteration, so
`free` iterations are enough. -/
def nextMatchTup (s : Selection) : Option (Option CStr × Selection) :=
  if s.curPage.ntuples = 0 then some (none, s)
  else
    match matchScan s.rel.nattrs s.qvals s.curPage.data s.curPage.free s.curPage.free
        s.curtupOffset (s.curtupOffset + 1) with
    | none => none
    | some (t, off) => some (t, { s with curtupOffset := off })

/-- The function `startSelection(r, q)`. -/
def startSelection (hash_any : CStr → Nat) (r : Reln) (q : CStr) : Option Selection :=
  match setup hash_any r q with
  | none => none
  | some (qvals, known, qHash) =>
    let curBid := if r.depth = 0 then 0 else getLower qHash r.depth
    let maxBid0 := if r.depth = 0 then 0 else getLower (qHash ||| bitsNot known) (1 + r.depth)
    let maxBid := if r.depth ≠ 0 ∧ maxBid0 ≥ r.npages then r.npages - 1 else maxBid0
    match getPage r false curBid with
    | none => none
    | some pg => some ⟨r, qHash, known, pg, false, 0, curBid, maxBid, qvals⟩

/-- The loop `while (try != OK)` of `getNextTuple`. -/
def getNextLoop : Nat → Selection → Option (Option CStr × Selection)
  | 0, _ => none
  | fuel + 1, s =>
    match moveToNextPage s with
    | none => none
    | some none => some (none, s)
    | some (some s1) =>
      match nextMatchTup s1 with
      | none => none
      | some (some t, s2) => some (some t, s2)
      | some (none, s2) => getNextLoop fuel s2

/-- The function `getNextTuple(s)`: the returned tuple (`none` for `NULL`) and the
selection afterwards. Every iteration of the loop reads a page that holds no match: the
next overflow page of the bucket or the primary page of a later bucket, so the loop ends
within `(maxBid - curBid + 1) * (#overflow pages + 1)` iterations or never. -/
def getNextTuple (s : Selection) : Option (Option CStr × Selection) :=
  match nextMatchTup s with
  | none => none
  | some (some t, s1) => some (some t, s1)
  | some (none, s1) =>
    getNextLoop ((s.maxBid - s.curBid + 1) * (s.rel.ovflow.length + 1)) s1

/-- Calls of `getNextTuple` until it returns `NULL`, at most `n` of which return a tuple:
the tuples returned, in order. -/
def scanLoop : Nat → Selection → Option (List CStr)
  | 0, s =>
    match getNextTuple s with
    | some (none, _) => some []
    | _ => none
  | n + 1, s =>
    match getNextTuple s with
    | none => none
    | some (none, _) => some []
    | some (some t, s1) =>
      match scanLoop n s1 with
      | none => none
      | some ts => some (t :: ts)

/-- The scan of the `select` command: `startSelection(r, q)` followed by `getNextTuple`
until `NULL`. -/
def selectAll (hash_any : CStr → Nat) (n : Nat) (r : Reln) (q : CStr) : Option (List CStr) :=
  match startSelection hash_any r q with
  | none => none
  | some s => scanLoop n s

/-! ## Contents of a bucket -/

/-- The tuples on the overflow chain that starts at page `start`. -/
def ovflowTuples (ov : List Page) : Nat → Option Nat → Option (List CStr)
  | _, none => some []
  | 0, some _ => none
  | fuel + 1, some i =>
    match ov[i]? with
    | none => none
    | some pg =>
      match ovflowTuples ov fuel pg.ovflow with
      | none => none
      | some ts => some (pageTuples pg ++ ts)

/-- The tuples stored in bucket `b`: those of primary page `b`, then those of the pages
of its overflow chain, in chain order. -/
def bucketTuples (r : Reln) (b : Nat) : Option (List CStr) :=
  match r.data[b]? with
  | none => none
  | some pg =>
    match ovflowTuples r.ovflow r.ovflow.length pg.ovflow with
    | none => none
    | some ts => some (pageTuples pg ++ ts)

/-! ## Notions used in the statements and proofs -/

/-- The literal run before the first `%` of a pattern. -/
def firstPiece (p : CStr) : CStr := p.takeWhile (fun c => c != '%')

/-- The literal runs of a pattern that are closed by a `%`; `cur` is the run read so far. -/
def initPieces : CStr → CStr → List CStr
  | _, [] => []
  | cur, c :: cs => if c = '%' then cur :: initPieces [] cs else initPieces (cur ++ [c]) cs

/-- The literal run after the last `%` of a pattern. -/
def lastPiece : CStr → CStr → CStr
  | cur, [] => cur
  | cur, c :: cs => if c = '%' then lastPiece [] cs else lastPiece (cur ++ [c]) cs

/-- The non-empty strings of a list. -/
def nonEmpty (l : List CStr) : List CStr := l.filter (fun x => x != [])

/-- The known sections occur in `w` in order without overlap; the first at offset 0 when
`aS`, the last at the end when `aE`. -/
def Sections : Bool → Bool → List CStr → CStr → Prop
  | _, _, [], _ => True
  | aS, aE, seg :: ls, w =>
    ∃ g t, w = g ++ seg ++ t ∧ (aS = true → g = []) ∧ (ls = [] → aE = true → t = []) ∧
      Sections false aE ls t

/-- Each of the strings occurs in `w`, in order, each after some filler. -/
def LikeRest : List CStr → CStr → Prop
  | [], w => w = []
  | x :: rest, w => ∃ f t, w = f ++ x ++ t ∧ LikeRest rest t

/-- The string `w` is the first piece followed by the fillers and the other pieces. -/
def LikePieces : List CStr → CStr → Prop
  | [], w => w = []
  | x :: rest, w => ∃ t, w = x ++ t ∧ LikeRest rest t

/-- The selections that the scan started by `startSelection(r, q)` goes through as
`getNextTuple` is called again and again. -/
inductive ScanState (hash_any : CStr → Nat) (r : Reln) (q : CStr) : Selection → Prop
  | start (s : Selection) : startSelection hash_any r q = some s → ScanState hash_any r q s
  | next (s s1 : Selection) (res : Option CStr) :
      ScanState hash_any r q s → getNextTuple s = some (res, s1) → ScanState hash_any r q s1

/-- Successful calls of `addToRelation` for the tuples of a list, in order. -/
def insertAll (hash_any : CStr → Nat) : Reln → List CStr → Option Reln
  | r, [] => some r
  | r, t :: ts =>
    match addToRelation hash_any r t with
    | some (r1, some _) => insertAll hash_any r1 ts
    | _ => none

/-- The bytes of a sequence of stored tuples, each with its terminating NUL. -/
def encode : List CStr → List Char
  | [] => []
  | t :: ts => t ++ '\x00' :: encode ts

/-- The invariants P1 and P2 of a page: the data area has its size, `free` lies in it,
`data[0 .. free)` is the concatenation of the stored tuples with their terminators, and
`ntuples` counts them. -/
structure PageOK (p : Page) : Prop where
  size : p.data.length = dataSize
  fits : p.free ≤ dataSize
  packed : p.data.take p.free = encode (pageTuples p)
  count : p.ntuples = (pageTuples p).length

/-- A page of a file: `(false, b)` is data page `b`, `(true, i)` is overflow page `i`. -/
abbrev Node := Bool × Nat

/-- The page stored at a node. -/
def pageAt (r : Reln) (n : Node) : Option Page := getPage r n.1 n.2

/-- The tuples of a list of pages, in order. -/
def tuplesOfPages : List Page → List CStr
  | [] => []
  | p :: ps => pageTuples p ++ tuplesOfPages ps

/-- The pages `w` are linked into one chain in the relation `r`: each page is stored at
its node, its `ovflow` field is the id of the next page, which is an overflow page, and
the last page has `ovflow = NO_PAGE`. -/
def ChainW (r : Reln) : List (Node × Page) → Prop
  | [] => True
  | (n, p) :: rest =>
    pageAt r n = some p ∧ p.ovflow = rest.head?.map (fun x => x.1.2) ∧
      (∀ x, rest.head? = some x → x.1.1 = true) ∧ ChainW r rest

/-- The header fields of two relation states agree. -/
def SameHdr (r r1 : Reln) : Prop :=
  r1.nattrs = r.nattrs ∧ r1.depth = r.depth ∧ r1.sp = r.sp ∧ r1.npages = r.npages ∧
    r1.ntups = r.ntups ∧ r1.cv = r.cv ∧ r1.mode = r.mode

/-- The loops of `lh_split` walk the tuples of a page in order: the fold of `splitTuple`
over a list of tuples. -/
def splitTuples (hash_any : CStr → Nat) (newBid : Nat) :
    List CStr → Reln → Page → Page → Option (Reln × Page × Page)
  | [], r, stay, move => some (r, stay, move)
  | t :: ts, r, stay, move =>
    match splitTuple hash_any newBid t r stay move with
    | none => none
    | some (r1, stay1, move1) => splitTuples hash_any newBid ts r1 stay1 move1

/-- The test of `lh_split` on a stored tuple: bit `depth` of its hash is 0, the tuple
stays in the split bucket. -/
def staysAt (hash_any : CStr → Nat) (r : Reln) (t : CStr) : Bool :=
  match tupleHash hash_any r.nattrs r.cv t with
  | some h => !bitIsSet h r.depth
  | none => false

/-- The other outcome of the test of `lh_split`: bit `depth` of the hash is 1, the tuple
moves to the new bucket. -/
def movesAt (hash_any : CStr → Nat) (r : Reln) (t : CStr) : Bool :=
  match tupleHash hash_any r.nattrs r.cv t with
  | some h => bitIsSet h r.depth
  | none => false

/-- What `lh_split` relies on for the chain of the split bucket: its pages `nodes` are
distinct, the first is data page `sp`, the others are overflow pages of the file, and the
new data page `newBid` is not among them. -/
structure SplitCtx (r0 : Reln) (newBid : Nat) (nodes : List Node) : Prop where
  nodup : nodes.Nodup
  head : nodes.head? = some (false, r0.sp)
  fresh : (false, newBid) ∉ nodes
  inrange : ∀ n ∈ nodes, n.1 = true → n.2 < r0.ovflow.length

/-- The state of `lh_split` once the tuples `seen` of the split bucket have been read, `c`
bytes of them from the page in hand. The chain of the split bucket is `fl ++ el ++ tl`:
pages refilled from the `stay` buffer, pages emptied and not yet refilled, pages not yet
read. The chain of the new bucket is `ml`: data page `newBid` and the overflow pages added
since the start. -/
structure SplitInv (hash_any : CStr → Nat) (r0 : Reln) (newBid : Nat) (nodes : List Node)
    (seen : List CStr) (c : Nat) (fl el tl ml : List (Node × Page)) (r : Reln)
    (stay move : Page) : Prop where
  hdr : SameHdr r0 r
  dlen : r.data.length = r0.data.length
  frame : ∀ n : Node, n ∉ nodes → n ≠ (false, newBid) →
    (n.1 = true → n.2 < r0.ovflow.length) → pageAt r n = pageAt r0 n
  nodes_eq : (fl ++ el ++ tl).map Prod.fst = nodes
  chain : ChainW r (fl ++ el ++ tl)
  fl_ok : ∀ x ∈ fl, PageOK x.2 ∧ x.2.ntuples ≠ 0
  el_ok : ∀ x ∈ el, x.2.ntuples = 0 ∧ pageTuples x.2 = [] ∧ PageOK x.2
  stay_ok : PageOK stay
  stay_tuples :
    tuplesOfPages (fl.map Prod.snd) ++ pageTuples stay = seen.filter (staysAt hash_any r0)
  room : el ≠ [] ∨ stay.free ≤ c
  move_ok : PageOK move
  move_link : move.ovflow = none
  move_tuples :
    tuplesOfPages (ml.map Prod.snd) ++ pageTuples move = seen.filter (movesAt hash_any r0)
  ml_nodes : ml.map Prod.fst =
    (false, newBid) :: (List.range' r0.ovflow.length (ml.length - 1)).map (fun i => (true, i))
  ml_len : r.ovflow.length = r0.ovflow.length + (ml.length - 1)
  ml_chain : ChainW r ml
  ml_ok : ∀ x ∈ ml, PageOK x.2
  ml_full : ml = [((false, newBid), newPage)] ∨ ∀ x ∈ ml, x.2.ntuples ≠ 0

/-- The buckets of a well-formed relation. `ch b` is the chain of bucket `b`: its primary
page `b` and the overflow pages linked from it, each with its contents. The data file has
`npages` pages, the chains are linked in the files, no page occurs twice in a chain or in
two chains, and every page of a chain satisfies P1 and P2. -/
structure Layout (r : Reln) (ch : Nat → List (Node × Page)) : Prop where
  data_len : r.data.length = r.npages
  head : ∀ b, b < r.npages → ((ch b).map Prod.fst).head? = some (false, b)
  chain : ∀ b, b < r.npages → ChainW r (ch b)
  nodup : ∀ b, b < r.npages → ((ch b).map Prod.fst).Nodup
  disj : ∀ b b1 n, b < r.npages → b1 < r.npages → n ∈ (ch b).map Prod.fst →
    n ∈ (ch b1).map Prod.fst → b = b1
  ok : ∀ b, b < r.npages → ∀ x ∈ ch b, PageOK x.2

/-- The chains of the buckets after `lh_split`: `spc` for the split bucket `sp`, `nbc` for
the new bucket `nb`, the others as before. -/
def splitChains (ch : Nat → List (Node × Page)) (sp nb : Nat) (spc nbc : List (Node × Page)) :
    Nat → List (Node × Page) :=
  fun b => if b = sp then spc else if b = nb then nbc else ch b

/-- The addressing rule of linear hashing for a hash `hv` stored in bucket `b`: a bucket
that is already split in this round (`b < sp`) or was made in this round (`2^depth ≤ b`)
holds the hashes whose low `depth+1` bits are `b`, any other bucket those whose low
`depth` bits are `b`. -/
def addrOK (r : Reln) (b hv : Nat) : Prop :=
  if b < r.sp ∨ 2 ^ r.depth ≤ b then getLower hv (r.depth + 1) = b else getLower hv r.depth = b

/-- Invariant I1 as the specification words it: `depth+1` bits for `b < sp`, `depth` bits
for every other bucket. -/
def addrStated (r : Reln) (b hv : Nat) : Prop :=
  if b < r.sp then getLower hv (r.depth + 1) = b else getLower hv r.depth = b

/-- The invariant of the relations that `addToRelation` builds: the files are well formed,
`sp < 2^depth`, `npages = 2^depth + sp`, and every stored tuple has `nattrs` fields and a
hash that addresses its bucket. -/
structure RelInv (hash_any : CStr → Nat) (r : Reln) (ch : Nat → List (Node × Page)) : Prop where
  lay : Layout r ch
  sp_lt : r.sp < 2 ^ r.depth
  npages_eq : r.npages = 2 ^ r.depth + r.sp
  i1 : ∀ b, b < r.npages → ∀ t ∈ tuplesOfPages ((ch b).map Prod.snd),
    ∃ hv, tupleHash hash_any r.nattrs r.cv t = some hv ∧ addrOK r b hv

/-- The relation states reached from a relation created by `newRelation` with
`npages = 2^d` through calls of `addToRelation` on C strings, whether they return a page
id or `NO_PAGE`. -/
inductive Reachable (hash_any : CStr → Nat) : Reln → Prop
  | fresh (nattrs d : Nat) (cv : List ChVecItem) (r : Reln) :
      newRelation nattrs (2 ^ d) d cv = some r → Reachable hash_any r
  | insert (r r1 : Reln) (t : CStr) (res : Option Nat) :
      Reachable hash_any r → '\x00' ∉ t → addToRelation hash_any r t = some (r1, res) →
      Reachable hash_any r1

/-- What one insertion does to the chain `c` of a bucket: the relation `r1` and the chain
`c1` afterwards. -/
structure Inserted (r r1 : Reln) (c c1 : List (Node × Page)) (t : CStr) : Prop where
  hdr : r1.nattrs = r.nattrs ∧ r1.depth = r.depth ∧ r1.sp = r.sp ∧ r1.npages = r.npages ∧
    r1.cv = r.cv
  dlen : r1.data.length = r.data.length
  olen : r.ovflow.length ≤ r1.ovflow.length
  head : (c1.map Prod.fst).head? = (c.map Prod.fst).head?
  chain : ChainW r1 c1
  nodup : (c1.map Prod.fst).Nodup
  ok : ∀ x ∈ c1, PageOK x.2
  nodes : ∀ n ∈ c1.map Prod.fst, n ∈ c.map Prod.fst ∨ (n.1 = true ∧ r.ovflow.length ≤ n.2)
  frame : ∀ n : Node, n ∉ c.map Prod.fst → (n.1 = true → n.2 < r.ovflow.length) →
    pageAt r1 n = pageAt r n
  tuples : ∀ t1 ∈ tuplesOfPages (c1.map Prod.snd),
    t1 ∈ tuplesOfPages (c.map Prod.snd) ∨ t1 = t

/-! ### Example relations -/

/-- A choice vector that takes every bit of the composite hash from attribute 0. -/
def cvAttr0 : List ChVecItem := (List.range 32).map (fun j => ⟨0, j⟩)

/-- The one-attribute relation made by `newRelation(_, 1, 1, 0, cvAttr0)`. -/
def fresh1 : Reln := ⟨1, 0, 0, 1, 0, cvAttr0, 'w', [newPage], []⟩

/-- The relation `fresh1` after the empty tuple has been inserted. -/
def emptyStored : Reln :=
  ⟨1, 0, 0, 1, 1, cvAttr0, 'w', [⟨1, none, 1, List.replicate dataSize '\x00'⟩], []⟩


/-- The two-attribute relation that holds the tuple `apple,red` in its only bucket. -/
def appleStored : Reln :=
  ⟨2, 0, 0, 1, 1, (List.range 32).map (fun j => ⟨j % 2, j / 2⟩), 'w',
    [⟨10, none, 1, "apple,red".toList ++ List.replicate (dataSize - 9) '\x00'⟩], []⟩

/-- The selection that `startSelection` makes for the query `?,red` on `appleStored`, with
the length of a value as its hash. -/
def appleSel : Selection :=
  ⟨appleStored, 2863311530 &&& tupleHashLoop List.length appleStored.cv
      ["?".toList, "red".toList] 2 0 0, 2863311530,
    ⟨10, none, 1, "apple,red".toList ++ List.replicate (dataSize - 9) '\x00'⟩, false, 0, 0, 0,
    ["?".toList, "red".toList]⟩

/-- The relation `fresh1` after the tuple `x` has been inserted. -/
def xStored : Reln :=
  ⟨1, 0, 0, 1, 1, cvAttr0, 'w', [⟨2, none, 1, 'x' :: List.replicate (dataSize - 1) '\x00'⟩], []⟩

/-- The relation `xStored` after the empty tuple has been inserted. -/
def xEmptyStored : Reln :=
  ⟨1, 0, 0, 1, 2, cvAttr0, 'w', [⟨3, none, 2, 'x' :: List.replicate (dataSize - 1) '\x00'⟩], []⟩

/-- A tuple of 52 attributes, `ab` and 51 empty values. -/
def wideTuple : CStr := 'a' :: 'b' :: List.replicate 51 ','

/-- A page that holds `k` copies of `wideTuple`. -/
def widePage (k : Nat) : Page :=
  ⟨54 * k, none, k,
    encode (List.replicate k wideTuple) ++ List.replicate (dataSize - 54 * k) '\x00'⟩

/-- The relation of 52 attributes made by `newRelation` with one page and depth 0. -/
def wide0 : Reln := ⟨52, 0, 0, 1, 0, cvAttr0, 'w', [newPage], []⟩

/-- The relation `wide0` after `wideTuple` has been inserted. -/
def wide1 : Reln := ⟨52, 0, 0, 1, 1, cvAttr0, 'w', [widePage 1], []⟩

/-- The relation `wide1` after `wideTuple` has been inserted again. -/
def wide2 : Reln := ⟨52, 1, 0, 2, 2, cvAttr0, 'w', [widePage 2, newPage], []⟩

/-- The relation `wide2` after `wideTuple` has been inserted a third time. -/
def wide3 : Reln := ⟨52, 1, 1, 3, 3, cvAttr0, 'w', [newPage, newPage, widePage 3], []⟩

/-- A relation in which the data pages 0 and 1 are both linked to overflow page 0, which
holds the tuple `a`. -/
def sharedRel : Reln :=
  ⟨1, 1, 0, 2, 1, cvAttr0, 'w',
    [{ newPage with ovflow := some 0 }, { newPage with ovflow := some 0 }],
    [⟨2, none, 1, 'a' :: List.replicate (dataSize - 1) '\x00'⟩]⟩

/-- The relation `sharedRel` after `lh_split`. -/
def sharedAfter : Reln :=
  ⟨1, 1, 0, 3, 1, cvAttr0, 'w',
    [⟨2, some 0, 1, 'a' :: List.replicate (dataSize - 1) '\x00'⟩,
      { newPage with ovflow := some 0 }, newPage],
    [newPage]⟩

/-! ## Further notions used in the statements and proofs -/

/-- The header after the insertion part of `addToRelation`, which returns `res`: `ntups`
is one more when a page id is returned, and that page id is `p`. -/
def InsertHdr (r r1 : Reln) (p : Nat) (res : Option Nat) : Prop :=
  r1.nattrs = r.nattrs ∧ r1.depth = r.depth ∧ r1.sp = r.sp ∧ r1.npages = r.npages ∧
    r1.cv = r.cv ∧ r1.ntups = r.ntups + (if res.isSome then 1 else 0) ∧
    ∀ b, res = some b → b = p

/-! ### The pages read by a selection scan -/

/-- The selections of the scan started by `startSelection(r, q)` on which `nextMatchTup`
is called, in the order of `getNextTuple`: the first selection; the selection after a
call of `nextMatchTup` that found a tuple (the next call of `getNextTuple` starts there);
and the selection after a call of `nextMatchTup` that found none followed by a call of
`moveToNextPage` that moved on. -/
inductive ScanAt (hash_any : CStr → Nat) (r : Reln) (q : CStr) : Selection → Prop
  | start (s : Selection) : startSelection hash_any r q = some s → ScanAt hash_any r q s
  | found (s s1 : Selection) (t : CStr) :
      ScanAt hash_any r q s → nextMatchTup s = some (some t, s1) → ScanAt hash_any r q s1
  | moved (s s1 s2 : Selection) :
      ScanAt hash_any r q s → nextMatchTup s = some (none, s1) →
      moveToNextPage s1 = some (some s2) → ScanAt hash_any r q s2

/-- The scan for `q` reads the primary page of bucket `b`: `startSelection` and
`moveToNextPage` leave `is_ovflow` FALSE and `curBid = b` exactly when they have read data
page `b`. -/
def ReadsBucket (hash_any : CStr → Nat) (r : Reln) (q : CStr) (b : Nat) : Prop :=
  ∃ s, ScanAt hash_any r q s ∧ s.is_ovflow = false ∧ s.curBid = b

/-- The selection `s` belongs to the same scan as `s0`: the fields that `setup` and
`startSelection` fix are the same. -/
structure SameScan (s0 s : Selection) : Prop where
  rel : s.rel = s0.rel
  qHash : s.qHash = s0.qHash
  known : s.known = s0.known
  maxBid : s.maxBid = s0.maxBid
  qvals : s.qvals = s0.qvals

/-- The offset `off` is where a tuple of the list `ts` starts in `encode ts`, or the end. -/
def Boundary (ts : List CStr) (off : Nat) : Prop :=
  ∃ pre post, ts = pre ++ post ∧ off = (encode pre).length

/-! ### The capacity `floor(102.4/nattrs)` in double arithmetic -/

/-- The double nearest to `102.4` is `dbl1024 * 2^-46`: the literal `102.4` of
`addToRelation`. -/
def dbl1024 : Nat := 7205759403792794

/-- The integer nearest to `a / b`, ties to the even one. -/
def roundDiv (a b : Nat) : Nat :=
  if 2 * (a % b) > b ∨ (2 * (a % b) = b ∧ (a / b) % 2 = 1) then a / b + 1 else a / b

/-- The value `floor(x)` for the double `x` nearest to `num / den` (IEEE 754 division,
round to nearest, ties to even), for `1 ≤ num / den < 2^53`: with `e` the exponent of the
quotient, `x` is `roundDiv (num * 2^(52-e)) den * 2^(e-52)`. -/
def floorQuot (num den : Nat) : Nat :=
  roundDiv (num * 2 ^ (52 - Nat.log2 (num / den))) den / 2 ^ (52 - Nat.log2 (num / den))

/-- The capacity `floor(102.4/r->nattrs)` as `addToRelation` computes it in double
arithmetic, for `1 ≤ nattrs ≤ 102`. -/
def PcapDouble (nattrs : Nat) : Nat := floorQuot dbl1024 (nattrs * 2 ^ 46)

/-! ## project.c -/

/-- The C library predicate `isspace` in the C locale. -/
def isspaceC (c : Char) : Bool :=
  c == ' ' || c == '\t' || c == '\n' || c == '\x0b' || c == '\x0c' || c == '\r'

/-- The digit loop of the C library function `atoi`: the value of the leading decimal
digits of the string, with `acc` the value so far. -/
def atoiDigits : CStr → Nat → Nat
  | [], acc => acc
  | c :: cs, acc => if c.isDigit then atoiDigits cs (acc * 10 + (c.toNat - 48)) else acc

/-- The C library function `atoi`: white space, an optional sign, then decimal digits; 0
when there is no digit. `none` where the value does not fit an `int`, which C leaves
undefined. -/
def atoi (s : CStr) : Option Int :=
  match s.dropWhile isspaceC with
  | '-' :: cs => if atoiDigits cs 0 ≤ 2147483648 then some (-(atoiDigits cs 0 : Int)) else none
  | '+' :: cs => if atoiDigits cs 0 ≤ 2147483647 then some (atoiDigits cs 0 : Int) else none
  | cs => if atoiDigits cs 0 ≤ 2147483647 then some (atoiDigits cs 0 : Int) else none

/-- The record `struct ProjectionRep`; `projected` is `none` for `NULL`. -/
structure Projection where
  rel : Reln
  nPA : Nat
  projected : Option (List CStr)
  deriving DecidableEq, Repr

/-- The function `startProjection(r, attrstr)`. The array `projected` has `nPA` slots,
one more than the commas of `attrstr`, and `tupleVals` fills it. -/
def startProjection (r : Reln) (attrstr : CStr) : Option Projection :=
  if attrstr = ['*'] then some ⟨r, r.nattrs, none⟩
  else
    match tupleValsN (attrstr.count ',' + 1) attrstr with
    | none => none
    | some projected => some ⟨r, attrstr.count ',' + 1, some projected⟩

/-- The loop `for (int i = 0; i < p->nPA; i++)` of `projectTuple`, with `k` iterations
left. `buf` is the part `buf[0 .. bfree)` of the buffer written so far; the buffer has
`maxLen` bytes (`MAXTUPLEN` of `defs.h`, which is not among the sources), and a write
outside it is a fault. `Count j = atoi(..) - 1` is a 32-bit unsigned value. -/
def projectLoop (maxLen : Nat) (projected vals : List CStr) :
    Nat → Nat → List Char → Option (List Char)
  | 0, _, buf => some buf
  | k + 1, i, buf =>
    match projected[i]? with
    | none => none
    | some a =>
      match atoi a with
      | none => none
      | some n =>
        match vals[((n - 1) % 4294967296).toNat]? with
        | none => none
        | some v =>
          if buf.length + v.length + 1 ≤ maxLen then
            projectLoop maxLen projected vals k (i + 1) (buf ++ v ++ [','])
          else none

/-- The function `projectTuple(p, t, buf)` for a buffer `buf` of `maxLen` bytes: the C
string in `buf` afterwards. With `projected == NULL` the tuple is copied into the zeroed
buffer, which holds a C string only if the tuple is shorter than the buffer; otherwise
the last `,` written by the loop, at `buf[bfree - 1]`, is replaced by the terminator. -/
def projectTuple (maxLen : Nat) (p : Projection) (t : CStr) : Option CStr :=
  match p.projected with
  | none => if t.length < maxLen then some t else none
  | some projected =>
    match tupleValsN p.rel.nattrs t with
    | none => none
    | some vals =>
      match projectLoop maxLen projected vals p.nPA 0 [] with
      | none => none
      | some buf => if buf = [] then none else some buf.dropLast

/-- The strings `vs` joined by `,`. -/
def joinComma : List CStr → CStr
  | [] => []
  | [v] => v
  | v :: w :: vs => v ++ ',' :: joinComma (w :: vs)

/-- The strings `vs`, each followed by `,`: what the loop of `projectTuple` writes. -/
def trailComma : List CStr → List Char
  | [] => []
  | v :: vs => v ++ ',' :: trailComma vs

/-! ### Further example relations -/

/-- A tuple of one value that does not fit an empty page. -/
def longTuple : CStr := List.replicate 1012 'a'

/-- The relation `fresh1` after the failed insertion of `longTuple`. -/
def fresh1Failed : Reln :=
  ⟨1, 0, 0, 1, 0, cvAttr0, 'w', [{ newPage with ovflow := some 0 }], [newPage]⟩

/-- The selection that `startSelection` makes for the query `wideTuple` on `wide3`, with
the length of a value as its hash. -/
def wideSel0 : Selection :=
  ⟨wide3, 2, 4294967295, newPage, false, 0, 0, 2, tupleVals wideTuple⟩

/-- The selection `wideSel0` after `moveToNextPage` has moved on to bucket 2. -/
def wideSel2 : Selection :=
  ⟨wide3, 2, 4294967295, widePage 3, false, 0, 2, 2, tupleVals wideTuple⟩

/-- A query of 52 empty values. -/
def emptyQuery : CStr := List.replicate 51 ','

/-- The selection that `startSelection` makes for the query `emptyQuery` on `wide3`. -/
def emptySel0 : Selection :=
  ⟨wide3, 0, 4294967295, newPage, false, 0, 0, 0, tupleVals emptyQuery⟩

/-! ## Notions for the statements on `setup`, page scans and insertion -/

/-! ### The indices at which `setup` uses the choice vector -/

/-- The indices `j` at which the loop `for (int j = 0; j <= MAXCHVEC; j++)` of `setup`
evaluates `cv[j].att` for the unknown attribute `i`, in order; `k` iterations remain. The
loop is left at a fault. -/
def unknownBitsReads (r : Reln) (i : Nat) : Nat → Nat → List Nat
  | 0, _ => []
  | k + 1, j =>
    if cvAttAt r j = i then
      if j < MAXCHVEC then j :: unknownBitsReads r i k (j + 1) else [j]
    else j :: unknownBitsReads r i k (j + 1)

/-- The indices `j` at which the same loop calls `setBit(unknown, j)`, in order. -/
def unknownBitsSets (r : Reln) (i : Nat) : Nat → Nat → List Nat
  | 0, _ => []
  | k + 1, j =>
    if cvAttAt r j = i then
      if j < MAXCHVEC then j :: unknownBitsSets r i k (j + 1) else [j]
    else unknownBitsSets r i k (j + 1)

/-- The indices at which the loops of `setup` evaluate `cv[j].att`, over the attributes
from `i` on. -/
def setupReads (r : Reln) (qvals : List CStr) : Nat → Nat → Nat → List Nat
  | 0, _, _ => []
  | k + 1, i, unknown =>
    if known_attr (strAt qvals i) = false then
      unknownBitsReads r i (MAXCHVEC + 1) 0 ++
        (match unknownBits r i (MAXCHVEC + 1) 0 unknown with
          | none => []
          | some u => setupReads r qvals k (i + 1) u)
    else setupReads r qvals k (i + 1) unknown

/-- The indices at which the loops of `setup` call `setBit(unknown, j)`, over the attributes
from `i` on. -/
def setupSets (r : Reln) (qvals : List CStr) : Nat → Nat → Nat → List Nat
  | 0, _, _ => []
  | k + 1, i, unknown =>
    if known_attr (strAt qvals i) = false then
      unknownBitsSets r i (MAXCHVEC + 1) 0 ++
        (match unknownBits r i (MAXCHVEC + 1) 0 unknown with
          | none => []
          | some u => setupSets r qvals k (i + 1) u)
    else setupSets r qvals k (i + 1) unknown

/-- A tuple of 52 attributes and 251 characters: 200 characters `a` and 51 empty values. -/
def longWide : CStr := List.replicate 200 'a' ++ List.replicate 51 ','

/-- The page that holds the tuple `longWide`. -/
def longWidePage : Page :=
  ⟨252, none, 1, longWide ++ List.replicate (dataSize - 251) '\x00'⟩

/-- The relation `wide0` after `longWide` has been inserted. -/
def wideLong1 : Reln := ⟨52, 0, 0, 1, 1, cvAttr0, 'w', [longWidePage], []⟩

/-- The relation `wide2` after `longWide` has been inserted: the split has moved the two
copies of `wideTuple` to bucket 2, and `longWide` is in bucket 0. -/
def wideLong3 : Reln :=
  ⟨52, 1, 1, 3, 3, cvAttr0, 'w', [longWidePage, newPage, widePage 2], []⟩

/-- A tuple of 52 attributes and 1063 characters, which does not fit an empty page. -/
def hugeWide : CStr := List.replicate 1012 'a' ++ List.replicate 51 ','

/-- The selection that `startSelection` makes for the query `wideTuple` on `wideLong3`. -/
def wideLongSel : Selection :=
  ⟨wideLong3, 2, 4294967295, longWidePage, false, 0, 0, 2, tupleVals wideTuple⟩

/-- The relation of 120 attributes made by `newRelation` with one page and depth 0. -/
def rel120 : Reln := ⟨120, 0, 0, 1, 0, cvAttr0, 'w', [newPage], []⟩

/-- A query of 120 values: 119 empty values and `?` for the last attribute, number 119. -/
def query120 : CStr := List.replicate 119 ',' ++ ['?']

/-! ### Scan of one page -/

/-- Successive calls of `nextMatchTup` on the page in hand until it reports that no tuple
remains, at most `n` of which return a tuple: the tuples returned, in order. -/
def pageScan : Nat → Selection → Option (List CStr)
  | 0, s =>
    match nextMatchTup s with
    | some (none, _) => some []
    | _ => none
  | n + 1, s =>
    match nextMatchTup s with
    | none => none
    | some (none, _) => some []
    | some (some t, s1) =>
      match pageScan n s1 with
      | none => none
      | some ts => some (t :: ts)

/-- The page that holds the empty tuple and then the tuple `a`. -/
def emptyAPage : Page := ⟨3, none, 2, '\x00' :: 'a' :: List.replicate (dataSize - 2) '\x00'⟩

/-- The relation `emptyStored` after the tuple `a` has been inserted. -/
def emptyAStored : Reln := ⟨1, 0, 0, 1, 2, cvAttr0, 'w', [emptyAPage], []⟩

/-- The selection that `startSelection` makes for the query `?` on `emptyAStored`. -/
def emptyASel : Selection := ⟨emptyAStored, 0, 0, emptyAPage, false, 0, 0, 0, [['?']]⟩

/-! ### Insertion -/

/-- The value of `newBid` in `lh_split`: the page id that `addPage(r->data)` returns, which
is the number of pages of the data file before the call. -/
def newBid (r : Reln) : Nat := r.data.length

/-- First-fit placement of the tuple `t` on the chain `c` of a bucket of the relation `rs`,
first case: `t` is appended to the first page of the chain with room for it. `r1` is the
relation and `c1` the chain afterwards: the files keep their lengths, the page holds the
result of `addToPage`, and no other page is modified. -/
def PlacedOn (rs r1 : Reln) (t : CStr) (c c1 : List (Node × Page)) : Prop :=
  ∃ a n q q1 post, c = a ++ (n, q) :: post ∧ c1 = a ++ (n, q1) :: post ∧
    (∀ x ∈ a, pageFreeSpace x.2 < t.length + 1) ∧ t.length + 1 ≤ pageFreeSpace q ∧
    addToPage q t = some q1 ∧
    r1.data.length = rs.data.length ∧ r1.ovflow.length = rs.ovflow.length ∧
    pageAt r1 n = some q1 ∧ ∀ m, m ≠ n → pageAt r1 m = pageAt rs m

/-- First-fit placement, second case: no page of the chain has room for `t`. A new page is
added at the end of the overflow file, `t` is written into it, the last page of the chain
is linked to it, and no other page is modified. -/
def PlacedNew (rs r1 : Reln) (t : CStr) (c c1 : List (Node × Page)) : Prop :=
  (∀ x ∈ c, pageFreeSpace x.2 < t.length + 1) ∧
    ∃ a n q q1, c = a ++ [(n, q)] ∧
      c1 = a ++ [(n, { q with ovflow := some rs.ovflow.length }),
        ((true, rs.ovflow.length), q1)] ∧
      addToPage newPage t = some q1 ∧
      r1.data.length = rs.data.length ∧ r1.ovflow.length = rs.ovflow.length + 1 ∧
      pageAt r1 n = some { q with ovflow := some rs.ovflow.length } ∧
      pageAt r1 (true, rs.ovflow.length) = some q1 ∧
      ∀ m, m ≠ n → m ≠ (true, rs.ovflow.length) → pageAt r1 m = pageAt rs m

/-- The insertion that returns `NO_PAGE`: `t` has no room in an empty page. A new empty
page has been added at the end of the overflow file; it is linked from the primary page
when that was the only page of the chain, and it is not linked otherwise. -/
def PlaceFailed (rs r1 : Reln) (t : CStr) (c c1 : List (Node × Page)) : Prop :=
  addToPage newPage t = none ∧
    r1.data.length = rs.data.length ∧ r1.ovflow.length = rs.ovflow.length + 1 ∧
    pageAt r1 (true, rs.ovflow.length) = some newPage ∧
    ((c1 = c ∧ ∀ m, m ≠ (true, rs.ovflow.length) → pageAt r1 m = pageAt rs m) ∨
      ∃ n q, c = [(n, q)] ∧
        c1 = [(n, { q with ovflow := some rs.ovflow.length }),
          ((true, rs.ovflow.length), newPage)] ∧
        pageAt r1 n = some { q with ovflow := some rs.ovflow.length } ∧
        ∀ m, m ≠ n → m ≠ (true, rs.ovflow.length) → pageAt r1 m = pageAt rs m)

/-! ### The pages and the number of tuples of a relation -/

/-- The pages of the overflow chain that starts at page `start`, in chain order. -/
def ovflowPages (ov : List Page) : Nat → Option Nat → Option (List Page)
  | _, none => some []
  | 0, some _ => none
  | fuel + 1, some i =>
    match ov[i]? with
    | none => none
    | some pg =>
      match ovflowPages ov fuel pg.ovflow with
      | none => none
      | some ps => some (pg :: ps)

/-- The pages of bucket `b`: primary page `b` and the pages of its overflow chain. -/
def bucketPages (r : Reln) (b : Nat) : Option (List Page) :=
  match r.data[b]? with
  | none => none
  | some pg =>
    match ovflowPages r.ovflow r.ovflow.length pg.ovflow with
    | none => none
    | some ps => some (pg :: ps)

/-- The pages of the buckets `0 .. n-1`, bucket by bucket. -/
def pagesUpTo (r : Reln) : Nat → Option (List Page)
  | 0 => some []
  | n + 1 =>
    match pagesUpTo r n, bucketPages r n with
    | some ps, some qs => some (ps ++ qs)
    | _, _ => none

/-- The pages reached from the primary pages `0 .. npages-1` through their overflow
chains. -/
def storedPages (r : Reln) : Option (List Page) := pagesUpTo r r.npages

/-- The number of tuples on the chains `ch 0 .. ch (n-1)`. -/
def countUpTo (ch : Nat → List (Node × Page)) : Nat → Nat
  | 0 => 0
  | n + 1 => countUpTo ch n + (tuplesOfPages ((ch n).map Prod.snd)).length

/-- The relation states reached from a relation made by `newRelation`, with any number of
pages and any depth, through calls of `addToRelation` on C strings, whether they return a
page id or `NO_PAGE`. -/
inductive Built (hash_any : CStr → Nat) : Reln → Prop
  | fresh (nattrs npages d : Nat) (cv : List ChVecItem) (r : Reln) :
      newRelation nattrs npages d cv = some r → Built hash_any r
  | insert (r r1 : Reln) (t : CStr) (res : Option Nat) :
      Built hash_any r → '\x00' ∉ t → addToRelation hash_any r t = some (r1, res) →
      Built hash_any r1

/-- The invariant behind the tuple count: the files are well formed, the split pointer is
a bucket, every stored tuple has `nattrs` fields, and `ntups` is the number of stored
tuples. -/
structure CountInv (hash_any : CStr → Nat) (r : Reln) (ch : Nat → List (Node × Page)) :
    Prop where
  lay : Layout r ch
  sp_lt : r.npages = 0 ∨ r.sp < r.npages
  hashed : ∀ b, b < r.npages → ∀ t ∈ tuplesOfPages ((ch b).map Prod.snd),
    ∃ hv, tupleHash hash_any r.nattrs r.cv t = some hv
  count : r.ntups = countUpTo ch r.npages

/-! ## Theorems on tuple.c -/

theorem countKnown_noPct (p : CStr) (h : '%' ∉ p) (i n_kn : Nat) (last : Int) :
    countKnown p i n_kn last = (n_kn, last) := by
  induction p generalizing i with
  | nil => rfl
  | cons c cs ih =>
    simp only [List.mem_cons, not_or] at h
    have hc : c ≠ '%' := fun e => h.1 e.symm
    simp [countKnown, hc, ih h.2]

/-- C8: for a pattern `p` without `%` (the empty pattern included) and any value `v`,
`strMatch(p, v)` returns TRUE if and only if `p` and `v` are the same string. -/
theorem strMatch_noPercent (p v : CStr) (h : '%' ∉ p) : strMatch p v = true ↔ p = v := by
  unfold strMatch
  rw [countKnown_noPct p h]
  simp only
  by_cases hlen : ((p.length : Int) > -1 + 1 ∧ (v.length : Int) - p.length + -1 + 1 < 0)
  · rw [if_pos hlen]
    constructor
    · intro h; cases h
    · intro e; subst e; omega
  · rw [if_neg hlen]; simp

/-! ### tupValMatch -/

theorem tupValLoop_spec (ptv v : List CStr) (n : Nat) (hp : ptv.length = n) (hv : v.length = n) :
    ∀ k i, i + k = n → ∃ b, tupValLoop ptv v k i = some b ∧
      (b = true ↔ ∀ (j : Nat) (q x : CStr), i ≤ j → ptv[j]? = some q → v[j]? = some x →
        q = ['?'] ∨ strMatch q x = true) := by
  intro k
  induction k with
  | zero =>
    intro i hi
    refine ⟨true, rfl, ?_⟩
    simp only [true_iff]
    intro j q x hij hq _
    have := (List.getElem?_eq_some.mp hq).1
    omega
  | succ k ih =>
    intro i hi
    have hi1 : i < ptv.length := by omega
    have hi2 : i < v.length := by omega
    obtain ⟨b, hb, hbs⟩ := ih (i + 1) (by omega)
    unfold tupValLoop
    rw [List.getElem?_eq_getElem hi1, List.getElem?_eq_getElem hi2]
    simp only
    by_cases hq : ptv[i] = ['?']
    · rw [if_pos hq]
      refine ⟨b, hb, hbs.trans ⟨?_, ?_⟩⟩
      · intro h j q x hij hjq hjx
        rcases Nat.eq_or_lt_of_le hij with e | l
        · subst e
          rw [List.getElem?_eq_getElem hi1] at hjq
          left; rw [← Option.some.inj hjq]; exact hq
        · exact h j q x l hjq hjx
      · intro h j q x hij hjq hjx
        exact h j q x (by omega) hjq hjx
    · rw [if_neg hq]
      by_cases hm : strMatch ptv[i] v[i] = true
      · rw [if_pos hm]
        refine ⟨b, hb, hbs.trans ⟨?_, ?_⟩⟩
        · intro h j q x hij hjq hjx
          rcases Nat.eq_or_lt_of_le hij with e | l
          · subst e
            rw [List.getElem?_eq_getElem hi1] at hjq
            rw [List.getElem?_eq_getElem hi2] at hjx
            right; rw [← Option.some.inj hjq, ← Option.some.inj hjx]; exact hm
          · exact h j q x l hjq hjx
        · intro h j q x hij hjq hjx
          exact h j q x (by omega) hjq hjx
      · rw [if_neg hm]
        refine ⟨false, rfl, ?_⟩
        simp only [Bool.false_eq_true, false_iff]
        intro h
        rcases h i ptv[i] v[i] (le_refl _) (List.getElem?_eq_getElem hi1)
          (List.getElem?_eq_getElem hi2) with h1 | h1
        · exact hq h1
        · exact hm h1

theorem testBit_setBit (hash j b : Nat) :
    (setBit hash j).testBit b = true ↔ hash.testBit b = true ∨ j = b := by
  unfold setBit
  rw [Nat.testBit_or, Nat.testBit_two_pow]
  simp

theorem attrBitsLoop_testBit (cv : List ChVecItem) (ah i b : Nat) :
    ∀ k j hash, (attrBitsLoop cv ah i k j hash).testBit b = true ↔
      hash.testBit b = true ∨ (j ≤ b ∧ b < j + k ∧
        (cvAt cv b).att = i ∧ ah.testBit (cvAt cv b).bit = true) := by
  intro k
  induction k with
  | zero =>
    intro j hash
    simp only [attrBitsLoop]
    constructor
    · exact Or.inl
    · rintro (h | h)
      · exact h
      · omega
  | succ k ih =>
    intro j hash
    unfold attrBitsLoop
    rw [ih]
    by_cases hc : ((cvAt cv j).att = i && bitIsSet ah (cvAt cv j).bit) = true
    · rw [if_pos hc, testBit_setBit]
      simp only [Bool.and_eq_true, decide_eq_true_eq, bitIsSet] at hc
      constructor
      · rintro ((h | h) | h)
        · exact Or.inl h
        · subst h; exact Or.inr ⟨le_refl _, by omega, hc.1, hc.2⟩
        · exact Or.inr ⟨by omega, by omega, h.2.2⟩
      · rintro (h | ⟨h1, h2, h3⟩)
        · exact Or.inl (Or.inl h)
        · by_cases e : j = b
          · exact Or.inl (Or.inr e)
          · exact Or.inr ⟨by omega, by omega, h3⟩
    · rw [if_neg hc]
      simp only [Bool.and_eq_true, decide_eq_true_eq, bitIsSet] at hc
      constructor
      · rintro (h | h)
        · exact Or.inl h
        · exact Or.inr ⟨by omega, by omega, h.2.2⟩
      · rintro (h | ⟨h1, h2, h3⟩)
        · exact Or.inl h
        · by_cases e : j = b
          · subst e; exact absurd h3 hc
          · exact Or.inr ⟨by omega, by omega, h3⟩

theorem attrHashLoop_hit (hash_any : CStr → Nat) (cv : List ChVecItem) (v : CStr) (i b : Nat)
    (hb : (cvAt cv b).att = i) :
    ∀ k j, j ≤ b → b < j + k → attrHashLoop hash_any cv v i k j = hash_any v := by
  intro k
  induction k with
  | zero => intro j h1 h2; omega
  | succ k ih =>
    intro j h1 h2
    unfold attrHashLoop
    by_cases hj : (cvAt cv j).att = i
    · rw [if_pos hj]
    · rw [if_neg hj]
      have : j ≠ b := fun e => hj (e ▸ hb)
      exact ih (j + 1) (by omega) (by omega)

theorem tupleHashLoop_testBit (hash_any : CStr → Nat) (cv : List ChVecItem) (vals : List CStr)
    (b : Nat) :
    ∀ k i hash, (tupleHashLoop hash_any cv vals k i hash).testBit b = true ↔
      hash.testBit b = true ∨ (b < MAXCHVEC ∧ i ≤ (cvAt cv b).att ∧ (cvAt cv b).att < i + k ∧
        (hash_any (strAt vals (cvAt cv b).att)).testBit (cvAt cv b).bit = true) := by
  intro k
  induction k with
  | zero =>
    intro i hash
    simp only [tupleHashLoop]
    constructor
    · exact Or.inl
    · rintro (h | h)
      · exact h
      · omega
  | succ k ih =>
    intro i hash
    unfold tupleHashLoop
    simp only
    rw [ih, attrBitsLoop_testBit]
    constructor
    · rintro ((h | ⟨_, h2, h3, h4⟩) | ⟨h1, h2, h3, h4⟩)
      · exact Or.inl h
      · rw [attrHashLoop_hit hash_any cv (strAt vals i) i b h3 MAXCHVEC 0 (Nat.zero_le _)
          (by omega)] at h4
        subst h3
        exact Or.inr ⟨by omega, le_refl _, by omega, h4⟩
      · exact Or.inr ⟨h1, by omega, by omega, h4⟩
    · rintro (h | ⟨h1, h2, h3, h4⟩)
      · exact Or.inl (Or.inl h)
      · by_cases e : (cvAt cv b).att = i
        · refine Or.inl (Or.inr ⟨Nat.zero_le _, by omega, e, ?_⟩)
          rw [attrHashLoop_hit hash_any cv (strAt vals i) i b e MAXCHVEC 0 (Nat.zero_le _)
            (by omega)]
          rw [← e]; exact h4
        · exact Or.inr ⟨h1, by omega, by omega, h4⟩

theorem compositeHash_testBit (hash_any : CStr → Nat) (cv : List ChVecItem) (vals : List CStr)
    (b : Nat) :
    ∀ k j hash, (compositeHash hash_any cv vals k j hash).testBit b = true ↔
      hash.testBit b = true ∨ (j ≤ b ∧ b < j + k ∧
        (hash_any (strAt vals (cvAt cv b).att)).testBit (cvAt cv b).bit = true) := by
  intro k
  induction k with
  | zero =>
    intro j hash
    simp only [compositeHash]
    constructor
    · exact Or.inl
    · rintro (h | h)
      · exact h
      · omega
  | succ k ih =>
    intro j hash
    unfold compositeHash
    rw [ih]
    by_cases hc : bitIsSet (hash_any (strAt vals (cvAt cv j).att)) (cvAt cv j).bit = true
    · rw [if_pos hc, testBit_setBit]
      constructor
      · rintro ((h | h) | h)
        · exact Or.inl h
        · subst h; exact Or.inr ⟨le_refl _, by omega, hc⟩
        · exact Or.inr ⟨by omega, by omega, h.2.2⟩
      · rintro (h | ⟨h1, h2, h3⟩)
        · exact Or.inl (Or.inl h)
        · by_cases e : j = b
          · exact Or.inl (Or.inr e)
          · exact Or.inr ⟨by omega, by omega, h3⟩
    · rw [if_neg hc]
      constructor
      · rintro (h | h)
        · exact Or.inl h
        · exact Or.inr ⟨by omega, by omega, h.2.2⟩
      · rintro (h | ⟨h1, h2, h3⟩)
        · exact Or.inl h
        · by_cases e : j = b
          · subst e; exact absurd h3 hc
          · exact Or.inr ⟨by omega, by omega, h3⟩

/-- Bit `b` of the word computed by the loops of `tupleHash`. -/
theorem tupleHash_bit (hash_any : CStr → Nat) (cv : List ChVecItem) (vals : List CStr)
    (n b : Nat) :
    (tupleHashLoop hash_any cv vals n 0 0).testBit b = true ↔
      (b < MAXCHVEC ∧ (cvAt cv b).att < n ∧
        (hash_any (strAt vals (cvAt cv b).att)).testBit (cvAt cv b).bit = true) := by
  rw [tupleHashLoop_testBit]
  simp

/-- C10: for a choice vector whose entries have `att < nattrs` and a tuple `t` with `nattrs`
values, `tupleHash` returns the word that the bit-by-bit definition of the specification
gives, and for every `j < MAXCHVEC` bit `j` of it is 1 if and only if bit `cv[j].bit` of
`hash_any` of value number `cv[j].att` of `t` is 1. -/
theorem tupleHash_composite (hash_any : CStr → Nat) (nattrs : Nat) (cv : List ChVecItem)
    (t : CStr) (hcv : ∀ j, j < MAXCHVEC → (cvAt cv j).att < nattrs)
    (ht : (tupleVals t).length = nattrs) :
    ∃ h, tupleHash hash_any nattrs cv t = some h ∧
      h = compositeHash hash_any cv (tupleVals t) MAXCHVEC 0 0 ∧
      ∀ j, j < MAXCHVEC → (h.testBit j = true ↔
        (hash_any (strAt (tupleVals t) (cvAt cv j).att)).testBit (cvAt cv j).bit = true) := by
  refine ⟨tupleHashLoop hash_any cv (tupleVals t) nattrs 0 0, ?_, ?_, ?_⟩
  · unfold tupleHash tupleValsN
    rw [if_pos ht]
  · apply Nat.eq_of_testBit_eq
    intro b
    rw [Bool.eq_iff_iff, tupleHash_bit, compositeHash_testBit]
    constructor
    · rintro ⟨h1, _, h3⟩
      exact Or.inr ⟨Nat.zero_le _, by omega, h3⟩
    · rintro (h | ⟨_, h2, h3⟩)
      · simp at h
      · exact ⟨by omega, hcv b (by omega), h3⟩
  · intro j hj
    rw [tupleHash_bit]
    constructor
    · exact fun h => h.2.2
    · exact fun h => ⟨hj, hcv j hj, h⟩

theorem nonEmpty_cons_nil (l : List CStr) : nonEmpty ([] :: l) = nonEmpty l := by
  simp [nonEmpty]

theorem nonEmpty_cons_ne (x : CStr) (l : List CStr) (h : x ≠ []) :
    nonEmpty (x :: l) = x :: nonEmpty l := by
  simp [nonEmpty, h]

theorem nonEmpty_append (l1 l2 : List CStr) : nonEmpty (l1 ++ l2) = nonEmpty l1 ++ nonEmpty l2 := by
  simp [nonEmpty]

theorem Sections_weaken (aE : Bool) (ls : List CStr) (w : CStr) (aS : Bool)
    (h : Sections aS aE ls w) : Sections false aE ls w := by
  cases ls with
  | nil => trivial
  | cons seg ls =>
    obtain ⟨g, t, h1, _, h3, h4⟩ := h
    exact ⟨g, t, h1, fun e => absurd e Bool.false_ne_true, h3, h4⟩

/-- The fillers can be chosen once the known sections are placed. -/
theorem likeRest_of_sections (aE : Bool) (lp : CStr) (hlp : lp ≠ [] → aE = true) :
    ∀ (ip : List CStr) (w : CStr), Sections false aE (nonEmpty (ip ++ [lp])) w →
      LikeRest (ip ++ [lp]) w := by
  intro ip
  induction ip with
  | nil =>
    intro w h
    by_cases e : lp = []
    · subst e
      exact ⟨w, [], by simp, rfl⟩
    · rw [List.nil_append, nonEmpty_cons_ne lp [] e] at h
      obtain ⟨g, t, h1, _, h3, _⟩ := h
      have ht : t = [] := h3 rfl (hlp e)
      subst ht
      exact ⟨g, [], h1, rfl⟩
  | cons x ip ih =>
    intro w h
    by_cases e : x = []
    · subst e
      rw [List.cons_append, nonEmpty_cons_nil] at h
      exact ⟨[], w, by simp, ih w h⟩
    · rw [List.cons_append, nonEmpty_cons_ne x _ e] at h
      obtain ⟨g, t, h1, _, _, h4⟩ := h
      exact ⟨g, t, h1, ih t h4⟩

theorem likePieces_of_sections (aS aE : Bool) (x0 lp : CStr) (ip : List CStr)
    (hS : x0 ≠ [] → aS = true) (hlp : lp ≠ [] → aE = true) (w : CStr)
    (h : Sections aS aE (nonEmpty (x0 :: (ip ++ [lp]))) w) :
    LikePieces (x0 :: (ip ++ [lp])) w := by
  by_cases e : x0 = []
  · subst e
    rw [nonEmpty_cons_nil] at h
    exact ⟨w, by simp, likeRest_of_sections aE lp hlp ip w (Sections_weaken aE _ w aS h)⟩
  · rw [nonEmpty_cons_ne x0 _ e] at h
    obtain ⟨g, t, h1, h2, _, h4⟩ := h
    have hg : g = [] := h2 (hS e)
    subst hg
    exact ⟨t, by simpa using h1, likeRest_of_sections aE lp hlp ip t h4⟩

theorem likePieces_of_likeRest (q : List CStr) (t : CStr) (hq : q ≠ []) (h : LikeRest q t) :
    ∃ f u, t = f ++ u ∧ LikePieces q u := by
  cases q with
  | nil => exact absurd rfl hq
  | cons y rest =>
    obtain ⟨f, t1, h1, h2⟩ := h
    exact ⟨f, y ++ t1, by simp [h1], t1, rfl, h2⟩

/-- The pieces read back as a filled pattern. -/
theorem fillPattern_of_pieces :
    ∀ (cs cur w : CStr), LikePieces (initPieces cur cs ++ [lastPiece cur cs]) w →
      ∃ fs, cur ++ fillPattern cs fs = w := by
  intro cs
  induction cs with
  | nil =>
    intro cur w h
    obtain ⟨t, h1, h2⟩ := h
    refine ⟨[], ?_⟩
    have : t = [] := h2
    simp [fillPattern, h1, this, initPieces, lastPiece]
  | cons c cs ih =>
    intro cur w h
    by_cases hc : c = '%'
    · subst hc
      simp only [initPieces, lastPiece, if_true, List.cons_append] at h
      obtain ⟨t, h1, h2⟩ := h
      obtain ⟨f, u, h3, h4⟩ := likePieces_of_likeRest _ t (by simp) h2
      obtain ⟨fs, h5⟩ := ih [] u h4
      refine ⟨f :: fs, ?_⟩
      simp only [fillPattern, if_true, List.headD_cons, List.tail_cons]
      rw [h1, h3, ← h5]; simp
    · simp only [initPieces, lastPiece, if_neg hc] at h
      obtain ⟨fs, h5⟩ := ih (cur ++ [c]) w h
      refine ⟨fs, ?_⟩
      simp only [fillPattern, if_neg hc]
      rw [← h5]; simp

/-! ### strMatch: the loops -/

theorem slice_length (p : CStr) (lo hi : Nat) (h : hi ≤ p.length) :
    (slice p lo hi).length = hi - lo := by
  unfold slice
  simp only [List.length_take, List.length_drop]
  omega

theorem slice_snoc (pre cur cs : CStr) (c : Char) :
    slice (pre ++ cur ++ c :: cs) pre.length (pre.length + cur.length + 1) = cur ++ [c] := by
  unfold slice
  rw [List.append_assoc, List.drop_left]
  have : pre.length + cur.length + 1 - pre.length = (cur ++ [c]).length := by
    simp only [List.length_append, List.length_singleton]; omega
  rw [this]
  have e : cur ++ c :: cs = (cur ++ [c]) ++ cs := by simp
  rw [e, List.take_left]

theorem gatherKnown_pieces (p : CStr) :
    ∀ (cs pre cur : CStr) (last : Int), p = pre ++ cur ++ cs → (pre.length : Int) = last + 1 →
      gatherKnown p cs (pre.length + cur.length) last =
        nonEmpty (initPieces cur cs ++ [lastPiece cur cs]) := by
  intro cs
  induction cs with
  | nil =>
    intro pre cur last hp hl
    have hs : slice p (last + 1).toNat (pre.length + cur.length) = cur := by
      rw [← hl, Int.toNat_ofNat, hp]
      unfold slice
      simp
    simp only [gatherKnown, initPieces, lastPiece, List.nil_append]
    by_cases hc : cur = []
    · subst hc
      have : ¬ (((pre.length + ([] : CStr).length : Nat) : Int) > last + 1) := by
        simp; omega
      rw [if_neg this]; simp [nonEmpty]
    · have : (((pre.length + cur.length : Nat) : Int) > last + 1) := by
        have := List.length_pos.mpr hc
        push_cast; omega
      rw [if_pos this, hs, nonEmpty_cons_ne cur [] hc]; rfl
  | cons c cs ih =>
    intro pre cur last hp hl
    by_cases hc : c = '%'
    · subst hc
      have hs : slice p (last + 1).toNat (pre.length + cur.length) = cur := by
        rw [← hl, Int.toNat_ofNat, hp]
        unfold slice
        rw [List.append_assoc, List.drop_left]
        simp
      have hrec := ih (pre ++ cur ++ ['%']) [] (pre.length + cur.length : Nat)
        (by simp [hp]) (by simp only [List.length_append, List.length_singleton]; push_cast; omega)
      simp only [List.length_append, List.length_singleton, List.length_nil, Nat.add_zero,
        List.length_cons] at hrec
      simp only [gatherKnown, initPieces, lastPiece, if_true, List.cons_append]
      rw [hrec]
      by_cases hcur : cur = []
      · subst hcur
        have : ¬ (((pre.length + ([] : CStr).length : Nat) : Int) > last + 1) := by
          simp; omega
        rw [if_neg this, nonEmpty_cons_nil]; rfl
      · have : (((pre.length + cur.length : Nat) : Int) > last + 1) := by
          have := List.length_pos.mpr hcur
          push_cast; omega
        rw [if_pos this, hs, nonEmpty_cons_ne cur _ hcur]; rfl
    · simp only [gatherKnown, initPieces, lastPiece, if_neg hc]
      have hrec := ih pre (cur ++ [c]) last (by simp [hp]) hl
      simp only [List.length_append, List.length_singleton] at hrec
      rw [← Nat.add_assoc] at hrec
      exact hrec

theorem countKnown_pieces :
    ∀ (cs cur : CStr) (i n : Nat) (last : Int), (i : Int) = last + 1 + cur.length →
      countKnown cs i n last =
        (n + (nonEmpty (initPieces cur cs)).length,
          (i : Int) + cs.length - 1 - (lastPiece cur cs).length) := by
  intro cs
  induction cs with
  | nil =>
    intro cur i n last h
    simp only [countKnown, initPieces, lastPiece, nonEmpty, List.filter_nil, List.length_nil]
    ext
    · simp
    · simp; omega
  | cons c cs ih =>
    intro cur i n last h
    by_cases hc : c = '%'
    · subst hc
      simp only [countKnown, initPieces, lastPiece, if_true]
      rw [ih [] (i + 1) _ i (by simp)]
      by_cases hcur : cur = []
      · subst hcur
        have : ¬ ((i : Int) > last + 1) := by simp at h; omega
        rw [if_neg this, nonEmpty_cons_nil]
        ext
        · simp
        · simp; omega
      · have : ((i : Int) > last + 1) := by
          have := List.length_pos.mpr hcur
          omega
        rw [if_pos this, nonEmpty_cons_ne cur _ hcur]
        ext
        · simp; omega
        · simp; omega
    · simp only [countKnown, initPieces, lastPiece, if_neg hc]
      rw [ih (cur ++ [c]) (i + 1) n last (by simp; omega)]
      ext
      · simp
      · simp; omega

theorem initPieces_ne_nil : ∀ (cs cur : CStr), '%' ∈ cs → initPieces cur cs ≠ [] := by
  intro cs
  induction cs with
  | nil => intro cur h; cases h
  | cons c cs ih =>
    intro cur h
    by_cases hc : c = '%'
    · subst hc; simp [initPieces]
    · simp only [initPieces, if_neg hc]
      apply ih
      rcases List.mem_cons.mp h with e | e
      · exact absurd e.symm hc
      · exact e

theorem initPieces_head : ∀ (cs cur x : CStr) (l : List CStr),
    initPieces cur cs = x :: l → x ≠ [] → cur = [] → cs.head? ≠ some '%' := by
  intro cs cur x l h hx hcur
  cases cs with
  | nil => simp
  | cons c cs =>
    by_cases hc : c = '%'
    · subst hc
      simp only [initPieces, if_true, List.cons.injEq] at h
      exact absurd (h.1.symm.trans hcur) hx
    · simpa using hc

theorem findKnown_found (sub : CStr) (first final : Bool) (knownEnd : Int) :
    ∀ (rest : CStr) (j j1 : Nat), findKnown sub first final knownEnd rest j = Find.found j1 →
      ∃ g t, rest = g ++ sub ++ t ∧ j1 = j + g.length + sub.length ∧
        (first = true → j + g.length = 0) ∧
        (final = true → ((j + g.length : Nat) : Int) = knownEnd) := by
  intro rest
  induction rest with
  | nil =>
    intro j j1 h
    unfold findKnown at h
    split at h
    · rename_i hl
      have hsub : sub = [] := List.length_eq_zero.mp (by omega)
      split at h
      · cases h
      · rename_i h1
        split at h
        · cases h
        · rename_i h2
          injection h with h
          refine ⟨[], [], by simp [hsub], by simp [← h], ?_, ?_⟩
          · intro hf; simp [hf] at h1; simp [h1]
          · intro hf; simp [hf] at h2; simp [h2]
    · cases h
  | cons c rest ih =>
    intro j j1 h
    unfold findKnown at h
    split at h
    · rename_i hl
      split at h
      · rename_i htake
        split at h
        · cases h
        · rename_i h1
          split at h
          · cases h
          · rename_i h2
            injection h with h
            refine ⟨[], (c :: rest).drop sub.length, ?_, by simp [← h], ?_, ?_⟩
            · rw [List.nil_append]
              conv_lhs => rw [← List.take_append_drop sub.length (c :: rest)]
              rw [htake]
            · intro hf; simp [hf] at h1; simp [h1]
            · intro hf; simp [hf] at h2; simp [h2]
      · obtain ⟨g, t, h1, h2, h3, h4⟩ := ih (j + 1) j1 h
        refine ⟨c :: g, t, by simp [h1], by simp [h2]; omega, ?_, ?_⟩
        · intro hf; have := h3 hf; omega
        · intro hf; have := h4 hf; simp only [List.length_cons]; rw [← this]; congr 1; omega
    · cases h

theorem matchKnown_sections (L : List CStr) (s : CStr) (n : Nat) (kS kE : Int)
    (hn : L.length = n)
    (hE : kE ≥ 0 → ∀ x, L.getLast? = some x → kE = (s.length : Int) - x.length) :
    ∀ k i j, i + k = n → j ≤ s.length → matchKnown L s n kS kE k i j = true →
      Sections (i == 0 && kS == 0) (decide (kE ≥ 0)) (L.drop i) (s.drop j) := by
  intro k
  induction k with
  | zero =>
    intro i j hi _ _
    have : L.drop i = [] := List.drop_eq_nil_of_le (by omega)
    rw [this]; trivial
  | succ k ih =>
    intro i j hi hj h
    have hiL : i < L.length := by omega
    have hsub : strAt L i = L[i] := by
      unfold strAt; rw [List.getD_eq_getElem _ _ hiL]
    unfold matchKnown at h
    rw [hsub] at h
    split at h
    · rename_i j1 hf
      obtain ⟨g, t, h1, h2, h3, h4⟩ := findKnown_found _ _ _ _ _ _ _ hf
      have hlen : s.length - j = g.length + L[i].length + t.length := by
        have := congrArg List.length h1
        simpa [List.length_drop, Nat.add_assoc] using this
      have hj1 : j1 ≤ s.length := by omega
      have hdrop : s.drop j1 = t := by
        have e : j1 = j + (g ++ L[i]).length := by simp [h2]; omega
        rw [e, ← List.drop_drop, h1, List.drop_left]
      have hrec := ih (i + 1) j1 (by omega) hj1 h
      rw [hdrop] at hrec
      have hfalse : ((i + 1 == 0) && kS == 0) = false := by simp
      rw [hfalse] at hrec
      rw [List.drop_eq_getElem_cons hiL]
      refine ⟨g, t, h1, ?_, ?_, hrec⟩
      · intro hS
        have := h3 hS
        exact List.length_eq_zero.mp (by omega)
      · intro hnil hA
        have hlast : i + 1 = n := by
          have := congrArg List.length hnil
          simp only [List.length_drop, List.length_nil] at this
          omega
        have hkE : kE ≥ 0 := by simpa using hA
        have hfin : (((i : Int) == (n : Int) - 1) && decide (kE ≥ 0)) = true := by
          simp [hkE]; omega
        have h5 := h4 hfin
        have hgl : L.getLast? = some L[i] := by
          rw [List.getLast?_eq_getElem?, List.getElem?_eq_some]
          exact ⟨by omega, by congr 1; omega⟩
        have h6 := hE hkE _ hgl
        apply List.length_eq_zero.mp
        have : ((j + g.length : Nat) : Int) = (s.length : Int) - (L[i].length : Int) := by
          rw [h5, h6]
        omega
    · cases h
    · cases h

theorem lastPiece_length_le : ∀ (cs cur : CStr), (lastPiece cur cs).length ≤ cur.length + cs.length := by
  intro cs
  induction cs with
  | nil => intro cur; simp [lastPiece]
  | cons c cs ih =>
    intro cur
    by_cases hc : c = '%'
    · subst hc
      simp only [lastPiece, if_true, List.length_cons]
      have := ih []
      simp only [List.length_nil] at this
      omega
    · simp only [lastPiece, if_neg hc, List.length_cons]
      have := ih (cur ++ [c])
      simp only [List.length_append, List.length_singleton] at this
      omega

theorem lastPiece_length_lt : ∀ (cs cur : CStr), '%' ∈ cs →
    (lastPiece cur cs).length < cur.length + cs.length := by
  intro cs
  induction cs with
  | nil => intro cur h; cases h
  | cons c cs ih =>
    intro cur h
    by_cases hc : c = '%'
    · subst hc
      simp only [lastPiece, if_true, List.length_cons]
      have := lastPiece_length_le cs []
      simp only [List.length_nil] at this
      omega
    · simp only [lastPiece, if_neg hc, List.length_cons]
      have hm : '%' ∈ cs := by
        rcases List.mem_cons.mp h with e | e
        · exact absurd e.symm hc
        · exact e
      have := ih (cur ++ [c]) hm
      simp only [List.length_append, List.length_singleton] at this
      omega

theorem fillPattern_noPct : ∀ (p : CStr) (fs : List CStr), '%' ∉ p → fillPattern p fs = p := by
  intro p
  induction p with
  | nil => intro fs _; rfl
  | cons c cs ih =>
    intro fs h
    simp only [List.mem_cons, not_or] at h
    have hc : c ≠ '%' := fun e => h.1 e.symm
    simp [fillPattern, hc, ih fs h.2]

theorem firstPiece_prefix : ∀ (p : CStr) (fs : List CStr), firstPiece p <+: fillPattern p fs := by
  intro p
  induction p with
  | nil => intro fs; simp [firstPiece, fillPattern]
  | cons c cs ih =>
    intro fs
    by_cases hc : c = '%'
    · subst hc; simp [firstPiece]
    · have := ih fs
      unfold firstPiece at this ⊢
      simp only [fillPattern, if_neg hc]
      rw [List.takeWhile_cons_of_pos (by simpa using hc)]
      exact (List.prefix_cons_inj c).mpr this

theorem lastPiece_suffix : ∀ (cs cur : CStr) (fs : List CStr),
    lastPiece cur cs <:+ cur ++ fillPattern cs fs := by
  intro cs
  induction cs with
  | nil => intro cur fs; simp [lastPiece, fillPattern]
  | cons c cs ih =>
    intro cur fs
    by_cases hc : c = '%'
    · subst hc
      simp only [lastPiece, fillPattern, if_true]
      have := ih [] fs.tail
      rw [List.nil_append] at this
      exact this.trans ((List.suffix_append _ _).trans (List.suffix_append _ _))
    · simp only [lastPiece, fillPattern, if_neg hc]
      have := ih (cur ++ [c]) fs
      simpa using this

theorem strMatch_likeMatch (p v : CStr) (h : strMatch p v = true) : LikeMatch p v := by
  by_cases hp : '%' ∈ p
  · have hck := countKnown_pieces p [] 0 0 (-1) (by simp)
    have hgk := gatherKnown_pieces p p [] [] (-1) (by simp) (by simp)
    simp only [List.length_nil, Nat.add_zero] at hgk
    have hlt := lastPiece_length_lt p [] hp
    simp only [List.length_nil, Nat.zero_add] at hlt
    unfold strMatch at h
    rw [hck, hgk] at h
    simp only [Nat.zero_add] at h
    obtain ⟨x0, ip, hip⟩ := List.exists_cons_of_ne_nil (initPieces_ne_nil p [] hp)
    have key : Sections (decide (p.head? ≠ some '%'))
        (decide ((lastPiece [] p).length > 0)) (nonEmpty (initPieces [] p ++ [lastPiece [] p])) v := by
      by_cases hlp : (lastPiece [] p).length > 0
      · have c1 : ((p.length : Int) > ((0 : Nat) : Int) + p.length - 1 - (lastPiece [] p).length + 1) := by
          omega
        by_cases c2 : ((v.length : Int) - p.length +
            (((0 : Nat) : Int) + p.length - 1 - (lastPiece [] p).length) + 1 < 0)
        · rw [if_pos ⟨c1, c2⟩] at h; cases h
        · rw [if_neg (fun hh => c2 hh.2)] at h
          simp only [if_pos c1] at h
          have c3 : ¬ (((0 : Nat) : Int) + p.length - 1 - (lastPiece [] p).length = -1) := by omega
          rw [if_neg c3] at h
          rw [if_neg (by omega)] at h
          have hne : lastPiece [] p ≠ [] := List.length_pos.mp hlp
          have hL : (nonEmpty (initPieces [] p ++ [lastPiece [] p])).length =
              (nonEmpty (initPieces [] p)).length + 1 := by
            rw [nonEmpty_append, nonEmpty_cons_ne _ _ hne]; simp [nonEmpty]
          have hgl : (nonEmpty (initPieces [] p ++ [lastPiece [] p])).getLast? =
              some (lastPiece [] p) := by
            rw [nonEmpty_append, nonEmpty_cons_ne _ _ hne]; simp [nonEmpty]
          have hs := matchKnown_sections _ v _ _ _ hL
            (by
              intro _ x hx
              rw [hgl] at hx
              injection hx with hx
              subst hx
              omega)
            _ 0 0 (by omega) (Nat.zero_le _) h
          rw [List.drop_zero, List.drop_zero] at hs
          have e1 : ((0 : Nat) == 0 && (if p.head? = some '%' then (-1 : Int) else 0) == 0) =
              decide (p.head? ≠ some '%') := by
            by_cases hh : p.head? = some '%' <;> simp [hh]
          have e2 : decide ((v.length : Int) - p.length +
              (((0 : Nat) : Int) + p.length - 1 - (lastPiece [] p).length) + 1 ≥ 0) =
              decide ((lastPiece [] p).length > 0) := by
            simp only [hlp, decide_True, decide_eq_true_eq]; omega
          rw [e1, e2] at hs
          exact hs
      · have hnil : lastPiece [] p = [] := List.length_eq_zero.mp (by omega)
        have c1 : ¬ ((p.length : Int) > ((0 : Nat) : Int) + p.length - 1 - (lastPiece [] p).length + 1) := by
          omega
        rw [if_neg (fun hh => c1 hh.1)] at h
        simp only [if_neg c1] at h
        have c3 : ¬ (((0 : Nat) : Int) + p.length - 1 - (lastPiece [] p).length = -1) := by omega
        rw [if_neg c3] at h
        have hL : (nonEmpty (initPieces [] p ++ [lastPiece [] p])).length =
            (nonEmpty (initPieces [] p)).length := by
          rw [nonEmpty_append, hnil]; simp [nonEmpty]
        by_cases c4 : (nonEmpty (initPieces [] p)).length = 0
        · have : nonEmpty (initPieces [] p ++ [lastPiece [] p]) = [] :=
            List.length_eq_zero.mp (by omega)
          rw [this]; trivial
        · rw [if_neg c4] at h
          have hs := matchKnown_sections _ v _ _ (-1) hL (by intro hk; omega)
            _ 0 0 (by omega) (Nat.zero_le _) h
          rw [List.drop_zero, List.drop_zero] at hs
          have e1 : ((0 : Nat) == 0 && (if p.head? = some '%' then (-1 : Int) else 0) == 0) =
              decide (p.head? ≠ some '%') := by
            by_cases hh : p.head? = some '%' <;> simp [hh]
          have e2 : decide ((-1 : Int) ≥ 0) = decide ((lastPiece [] p).length > 0) := by
            simp [hlp]
          rw [e1, e2] at hs
          exact hs
    rw [hip, List.cons_append] at key
    have hlike := likePieces_of_sections _ _ x0 (lastPiece [] p) ip
      (by
        intro hx
        have := initPieces_head p [] x0 ip hip hx rfl
        simpa using this)
      (by
        intro hx
        have := List.length_pos.mpr hx
        simpa using this)
      v key
    rw [← List.cons_append, ← hip] at hlike
    obtain ⟨fs, hfs⟩ := fillPattern_of_pieces p [] v hlike
    exact ⟨fs, by simpa using hfs⟩
  · have : p = v := by
      have hck := countKnown_noPct p hp 0 0 (-1)
      unfold strMatch at h
      rw [hck] at h
      simp only at h
      split at h
      · cases h
      · simpa using h
    subst this
    exact ⟨[], fillPattern_noPct p [] hp⟩

/-- C7: if `strMatch(p, v)` returns TRUE then `v` is `p` with each `%` replaced by some
(possibly empty) string; in particular `v` starts with the literal run of `p` before its
first `%` and ends with the literal run after its last `%`. -/
theorem strMatch_sound (p v : CStr) (h : strMatch p v = true) :
    LikeMatch p v ∧ firstPiece p <+: v ∧ lastPiece [] p <:+ v := by
  obtain ⟨fs, hfs⟩ := strMatch_likeMatch p v h
  refine ⟨⟨fs, hfs⟩, ?_, ?_⟩
  · rw [← hfs]; exact firstPiece_prefix p fs
  · rw [← hfs]; simpa using lastPiece_suffix p [] fs



/-! ### Instances -/

theorem strMatch_sound_witness :
    strMatch "a%c".toList "abbc".toList = true ∧
      (LikeMatch "a%c".toList "abbc".toList ∧ firstPiece "a%c".toList <+: "abbc".toList ∧
        lastPiece [] "a%c".toList <:+ "abbc".toList) :=
  ⟨by decide, strMatch_sound "a%c".toList "abbc".toList (by decide)⟩

theorem strMatch_noPercent_witness :
    '%' ∉ "red".toList ∧ (strMatch "red".toList "red".toList = true ↔ "red".toList = "red".toList) :=
  ⟨by decide, strMatch_noPercent "red".toList "red".toList (by decide)⟩

theorem tupleHash_composite_witness :
    (∀ j, j < MAXCHVEC → (cvAt cvAttr0 j).att < 1) ∧ (tupleVals "apple".toList).length = 1 ∧
      ∃ h, tupleHash List.length 1 cvAttr0 "apple".toList = some h ∧
        h = compositeHash List.length cvAttr0 (tupleVals "apple".toList) MAXCHVEC 0 0 ∧
        ∀ j, j < MAXCHVEC → (h.testBit j = true ↔
          (List.length (strAt (tupleVals "apple".toList) (cvAt cvAttr0 j).att)).testBit
            (cvAt cvAttr0 j).bit = true) :=
  ⟨by decide, by decide,
    tupleHash_composite List.length 1 cvAttr0 "apple".toList (by decide) (by decide)⟩

/-- C6: the pattern `%a` has one `%` and the value `aa` is the pattern with that `%`
replaced by `a`, so `strMatch` should return TRUE; it returns FALSE, because the search
for the last known section stops at its first occurrence, which is not at the end. -/
theorem strMatch_misses_later_occurrence :
    LikeMatch "%a".toList "aa".toList ∧ lastPiece [] "%a".toList <:+ "aa".toList ∧
      strMatch "%a".toList "aa".toList = false :=
  ⟨⟨[['a']], by decide⟩, by decide, by decide⟩

/-! ## Theorems on select.c -/

theorem matchScan_sound (nAttr : Nat) (qvals : List CStr) (data : List Char) (free : Nat)
    (t : CStr) (off : Nat) :
    ∀ k c0 c, matchScan nAttr qvals data free k c0 c = some (some t, off) →
      tupValMatch nAttr qvals t = some true := by
  intro k
  induction k with
  | zero => intro c0 c h; simp [matchScan] at h
  | succ k ih =>
    intro c0 c h
    unfold matchScan at h
    split at h
    · split at h
      · cases h
      · split at h
        · split at h
          · split at h
            · cases h
            · rename_i hm
              simp only [Option.some.injEq, Prod.mk.injEq] at h
              rw [← h.1]; exact hm
            · exact ih _ _ h
          · cases h
        · exact ih _ _ h
    · simp at h

theorem nextMatchTup_frame (s s1 : Selection) (res : Option CStr)
    (h : nextMatchTup s = some (res, s1)) :
    s1.rel = s.rel ∧ s1.qvals = s.qvals := by
  unfold nextMatchTup at h
  split at h
  · simp only [Option.some.injEq, Prod.mk.injEq] at h
    rw [← h.2]; exact ⟨rfl, rfl⟩
  · split at h
    · cases h
    · simp only [Option.some.injEq, Prod.mk.injEq] at h
      rw [← h.2]; exact ⟨rfl, rfl⟩

theorem nextMatchTup_sound (s s1 : Selection) (t : CStr)
    (h : nextMatchTup s = some (some t, s1)) :
    tupValMatch s.rel.nattrs s.qvals t = some true := by
  unfold nextMatchTup at h
  split at h
  · simp at h
  · split at h
    · cases h
    · rename_i t1 off hm
      simp only [Option.some.injEq, Prod.mk.injEq] at h
      rw [h.1] at hm
      exact matchScan_sound _ _ _ _ _ _ _ _ _ hm

theorem moveToNextPage_frame (s s1 : Selection) (h : moveToNextPage s = some (some s1)) :
    s1.rel = s.rel ∧ s1.qvals = s.qvals := by
  unfold moveToNextPage at h
  split at h
  · split at h
    · cases h
    · simp only [Option.some.injEq] at h
      rw [← h]; exact ⟨rfl, rfl⟩
  · split at h
    · simp at h
    · split at h
      · cases h
      · simp only [Option.some.injEq] at h
        rw [← h]; exact ⟨rfl, rfl⟩

theorem getNextLoop_frame :
    ∀ (fuel : Nat) (s s1 : Selection) (res : Option CStr),
      getNextLoop fuel s = some (res, s1) → s1.rel = s.rel ∧ s1.qvals = s.qvals := by
  intro fuel
  induction fuel with
  | zero => intro s s1 res h; simp [getNextLoop] at h
  | succ fuel ih =>
    intro s s1 res h
    unfold getNextLoop at h
    split at h
    · cases h
    · simp only [Option.some.injEq, Prod.mk.injEq] at h
      rw [← h.2]; exact ⟨rfl, rfl⟩
    · rename_i s2 hmv
      have f1 := moveToNextPage_frame s s2 hmv
      split at h
      · cases h
      · rename_i t s3 hn
        have f2 := nextMatchTup_frame _ _ _ hn
        simp only [Option.some.injEq, Prod.mk.injEq] at h
        rw [← h.2]
        exact ⟨f2.1.trans f1.1, f2.2.trans f1.2⟩
      · rename_i s3 hn
        have f2 := nextMatchTup_frame _ _ _ hn
        have f3 := ih _ _ _ h
        exact ⟨f3.1.trans (f2.1.trans f1.1), f3.2.trans (f2.2.trans f1.2)⟩

theorem getNextLoop_sound :
    ∀ (fuel : Nat) (s s1 : Selection) (t : CStr),
      getNextLoop fuel s = some (some t, s1) → tupValMatch s.rel.nattrs s.qvals t = some true := by
  intro fuel
  induction fuel with
  | zero => intro s s1 t h; simp [getNextLoop] at h
  | succ fuel ih =>
    intro s s1 t h
    unfold getNextLoop at h
    split at h
    · cases h
    · simp at h
    · rename_i s2 hmv
      have f1 := moveToNextPage_frame s s2 hmv
      split at h
      · cases h
      · rename_i t1 s3 hn
        have := nextMatchTup_sound _ _ _ hn
        simp only [Option.some.injEq, Prod.mk.injEq] at h
        rw [← h.1, ← f1.1, ← f1.2]; exact this
      · rename_i s3 hn
        have f2 := nextMatchTup_frame _ _ _ hn
        have := ih _ _ _ h
        rw [f2.1, f2.2, f1.1, f1.2] at this
        exact this

theorem getNextTuple_frame (s s1 : Selection) (res : Option CStr)
    (h : getNextTuple s = some (res, s1)) : s1.rel = s.rel ∧ s1.qvals = s.qvals := by
  unfold getNextTuple at h
  split at h
  · cases h
  · rename_i t s2 hn
    simp only [Option.some.injEq, Prod.mk.injEq] at h
    rw [← h.2]; exact nextMatchTup_frame _ _ _ hn
  · rename_i s2 hn
    have f1 := nextMatchTup_frame _ _ _ hn
    have f2 := getNextLoop_frame _ _ _ _ h
    exact ⟨f2.1.trans f1.1, f2.2.trans f1.2⟩

theorem getNextTuple_match (s s1 : Selection) (t : CStr)
    (h : getNextTuple s = some (some t, s1)) :
    tupValMatch s.rel.nattrs s.qvals t = some true := by
  unfold getNextTuple at h
  split at h
  · cases h
  · rename_i t1 s2 hn
    simp only [Option.some.injEq, Prod.mk.injEq] at h
    rw [← h.1]; exact nextMatchTup_sound _ _ _ hn
  · rename_i s2 hn
    have f1 := nextMatchTup_frame _ _ _ hn
    have := getNextLoop_sound _ _ _ _ h
    rw [f1.1, f1.2] at this
    exact this

theorem startSelection_frame (hash_any : CStr → Nat) (r : Reln) (q : CStr) (s : Selection)
    (h : startSelection hash_any r q = some s) : s.rel = r ∧ s.qvals = tupleVals q := by
  unfold startSelection at h
  split at h
  · cases h
  · rename_i qvals known qHash hs
    have hq : qvals = tupleVals q := by
      unfold setup at hs
      split at hs
      · cases hs
      · rename_i qv hv
        split at hs
        · cases hs
        · split at hs
          · cases hs
          · simp only [Option.some.injEq, Prod.mk.injEq] at hs
            unfold tupleValsN at hv
            split at hv
            · simp only [Option.some.injEq] at hv
              rw [← hs.1, ← hv]
            · cases hv
    simp only at h
    split at h
    · cases h
    · simp only [Option.some.injEq] at h
      rw [← h]; exact ⟨rfl, hq⟩

theorem scanState_frame (hash_any : CStr → Nat) (r : Reln) (q : CStr) (s : Selection)
    (h : ScanState hash_any r q s) : s.rel = r ∧ s.qvals = tupleVals q := by
  induction h with
  | start s hs => exact startSelection_frame hash_any r q s hs
  | next s s1 res _ hn ih =>
    have f := getNextTuple_frame s s1 res hn
    exact ⟨f.1.trans ih.1, f.2.trans ih.2⟩

/-- C2: in a scan started with the query `q` on any relation state, every tuple returned
by `getNextTuple` satisfies `tupValMatch(nattrs, values(q), t) = TRUE`. -/
theorem getNextTuple_sound (hash_any : CStr → Nat) (r : Reln) (q : CStr) (s s1 : Selection)
    (t : CStr) (hs : ScanState hash_any r q s) (h : getNextTuple s = some (some t, s1)) :
    tupValMatch r.nattrs (tupleVals q) t = some true := by
  have f := scanState_frame hash_any r q s hs
  have := getNextTuple_match s s1 t h
  rw [f.1, f.2] at this
  exact this



theorem getNextTuple_sound_witness :
    ScanState List.length appleStored "?,red".toList appleSel ∧
      getNextTuple appleSel = some (some "apple,red".toList, { appleSel with curtupOffset := 10 }) ∧
      tupValMatch appleStored.nattrs (tupleVals "?,red".toList) "apple,red".toList = some true :=
  ⟨ScanState.start appleSel (by decide!), by decide!,
    getNextTuple_sound List.length appleStored "?,red".toList appleSel
      { appleSel with curtupOffset := 10 } "apple,red".toList
      (ScanState.start appleSel (by decide!)) (by decide!)⟩

/-- C1: in the one-attribute relation `fresh1` the call `addToRelation(r, "")` succeeds and
stores the empty tuple in bucket 0, and the query `?` matches it, yet the scan returns
`NULL` at once: `nextMatchTup` starts looking for the terminator one byte after the start
of the tuple. -/
theorem emptyTuple_not_selected (hash_any : CStr → Nat) (n : Nat) :
    newRelation 1 1 0 cvAttr0 = some fresh1 ∧
      addToRelation hash_any fresh1 [] = some (emptyStored, some 0) ∧
      bucketTuples emptyStored 0 = some [[]] ∧
      tupleMatch 1 ['?'] [] = some true ∧
      selectAll hash_any n emptyStored ['?'] = some [] := by
  refine ⟨by decide!, rfl, by decide!, by decide!, ?_⟩
  cases n <;> rfl

set_option maxRecDepth 100000 in
theorem insert_x (hash_any : CStr → Nat) :
    addToRelation hash_any fresh1 ['x'] = some (xStored, some 0) := rfl

set_option maxRecDepth 100000 in
theorem insert_x_empty (hash_any : CStr → Nat) :
    addToRelation hash_any xStored [] = some (xEmptyStored, some 0) := rfl

set_option maxRecDepth 100000 in
/-- C3: after the tuples `x` and the empty tuple are inserted into the fresh one-attribute
relation `fresh1`, the scan for `?` returns `x` only. -/
theorem roundTrip_loses_emptyTuple (hash_any : CStr → Nat) :
    insertAll hash_any fresh1 [['x'], []] = some xEmptyStored ∧
      bucketTuples xEmptyStored 0 = some [['x'], []] ∧
      selectAll hash_any 2 xEmptyStored ['?'] = some [['x']] := by
  refine ⟨?_, by decide!, rfl⟩
  simp only [insertAll, insert_x, insert_x_empty]

/-! ## Theorems on pages -/

theorem splitNul_tuple (t : CStr) (ht : '\x00' ∉ t) (rest cur : CStr) :
    splitNul (t ++ '\x00' :: rest) cur = (cur ++ t) :: splitNul rest [] := by
  induction t generalizing cur with
  | nil => simp [splitNul]
  | cons c t ih =>
    simp only [List.mem_cons, not_or] at ht
    have hc : c ≠ '\x00' := fun e => ht.1 e.symm
    rw [List.cons_append, splitNul, if_neg hc, ih ht.2]
    simp

theorem splitNul_encode (ts : List CStr) (hts : ∀ t ∈ ts, '\x00' ∉ t) (rest : List Char) :
    splitNul (encode ts ++ rest) [] = ts ++ splitNul rest [] := by
  induction ts with
  | nil => simp [encode]
  | cons t ts ih =>
    simp only [encode, List.append_assoc, List.cons_append]
    rw [splitNul_tuple t (hts t (List.mem_cons_self _ _)), List.nil_append,
      ih (fun x hx => hts x (List.mem_cons_of_mem _ hx))]

theorem splitNul_nulFree (bytes : List Char) :
    ∀ cur : CStr, '\x00' ∉ cur → ∀ t ∈ splitNul bytes cur, '\x00' ∉ t := by
  induction bytes with
  | nil => intro cur _ t ht; cases ht
  | cons c cs ih =>
    intro cur hcur t ht
    unfold splitNul at ht
    split at ht
    · rcases List.mem_cons.mp ht with e | e
      · rw [e]; exact hcur
      · exact ih [] (by simp) t e
    · rename_i hc
      refine ih (cur ++ [c]) ?_ t ht
      simp only [List.mem_append, List.mem_singleton, not_or]
      exact ⟨hcur, fun e => hc e.symm⟩

theorem pageTuples_nulFree (p : Page) : ∀ t ∈ pageTuples p, '\x00' ∉ t :=
  splitNul_nulFree _ [] (by simp)

theorem encode_append (ts1 ts2 : List CStr) : encode (ts1 ++ ts2) = encode ts1 ++ encode ts2 := by
  induction ts1 with
  | nil => rfl
  | cons t ts ih => simp [encode, ih]

theorem encode_length_append (ts : List CStr) (t : CStr) :
    (encode (ts ++ [t])).length = (encode ts).length + (t.length + 1) := by
  rw [encode_append]; simp [encode]

theorem PageOK.free_eq {p : Page} (h : PageOK p) : p.free = (encode (pageTuples p)).length := by
  have := congrArg List.length h.packed
  rw [List.length_take] at this
  have h1 := h.size
  have h2 := h.fits
  omega

theorem pageOK_newPage : PageOK newPage := by
  refine ⟨by simp [newPage], Nat.zero_le _, ?_, ?_⟩ <;> simp [newPage, pageTuples, splitNul, encode]

theorem pageTuples_newPage : pageTuples newPage = [] := by
  simp [newPage, pageTuples, splitNul]

theorem clearPage_tuples (p : Page) : pageTuples (clearPage p) = [] := by
  simp [clearPage, pageTuples, splitNul]

theorem pageOK_clearPage (p : Page) (h : PageOK p) : PageOK (clearPage p) := by
  refine ⟨?_, Nat.zero_le _, ?_, ?_⟩
  · have := h.size
    simp [clearPage, this]
  · simp [clearPage, pageTuples, splitNul, encode]
  · simp [clearPage, pageTuples, splitNul]

theorem pageOK_setOvflow (p : Page) (o : Option Nat) (h : PageOK p) :
    PageOK { p with ovflow := o } :=
  ⟨h.size, h.fits, h.packed, h.count⟩

theorem pageTuples_setOvflow (p : Page) (o : Option Nat) :
    pageTuples { p with ovflow := o } = pageTuples p := rfl

/-- The effect of a successful `addToPage`. -/
theorem addToPage_some (p p1 : Page) (t : CStr) (hp : PageOK p) (ht : '\x00' ∉ t)
    (h : addToPage p t = some p1) :
    PageOK p1 ∧ pageTuples p1 = pageTuples p ++ [t] ∧ p1.ovflow = p.ovflow ∧
      p1.free = p.free + (t.length + 1) ∧ p1.ntuples = p.ntuples + 1 := by
  unfold addToPage at h
  split at h
  · rename_i hfit
    simp only [Option.some.injEq] at h
    unfold pageFreeSpace at hfit
    have hsz := hp.size
    have hft := hp.fits
    have htake : p1.data.take p1.free = p.data.take p.free ++ (t ++ ['\x00']) := by
      rw [← h]
      simp only
      have hl : (p.data.take p.free ++ (t ++ ['\x00'])).length = p.free + (t.length + 1) := by
        simp only [List.length_append, List.length_take, List.length_singleton]
        omega
      rw [← hl, List.take_left]
    have htup : pageTuples p1 = pageTuples p ++ [t] := by
      show splitNul (p1.data.take p1.free) [] = pageTuples p ++ [t]
      rw [htake, hp.packed, splitNul_encode _ (pageTuples_nulFree p)]
      have : splitNul (t ++ ['\x00']) [] = [t] := by
        have := splitNul_tuple t ht [] []
        simpa [splitNul] using this
      rw [this]
    refine ⟨⟨?_, ?_, ?_, ?_⟩, htup, by rw [← h], by rw [← h], by rw [← h]⟩
    · rw [← h]
      simp only [List.length_append, List.length_take, List.length_drop, List.length_singleton]
      omega
    · rw [← h]; simp only; omega
    · rw [htake, htup, encode_append, hp.packed]
      simp [encode]
    · rw [htup, ← h]
      simp only [List.length_append, List.length_singleton]
      rw [hp.count]
  · cases h

theorem addToPage_isSome (p : Page) (t : CStr) (h : p.free + (t.length + 1) ≤ dataSize) :
    ∃ p1, addToPage p t = some p1 := by
  unfold addToPage pageFreeSpace
  rw [if_pos (by omega)]
  exact ⟨_, rfl⟩

theorem addToPage_none (p : Page) (t : CStr) (h : addToPage p t = none) :
    dataSize < p.free + (t.length + 1) := by
  unfold addToPage pageFreeSpace at h
  split at h
  · cases h
  · omega

/-- A stored tuple fits an empty page. -/
theorem tuple_fits (p : Page) (hp : PageOK p) (t : CStr) (ht : t ∈ pageTuples p) :
    t.length + 1 ≤ dataSize := by
  have hf := hp.free_eq
  have hfit := hp.fits
  obtain ⟨l1, l2, hl⟩ := List.append_of_mem ht
  rw [hl, encode_append] at hf
  simp only [encode, List.length_append, List.length_cons] at hf
  omega

/-- The scan of the bytes of a page in `lh_split` is the fold over the stored tuples, when
each of them fits the buffer `tup` with its terminator. -/
theorem splitScan_eq_splitTuples (hash_any : CStr → Nat) (newBid : Nat) :
    ∀ (bytes : List Char) (cur : CStr) (r : Reln) (stay move : Page),
      (∀ t ∈ splitNul bytes cur, t.length + 1 ≤ MAXTUPLEN) →
      splitScan hash_any newBid bytes cur r stay move =
        splitTuples hash_any newBid (splitNul bytes cur) r stay move := by
  intro bytes
  induction bytes with
  | nil => intro cur r stay move _; rfl
  | cons c cs ih =>
    intro cur r stay move hs
    unfold splitScan
    unfold splitNul at hs ⊢
    by_cases hc : c = '\x00'
    · rw [if_pos hc] at hs ⊢
      rw [if_pos hc, if_pos (hs cur (List.mem_cons_self _ _))]
      simp only [splitTuples]
      cases splitTuple hash_any newBid cur r stay move with
      | none => rfl
      | some x =>
        obtain ⟨r1, stay1, move1⟩ := x
        exact ih _ _ _ _ (fun t ht => hs t (List.mem_cons_of_mem _ ht))
    · rw [if_neg hc] at hs ⊢
      rw [if_neg hc]
      exact ih _ _ _ _ hs

/-- When the scan of the bytes of a page in `lh_split` returns, every tuple it read fits
the buffer `tup` with its terminator. -/
theorem splitScan_short (hash_any : CStr → Nat) (newBid : Nat) :
    ∀ (bytes : List Char) (cur : CStr) (r : Reln) (stay move : Page)
      (x : Reln × Page × Page),
      splitScan hash_any newBid bytes cur r stay move = some x →
      ∀ t ∈ splitNul bytes cur, t.length + 1 ≤ MAXTUPLEN := by
  intro bytes
  induction bytes with
  | nil => intro cur r stay move x _ t ht; cases ht
  | cons c cs ih =>
    intro cur r stay move x h t ht
    unfold splitScan at h
    unfold splitNul at ht
    by_cases hc : c = '\x00'
    · rw [if_pos hc] at h ht
      by_cases hl : cur.length + 1 ≤ MAXTUPLEN
      · rw [if_pos hl] at h
        rcases List.mem_cons.mp ht with e | e
        · rw [e]; exact hl
        · cases hst : splitTuple hash_any newBid cur r stay move with
          | none => rw [hst] at h; cases h
          | some y =>
            obtain ⟨r1, stay1, move1⟩ := y
            rw [hst] at h
            exact ih _ _ _ _ x h t e
      · rw [if_neg hl] at h
        cases h
    · rw [if_neg hc] at h ht
      exact ih _ _ _ _ x h t ht

/-! ## Theorems on reading and writing pages -/

theorem SameHdr.refl (r : Reln) : SameHdr r r := ⟨rfl, rfl, rfl, rfl, rfl, rfl, rfl⟩

theorem SameHdr.trans {r r1 r2 : Reln} (h1 : SameHdr r r1) (h2 : SameHdr r1 r2) : SameHdr r r2 :=
  ⟨h2.1.trans h1.1, h2.2.1.trans h1.2.1, h2.2.2.1.trans h1.2.2.1,
    h2.2.2.2.1.trans h1.2.2.2.1, h2.2.2.2.2.1.trans h1.2.2.2.2.1,
    h2.2.2.2.2.2.1.trans h1.2.2.2.2.2.1, h2.2.2.2.2.2.2.trans h1.2.2.2.2.2.2⟩

theorem pageAt_lt (r : Reln) (n : Node) (p : Page) (h : pageAt r n = some p) :
    (n.1 = true → n.2 < r.ovflow.length) ∧ (n.1 = false → n.2 < r.data.length) := by
  unfold pageAt getPage at h
  constructor
  · intro hn
    rw [if_pos hn] at h
    exact (List.getElem?_eq_some.mp h).1
  · intro hn
    rw [if_neg (by simp [hn])] at h
    exact (List.getElem?_eq_some.mp h).1

/-- The effect of `putPage` on a page that is in the file. -/
theorem putPage_spec (r : Reln) (n : Node) (p q : Page) (h : pageAt r n = some q) :
    ∃ r1, putPage r n.1 n.2 p = some r1 ∧ SameHdr r r1 ∧
      r1.data.length = r.data.length ∧ r1.ovflow.length = r.ovflow.length ∧
      pageAt r1 n = some p ∧ ∀ m, m ≠ n → pageAt r1 m = pageAt r m := by
  obtain ⟨b, i⟩ := n
  have hlt := pageAt_lt r (b, i) q h
  cases b with
  | true =>
    have hi : i < r.ovflow.length := hlt.1 rfl
    refine ⟨{ r with ovflow := r.ovflow.set i p }, ?_, SameHdr.refl _, rfl, by simp, ?_, ?_⟩
    · simp [putPage, hi]
    · simp [pageAt, getPage, hi]
    · intro m hm
      obtain ⟨b1, j⟩ := m
      cases b1 with
      | true =>
        have : i ≠ j := fun e => hm (by rw [e])
        simp [pageAt, getPage, List.getElem?_set_ne this]
      | false => simp [pageAt, getPage]
  | false =>
    have hi : i < r.data.length := hlt.2 rfl
    refine ⟨{ r with data := r.data.set i p }, ?_, SameHdr.refl _, by simp, rfl, ?_, ?_⟩
    · simp [putPage, hi]
    · simp [pageAt, getPage, hi]
    · intro m hm
      obtain ⟨b1, j⟩ := m
      cases b1 with
      | true => simp [pageAt, getPage]
      | false =>
        have : i ≠ j := fun e => hm (by rw [e])
        simp [pageAt, getPage, List.getElem?_set_ne this]

/-- The effect of `addPage` on the overflow file. -/
theorem addOvflowPage_spec (r : Reln) :
    (addOvflowPage r).1 = r.ovflow.length ∧ SameHdr r (addOvflowPage r).2 ∧
      (addOvflowPage r).2.data.length = r.data.length ∧
      (addOvflowPage r).2.ovflow.length = r.ovflow.length + 1 ∧
      pageAt (addOvflowPage r).2 (true, r.ovflow.length) = some newPage ∧
      ∀ m, m ≠ (true, r.ovflow.length) → pageAt (addOvflowPage r).2 m = pageAt r m := by
  refine ⟨rfl, SameHdr.refl _, rfl, by simp [addOvflowPage], ?_, ?_⟩
  · simp [addOvflowPage, pageAt, getPage]
  · intro m hm
    obtain ⟨b, j⟩ := m
    cases b with
    | false => simp [addOvflowPage, pageAt, getPage]
    | true =>
      have hj : j ≠ r.ovflow.length := fun e => hm (by rw [e])
      simp only [addOvflowPage, pageAt, getPage, if_true]
      rcases Nat.lt_or_gt_of_ne hj with l | g
      · rw [List.getElem?_append_left l]
      · rw [List.getElem?_eq_none (by simp; omega), List.getElem?_eq_none (by omega)]

/-! ## Theorems on chains -/

theorem ChainW_cons (r : Reln) (n : Node) (p : Page) (rest : List (Node × Page)) :
    ChainW r ((n, p) :: rest) ↔
      pageAt r n = some p ∧ p.ovflow = rest.head?.map (fun x => x.1.2) ∧
        (∀ x, rest.head? = some x → x.1.1 = true) ∧ ChainW r rest := Iff.rfl

theorem ChainW_congr (r r1 : Reln) :
    ∀ w : List (Node × Page), (∀ x ∈ w, pageAt r1 x.1 = pageAt r x.1) → ChainW r w →
      ChainW r1 w := by
  intro w
  induction w with
  | nil => intro _ _; trivial
  | cons x rest ih =>
    intro hf h
    obtain ⟨n, p⟩ := x
    obtain ⟨h1, h2, h3, h4⟩ := h
    refine ⟨?_, h2, h3, ih (fun y hy => hf y (List.mem_cons_of_mem _ hy)) h4⟩
    rw [hf (n, p) (List.mem_cons_self _ _)]; exact h1

/-- A page of a chain is replaced by a page with the same link. -/
theorem ChainW_replace (r r1 : Reln) (n : Node) (q q1 : Page) (hq : q1.ovflow = q.ovflow)
    (h1 : pageAt r1 n = some q1) (hf : ∀ m, m ≠ n → pageAt r1 m = pageAt r m) :
    ∀ (a b : List (Node × Page)), n ∉ a.map Prod.fst → n ∉ b.map Prod.fst →
      ChainW r (a ++ (n, q) :: b) → ChainW r1 (a ++ (n, q1) :: b) := by
  intro a
  induction a with
  | nil =>
    intro b _ hb h
    obtain ⟨_, h2, h3, h4⟩ := h
    refine ⟨h1, hq.trans h2, h3, ChainW_congr r r1 b ?_ h4⟩
    intro x hx
    apply hf
    intro e
    exact hb (List.mem_map.mpr ⟨x, hx, e⟩)
  | cons x a ih =>
    intro b ha hb h
    obtain ⟨m, p⟩ := x
    simp only [List.map_cons, List.mem_cons, not_or] at ha
    obtain ⟨h2, h3, h4, h5⟩ := h
    refine ⟨?_, ?_, ?_, ih b ha.2 hb h5⟩
    · rw [hf m (fun e => ha.1 e.symm)]; exact h2
    · rw [h3]; cases a <;> rfl
    · intro y hy
      cases a with
      | nil =>
        have hy1 : (n, q1) = y := by simpa using hy
        rw [← hy1]
        exact h4 (n, q) rfl
      | cons z a => exact h4 y hy

theorem ChainW_head_lt (r : Reln) (n : Node) (p : Page) (rest : List (Node × Page))
    (h : ChainW r ((n, p) :: rest)) : ∀ x ∈ rest, x.1.1 = true ∧ x.1.2 < r.ovflow.length := by
  induction rest generalizing n p with
  | nil => intro x hx; cases hx
  | cons y rest ih =>
    intro x hx
    obtain ⟨_, _, h3, h4⟩ := h
    have hy := h3 y rfl
    rcases List.mem_cons.mp hx with e | e
    · subst e
      obtain ⟨h5, _⟩ := h4
      exact ⟨hy, (pageAt_lt r x.1 x.2 h5).1 hy⟩
    · obtain ⟨m, q⟩ := y
      exact ih m q h4 x e

/-! ## flushToBuck -/

theorem getPage_eq_pageAt (r : Reln) (b : Bool) (i : Nat) : getPage r b i = pageAt r (b, i) := rfl

/-- The buffer goes to the first empty page of the chain. -/
theorem flushLoop_fill (r : Reln) (buf : Page) :
    ∀ (pre : List (Node × Page)) (n : Node) (q : Page) (post : List (Node × Page)) (fuel : Nat)
      (p : Page) (pid : Nat) (isOvf : Bool),
      ChainW r (pre ++ (n, q) :: post) →
      (pre ++ (n, q) :: post).head? = some ((isOvf, pid), p) →
      (∀ x ∈ pre, x.2.ntuples ≠ 0) → q.ntuples = 0 → pre.length < fuel →
      flushLoop r buf fuel p pid isOvf = putPage r n.1 n.2 { buf with ovflow := q.ovflow } := by
  intro pre
  induction pre with
  | nil =>
    intro n q post fuel p pid isOvf _ hh _ hq hf
    simp only [List.nil_append, List.head?_cons, Option.some.injEq, Prod.mk.injEq] at hh
    obtain ⟨hn, hp⟩ := hh
    subst hn hp
    cases fuel with
    | zero => omega
    | succ fuel =>
      unfold flushLoop
      rw [if_pos hq]
  | cons x pre ih =>
    intro n q post fuel p pid isOvf hc hh hpre hq hf
    simp only [List.cons_append, List.head?_cons, Option.some.injEq] at hh
    subst hh
    rw [List.cons_append, ChainW_cons] at hc
    obtain ⟨_, h2, h3, h4⟩ := hc
    have hne : p.ntuples ≠ 0 := hpre _ (List.mem_cons_self _ _)
    cases fuel with
    | zero => simp at hf
    | succ fuel =>
      obtain ⟨y, hy⟩ : ∃ y, (pre ++ (n, q) :: post).head? = some y := by
        cases pre <;> simp
      have hy1 := h3 y hy
      rw [hy] at h2
      simp only [Option.map_some'] at h2
      have hyp : pageAt r (true, y.1.2) = some y.2 := by
        have : ChainW r (pre ++ (n, q) :: post) := h4
        have e : (true, y.1.2) = y.1 := by rw [← hy1]
        rw [e]
        cases hl : pre ++ (n, q) :: post with
        | nil => rw [hl] at hy; cases hy
        | cons z l =>
          rw [hl] at this hy
          simp only [List.head?_cons, Option.some.injEq] at hy
          subst hy
          exact this.1
      unfold flushLoop
      rw [if_neg hne, h2]
      simp only
      rw [getPage_eq_pageAt, hyp]
      simp only
      apply ih n q post fuel y.2 y.1.2 true h4 _ (fun z hz => hpre z (List.mem_cons_of_mem _ hz))
        hq (by simp at hf; omega)
      rw [hy]
      congr 1
      ext
      · exact hy1.symm ▸ rfl
      · rfl
      · rfl

/-- Without an empty page on the chain the buffer becomes a new last page. -/
theorem flushLoop_append (r : Reln) (buf : Page) :
    ∀ (pre : List (Node × Page)) (n : Node) (q : Page) (fuel : Nat)
      (p : Page) (pid : Nat) (isOvf : Bool),
      ChainW r (pre ++ [(n, q)]) →
      (pre ++ [(n, q)]).head? = some ((isOvf, pid), p) →
      (∀ x ∈ pre ++ [(n, q)], x.2.ntuples ≠ 0) → pre.length < fuel →
      flushLoop r buf fuel p pid isOvf =
        match putPage (addOvflowPage r).2 n.1 n.2 { q with ovflow := some r.ovflow.length } with
        | none => none
        | some r2 => putPage r2 true r.ovflow.length buf := by
  intro pre
  induction pre with
  | nil =>
    intro n q fuel p pid isOvf hc hh hall hf
    simp only [List.nil_append, List.head?_cons, Option.some.injEq, Prod.mk.injEq] at hh
    obtain ⟨hn, hp⟩ := hh
    subst hn hp
    have hne : q.ntuples ≠ 0 := hall ((isOvf, pid), q) (by simp)
    rw [List.nil_append, ChainW_cons] at hc
    obtain ⟨_, h2, _, _⟩ := hc
    simp only [List.head?_nil, Option.map_none'] at h2
    cases fuel with
    | zero => omega
    | succ fuel =>
      unfold flushLoop
      rw [if_neg hne, h2]
      rfl
  | cons x pre ih =>
    intro n q fuel p pid isOvf hc hh hall hf
    simp only [List.cons_append, List.head?_cons, Option.some.injEq] at hh
    subst hh
    rw [List.cons_append, ChainW_cons] at hc
    obtain ⟨_, h2, h3, h4⟩ := hc
    have hne : p.ntuples ≠ 0 := hall _ (List.mem_cons_self _ _)
    cases fuel with
    | zero => simp at hf
    | succ fuel =>
      obtain ⟨y, hy⟩ : ∃ y, (pre ++ [(n, q)]).head? = some y := by
        cases pre <;> simp
      have hy1 := h3 y hy
      rw [hy] at h2
      simp only [Option.map_some'] at h2
      have hyp : pageAt r (true, y.1.2) = some y.2 := by
        have : ChainW r (pre ++ [(n, q)]) := h4
        have e : (true, y.1.2) = y.1 := by rw [← hy1]
        rw [e]
        cases hl : pre ++ [(n, q)] with
        | nil => rw [hl] at hy; cases hy
        | cons z l =>
          rw [hl] at this hy
          simp only [List.head?_cons, Option.some.injEq] at hy
          subst hy
          exact this.1
      unfold flushLoop
      rw [if_neg hne, h2]
      simp only
      rw [getPage_eq_pageAt, hyp]
      simp only
      apply ih n q fuel y.2 y.1.2 true h4 _ (fun z hz => hall z (List.mem_cons_of_mem _ hz))
        (by simp at hf; omega)
      rw [hy]
      congr 1
      ext
      · exact hy1.symm ▸ rfl
      · rfl
      · rfl

/-- The overflow pages of a chain are distinct pages of the overflow file. -/
theorem chain_length_le (r : Reln) (n : Node) (p : Page) (rest : List (Node × Page))
    (h : ChainW r ((n, p) :: rest)) (hnd : (rest.map Prod.fst).Nodup) :
    rest.length ≤ r.ovflow.length := by
  have hlt := ChainW_head_lt r n p rest h
  have hnd2 : (rest.map (fun x => x.1.2)).Nodup := by
    have : rest.map (fun x => x.1.2) = (rest.map Prod.fst).map Prod.snd := by simp
    rw [this]
    apply List.Nodup.map_on _ hnd
    intro a ha b hb hab
    obtain ⟨x, hx, rfl⟩ := List.mem_map.mp ha
    obtain ⟨y, hy, rfl⟩ := List.mem_map.mp hb
    have h1 := (hlt x hx).1
    have h2 := (hlt y hy).1
    exact Prod.ext (h1.trans h2.symm) hab
  have hsub : rest.map (fun x => x.1.2) ⊆ List.range r.ovflow.length := by
    intro i hi
    obtain ⟨x, hx, rfl⟩ := List.mem_map.mp hi
    exact List.mem_range.mpr (hlt x hx).2
  have := (List.subperm_of_subset hnd2 hsub).length_le
  simpa using this

/-! ## lh_split: one tuple -/

theorem tuplesOfPages_append (a b : List Page) :
    tuplesOfPages (a ++ b) = tuplesOfPages a ++ tuplesOfPages b := by
  induction a with
  | nil => rfl
  | cons p a ih => simp [tuplesOfPages, ih]

theorem ChainW_mem (r : Reln) :
    ∀ (w : List (Node × Page)), ChainW r w → ∀ x ∈ w, pageAt r x.1 = some x.2 := by
  intro w
  induction w with
  | nil => intro _ x hx; cases hx
  | cons y w ih =>
    intro h x hx
    obtain ⟨n, p⟩ := y
    rw [ChainW_cons] at h
    rcases List.mem_cons.mp hx with e | e
    · rw [e]; exact h.1
    · exact ih h.2.2.2 x e

/-- A new last page is linked to a chain. -/
theorem ChainW_snoc (r r1 : Reln) (n : Node) (q buf : Page) (L : Nat)
    (h1 : pageAt r1 n = some { q with ovflow := some L })
    (h2 : pageAt r1 (true, L) = some buf) (hb : buf.ovflow = none)
    (hf : ∀ m, m ≠ n → m ≠ (true, L) → pageAt r1 m = pageAt r m) :
    ∀ a : List (Node × Page), n ∉ a.map Prod.fst → (true, L) ∉ a.map Prod.fst →
      ChainW r (a ++ [(n, q)]) →
      ChainW r1 (a ++ [(n, { q with ovflow := some L }), ((true, L), buf)]) := by
  intro a
  induction a with
  | nil =>
    intro _ _ _
    rw [List.nil_append, ChainW_cons]
    refine ⟨h1, rfl, ?_, ?_⟩
    · intro x hx
      simp only [List.head?_cons, Option.some.injEq] at hx
      rw [← hx]
    · rw [ChainW_cons]
      exact ⟨h2, by simp [hb], by simp, trivial⟩
  | cons x a ih =>
    intro ha hL h
    obtain ⟨m, p⟩ := x
    simp only [List.map_cons, List.mem_cons, not_or] at ha hL
    rw [List.cons_append, ChainW_cons] at h
    obtain ⟨h3, h4, h5, h6⟩ := h
    rw [List.cons_append, ChainW_cons]
    refine ⟨?_, ?_, ?_, ih ha.2 hL.2 h6⟩
    · rw [hf m (fun e => ha.1 e.symm) (fun e => hL.1 e.symm)]; exact h3
    · rw [h4]; cases a <;> rfl
    · intro y hy
      cases a with
      | nil =>
        have hy1 : (n, { q with ovflow := some L }) = y := by simpa using hy
        rw [← hy1]
        exact h5 (n, q) rfl
      | cons z a => exact h5 y hy

theorem filter_snoc_pos {α : Type} (f : α → Bool) (l : List α) (a : α) (h : f a = true) :
    (l ++ [a]).filter f = l.filter f ++ [a] := by
  simp [List.filter_append, h]

theorem filter_snoc_neg {α : Type} (f : α → Bool) (l : List α) (a : α) (h : f a = false) :
    (l ++ [a]).filter f = l.filter f := by
  simp [List.filter_append, h]

theorem pageOK_ntuples_ne (p : Page) (hp : PageOK p) (h : 0 < p.free) : p.ntuples ≠ 0 := by
  intro e
  have hc := hp.count
  rw [e] at hc
  have : pageTuples p = [] := List.length_eq_zero.mp hc.symm
  have hf := hp.free_eq
  rw [this] at hf
  simp [encode] at hf
  omega

theorem pageOK_ntuples_zero (p : Page) (hp : PageOK p) (h : p.ntuples = 0) :
    pageTuples p = [] ∧ p.free = 0 := by
  have hc := hp.count
  rw [h] at hc
  have : pageTuples p = [] := List.length_eq_zero.mp hc.symm
  have hf := hp.free_eq
  rw [this] at hf
  exact ⟨this, by simpa [encode] using hf⟩

/-- A tuple that fits an empty page starts a new buffer. -/
theorem newBuffer_spec (t : CStr) (ht : '\x00' ∉ t) (hfit : t.length + 1 ≤ dataSize) :
    PageOK ((addToPage newPage t).getD newPage) ∧
      pageTuples ((addToPage newPage t).getD newPage) = [t] ∧
      ((addToPage newPage t).getD newPage).ovflow = none ∧
      ((addToPage newPage t).getD newPage).free = t.length + 1 := by
  obtain ⟨p1, hp1⟩ := addToPage_isSome newPage t (by simp [newPage]; omega)
  rw [hp1]
  obtain ⟨h1, h2, h3, h4, _⟩ := addToPage_some newPage p1 t pageOK_newPage ht hp1
  refine ⟨h1, ?_, ?_, ?_⟩
  · rw [Option.getD_some, h2, pageTuples_newPage]; rfl
  · rw [Option.getD_some, h3]; rfl
  · rw [Option.getD_some, h4]; simp [newPage]

/-! ## lh_split: flushing the buffers -/

theorem ml_node_cases {r0 : Reln} {newBid : Nat} {ml : List (Node × Page)}
    (h : ml.map Prod.fst =
      (false, newBid) :: (List.range' r0.ovflow.length (ml.length - 1)).map (fun i => (true, i)))
    (x : Node × Page) (hx : x ∈ ml) :
    x.1 = (false, newBid) ∨
      (x.1.1 = true ∧ r0.ovflow.length ≤ x.1.2 ∧ x.1.2 < r0.ovflow.length + (ml.length - 1)) := by
  have : x.1 ∈ ml.map Prod.fst := List.mem_map.mpr ⟨x, hx, rfl⟩
  rw [h] at this
  rcases List.mem_cons.mp this with e | e
  · exact Or.inl e
  · obtain ⟨i, hi, hie⟩ := List.mem_map.mp e
    rw [List.mem_range'_1] at hi
    right
    rw [← hie]
    exact ⟨rfl, hi.1, hi.2⟩

theorem ml_node_not_mem {r0 : Reln} {newBid : Nat} {nodes : List Node}
    {ml : List (Node × Page)} (ctx : SplitCtx r0 newBid nodes)
    (h : ml.map Prod.fst =
      (false, newBid) :: (List.range' r0.ovflow.length (ml.length - 1)).map (fun i => (true, i)))
    (x : Node × Page) (hx : x ∈ ml) : x.1 ∉ nodes := by
  intro hn
  rcases ml_node_cases h x hx with e | ⟨e1, e2, _⟩
  · rw [e] at hn; exact ctx.fresh hn
  · have := ctx.inrange x.1 hn e1
    omega

theorem head_of_map_fst {α β : Type} (l : List (α × β)) (a : α)
    (h : (l.map Prod.fst).head? = some a) : ∃ b, l.head? = some (a, b) := by
  cases l with
  | nil => cases h
  | cons x l =>
    simp only [List.map_cons, List.head?_cons, Option.some.injEq] at h
    exact ⟨x.2, by simp [← h]⟩

/-- The full `stay` buffer is written to the first emptied page of the split bucket. -/
theorem stay_flush {hash_any : CStr → Nat} {r0 : Reln} {newBid : Nat} {nodes : List Node}
    {seen : List CStr} {c : Nat} {fl el tl ml : List (Node × Page)} {r : Reln}
    {stay move : Page} (ctx : SplitCtx r0 newBid nodes)
    (inv : SplitInv hash_any r0 newBid nodes seen c fl el tl ml r stay move)
    (hel : el ≠ []) (hne : stay.ntuples ≠ 0)
    (seen2 : List CStr) (c2 : Nat) (stay2 : Page) (hs2 : PageOK stay2) (hroom : stay2.free ≤ c2)
    (hst : seen2.filter (staysAt hash_any r0) =
      seen.filter (staysAt hash_any r0) ++ pageTuples stay2)
    (hmv : seen2.filter (movesAt hash_any r0) = seen.filter (movesAt hash_any r0)) :
    ∃ r1 fl1 el1, flushToBuck r r0.sp stay = some r1 ∧
      SplitInv hash_any r0 newBid nodes seen2 c2 fl1 el1 tl ml r1 stay2 move := by
  obtain ⟨⟨n, e⟩, el1, hel1⟩ := List.exists_cons_of_ne_nil hel
  subst hel1
  have hchain : ChainW r (fl ++ (n, e) :: (el1 ++ tl)) := by
    have := inv.chain
    simpa [List.append_assoc] using this
  have hnodes : (fl ++ (n, e) :: (el1 ++ tl)).map Prod.fst = nodes := by
    have := inv.nodes_eq
    simpa [List.append_assoc] using this
  have hnd : ((fl ++ (n, e) :: (el1 ++ tl)).map Prod.fst).Nodup := by rw [hnodes]; exact ctx.nodup
  have hn_mem : n ∈ nodes := by rw [← hnodes]; simp
  obtain ⟨P, hP⟩ := head_of_map_fst _ _ (by rw [hnodes]; exact ctx.head)
  have he0 := (inv.el_ok (n, e) (List.mem_cons_self _ _)).1
  have hpe : pageAt r n = some e := ChainW_mem r _ hchain (n, e) (by simp)
  have hPat : pageAt r (false, r0.sp) = some P := by
    cases hl : fl ++ (n, e) :: (el1 ++ tl) with
    | nil => rw [hl] at hP; cases hP
    | cons z l =>
      rw [hl] at hP hchain
      simp only [List.head?_cons, Option.some.injEq] at hP
      subst hP
      exact hchain.1
  have hfuel : fl.length < r.ovflow.length + 1 := by
    cases hl : fl ++ (n, e) :: (el1 ++ tl) with
    | nil => simp at hl
    | cons z l =>
      rw [hl] at hchain hnd
      have hlen := congrArg List.length hl
      simp only [List.length_append, List.length_cons] at hlen
      have := chain_length_le r z.1 z.2 l hchain (List.nodup_cons.mp hnd).2
      omega
  have hfl := flushLoop_fill r stay fl n e (el1 ++ tl) (r.ovflow.length + 1) P r0.sp false
    hchain hP (fun x hx => (inv.fl_ok x hx).2) he0 hfuel
  obtain ⟨r1, hput, hh, hd, ho, hat, hfr⟩ :=
    putPage_spec r n { stay with ovflow := e.ovflow } e hpe
  have hnot : n ∉ fl.map Prod.fst ∧ n ∉ (el1 ++ tl).map Prod.fst := by
    rw [List.map_append, List.map_cons] at hnd
    have h1 := List.nodup_append.mp hnd
    constructor
    · intro hn
      exact h1.2.2 hn (List.mem_cons_self _ _) 
    · exact (List.nodup_cons.mp h1.2.1).1
  refine ⟨r1, fl ++ [(n, { stay with ovflow := e.ovflow })], el1, ?_, ?_⟩
  · unfold flushToBuck
    rw [getPage_eq_pageAt, hPat]
    simp only
    rw [hfl, hput]
  · refine
      { hdr := inv.hdr.trans hh
        dlen := hd.trans inv.dlen
        frame := ?_
        nodes_eq := ?_
        chain := ?_
        fl_ok := ?_
        el_ok := fun x hx => inv.el_ok x (List.mem_cons_of_mem _ hx)
        stay_ok := hs2
        stay_tuples := ?_
        room := Or.inr hroom
        move_ok := inv.move_ok
        move_link := inv.move_link
        move_tuples := by rw [hmv]; exact inv.move_tuples
        ml_nodes := inv.ml_nodes
        ml_len := ho.trans inv.ml_len
        ml_chain := ?_
        ml_ok := inv.ml_ok
        ml_full := inv.ml_full }
    · intro m hm1 hm2 hm3
      rw [hfr m (fun e1 => hm1 (e1 ▸ hn_mem))]
      exact inv.frame m hm1 hm2 hm3
    · rw [← hnodes]; simp
    · have := ChainW_replace r r1 n e { stay with ovflow := e.ovflow } rfl hat hfr fl (el1 ++ tl)
        hnot.1 hnot.2 hchain
      simpa [List.append_assoc] using this
    · intro x hx
      rcases List.mem_append.mp hx with h1 | h1
      · exact inv.fl_ok x h1
      · simp only [List.mem_singleton] at h1
        rw [h1]
        exact ⟨pageOK_setOvflow stay _ inv.stay_ok, hne⟩
    · rw [List.map_append, tuplesOfPages_append, hst, ← inv.stay_tuples]
      simp [tuplesOfPages, pageTuples_setOvflow]
    · apply ChainW_congr r r1 ml _ inv.ml_chain
      intro x hx
      apply hfr
      intro e1
      exact ml_node_not_mem ctx inv.ml_nodes x hx (e1 ▸ hn_mem)

theorem range'_map_snoc (s k : Nat) :
    (List.range' s (k + 1)).map (fun i => ((true, i) : Node)) =
      (List.range' s k).map (fun i => ((true, i) : Node)) ++ [(true, s + k)] := by
  rw [List.range'_concat]
  simp

/-- The full `move` buffer is written to the chain of the new bucket: to its primary page
when that is still empty, to a new overflow page at the end of the chain otherwise. -/
theorem move_flush {hash_any : CStr → Nat} {r0 : Reln} {newBid : Nat} {nodes : List Node}
    {seen : List CStr} {c : Nat} {fl el tl ml : List (Node × Page)} {r : Reln}
    {stay move : Page} (ctx : SplitCtx r0 newBid nodes)
    (inv : SplitInv hash_any r0 newBid nodes seen c fl el tl ml r stay move)
    (hne : move.ntuples ≠ 0)
    (seen2 : List CStr) (c2 : Nat) (move2 : Page) (hs2 : PageOK move2) (hl2 : move2.ovflow = none)
    (hc2 : c ≤ c2)
    (hmv : seen2.filter (movesAt hash_any r0) =
      seen.filter (movesAt hash_any r0) ++ pageTuples move2)
    (hst : seen2.filter (staysAt hash_any r0) = seen.filter (staysAt hash_any r0)) :
    ∃ r1 ml1, flushToBuck r newBid move = some r1 ∧
      SplitInv hash_any r0 newBid nodes seen2 c2 fl el tl ml1 r1 stay move2 := by
  have hroom : el ≠ [] ∨ stay.free ≤ c2 := by
    rcases inv.room with h | h
    · exact Or.inl h
    · exact Or.inr (by omega)
  obtain ⟨P, hP⟩ := head_of_map_fst ml (false, newBid) (by rw [inv.ml_nodes]; rfl)
  have hml_ne : ml ≠ [] := by intro e; rw [e] at hP; cases hP
  have hPat : pageAt r (false, newBid) = some P := by
    cases hl : ml with
    | nil => exact absurd hl hml_ne
    | cons z l =>
      have hc := inv.ml_chain
      rw [hl] at hP hc
      simp only [List.head?_cons, Option.some.injEq] at hP
      subst hP
      exact hc.1
  have hsp_frame : ∀ (r1 : Reln), (∀ m, m ∈ nodes → pageAt r1 m = pageAt r m) →
      ChainW r1 (fl ++ el ++ tl) := by
    intro r1 h
    apply ChainW_congr r r1 _ _ inv.chain
    intro x hx
    apply h
    rw [← inv.nodes_eq]
    exact List.mem_map.mpr ⟨x, hx, rfl⟩
  rcases inv.ml_full with hfull | hfull
  · -- the primary page of the new bucket is still empty
    have hPn : P = newPage := by
      rw [hfull] at hP
      simp only [List.head?_cons, Option.some.injEq, Prod.mk.injEq] at hP
      exact hP.2.symm
    subst hPn
    have hfl := flushLoop_fill r move [] (false, newBid) newPage [] (r.ovflow.length + 1)
      newPage newBid false (by rw [← hfull]; exact inv.ml_chain) (by simp) (by simp)
      (by simp [newPage]) (by simp)
    obtain ⟨r1, hput, hh, hd, ho, hat, hfr⟩ :=
      putPage_spec r (false, newBid) { move with ovflow := newPage.ovflow } newPage hPat
    refine ⟨r1, [((false, newBid), { move with ovflow := newPage.ovflow })], ?_, ?_⟩
    · unfold flushToBuck
      rw [getPage_eq_pageAt, hPat]
      simp only
      rw [hfl, hput]
    · refine
        { hdr := inv.hdr.trans hh
          dlen := hd.trans inv.dlen
          frame := ?_
          nodes_eq := inv.nodes_eq
          chain := ?_
          fl_ok := inv.fl_ok
          el_ok := inv.el_ok
          stay_ok := inv.stay_ok
          stay_tuples := by rw [hst]; exact inv.stay_tuples
          room := hroom
          move_ok := hs2
          move_link := hl2
          move_tuples := ?_
          ml_nodes := by simp
          ml_len := ?_
          ml_chain := ?_
          ml_ok := ?_
          ml_full := ?_ }
      · intro m hm1 hm2 hm3
        rw [hfr m hm2]
        exact inv.frame m hm1 hm2 hm3
      · apply hsp_frame
        intro m hm
        exact hfr m (fun e => ctx.fresh (e ▸ hm))
      · rw [hmv, ← inv.move_tuples, hfull]
        simp [tuplesOfPages, pageTuples_setOvflow, pageTuples_newPage]
      · have := inv.ml_len
        rw [hfull] at this
        simpa [ho] using this
      · rw [ChainW_cons]
        exact ⟨hat, by simp [newPage], by simp, trivial⟩
      · intro x hx
        simp only [List.mem_singleton] at hx
        rw [hx]
        exact pageOK_setOvflow move _ inv.move_ok
      · right
        intro x hx
        simp only [List.mem_singleton] at hx
        rw [hx]
        exact hne
  · -- every page of the chain holds tuples: a new overflow page
    obtain ⟨pre, ⟨n, q⟩, hml⟩ : ∃ pre x, ml = pre ++ [x] :=
      ⟨ml.dropLast, ml.getLast hml_ne, (List.dropLast_append_getLast hml_ne).symm⟩
    have hlen : ml.length = pre.length + 1 := by rw [hml]; simp
    have hLen := inv.ml_len
    have hnq_mem : (n, q) ∈ ml := by rw [hml]; simp
    have hq : pageAt r n = some q := ChainW_mem r ml inv.ml_chain (n, q) hnq_mem
    have hfl := flushLoop_append r move pre n q (r.ovflow.length + 1) P newBid false
      (by rw [← hml]; exact inv.ml_chain) (by rw [← hml]; exact hP)
      (by rw [← hml]; exact hfull) (by omega)
    have hnL : n ≠ (true, r.ovflow.length) := by
      rcases ml_node_cases inv.ml_nodes (n, q) hnq_mem with e | ⟨_, _, e3⟩
      · intro e1
        rw [e1] at e
        cases e
      · intro e1
        have : n.2 = r.ovflow.length := by rw [e1]
        simp only at e3
        omega
    obtain ⟨_, hh1, hd1, ho1, hat1, hfr1⟩ := addOvflowPage_spec r
    have hq1 : pageAt (addOvflowPage r).2 n = some q := by rw [hfr1 n hnL]; exact hq
    obtain ⟨r2, hput2, hh2, hd2, ho2, hat2, hfr2⟩ :=
      putPage_spec (addOvflowPage r).2 n { q with ovflow := some r.ovflow.length } q hq1
    have hL2 : pageAt r2 (true, r.ovflow.length) = some newPage := by
      rw [hfr2 _ (fun e => hnL e.symm)]; exact hat1
    obtain ⟨r3, hput3, hh3, hd3, ho3, hat3, hfr3⟩ :=
      putPage_spec r2 (true, r.ovflow.length) move newPage hL2
    have hframe : ∀ m, m ≠ n → m ≠ (true, r.ovflow.length) → pageAt r3 m = pageAt r m := by
      intro m h1 h2
      rw [hfr3 m h2, hfr2 m h1, hfr1 m h2]
    have hn3 : pageAt r3 n = some { q with ovflow := some r.ovflow.length } := by
      rw [hfr3 n hnL]; exact hat2
    have hmlnd : (ml.map Prod.fst).Nodup := by
      rw [inv.ml_nodes]
      apply List.nodup_cons.mpr
      constructor
      · simp
      · exact (List.nodup_range' _ _).map (fun a b h => by simpa using h)
    have hpre_nd : n ∉ pre.map Prod.fst ∧ (true, r.ovflow.length) ∉ pre.map Prod.fst := by
      rw [hml, List.map_append] at hmlnd
      have h1 := List.nodup_append.mp hmlnd
      constructor
      · intro hn
        exact h1.2.2 hn (by simp)
      · intro hn
        obtain ⟨x, hx, hxe⟩ := List.mem_map.mp hn
        have hxm : x ∈ ml := by rw [hml]; exact List.mem_append_left _ hx
        rcases ml_node_cases inv.ml_nodes x hxm with e | ⟨_, _, e3⟩
        · rw [hxe] at e; cases e
        · rw [hxe] at e3; simp only at e3; omega
    refine ⟨r3, pre ++ [(n, { q with ovflow := some r.ovflow.length }),
      ((true, r.ovflow.length), move)], ?_, ?_⟩
    · unfold flushToBuck
      rw [getPage_eq_pageAt, hPat]
      simp only
      rw [hfl, hput2]
      simp only
      exact hput3
    · refine
        { hdr := ((inv.hdr.trans hh1).trans hh2).trans hh3
          dlen := by rw [hd3, hd2, hd1]; exact inv.dlen
          frame := ?_
          nodes_eq := inv.nodes_eq
          chain := ?_
          fl_ok := inv.fl_ok
          el_ok := inv.el_ok
          stay_ok := inv.stay_ok
          stay_tuples := by rw [hst]; exact inv.stay_tuples
          room := hroom
          move_ok := hs2
          move_link := hl2
          move_tuples := ?_
          ml_nodes := ?_
          ml_len := ?_
          ml_chain := ?_
          ml_ok := ?_
          ml_full := ?_ }
      · intro m hm1 hm2 hm3
        have h1 : m ≠ n := by
          intro e
          rcases ml_node_cases inv.ml_nodes (n, q) hnq_mem with e1 | ⟨e1, e2, _⟩
          · exact hm2 (e.trans e1)
          · have := hm3 (by rw [e]; exact e1)
            rw [e] at this
            simp only at e2
            omega
        have h2 : m ≠ (true, r.ovflow.length) := by
          intro e
          have := hm3 (by rw [e])
          rw [e] at this
          simp only at this
          omega
        rw [hframe m h1 h2]
        exact inv.frame m hm1 hm2 hm3
      · apply hsp_frame
        intro m hm
        apply hframe
        · intro e
          exact ml_node_not_mem ctx inv.ml_nodes (n, q) hnq_mem (e ▸ hm)
        · intro e
          have := ctx.inrange m hm (by rw [e])
          rw [e] at this
          simp only at this
          omega
      · rw [hmv, ← inv.move_tuples, hml]
        simp [tuplesOfPages_append, tuplesOfPages, pageTuples_setOvflow]
      · have h0 := inv.ml_nodes
        rw [hml] at h0
        simp only [List.map_append, List.map_cons, List.map_nil, List.length_append,
          List.length_cons, List.length_nil] at h0 ⊢
        have e1 : pre.length + (0 + 1 + 1) - 1 = pre.length + 1 := by omega
        have e2 : pre.length + (0 + 1) - 1 = pre.length := by omega
        rw [e1, range'_map_snoc]
        rw [e2] at h0
        have e3 : r.ovflow.length = r0.ovflow.length + pre.length := by omega
        rw [← List.cons_append, ← h0, e3]
        simp
      · rw [ho3, ho2, ho1]
        simp only [List.length_append, List.length_cons, List.length_nil]
        omega
      · exact ChainW_snoc r r3 n q move r.ovflow.length hn3 hat3 inv.move_link hframe pre
          hpre_nd.1 hpre_nd.2 (by rw [← hml]; exact inv.ml_chain)
      · intro x hx
        rcases List.mem_append.mp hx with h1 | h1
        · exact inv.ml_ok x (by rw [hml]; exact List.mem_append_left _ h1)
        · simp only [List.mem_cons, List.mem_singleton, List.not_mem_nil, or_false] at h1
          rcases h1 with h1 | h1
          · rw [h1]; exact pageOK_setOvflow q _ (inv.ml_ok (n, q) hnq_mem)
          · rw [h1]; exact inv.move_ok
      · right
        intro x hx
        rcases List.mem_append.mp hx with h1 | h1
        · exact hfull x (by rw [hml]; exact List.mem_append_left _ h1)
        · simp only [List.mem_cons, List.mem_singleton, List.not_mem_nil, or_false] at h1
          rcases h1 with h1 | h1
          · rw [h1]; exact hfull (n, q) hnq_mem
          · rw [h1]; exact hne

/-! ## lh_split: the loops -/

/-- The buffers change, the files do not. -/
theorem SplitInv.rebuffer {hash_any : CStr → Nat} {r0 : Reln} {newBid : Nat}
    {nodes : List Node} {seen : List CStr} {c : Nat} {fl el tl ml : List (Node × Page)}
    {r : Reln} {stay move : Page}
    (inv : SplitInv hash_any r0 newBid nodes seen c fl el tl ml r stay move)
    (seen2 : List CStr) (c2 : Nat) (stay2 move2 : Page)
    (h1 : PageOK stay2)
    (h2 : tuplesOfPages (fl.map Prod.snd) ++ pageTuples stay2 =
      seen2.filter (staysAt hash_any r0))
    (h3 : el ≠ [] ∨ stay2.free ≤ c2)
    (h4 : PageOK move2) (h5 : move2.ovflow = none)
    (h6 : tuplesOfPages (ml.map Prod.snd) ++ pageTuples move2 =
      seen2.filter (movesAt hash_any r0)) :
    SplitInv hash_any r0 newBid nodes seen2 c2 fl el tl ml r stay2 move2 :=
  { hdr := inv.hdr
    dlen := inv.dlen
    frame := inv.frame
    nodes_eq := inv.nodes_eq
    chain := inv.chain
    fl_ok := inv.fl_ok
    el_ok := inv.el_ok
    stay_ok := h1
    stay_tuples := h2
    room := h3
    move_ok := h4
    move_link := h5
    move_tuples := h6
    ml_nodes := inv.ml_nodes
    ml_len := inv.ml_len
    ml_chain := inv.ml_chain
    ml_ok := inv.ml_ok
    ml_full := inv.ml_full }

/-- One tuple of the split bucket goes to its buffer. -/
theorem splitTuple_step {hash_any : CStr → Nat} {r0 : Reln} {newBid : Nat} {nodes : List Node}
    {seen : List CStr} {c : Nat} {fl el tl ml : List (Node × Page)} {r : Reln}
    {stay move : Page} (ctx : SplitCtx r0 newBid nodes)
    (inv : SplitInv hash_any r0 newBid nodes seen c fl el tl ml r stay move)
    (t : CStr) (ht0 : '\x00' ∉ t) (hv : Nat)
    (hth : tupleHash hash_any r0.nattrs r0.cv t = some hv)
    (hfit : c + (t.length + 1) ≤ dataSize) :
    ∃ r1 stay1 move1 fl1 el1 ml1,
      splitTuple hash_any newBid t r stay move = some (r1, stay1, move1) ∧
      SplitInv hash_any r0 newBid nodes (seen ++ [t]) (c + (t.length + 1)) fl1 el1 tl ml1 r1
        stay1 move1 := by
  obtain ⟨hna, hdp, hsp, _, _, hcv, _⟩ := inv.hdr
  unfold splitTuple
  rw [hna, hcv, hth]
  simp only
  rw [hdp, hsp]
  by_cases hb : bitIsSet hv r0.depth = false
  · have hs : staysAt hash_any r0 t = true := by simp [staysAt, hth, hb]
    have hm : movesAt hash_any r0 t = false := by simp [movesAt, hth, hb]
    rw [if_pos hb]
    cases hadd : addToPage stay t with
    | some stay1 =>
      obtain ⟨a1, a2, _, a4, _⟩ := addToPage_some stay stay1 t inv.stay_ok ht0 hadd
      refine ⟨r, stay1, move, fl, el, ml, rfl, ?_⟩
      apply inv.rebuffer _ _ _ _ a1 _ _ inv.move_ok inv.move_link
      · rw [filter_snoc_neg _ _ _ hm]; exact inv.move_tuples
      · rw [filter_snoc_pos _ _ _ hs, a2, ← List.append_assoc, inv.stay_tuples]
      · rcases inv.room with h | h
        · exact Or.inl h
        · right; rw [a4]; omega
    | none =>
      have hbig := addToPage_none stay t hadd
      have hel : el ≠ [] := by
        rcases inv.room with h | h
        · exact h
        · omega
      have hne : stay.ntuples ≠ 0 := pageOK_ntuples_ne stay inv.stay_ok (by omega)
      obtain ⟨b1, b2, _, b4⟩ := newBuffer_spec t ht0 (by omega)
      obtain ⟨r1, fl1, el1, hfl, inv1⟩ := stay_flush ctx inv hel hne (seen ++ [t])
        (c + (t.length + 1)) ((addToPage newPage t).getD newPage) b1 (by rw [b4]; omega)
        (by rw [filter_snoc_pos _ _ _ hs, b2]) (filter_snoc_neg _ _ _ hm)
      refine ⟨r1, _, move, fl1, el1, ml, ?_, inv1⟩
      simp only
      rw [hfl]
  · have hb1 : bitIsSet hv r0.depth = true := by simpa using hb
    have hs : staysAt hash_any r0 t = false := by simp [staysAt, hth, hb1]
    have hm : movesAt hash_any r0 t = true := by simp [movesAt, hth, hb1]
    rw [if_neg hb]
    cases hadd : addToPage move t with
    | some move1 =>
      obtain ⟨a1, a2, a3, _, _⟩ := addToPage_some move move1 t inv.move_ok ht0 hadd
      refine ⟨r, stay, move1, fl, el, ml, rfl, ?_⟩
      apply inv.rebuffer _ _ _ _ inv.stay_ok _ _ a1 (a3.trans inv.move_link)
      · rw [filter_snoc_pos _ _ _ hm, a2, ← List.append_assoc, inv.move_tuples]
      · rw [filter_snoc_neg _ _ _ hs]; exact inv.stay_tuples
      · rcases inv.room with h | h
        · exact Or.inl h
        · right; omega
    | none =>
      have hbig := addToPage_none move t hadd
      have hne : move.ntuples ≠ 0 := pageOK_ntuples_ne move inv.move_ok (by omega)
      obtain ⟨b1, b2, b3, _⟩ := newBuffer_spec t ht0 (by omega)
      obtain ⟨r1, ml1, hfl, inv1⟩ := move_flush ctx inv hne (seen ++ [t])
        (c + (t.length + 1)) ((addToPage newPage t).getD newPage) b1 b3 (by omega)
        (by rw [filter_snoc_pos _ _ _ hm, b2]) (filter_snoc_neg _ _ _ hs)
      refine ⟨r1, stay, _, fl, el, ml1, ?_, inv1⟩
      simp only
      rw [hfl]

/-- The tuples of one page of the split bucket go to their buffers. -/
theorem splitTuples_inv {hash_any : CStr → Nat} {r0 : Reln} {newBid : Nat} {nodes : List Node}
    {tl : List (Node × Page)} (ctx : SplitCtx r0 newBid nodes) :
    ∀ (ts : List CStr) (seen : List CStr) (c : Nat) (fl el ml : List (Node × Page)) (r : Reln)
      (stay move : Page),
      SplitInv hash_any r0 newBid nodes seen c fl el tl ml r stay move →
      (∀ t ∈ ts, '\x00' ∉ t ∧ ∃ hv, tupleHash hash_any r0.nattrs r0.cv t = some hv) →
      c + (encode ts).length ≤ dataSize →
      ∃ r1 stay1 move1 fl1 el1 ml1,
        splitTuples hash_any newBid ts r stay move = some (r1, stay1, move1) ∧
        SplitInv hash_any r0 newBid nodes (seen ++ ts) (c + (encode ts).length) fl1 el1 tl ml1
          r1 stay1 move1 := by
  intro ts
  induction ts with
  | nil =>
    intro seen c fl el ml r stay move inv _ _
    refine ⟨r, stay, move, fl, el, ml, rfl, ?_⟩
    simpa [encode] using inv
  | cons t ts ih =>
    intro seen c fl el ml r stay move inv hts hfit
    obtain ⟨ht0, hv, hth⟩ := hts t (List.mem_cons_self _ _)
    simp only [encode, List.length_append, List.length_cons] at hfit
    obtain ⟨r1, stay1, move1, fl1, el1, ml1, hstep, inv1⟩ :=
      splitTuple_step ctx inv t ht0 hv hth (by omega)
    obtain ⟨r2, stay2, move2, fl2, el2, ml2, hrest, inv2⟩ :=
      ih (seen ++ [t]) (c + (t.length + 1)) fl1 el1 ml1 r1 stay1 move1 inv1
        (fun x hx => hts x (List.mem_cons_of_mem _ hx)) (by omega)
    refine ⟨r2, stay2, move2, fl2, el2, ml2, ?_, ?_⟩
    · simp only [splitTuples, hstep, hrest]
    · have e1 : seen ++ t :: ts = seen ++ [t] ++ ts := by simp
      have e2 : c + (encode (t :: ts)).length = c + (t.length + 1) + (encode ts).length := by
        simp only [encode, List.length_append, List.length_cons]; omega
      rw [e1, e2]
      exact inv2

theorem ChainW_mid (r : Reln) (n : Node) (p : Page) :
    ∀ (a b : List (Node × Page)), ChainW r (a ++ (n, p) :: b) →
      p.ovflow = b.head?.map (fun x => x.1.2) ∧ (∀ x, b.head? = some x → x.1.1 = true) := by
  intro a
  induction a with
  | nil =>
    intro b h
    rw [List.nil_append, ChainW_cons] at h
    exact ⟨h.2.1, h.2.2.1⟩
  | cons x a ih =>
    intro b h
    obtain ⟨m, q⟩ := x
    rw [List.cons_append, ChainW_cons] at h
    exact ih b h.2.2.2

/-- The page in hand is emptied and written back. -/
theorem clear_step {hash_any : CStr → Nat} {r0 : Reln} {newBid : Nat} {nodes : List Node}
    {seen : List CStr} {c : Nat} {fl el tl ml : List (Node × Page)} {r : Reln}
    {stay move : Page} {n : Node} {p : Page} (ctx : SplitCtx r0 newBid nodes)
    (inv : SplitInv hash_any r0 newBid nodes seen c fl el ((n, p) :: tl) ml r stay move)
    (hp : PageOK p) :
    ∃ r1, putPage r n.1 n.2 (clearPage p) = some r1 ∧
      SplitInv hash_any r0 newBid nodes seen 0 fl (el ++ [(n, clearPage p)]) tl ml r1 stay
        move := by
  have hchain : ChainW r ((fl ++ el) ++ (n, p) :: tl) := inv.chain
  have hnodes : ((fl ++ el) ++ (n, p) :: tl).map Prod.fst = nodes := inv.nodes_eq
  have hnd : (((fl ++ el) ++ (n, p) :: tl).map Prod.fst).Nodup := by
    rw [hnodes]; exact ctx.nodup
  have hn_mem : n ∈ nodes := by rw [← hnodes]; simp
  have hpe : pageAt r n = some p := ChainW_mem r _ hchain (n, p) (by simp)
  obtain ⟨r1, hput, hh, hd, ho, hat, hfr⟩ := putPage_spec r n (clearPage p) p hpe
  have hnot : n ∉ (fl ++ el).map Prod.fst ∧ n ∉ tl.map Prod.fst := by
    rw [List.map_append, List.map_cons] at hnd
    have h1 := List.nodup_append.mp hnd
    constructor
    · intro hn
      exact h1.2.2 hn (List.mem_cons_self _ _)
    · exact (List.nodup_cons.mp h1.2.1).1
  refine ⟨r1, hput, ?_⟩
  refine
    { hdr := inv.hdr.trans hh
      dlen := hd.trans inv.dlen
      frame := ?_
      nodes_eq := ?_
      chain := ?_
      fl_ok := inv.fl_ok
      el_ok := ?_
      stay_ok := inv.stay_ok
      stay_tuples := inv.stay_tuples
      room := Or.inl (by simp)
      move_ok := inv.move_ok
      move_link := inv.move_link
      move_tuples := inv.move_tuples
      ml_nodes := inv.ml_nodes
      ml_len := ho.trans inv.ml_len
      ml_chain := ?_
      ml_ok := inv.ml_ok
      ml_full := inv.ml_full }
  · intro m hm1 hm2 hm3
    rw [hfr m (fun e1 => hm1 (e1 ▸ hn_mem))]
    exact inv.frame m hm1 hm2 hm3
  · rw [← hnodes]; simp
  · have := ChainW_replace r r1 n p (clearPage p) rfl hat hfr (fl ++ el) tl hnot.1 hnot.2 hchain
    simpa [List.append_assoc] using this
  · intro x hx
    rcases List.mem_append.mp hx with h1 | h1
    · exact inv.el_ok x h1
    · simp only [List.mem_singleton] at h1
      rw [h1]
      exact ⟨rfl, clearPage_tuples p, pageOK_clearPage p hp⟩
  · apply ChainW_congr r r1 ml _ inv.ml_chain
    intro x hx
    apply hfr
    intro e1
    exact ml_node_not_mem ctx inv.ml_nodes x hx (e1 ▸ hn_mem)

/-- The loop of `lh_split` over the pages of the split bucket, when every tuple of these
pages fits the buffer `tup` with its terminator. -/
theorem splitLoop_inv {hash_any : CStr → Nat} {r0 : Reln} {newBid : Nat} {nodes : List Node}
    (ctx : SplitCtx r0 newBid nodes) :
    ∀ (tl : List (Node × Page)) (n : Node) (p : Page) (fuel : Nat) (seen : List CStr)
      (fl el ml : List (Node × Page)) (r : Reln) (stay move : Page),
      SplitInv hash_any r0 newBid nodes seen 0 fl el ((n, p) :: tl) ml r stay move →
      (∀ x ∈ (n, p) :: tl, PageOK x.2 ∧
        ∀ t ∈ pageTuples x.2, ∃ hv, tupleHash hash_any r0.nattrs r0.cv t = some hv) →
      (∀ x ∈ (n, p) :: tl, ∀ t ∈ pageTuples x.2, t.length + 1 ≤ MAXTUPLEN) →
      tl.length < fuel →
      ∃ r1 stay1 move1 fl1 el1 ml1,
        splitLoop hash_any newBid fuel r n.2 n.1 stay move = some (r1, stay1, move1) ∧
        el1 ≠ [] ∧
        SplitInv hash_any r0 newBid nodes (seen ++ tuplesOfPages (p :: tl.map Prod.snd)) 0 fl1
          el1 [] ml1 r1 stay1 move1 := by
  intro tl
  induction tl with
  | nil =>
    intro n p fuel seen fl el ml r stay move inv hok hshort hfuel
    obtain ⟨hpok, hph⟩ := hok (n, p) (List.mem_cons_self _ _)
    have hps := hshort (n, p) (List.mem_cons_self _ _)
    have hpe : pageAt r n = some p := ChainW_mem r _ inv.chain (n, p) (by simp)
    obtain ⟨r1, stay1, move1, fl1, el1, ml1, hscan, inv1⟩ :=
      splitTuples_inv ctx (pageTuples p) seen 0 fl el ml r stay move inv
        (fun t ht => ⟨pageTuples_nulFree p t ht, hph t ht⟩)
        (by rw [← hpok.free_eq]; have := hpok.fits; omega)
    obtain ⟨r2, hput, inv2⟩ := clear_step ctx inv1 hpok
    have hlink := (ChainW_mid r n p (fl ++ el) [] inv.chain).1
    simp only [List.head?_nil, Option.map_none'] at hlink
    cases fuel with
    | zero => omega
    | succ fuel =>
      refine ⟨r2, stay1, move1, fl1, el1 ++ [(n, clearPage p)], ml1, ?_, by simp, ?_⟩
      · unfold splitLoop
        rw [getPage_eq_pageAt, hpe]
        simp only
        rw [splitScan_eq_splitTuples _ _ _ _ _ _ _ hps]
        have : splitNul (List.take p.free p.data) [] = pageTuples p := rfl
        rw [this, hscan]
        simp only
        rw [hput]
        simp only
        rw [hlink]
      · simpa [tuplesOfPages] using inv2
  | cons y tl ih =>
    intro n p fuel seen fl el ml r stay move inv hok hshort hfuel
    obtain ⟨m, q⟩ := y
    obtain ⟨hpok, hph⟩ := hok (n, p) (List.mem_cons_self _ _)
    have hps := hshort (n, p) (List.mem_cons_self _ _)
    have hpe : pageAt r n = some p := ChainW_mem r _ inv.chain (n, p) (by simp)
    obtain ⟨r1, stay1, move1, fl1, el1, ml1, hscan, inv1⟩ :=
      splitTuples_inv ctx (pageTuples p) seen 0 fl el ml r stay move inv
        (fun t ht => ⟨pageTuples_nulFree p t ht, hph t ht⟩)
        (by rw [← hpok.free_eq]; have := hpok.fits; omega)
    obtain ⟨r2, hput, inv2⟩ := clear_step ctx inv1 hpok
    obtain ⟨hlink, hovf⟩ := ChainW_mid r n p (fl ++ el) ((m, q) :: tl) inv.chain
    simp only [List.head?_cons, Option.map_some'] at hlink
    have hm1 : m.1 = true := hovf (m, q) rfl
    cases fuel with
    | zero => simp at hfuel
    | succ fuel =>
      obtain ⟨r3, stay3, move3, fl3, el3, ml3, hloop, hel3, inv3⟩ :=
        ih m q fuel (seen ++ pageTuples p) fl1 (el1 ++ [(n, clearPage p)]) ml1 r2 stay1 move1
          inv2 (fun x hx => hok x (List.mem_cons_of_mem _ hx))
          (fun x hx => hshort x (List.mem_cons_of_mem _ hx)) (by simp at hfuel; omega)
      refine ⟨r3, stay3, move3, fl3, el3, ml3, ?_, hel3, ?_⟩
      · unfold splitLoop
        rw [getPage_eq_pageAt, hpe]
        simp only
        rw [splitScan_eq_splitTuples _ _ _ _ _ _ _ hps]
        have : splitNul (List.take p.free p.data) [] = pageTuples p := rfl
        rw [this, hscan]
        simp only
        rw [hput]
        simp only
        rw [hlink]
        simp only
        rw [← hm1]
        exact hloop
      · simpa [tuplesOfPages, List.append_assoc] using inv3

/-- When the loop of `lh_split` over the pages of the split bucket returns, every tuple of
these pages fits the buffer `tup` with its terminator. -/
theorem splitLoop_short {hash_any : CStr → Nat} {r0 : Reln} {newBid : Nat} {nodes : List Node}
    (ctx : SplitCtx r0 newBid nodes) :
    ∀ (tl : List (Node × Page)) (n : Node) (p : Page) (fuel : Nat) (seen : List CStr)
      (fl el ml : List (Node × Page)) (r : Reln) (stay move : Page)
      (res : Reln × Page × Page),
      SplitInv hash_any r0 newBid nodes seen 0 fl el ((n, p) :: tl) ml r stay move →
      (∀ x ∈ (n, p) :: tl, PageOK x.2 ∧
        ∀ t ∈ pageTuples x.2, ∃ hv, tupleHash hash_any r0.nattrs r0.cv t = some hv) →
      splitLoop hash_any newBid fuel r n.2 n.1 stay move = some res →
      ∀ x ∈ (n, p) :: tl, ∀ t ∈ pageTuples x.2, t.length + 1 ≤ MAXTUPLEN := by
  intro tl
  induction tl with
  | nil =>
    intro n p fuel seen fl el ml r stay move res inv hok h x hx
    rw [List.mem_singleton] at hx
    rw [hx]
    have hpe : pageAt r n = some p := ChainW_mem r _ inv.chain (n, p) (by simp)
    cases fuel with
    | zero => simp [splitLoop] at h
    | succ fuel =>
      unfold splitLoop at h
      rw [getPage_eq_pageAt, hpe] at h
      simp only at h
      cases hsc : splitScan hash_any newBid (p.data.take p.free) [] r stay move with
      | none => rw [hsc] at h; cases h
      | some y => exact splitScan_short hash_any newBid _ _ _ _ _ y hsc
  | cons y tl ih =>
    intro n p fuel seen fl el ml r stay move res inv hok h
    obtain ⟨m, q⟩ := y
    obtain ⟨hpok, hph⟩ := hok (n, p) (List.mem_cons_self _ _)
    have hpe : pageAt r n = some p := ChainW_mem r _ inv.chain (n, p) (by simp)
    cases fuel with
    | zero => simp [splitLoop] at h
    | succ fuel =>
      unfold splitLoop at h
      rw [getPage_eq_pageAt, hpe] at h
      simp only at h
      cases hsc : splitScan hash_any newBid (p.data.take p.free) [] r stay move with
      | none => rw [hsc] at h; cases h
      | some y =>
        have hps : ∀ t ∈ pageTuples p, t.length + 1 ≤ MAXTUPLEN :=
          splitScan_short hash_any newBid _ _ _ _ _ y hsc
        obtain ⟨r1, stay1, move1, fl1, el1, ml1, hscan, inv1⟩ :=
          splitTuples_inv ctx (pageTuples p) seen 0 fl el ml r stay move inv
            (fun t ht => ⟨pageTuples_nulFree p t ht, hph t ht⟩)
            (by rw [← hpok.free_eq]; have := hpok.fits; omega)
        obtain ⟨r2, hput, inv2⟩ := clear_step ctx inv1 hpok
        obtain ⟨hlink, hovf⟩ := ChainW_mid r n p (fl ++ el) ((m, q) :: tl) inv.chain
        simp only [List.head?_cons, Option.map_some'] at hlink
        have hm1 : m.1 = true := hovf (m, q) rfl
        rw [splitScan_eq_splitTuples _ _ _ _ _ _ _ hps] at h
        have : splitNul (List.take p.free p.data) [] = pageTuples p := rfl
        rw [this, hscan] at h
        simp only at h
        rw [hput] at h
        simp only at h
        rw [hlink] at h
        simp only at h
        rw [← hm1] at h
        have hrest := ih m q fuel (seen ++ pageTuples p) fl1 (el1 ++ [(n, clearPage p)]) ml1 r2
          stay1 move1 res inv2 (fun x hx => hok x (List.mem_cons_of_mem _ hx)) h
        intro x hx
        rcases List.mem_cons.mp hx with e | e
        · rw [e]; exact hps
        · exact hrest x e

/-! ## lh_split -/

theorem layout_cons {r : Reln} {ch : Nat → List (Node × Page)} (lay : Layout r ch) (b : Nat)
    (hb : b < r.npages) : ∃ p rest, ch b = ((false, b), p) :: rest := by
  obtain ⟨p, hp⟩ := head_of_map_fst (ch b) (false, b) (lay.head b hb)
  cases h : ch b with
  | nil => rw [h] at hp; cases hp
  | cons x rest =>
    rw [h] at hp
    simp only [List.head?_cons, Option.some.injEq] at hp
    exact ⟨p, rest, by rw [hp]⟩

theorem layout_node_cases {r : Reln} {ch : Nat → List (Node × Page)} (lay : Layout r ch)
    (b : Nat) (hb : b < r.npages) (n : Node) (hn : n ∈ (ch b).map Prod.fst) :
    n = (false, b) ∨ (n.1 = true ∧ n.2 < r.ovflow.length) := by
  obtain ⟨p, rest, hc⟩ := layout_cons lay b hb
  have hch := lay.chain b hb
  rw [hc] at hn hch
  simp only [List.map_cons, List.mem_cons] at hn
  rcases hn with e | e
  · exact Or.inl e
  · obtain ⟨x, hx, hxe⟩ := List.mem_map.mp e
    have := ChainW_head_lt r _ _ rest hch x hx
    rw [hxe] at this
    exact Or.inr this

theorem tuplesOfPages_empty (el : List (Node × Page)) (h : ∀ x ∈ el, pageTuples x.2 = []) :
    tuplesOfPages (el.map Prod.snd) = [] := by
  induction el with
  | nil => rfl
  | cons x el ih =>
    simp only [List.map_cons, tuplesOfPages]
    rw [h x (List.mem_cons_self _ _), ih (fun y hy => h y (List.mem_cons_of_mem _ hy))]
    rfl

theorem staysAt_congr (hash_any : CStr → Nat) (r r1 : Reln) (h1 : r1.nattrs = r.nattrs)
    (h2 : r1.cv = r.cv) (h3 : r1.depth = r.depth) :
    staysAt hash_any r1 = staysAt hash_any r := by
  funext t
  unfold staysAt
  rw [h1, h2, h3]

theorem movesAt_congr (hash_any : CStr → Nat) (r r1 : Reln) (h1 : r1.nattrs = r.nattrs)
    (h2 : r1.cv = r.cv) (h3 : r1.depth = r.depth) :
    movesAt hash_any r1 = movesAt hash_any r := by
  funext t
  unfold movesAt
  rw [h1, h2, h3]

/-- The state `lh_split` starts from, after `addPage(r->data)` and `r->npages += 1`. -/
theorem split_init (hash_any : CStr → Nat) (r : Reln) (ch : Nat → List (Node × Page))
    (lay : Layout r ch) (hsp : r.sp < r.npages) :
    SplitCtx { r with data := r.data ++ [newPage], npages := r.npages + 1 } r.data.length
        ((ch r.sp).map Prod.fst) ∧
      SplitInv hash_any { r with data := r.data ++ [newPage], npages := r.npages + 1 }
        r.data.length ((ch r.sp).map Prod.fst) [] 0 [] [] (ch r.sp)
        [((false, r.data.length), newPage)]
        { r with data := r.data ++ [newPage], npages := r.npages + 1 } newPage newPage := by
  have hdl := lay.data_len
  have hold : ∀ n : Node, (n.1 = false → n.2 < r.data.length) →
      pageAt { r with data := r.data ++ [newPage], npages := r.npages + 1 } n = pageAt r n := by
    intro n hn
    obtain ⟨b, i⟩ := n
    cases b with
    | true => rfl
    | false =>
      simp only [pageAt, getPage]
      exact List.getElem?_append_left (hn rfl)
  constructor
  · refine ⟨lay.nodup _ hsp, lay.head _ hsp, ?_, ?_⟩
    · intro hn
      rcases layout_node_cases lay _ hsp _ hn with e | ⟨e, _⟩
      · simp only [Prod.mk.injEq, true_and] at e
        omega
      · cases e
    · intro n hn h1
      rcases layout_node_cases lay _ hsp _ hn with e | ⟨_, e⟩
      · rw [e] at h1; cases h1
      · exact e
  · refine
      { hdr := SameHdr.refl _
        dlen := rfl
        frame := fun _ _ _ _ => rfl
        nodes_eq := by simp
        chain := ?_
        fl_ok := fun x hx => by cases hx
        el_ok := fun x hx => by cases hx
        stay_ok := pageOK_newPage
        stay_tuples := by simp [tuplesOfPages, pageTuples_newPage]
        room := Or.inr (by simp [newPage])
        move_ok := pageOK_newPage
        move_link := rfl
        move_tuples := by simp [tuplesOfPages, pageTuples_newPage]
        ml_nodes := by simp
        ml_len := by simp
        ml_chain := ?_
        ml_ok := ?_
        ml_full := Or.inl rfl }
    · simp only [List.nil_append]
      apply ChainW_congr r _ _ _ (lay.chain _ hsp)
      intro x hx
      apply hold
      intro hf
      rcases layout_node_cases lay _ hsp x.1 (List.mem_map.mpr ⟨x, hx, rfl⟩) with e | ⟨e, _⟩
      · rw [e]; simp only; omega
      · rw [hf] at e; cases e
    · rw [ChainW_cons]
      refine ⟨?_, rfl, by simp, trivial⟩
      simp [pageAt, getPage]
    · intro x hx
      simp only [List.mem_singleton] at hx
      rw [hx]
      exact pageOK_newPage

/-- The last two steps of `lh_split`: what is left in the buffers is flushed. -/
theorem split_final {hash_any : CStr → Nat} {r0 : Reln} {newBid : Nat} {nodes : List Node}
    {seen : List CStr} {fl el ml : List (Node × Page)} {r : Reln} {stay move : Page}
    (ctx : SplitCtx r0 newBid nodes)
    (inv : SplitInv hash_any r0 newBid nodes seen 0 fl el [] ml r stay move) (hel : el ≠ []) :
    ∃ r2 r3 fl2 el2 ml3,
      (if stay.ntuples > 0 then flushToBuck r r0.sp stay else some r) = some r2 ∧
      (if move.ntuples > 0 then flushToBuck r2 newBid move else some r2) = some r3 ∧
      SplitInv hash_any r0 newBid nodes seen 0 fl2 el2 [] ml3 r3 newPage newPage := by
  have hnp : newPage.free ≤ 0 := by simp [newPage]
  have h1 : ∃ r2 fl2 el2,
      (if stay.ntuples > 0 then flushToBuck r r0.sp stay else some r) = some r2 ∧
      SplitInv hash_any r0 newBid nodes seen 0 fl2 el2 [] ml r2 newPage move := by
    by_cases hs : stay.ntuples > 0
    · rw [if_pos hs]
      exact stay_flush ctx inv hel (by omega) seen 0 newPage pageOK_newPage hnp
        (by simp [pageTuples_newPage]) rfl
    · rw [if_neg hs]
      refine ⟨r, fl, el, rfl, ?_⟩
      have hz := (pageOK_ntuples_zero stay inv.stay_ok (by omega)).1
      apply inv.rebuffer seen 0 newPage move pageOK_newPage _ (Or.inl hel) inv.move_ok
        inv.move_link inv.move_tuples
      rw [pageTuples_newPage, ← inv.stay_tuples, hz]
  obtain ⟨r2, fl2, el2, hf2, inv2⟩ := h1
  have h2 : ∃ r3 ml3,
      (if move.ntuples > 0 then flushToBuck r2 newBid move else some r2) = some r3 ∧
      SplitInv hash_any r0 newBid nodes seen 0 fl2 el2 [] ml3 r3 newPage newPage := by
    by_cases hs : move.ntuples > 0
    · rw [if_pos hs]
      exact move_flush ctx inv2 (by omega) seen 0 newPage pageOK_newPage rfl (le_refl _)
        (by simp [pageTuples_newPage]) rfl
    · rw [if_neg hs]
      refine ⟨r2, ml, rfl, ?_⟩
      have hz := (pageOK_ntuples_zero move inv2.move_ok (by omega)).1
      apply inv2.rebuffer seen 0 newPage newPage pageOK_newPage inv2.stay_tuples inv2.room
        pageOK_newPage rfl
      rw [pageTuples_newPage, ← inv2.move_tuples, hz]
  obtain ⟨r3, ml3, hf3, inv3⟩ := h2
  exact ⟨r2, r3, fl2, el2, ml3, hf2, hf3, inv3⟩

/-- When `lh_split` returns on a well-formed relation, every tuple of the split bucket fits
the buffer `tup` with its terminator. -/
theorem lh_split_short (hash_any : CStr → Nat) (r r1 : Reln) (ch : Nat → List (Node × Page))
    (lay : Layout r ch) (hsp : r.sp < r.npages)
    (hhash : ∀ x ∈ ch r.sp, ∀ t ∈ pageTuples x.2,
      ∃ hv, tupleHash hash_any r.nattrs r.cv t = some hv)
    (h : lh_split hash_any r = some r1) :
    ∀ x ∈ ch r.sp, ∀ t ∈ pageTuples x.2, t.length + 1 ≤ MAXTUPLEN := by
  obtain ⟨ctx, inv0⟩ := split_init hash_any r ch lay hsp
  obtain ⟨p, tl, hc⟩ := layout_cons lay r.sp hsp
  rw [hc] at inv0 ctx ⊢
  unfold lh_split at h
  simp only at h
  cases hl : splitLoop hash_any r.data.length (r.ovflow.length + 1)
      { r with data := r.data ++ [newPage], npages := r.npages + 1 } r.sp false newPage
      newPage with
  | none => rw [hl] at h; cases h
  | some res =>
    exact splitLoop_short ctx tl (false, r.sp) p (r.ovflow.length + 1) [] [] [] _ _ newPage
      newPage res inv0
      (by
        intro x hx
        rw [← hc] at hx
        exact ⟨lay.ok r.sp hsp x hx, hhash x hx⟩)
      hl

/-- The function `lh_split` on a well-formed relation in which every tuple of the split
bucket fits the buffer `tup`: it returns, the header changes in `npages` only, the result
is well formed, the split bucket keeps the tuples with bit `depth` of the hash 0 and the
new bucket gets those with bit `depth` 1, both in their old order, and no other chain
changes. -/
theorem lh_split_layout (hash_any : CStr → Nat) (r : Reln) (ch : Nat → List (Node × Page))
    (lay : Layout r ch) (hsp : r.sp < r.npages)
    (hhash : ∀ x ∈ ch r.sp, ∀ t ∈ pageTuples x.2,
      ∃ hv, tupleHash hash_any r.nattrs r.cv t = some hv)
    (hshort : ∀ x ∈ ch r.sp, ∀ t ∈ pageTuples x.2, t.length + 1 ≤ MAXTUPLEN) :
    ∃ r1 spc nbc, lh_split hash_any r = some r1 ∧
      r1.nattrs = r.nattrs ∧ r1.depth = r.depth ∧ r1.sp = r.sp ∧ r1.npages = r.npages + 1 ∧
      r1.ntups = r.ntups ∧ r1.cv = r.cv ∧ r1.mode = r.mode ∧
      r.ovflow.length ≤ r1.ovflow.length ∧
      Layout r1 (splitChains ch r.sp r.npages spc nbc) ∧
      tuplesOfPages (spc.map Prod.snd) =
        (tuplesOfPages ((ch r.sp).map Prod.snd)).filter (staysAt hash_any r) ∧
      tuplesOfPages (nbc.map Prod.snd) =
        (tuplesOfPages ((ch r.sp).map Prod.snd)).filter (movesAt hash_any r) := by
  obtain ⟨ctx, inv0⟩ := split_init hash_any r ch lay hsp
  obtain ⟨p, tl, hc⟩ := layout_cons lay r.sp hsp
  have hdl := lay.data_len
  rw [hc] at inv0 ctx
  have hfuel : tl.length < r.ovflow.length + 1 := by
    have h1 := lay.chain r.sp hsp
    have h2 := lay.nodup r.sp hsp
    rw [hc] at h1 h2
    have := chain_length_le r _ _ tl h1 (List.nodup_cons.mp h2).2
    omega
  obtain ⟨r1, stay1, move1, fl1, el1, ml1, hloop, hel1, inv1⟩ :=
    splitLoop_inv ctx tl (false, r.sp) p (r.ovflow.length + 1) [] [] [] _ _ newPage newPage inv0
      (by
        intro x hx
        rw [← hc] at hx
        exact ⟨lay.ok r.sp hsp x hx, hhash x hx⟩)
      (by
        intro x hx
        rw [← hc] at hx
        exact hshort x hx)
      hfuel
  obtain ⟨r2, r3, fl2, el2, ml3, hf2, hf3, inv3⟩ := split_final ctx inv1 hel1
  have hseen : ([] : List CStr) ++ tuplesOfPages (p :: tl.map Prod.snd) =
      tuplesOfPages ((ch r.sp).map Prod.snd) := by rw [hc]; rfl
  rw [hseen] at inv3
  have g1 : r3.nattrs = r.nattrs := inv3.hdr.1
  have g2 : r3.depth = r.depth := inv3.hdr.2.1
  have g3 : r3.sp = r.sp := inv3.hdr.2.2.1
  have g4 : r3.npages = r.npages + 1 := inv3.hdr.2.2.2.1
  have g5 : r3.ntups = r.ntups := inv3.hdr.2.2.2.2.1
  have g6 : r3.cv = r.cv := inv3.hdr.2.2.2.2.2.1
  have g7 : r3.mode = r.mode := inv3.hdr.2.2.2.2.2.2
  have hsp1 : r1.sp = r.sp := inv1.hdr.2.2.1
  have hnodes : (fl2 ++ el2).map Prod.fst = (ch r.sp).map Prod.fst := by
    have := inv3.nodes_eq
    rw [hc]
    simpa using this
  have hchain : ChainW r3 (fl2 ++ el2) := by
    have := inv3.chain
    simpa using this
  have hmllen : r3.ovflow.length = r.ovflow.length + (ml3.length - 1) := inv3.ml_len
  have hL0 : r.ovflow.length ≤ r3.ovflow.length := by omega
  have hd3 : r3.data.length = r.data.length + 1 := by
    have : r3.data.length = (r.data ++ [newPage]).length := inv3.dlen
    simpa using this
  have hmlnodes : ml3.map Prod.fst = (false, r.data.length) ::
      (List.range' r.ovflow.length (ml3.length - 1)).map (fun i => (true, i)) := inv3.ml_nodes
  have hframe : ∀ n : Node, n ∉ (ch r.sp).map Prod.fst → n ≠ (false, r.data.length) →
      (n.1 = true → n.2 < r.ovflow.length) →
      pageAt r3 n = pageAt { r with data := r.data ++ [newPage], npages := r.npages + 1 } n := by
    intro n h1 h2 h3
    exact inv3.frame n (by rw [← hc]; exact h1) h2 h3
  refine ⟨r3, fl2 ++ el2, ml3, ?_, g1, g2, g3, g4, g5, g6, g7, hL0, ?_, ?_, ?_⟩
  · unfold lh_split
    simp only
    rw [hloop]
    simp only
    rw [hsp1]
    rw [hf2]
    simp only
    exact hf3
  · -- the result is well formed
    have hold : ∀ b, b < r.npages → b ≠ r.sp → ∀ x ∈ ch b, pageAt r3 x.1 = pageAt r x.1 := by
      intro b hb hbs x hx
      have hxn : x.1 ∈ (ch b).map Prod.fst := List.mem_map.mpr ⟨x, hx, rfl⟩
      have hnot : x.1 ∉ (ch r.sp).map Prod.fst :=
        fun hn => hbs (lay.disj b r.sp x.1 hb hsp hxn hn)
      rcases layout_node_cases lay b hb x.1 hxn with e | ⟨e1, e2⟩
      · rw [e] at hnot ⊢
        rw [hframe (false, b) hnot (by simp only [ne_eq, Prod.mk.injEq, true_and]; omega)
          (by intro h; cases h)]
        simp only [pageAt, getPage]
        exact List.getElem?_append_left (by omega)
      · rw [hframe x.1 hnot (by intro h; rw [h] at e1; cases e1) (fun _ => e2)]
        obtain ⟨⟨bb, i⟩, pg⟩ := x
        simp only at e1
        subst e1
        rfl
    have hnb : ∀ n, n ∈ ml3.map Prod.fst →
        n = (false, r.npages) ∨ (n.1 = true ∧ r.ovflow.length ≤ n.2) := by
      intro n hn
      obtain ⟨x, hx, hxe⟩ := List.mem_map.mp hn
      rcases ml_node_cases hmlnodes x hx with e | ⟨e1, e2, _⟩
      · left; rw [← hxe, e, hdl]
      · right; rw [← hxe]; exact ⟨e1, e2⟩
    have holdn : ∀ b, b < r.npages → ∀ n, n ∈ (ch b).map Prod.fst →
        n ∉ ml3.map Prod.fst := by
      intro b hb n hn hm
      rcases layout_node_cases lay b hb n hn with e | ⟨e1, e2⟩
      · rcases hnb n hm with f | ⟨f1, _⟩
        · rw [e] at f
          simp only [Prod.mk.injEq, true_and] at f
          omega
        · rw [e] at f1; cases f1
      · rcases hnb n hm with f | ⟨_, f2⟩
        · rw [f] at e1; cases e1
        · omega
    refine
      { data_len := by rw [hd3, g4, hdl]
        head := ?_
        chain := ?_
        nodup := ?_
        disj := ?_
        ok := ?_ }
    · intro b hb
      unfold splitChains
      by_cases h1 : b = r.sp
      · rw [if_pos h1, hnodes, h1]; exact lay.head _ hsp
      · rw [if_neg h1]
        by_cases h2 : b = r.npages
        · rw [if_pos h2, hmlnodes, h2, hdl]; rfl
        · rw [if_neg h2]; exact lay.head b (by omega)
    · intro b hb
      unfold splitChains
      by_cases h1 : b = r.sp
      · rw [if_pos h1]; exact hchain
      · rw [if_neg h1]
        by_cases h2 : b = r.npages
        · rw [if_pos h2]; exact inv3.ml_chain
        · rw [if_neg h2]
          exact ChainW_congr r r3 _ (hold b (by omega) h1) (lay.chain b (by omega))
    · intro b hb
      unfold splitChains
      by_cases h1 : b = r.sp
      · rw [if_pos h1, hnodes]; exact lay.nodup _ hsp
      · rw [if_neg h1]
        by_cases h2 : b = r.npages
        · rw [if_pos h2, hmlnodes]
          apply List.nodup_cons.mpr
          constructor
          · simp
          · exact (List.nodup_range' _ _).map (fun a b h => by simpa using h)
        · rw [if_neg h2]; exact lay.nodup b (by omega)
    · intro b b1 n hb hb1 hn hn1
      have key : ∀ c, c < r3.npages → c ≠ r.npages →
          n ∈ (splitChains ch r.sp r.npages (fl2 ++ el2) ml3 c).map Prod.fst →
          c < r.npages ∧ n ∈ (ch c).map Prod.fst := by
        intro c hc1 hc2 hcn
        have hc3 : c < r.npages := by omega
        refine ⟨hc3, ?_⟩
        unfold splitChains at hcn
        by_cases h1 : c = r.sp
        · rw [if_pos h1, hnodes] at hcn; rw [h1]; exact hcn
        · rw [if_neg h1, if_neg hc2] at hcn; exact hcn
      have hnew : ∀ c, c = r.npages →
          n ∈ (splitChains ch r.sp r.npages (fl2 ++ el2) ml3 c).map Prod.fst →
          n ∈ ml3.map Prod.fst := by
        intro c hc1 hcn
        unfold splitChains at hcn
        rw [if_neg (by omega), if_pos hc1] at hcn
        exact hcn
      by_cases e1 : b = r.npages
      · by_cases e2 : b1 = r.npages
        · rw [e1, e2]
        · obtain ⟨k1, k2⟩ := key b1 hb1 e2 hn1
          exact absurd (hnew b e1 hn) (holdn b1 k1 n k2)
      · by_cases e2 : b1 = r.npages
        · obtain ⟨k1, k2⟩ := key b hb e1 hn
          exact absurd (hnew b1 e2 hn1) (holdn b k1 n k2)
        · obtain ⟨k1, k2⟩ := key b hb e1 hn
          obtain ⟨k3, k4⟩ := key b1 hb1 e2 hn1
          exact lay.disj b b1 n k1 k3 k2 k4
    · intro b hb x hx
      unfold splitChains at hx
      by_cases h1 : b = r.sp
      · rw [if_pos h1] at hx
        rcases List.mem_append.mp hx with h | h
        · exact (inv3.fl_ok x h).1
        · exact (inv3.el_ok x h).2.2
      · rw [if_neg h1] at hx
        by_cases h2 : b = r.npages
        · rw [if_pos h2] at hx; exact inv3.ml_ok x hx
        · rw [if_neg h2] at hx
          exact lay.ok b (by omega) x hx
  · have h1 := inv3.stay_tuples
    rw [pageTuples_newPage, List.append_nil] at h1
    rw [List.map_append, tuplesOfPages_append, h1,
      tuplesOfPages_empty el2 (fun x hx => (inv3.el_ok x hx).2.1), List.append_nil]
    rfl
  · have h1 := inv3.move_tuples
    rw [pageTuples_newPage, List.append_nil] at h1
    rw [h1]
    rfl

/-! ## The tuples of a bucket -/

theorem ovflowTuples_chain (r : Reln) :
    ∀ (rest : List (Node × Page)) (fuel : Nat) (start : Option Nat),
      ChainW r rest → (∀ x ∈ rest, x.1.1 = true) →
      start = rest.head?.map (fun x => x.1.2) → rest.length ≤ fuel →
      ovflowTuples r.ovflow fuel start = some (tuplesOfPages (rest.map Prod.snd)) := by
  intro rest
  induction rest with
  | nil =>
    intro fuel start _ _ hs _
    simp only [List.head?_nil, Option.map_none'] at hs
    subst hs
    cases fuel <;> rfl
  | cons x rest ih =>
    intro fuel start hc hovf hs hf
    obtain ⟨⟨b, i⟩, p⟩ := x
    have hb : b = true := hovf ((b, i), p) (List.mem_cons_self _ _)
    subst hb
    simp only [List.head?_cons, Option.map_some'] at hs
    subst hs
    rw [ChainW_cons] at hc
    obtain ⟨h1, h2, _, h4⟩ := hc
    cases fuel with
    | zero => simp at hf
    | succ fuel =>
      have hp : r.ovflow[i]? = some p := h1
      unfold ovflowTuples
      rw [hp]
      simp only
      rw [ih fuel p.ovflow h4 (fun y hy => hovf y (List.mem_cons_of_mem _ hy)) h2
        (by simp at hf; omega)]
      rfl

/-- In a well-formed relation `bucketTuples` returns the tuples of the chain. -/
theorem bucketTuples_layout {r : Reln} {ch : Nat → List (Node × Page)} (lay : Layout r ch)
    (b : Nat) (hb : b < r.npages) :
    bucketTuples r b = some (tuplesOfPages ((ch b).map Prod.snd)) := by
  obtain ⟨p, rest, hc⟩ := layout_cons lay b hb
  have hch := lay.chain b hb
  have hnd := lay.nodup b hb
  rw [hc] at hch hnd ⊢
  have hlen := chain_length_le r _ _ rest hch (List.nodup_cons.mp hnd).2
  have hovf := ChainW_head_lt r _ _ rest hch
  rw [ChainW_cons] at hch
  obtain ⟨h1, h2, _, h4⟩ := hch
  have hp : r.data[b]? = some p := h1
  unfold bucketTuples
  rw [hp]
  simp only
  rw [ovflowTuples_chain r rest r.ovflow.length p.ovflow h4 (fun x hx => (hovf x hx).1) h2 hlen]
  rfl

theorem tupleHash_isSome (hash_any : CStr → Nat) (nattrs : Nat) (cv : List ChVecItem) (t : CStr)
    (h : (tupleVals t).length = nattrs) : ∃ hv, tupleHash hash_any nattrs cv t = some hv := by
  unfold tupleHash tupleValsN
  rw [if_pos h]
  exact ⟨_, rfl⟩

theorem mem_tuplesOfPages (ps : List Page) (p : Page) (hp : p ∈ ps) (t : CStr)
    (ht : t ∈ pageTuples p) : t ∈ tuplesOfPages ps := by
  induction ps with
  | nil => cases hp
  | cons q ps ih =>
    simp only [tuplesOfPages, List.mem_append]
    rcases List.mem_cons.mp hp with e | e
    · left; rw [← e]; exact ht
    · right; exact ih e

/-- A tuple of a chain is a tuple of one of its pages. -/
theorem chain_tuple_page (c : List (Node × Page)) (t : CStr)
    (h : t ∈ tuplesOfPages (c.map Prod.snd)) : ∃ x ∈ c, t ∈ pageTuples x.2 := by
  induction c with
  | nil => cases h
  | cons y c ih =>
    simp only [List.map_cons, tuplesOfPages, List.mem_append] at h
    rcases h with e | e
    · exact ⟨y, List.mem_cons_self _ _, e⟩
    · obtain ⟨x, hx, hxt⟩ := ih e
      exact ⟨x, List.mem_cons_of_mem _ hx, hxt⟩

/-- The function `lh_split` on a well-formed relation, when it returns. -/
theorem lh_split_layout_of_some (hash_any : CStr → Nat) (r r1 : Reln)
    (ch : Nat → List (Node × Page)) (lay : Layout r ch) (hsp : r.sp < r.npages)
    (hhash : ∀ x ∈ ch r.sp, ∀ t ∈ pageTuples x.2,
      ∃ hv, tupleHash hash_any r.nattrs r.cv t = some hv)
    (h : lh_split hash_any r = some r1) :
    ∃ spc nbc,
      r1.nattrs = r.nattrs ∧ r1.depth = r.depth ∧ r1.sp = r.sp ∧ r1.npages = r.npages + 1 ∧
      r1.ntups = r.ntups ∧ r1.cv = r.cv ∧ r1.mode = r.mode ∧
      r.ovflow.length ≤ r1.ovflow.length ∧
      Layout r1 (splitChains ch r.sp r.npages spc nbc) ∧
      tuplesOfPages (spc.map Prod.snd) =
        (tuplesOfPages ((ch r.sp).map Prod.snd)).filter (staysAt hash_any r) ∧
      tuplesOfPages (nbc.map Prod.snd) =
        (tuplesOfPages ((ch r.sp).map Prod.snd)).filter (movesAt hash_any r) := by
  obtain ⟨r2, spc, nbc, h1, rest⟩ := lh_split_layout hash_any r ch lay hsp hhash
    (lh_split_short hash_any r r1 ch lay hsp hhash h)
  rw [h] at h1
  simp only [Option.some.injEq] at h1
  subst h1
  exact ⟨spc, nbc, rest⟩

/-- C5 (amended): in a well-formed relation whose split bucket holds tuples of `nattrs`
fields, `lh_split` returns exactly when every tuple of the split bucket is shorter than
`MAXTUPLEN`; whenever it returns, bucket `sp` holds the tuples of its old chain whose hash
has bit `depth` equal to 0 and the new bucket `npages` those with bit `depth` equal to 1,
each list in the old order, and the tuples of every other bucket are the same. -/
theorem lh_split_redistributes (hash_any : CStr → Nat) (r : Reln)
    (ch : Nat → List (Node × Page)) (old : List CStr) (lay : Layout r ch)
    (hsp : r.sp < r.npages) (hold : bucketTuples r r.sp = some old)
    (hfields : ∀ t ∈ old, (tupleVals t).length = r.nattrs) :
    ((∃ r1, lh_split hash_any r = some r1) ↔ ∀ t ∈ old, t.length < MAXTUPLEN) ∧
      ∀ r1, lh_split hash_any r = some r1 →
        r1.npages = r.npages + 1 ∧
        bucketTuples r1 r.sp = some (old.filter (staysAt hash_any r)) ∧
        bucketTuples r1 r.npages = some (old.filter (movesAt hash_any r)) ∧
        ∀ b, b < r.npages → b ≠ r.sp → bucketTuples r1 b = bucketTuples r b := by
  have hold2 := bucketTuples_layout lay r.sp hsp
  rw [hold] at hold2
  injection hold2 with hold2
  have hhash : ∀ x ∈ ch r.sp, ∀ t ∈ pageTuples x.2,
      ∃ hv, tupleHash hash_any r.nattrs r.cv t = some hv := by
    intro x hx t ht
    apply tupleHash_isSome
    apply hfields
    rw [hold2]
    exact mem_tuplesOfPages _ x.2 (List.mem_map.mpr ⟨x, hx, rfl⟩) t ht
  refine ⟨⟨?_, ?_⟩, ?_⟩
  · rintro ⟨r1, h⟩ t ht
    rw [hold2] at ht
    obtain ⟨x, hx, hxt⟩ := chain_tuple_page _ t ht
    have := lh_split_short hash_any r r1 ch lay hsp hhash h x hx t hxt
    omega
  · intro hs
    obtain ⟨r1, _, _, h1, _⟩ := lh_split_layout hash_any r ch lay hsp hhash (by
      intro x hx t ht
      have := hs t (by
        rw [hold2]
        exact mem_tuplesOfPages _ x.2 (List.mem_map.mpr ⟨x, hx, rfl⟩) t ht)
      omega)
    exact ⟨r1, h1⟩
  · intro r1 h
    obtain ⟨spc, nbc, _, _, _, h5, _, _, _, _, lay1, h10, h11⟩ :=
      lh_split_layout_of_some hash_any r r1 ch lay hsp hhash h
    refine ⟨h5, ?_, ?_, ?_⟩
    · rw [bucketTuples_layout lay1 r.sp (by omega)]
      unfold splitChains
      rw [if_pos rfl, h10, hold2]
    · rw [bucketTuples_layout lay1 r.npages (by omega)]
      unfold splitChains
      rw [if_neg (by omega), if_pos rfl, h11, hold2]
    · intro b hb hbs
      rw [bucketTuples_layout lay1 b (by omega), bucketTuples_layout lay b hb]
      unfold splitChains
      rw [if_neg hbs, if_neg (by omega)]

/-! ## addToRelation: the chain of the target bucket -/

theorem layout_update {r r1 : Reln} {ch : Nat → List (Node × Page)} (lay : Layout r ch)
    (b : Nat) (hb : b < r.npages) (c1 : List (Node × Page)) (t : CStr)
    (ins : Inserted r r1 (ch b) c1 t) : Layout r1 (Function.update ch b c1) := by
  obtain ⟨_, _, _, hnp, _⟩ := ins.hdr
  have hold : ∀ b1, b1 < r.npages → b1 ≠ b → ∀ x ∈ ch b1, pageAt r1 x.1 = pageAt r x.1 := by
    intro b1 hb1 hne x hx
    have hxn : x.1 ∈ (ch b1).map Prod.fst := List.mem_map.mpr ⟨x, hx, rfl⟩
    apply ins.frame x.1 (fun hn => hne (lay.disj b1 b x.1 hb1 hb hxn hn))
    intro h1
    rcases layout_node_cases lay b1 hb1 x.1 hxn with e | ⟨_, e⟩
    · rw [e] at h1; cases h1
    · exact e
  have hfresh : ∀ b1, b1 < r.npages → b1 ≠ b → ∀ n, n ∈ (ch b1).map Prod.fst →
      n ∉ c1.map Prod.fst := by
    intro b1 hb1 hne n hn hn1
    rcases ins.nodes n hn1 with e | ⟨_, e⟩
    · exact hne (lay.disj b1 b n hb1 hb hn e)
    · rcases layout_node_cases lay b1 hb1 n hn with f | ⟨_, f⟩
      · have := lay.head b hb
        rcases ins.nodes n hn1 with e1 | ⟨e1, _⟩
        · exact hne (lay.disj b1 b n hb1 hb hn e1)
        · rw [f] at e1; cases e1
      · omega
  refine
    { data_len := by rw [ins.dlen, hnp]; exact lay.data_len
      head := ?_
      chain := ?_
      nodup := ?_
      disj := ?_
      ok := ?_ }
  · intro b1 hb1
    by_cases e : b1 = b
    · rw [e, Function.update_same, ins.head]; exact lay.head b hb
    · rw [Function.update_noteq e]; exact lay.head b1 (by omega)
  · intro b1 hb1
    by_cases e : b1 = b
    · rw [e, Function.update_same]; exact ins.chain
    · rw [Function.update_noteq e]
      exact ChainW_congr r r1 _ (hold b1 (by omega) e) (lay.chain b1 (by omega))
  · intro b1 hb1
    by_cases e : b1 = b
    · rw [e, Function.update_same]; exact ins.nodup
    · rw [Function.update_noteq e]; exact lay.nodup b1 (by omega)
  · intro b1 b2 n hb1 hb2 hn1 hn2
    by_cases e1 : b1 = b
    · by_cases e2 : b2 = b
      · rw [e1, e2]
      · rw [e1, Function.update_same] at hn1
        rw [Function.update_noteq e2] at hn2
        exact absurd hn1 (hfresh b2 (by omega) e2 n hn2)
    · by_cases e2 : b2 = b
      · rw [e2, Function.update_same] at hn2
        rw [Function.update_noteq e1] at hn1
        exact absurd hn2 (hfresh b1 (by omega) e1 n hn1)
      · rw [Function.update_noteq e1] at hn1
        rw [Function.update_noteq e2] at hn2
        exact lay.disj b1 b2 n (by omega) (by omega) hn1 hn2
  · intro b1 hb1 x hx
    by_cases e : b1 = b
    · rw [e, Function.update_same] at hx; exact ins.ok x hx
    · rw [Function.update_noteq e] at hx; exact lay.ok b1 (by omega) x hx

/-- Only the header of the relation changes. -/
theorem layout_hdr {r r1 : Reln} {ch : Nat → List (Node × Page)} (lay : Layout r ch)
    (h1 : r1.data = r.data) (h2 : r1.ovflow = r.ovflow) (h3 : r1.npages = r.npages) :
    Layout r1 ch := by
  have hp : ∀ n, pageAt r1 n = pageAt r n := by
    intro n
    simp only [pageAt, getPage, h1, h2]
  exact
    { data_len := by rw [h1, h3]; exact lay.data_len
      head := fun b hb => lay.head b (by omega)
      chain := fun b hb => ChainW_congr r r1 _ (fun x _ => hp x.1) (lay.chain b (by omega))
      nodup := fun b hb => lay.nodup b (by omega)
      disj := fun b b1 n hb hb1 => lay.disj b b1 n (by omega) (by omega)
      ok := fun b hb => lay.ok b (by omega) }

theorem ChainW_hdr (r r1 : Reln) (h1 : r1.data = r.data) (h2 : r1.ovflow = r.ovflow)
    (w : List (Node × Page)) (h : ChainW r w) : ChainW r1 w :=
  ChainW_congr r r1 w (fun x _ => by simp only [pageAt, getPage, h1, h2]) h

theorem tuplesOfPages_mem (ps : List Page) (t : CStr) (h : t ∈ tuplesOfPages ps) :
    ∃ p ∈ ps, t ∈ pageTuples p := by
  induction ps with
  | nil => cases h
  | cons q ps ih =>
    simp only [tuplesOfPages, List.mem_append] at h
    rcases h with e | e
    · exact ⟨q, List.mem_cons_self _ _, e⟩
    · obtain ⟨p, hp, ht⟩ := ih e
      exact ⟨p, List.mem_cons_of_mem _ hp, ht⟩

/-- A page of the chain takes the tuple. -/
theorem inserted_replace (r r1 : Reln) (t : CStr) (ht : '\x00' ∉ t) (n : Node) (q q1 : Page)
    (a b : List (Node × Page)) (hch : ChainW r (a ++ (n, q) :: b))
    (hnd : ((a ++ (n, q) :: b).map Prod.fst).Nodup)
    (hok : ∀ x ∈ a ++ (n, q) :: b, PageOK x.2)
    (hadd : addToPage q t = some q1)
    (hhdr : r1.nattrs = r.nattrs ∧ r1.depth = r.depth ∧ r1.sp = r.sp ∧ r1.npages = r.npages ∧
      r1.cv = r.cv)
    (hd : r1.data.length = r.data.length) (ho : r1.ovflow.length = r.ovflow.length)
    (hat : pageAt r1 n = some q1) (hfr : ∀ m, m ≠ n → pageAt r1 m = pageAt r m) :
    Inserted r r1 (a ++ (n, q) :: b) (a ++ (n, q1) :: b) t := by
  obtain ⟨a1, a2, a3, _, _⟩ := addToPage_some q q1 t (hok (n, q) (by simp)) ht hadd
  have hnot : n ∉ a.map Prod.fst ∧ n ∉ b.map Prod.fst := by
    rw [List.map_append, List.map_cons] at hnd
    have h1 := List.nodup_append.mp hnd
    exact ⟨fun hn => h1.2.2 hn (List.mem_cons_self _ _), (List.nodup_cons.mp h1.2.1).1⟩
  refine
    { hdr := hhdr
      dlen := hd
      olen := by omega
      head := by simp
      chain := ChainW_replace r r1 n q q1 a3 hat hfr a b hnot.1 hnot.2 hch
      nodup := by simpa using hnd
      ok := ?_
      nodes := ?_
      frame := ?_
      tuples := ?_ }
  · intro x hx
    rcases List.mem_append.mp hx with h | h
    · exact hok x (List.mem_append_left _ h)
    · rcases List.mem_cons.mp h with e | e
      · rw [e]; exact a1
      · exact hok x (List.mem_append_right _ (List.mem_cons_of_mem _ e))
  · intro m hm
    left
    simpa using hm
  · intro m hm _
    apply hfr
    intro e
    apply hm
    rw [e]
    simp
  · intro t1 ht1
    simp only [List.map_append, List.map_cons, tuplesOfPages_append, tuplesOfPages,
      List.mem_append] at ht1 ⊢
    rw [a2, List.mem_append, List.mem_singleton] at ht1
    tauto

/-- A new overflow page takes the tuple and is linked to the end of the chain. -/
theorem inserted_append (r r1 : Reln) (t : CStr) (n : Node) (q q1 : Page)
    (a : List (Node × Page)) (hch : ChainW r (a ++ [(n, q)]))
    (hnd : ((a ++ [(n, q)]).map Prod.fst).Nodup)
    (hok : ∀ x ∈ a ++ [(n, q)], PageOK x.2)
    (hq1 : PageOK q1) (hq1t : ∀ t1 ∈ pageTuples q1, t1 = t) (hq1l : q1.ovflow = none)
    (hhdr : r1.nattrs = r.nattrs ∧ r1.depth = r.depth ∧ r1.sp = r.sp ∧ r1.npages = r.npages ∧
      r1.cv = r.cv)
    (hd : r1.data.length = r.data.length) (ho : r1.ovflow.length = r.ovflow.length + 1)
    (hat : pageAt r1 n = some { q with ovflow := some r.ovflow.length })
    (hat2 : pageAt r1 (true, r.ovflow.length) = some q1)
    (hfr : ∀ m, m ≠ n → m ≠ (true, r.ovflow.length) → pageAt r1 m = pageAt r m) :
    Inserted r r1 (a ++ [(n, q)])
      (a ++ [(n, { q with ovflow := some r.ovflow.length }), ((true, r.ovflow.length), q1)])
      t := by
  have hlt : ∀ x ∈ a ++ [(n, q)], x.1 ≠ (true, r.ovflow.length) := by
    intro x hx e
    have := ChainW_mem r _ hch x hx
    have := (pageAt_lt r x.1 x.2 this).1 (by rw [e])
    rw [e] at this
    simp at this
  have hnot : n ∉ a.map Prod.fst ∧ (true, r.ovflow.length) ∉ a.map Prod.fst := by
    rw [List.map_append] at hnd
    have h1 := List.nodup_append.mp hnd
    constructor
    · exact fun hn => h1.2.2 hn (by simp)
    · intro hn
      obtain ⟨x, hx, hxe⟩ := List.mem_map.mp hn
      exact hlt x (List.mem_append_left _ hx) hxe
  refine
    { hdr := hhdr
      dlen := hd
      olen := by omega
      head := by cases a <;> simp
      chain := ChainW_snoc r r1 n q q1 r.ovflow.length hat hat2 hq1l hfr a hnot.1 hnot.2 hch
      nodup := ?_
      ok := ?_
      nodes := ?_
      frame := ?_
      tuples := ?_ }
  · have e : (a ++ [(n, { q with ovflow := some r.ovflow.length }),
        ((true, r.ovflow.length), q1)]).map Prod.fst =
        (a ++ [(n, q)]).map Prod.fst ++ [(true, r.ovflow.length)] := by simp
    rw [e]
    apply List.Nodup.append hnd (by simp)
    intro m hm hm2
    simp only [List.mem_singleton] at hm2
    obtain ⟨x, hx, hxe⟩ := List.mem_map.mp hm
    exact hlt x hx (hxe.trans hm2)
  · intro x hx
    rcases List.mem_append.mp hx with h | h
    · exact hok x (List.mem_append_left _ h)
    · simp only [List.mem_cons, List.mem_singleton, List.not_mem_nil, or_false] at h
      rcases h with e | e
      · rw [e]; exact pageOK_setOvflow q _ (hok (n, q) (by simp))
      · rw [e]; exact hq1
  · intro m hm
    simp only [List.map_append, List.map_cons, List.map_nil, List.mem_append, List.mem_cons,
      List.mem_singleton, List.not_mem_nil, or_false] at hm ⊢
    rcases hm with h | h | h
    · exact Or.inl (Or.inl h)
    · exact Or.inl (Or.inr h)
    · right; rw [h]; exact ⟨rfl, le_refl _⟩
  · intro m hm hm2
    apply hfr
    · intro e
      apply hm
      rw [e]
      simp
    · intro e
      have := hm2 (by rw [e])
      rw [e] at this
      simp at this
  · intro t1 ht1
    simp only [List.map_append, List.map_cons, List.map_nil, tuplesOfPages_append,
      tuplesOfPages, List.mem_append, pageTuples_setOvflow, List.append_nil] at ht1 ⊢
    have := hq1t t1
    tauto

/-- A new overflow page is added to the file and the chain is left as it is. -/
theorem inserted_orphan (r r1 : Reln) (t : CStr) (c : List (Node × Page)) (hch : ChainW r c)
    (hnd : (c.map Prod.fst).Nodup) (hok : ∀ x ∈ c, PageOK x.2)
    (hhdr : r1.nattrs = r.nattrs ∧ r1.depth = r.depth ∧ r1.sp = r.sp ∧ r1.npages = r.npages ∧
      r1.cv = r.cv)
    (hd : r1.data.length = r.data.length) (ho : r1.ovflow.length = r.ovflow.length + 1)
    (hfr : ∀ m, m ≠ (true, r.ovflow.length) → pageAt r1 m = pageAt r m) :
    Inserted r r1 c c t := by
  have hlt : ∀ x ∈ c, x.1 ≠ (true, r.ovflow.length) := by
    intro x hx e
    have := ChainW_mem r _ hch x hx
    have := (pageAt_lt r x.1 x.2 this).1 (by rw [e])
    rw [e] at this
    simp at this
  exact
    { hdr := hhdr
      dlen := hd
      olen := by omega
      head := rfl
      chain := ChainW_congr r r1 c (fun x hx => hfr x.1 (hlt x hx)) hch
      nodup := hnd
      ok := hok
      nodes := fun n hn => Or.inl hn
      frame := by
        intro m _ hm2
        apply hfr
        intro e
        have := hm2 (by rw [e])
        rw [e] at this
        simp at this
      tuples := fun t1 h1 => Or.inl h1 }

theorem pageAt_ntups (r : Reln) (k : Nat) (n : Node) :
    pageAt { r with ntups := k } n = pageAt r n := rfl

/-- The scan of the overflow chain in `addToRelation`, when it returns. -/
theorem ovflowInsert_spec (t : CStr) (ht : '\x00' ∉ t) (p : Nat) (r : Reln) :
    ∀ (suf pre : List (Node × Page)) (fuel : Nat) (ovp : Option Nat)
      (prev : Option (Nat × Page)) (r1 : Reln) (res : Option Nat),
      ChainW r (pre ++ suf) → ((pre ++ suf).map Prod.fst).Nodup →
      (∀ x ∈ pre ++ suf, PageOK x.2) → (∀ x ∈ suf, x.1.1 = true) →
      ovp = suf.head?.map (fun x => x.1.2) →
      (suf = [] → ∃ a n q, pre = a ++ [(n, q)] ∧ n.1 = true ∧ prev = some (n.2, q)) →
      ovflowInsert t p fuel r ovp prev = some (r1, res) →
      ∃ c1, Inserted r r1 (pre ++ suf) c1 t := by
  intro suf
  induction suf with
  | nil =>
    intro pre fuel ovp prev r1 res hch hnd hok _ hovp hprev h
    obtain ⟨a, n, q, hpre, hn1, hpv⟩ := hprev rfl
    simp only [List.head?_nil, Option.map_none'] at hovp
    subst hovp hpv hpre
    rw [List.append_nil] at hch hnd hok ⊢
    cases fuel with
    | zero => simp [ovflowInsert] at h
    | succ fuel =>
      obtain ⟨_, hh1, hd1, ho1, hat1, hfr1⟩ := addOvflowPage_spec r
      have hnq : pageAt r n = some q := ChainW_mem r _ hch (n, q) (by simp)
      have hnL : n ≠ (true, r.ovflow.length) := by
        intro e
        have := (pageAt_lt r n q hnq).1 hn1
        rw [e] at this
        simp at this
      unfold ovflowInsert at h
      simp only at h
      rw [getPage_eq_pageAt] at h
      have e0 : (addOvflowPage r).1 = r.ovflow.length := rfl
      rw [e0, hat1] at h
      simp only at h
      cases hadd : addToPage newPage t with
      | none =>
        rw [hadd] at h
        simp only [Option.some.injEq, Prod.mk.injEq] at h
        obtain ⟨hr1, _⟩ := h
        rw [← hr1]
        exact ⟨_, inserted_orphan r _ t _ hch hnd hok
          ⟨hh1.1, hh1.2.1, hh1.2.2.1, hh1.2.2.2.1, hh1.2.2.2.2.2.1⟩ hd1 ho1 hfr1⟩
      | some q1 =>
        rw [hadd] at h
        simp only at h
        obtain ⟨b1, b2, b3, _, _⟩ := addToPage_some newPage q1 t pageOK_newPage ht hadd
        obtain ⟨r2, hput2, hh2, hd2, ho2, hat2, hfr2⟩ :=
          putPage_spec (addOvflowPage r).2 (true, r.ovflow.length) q1 newPage hat1
        rw [hput2] at h
        simp only at h
        have hn2 : pageAt r2 n = some q := by
          rw [hfr2 n hnL, hfr1 n hnL]; exact hnq
        obtain ⟨r3, hput3, hh3, hd3, ho3, hat3, hfr3⟩ :=
          putPage_spec r2 n { q with ovflow := some r.ovflow.length } q hn2
        have en : n = (true, n.2) := by rw [← hn1]
        rw [en] at hput3
        simp only at hput3
        rw [hput3] at h
        simp only [Option.some.injEq, Prod.mk.injEq] at h
        obtain ⟨hr1, _⟩ := h
        refine ⟨_, inserted_append r r1 t n q q1 a hch hnd hok b1
          (by rw [b2, pageTuples_newPage]; intro t1 h1; simpa using h1) (b3.trans rfl) ?_ ?_ ?_ ?_ ?_ ?_⟩
        · rw [← hr1]
          exact ⟨hh3.1.trans (hh2.1.trans hh1.1), hh3.2.1.trans (hh2.2.1.trans hh1.2.1),
            hh3.2.2.1.trans (hh2.2.2.1.trans hh1.2.2.1),
            hh3.2.2.2.1.trans (hh2.2.2.2.1.trans hh1.2.2.2.1),
            hh3.2.2.2.2.2.1.trans (hh2.2.2.2.2.2.1.trans hh1.2.2.2.2.2.1)⟩
        · rw [← hr1]; exact hd3.trans (hd2.trans hd1)
        · rw [← hr1]; exact ho3.trans (ho2.trans ho1)
        · rw [← hr1, pageAt_ntups]; exact hat3
        · rw [← hr1, pageAt_ntups, hfr3 _ (fun e => hnL e.symm)]; exact hat2
        · intro m hm1 hm2
          rw [← hr1, pageAt_ntups, hfr3 m hm1, hfr2 m hm2, hfr1 m hm2]
  | cons x suf ih =>
    intro pre fuel ovp prev r1 res hch hnd hok hovf hovp _ h
    obtain ⟨n, q⟩ := x
    have hn1 : n.1 = true := hovf (n, q) (List.mem_cons_self _ _)
    simp only [List.head?_cons, Option.map_some'] at hovp
    subst hovp
    have hnq : pageAt r n = some q := ChainW_mem r _ hch (n, q) (by simp)
    have en : n = (true, n.2) := by rw [← hn1]
    cases fuel with
    | zero => simp [ovflowInsert] at h
    | succ fuel =>
      unfold ovflowInsert at h
      simp only at h
      rw [getPage_eq_pageAt, ← en, hnq] at h
      simp only at h
      cases hadd : addToPage q t with
      | none =>
        rw [hadd] at h
        simp only at h
        have hlist : pre ++ (n, q) :: suf = (pre ++ [(n, q)]) ++ suf := by simp
        obtain ⟨hlink, _⟩ := ChainW_mid r n q pre suf hch
        obtain ⟨c1, hc1⟩ := ih (pre ++ [(n, q)]) fuel q.ovflow (some (n.2, q)) r1 res
          (by rw [← hlist]; exact hch) (by rw [← hlist]; exact hnd)
          (by rw [← hlist]; exact hok) (fun y hy => hovf y (List.mem_cons_of_mem _ hy))
          hlink (fun _ => ⟨pre, n, q, rfl, hn1, rfl⟩) h
        rw [← hlist] at hc1
        exact ⟨c1, hc1⟩
      | some q1 =>
        rw [hadd] at h
        simp only at h
        obtain ⟨r2, hput2, hh2, hd2, ho2, hat2, hfr2⟩ := putPage_spec r n q1 q hnq
        rw [en] at hput2
        simp only at hput2
        rw [hput2] at h
        simp only [Option.some.injEq, Prod.mk.injEq] at h
        obtain ⟨hr1, _⟩ := h
        refine ⟨_, inserted_replace r r1 t ht n q q1 pre suf hch hnd hok hadd ?_ ?_ ?_ ?_ ?_⟩
        · rw [← hr1]
          exact ⟨hh2.1, hh2.2.1, hh2.2.2.1, hh2.2.2.2.1, hh2.2.2.2.2.2.1⟩
        · rw [← hr1]; exact hd2
        · rw [← hr1]; exact ho2
        · rw [← hr1, pageAt_ntups]; exact hat2
        · intro m hm
          rw [← hr1, pageAt_ntups]; exact hfr2 m hm

/-! ## addToRelation: the split step -/

theorem getLower_succ (hv d : Nat) :
    getLower hv (d + 1) = getLower hv d + 2 ^ d * (if bitIsSet hv d then 1 else 0) := by
  unfold getLower bitIsSet
  rw [Nat.mod_pow_succ, Nat.testBit_to_div_mod]
  have h2 : hv / 2 ^ d % 2 < 2 := Nat.mod_lt _ (by omega)
  by_cases h : hv / 2 ^ d % 2 = 1
  · simp [h]
  · have h0 : hv / 2 ^ d % 2 = 0 := by omega
    simp [h0]

theorem getLower_lt (hv d : Nat) : getLower hv d < 2 ^ d :=
  Nat.mod_lt _ (Nat.two_pow_pos d)

theorem mem_filter_staysAt (hash_any : CStr → Nat) (r : Reln) (t : CStr) (old : List CStr)
    (h : t ∈ old.filter (staysAt hash_any r)) :
    t ∈ old ∧ ∀ hv, tupleHash hash_any r.nattrs r.cv t = some hv → bitIsSet hv r.depth = false := by
  obtain ⟨h1, h2⟩ := List.mem_filter.mp h
  refine ⟨h1, ?_⟩
  intro hv hh
  unfold staysAt at h2
  rw [hh] at h2
  simpa using h2

theorem mem_filter_movesAt (hash_any : CStr → Nat) (r : Reln) (t : CStr) (old : List CStr)
    (h : t ∈ old.filter (movesAt hash_any r)) :
    t ∈ old ∧ ∀ hv, tupleHash hash_any r.nattrs r.cv t = some hv → bitIsSet hv r.depth = true := by
  obtain ⟨h1, h2⟩ := List.mem_filter.mp h
  refine ⟨h1, ?_⟩
  intro hv hh
  unfold movesAt at h2
  rw [hh] at h2
  simpa using h2

/-- The split step keeps the invariant: after `lh_split` and the move of the split pointer
every bucket is addressed by the new `depth` and `sp`. -/
theorem splitIfDue_inv (hash_any : CStr → Nat) (r rs : Reln) (ch : Nat → List (Node × Page))
    (inv : RelInv hash_any r ch) (h : splitIfDue hash_any r = some rs) :
    ∃ chs, RelInv hash_any rs chs ∧ rs.nattrs = r.nattrs := by
  unfold splitIfDue at h
  split at h
  · have hsp : r.sp < r.npages := by
      have := inv.sp_lt
      have := inv.npages_eq
      omega
    obtain ⟨r1, spc, nbc, h1, g1, g2, g3, g4, _, g6, _, _, lay1, h10, h11⟩ :=
      lh_split_layout hash_any r ch inv.lay hsp (by
        intro x hx t ht
        obtain ⟨hv, hh, _⟩ := inv.i1 r.sp hsp t
          (mem_tuplesOfPages _ x.2 (List.mem_map.mpr ⟨x, hx, rfl⟩) t ht)
        exact ⟨hv, hh⟩)
        (by
          cases hl : lh_split hash_any r with
          | none => rw [hl] at h; simp at h
          | some r1x =>
            exact lh_split_short hash_any r r1x ch inv.lay hsp (by
              intro x hx t ht
              obtain ⟨hv, hh, _⟩ := inv.i1 r.sp hsp t
                (mem_tuplesOfPages _ x.2 (List.mem_map.mpr ⟨x, hx, rfl⟩) t ht)
              exact ⟨hv, hh⟩) hl)
    rw [h1] at h
    simp only at h
    have hpow : 2 ^ (r.depth + 1) = 2 * 2 ^ r.depth := by rw [pow_succ]; omega
    have hsplt := inv.sp_lt
    have hnpe := inv.npages_eq
    -- the tuples of the three kinds of bucket, with their old addressing
    have hstay : ∀ t ∈ tuplesOfPages (spc.map Prod.snd),
        ∃ hv, tupleHash hash_any r.nattrs r.cv t = some hv ∧ getLower hv (r.depth + 1) = r.sp := by
      intro t ht
      rw [h10] at ht
      obtain ⟨hm, hbit⟩ := mem_filter_staysAt hash_any r t _ ht
      obtain ⟨hv, hh, ha⟩ := inv.i1 r.sp hsp t hm
      refine ⟨hv, hh, ?_⟩
      unfold addrOK at ha
      rw [if_neg (by omega)] at ha
      rw [getLower_succ, hbit hv hh, ha]
      simp
    have hmove : ∀ t ∈ tuplesOfPages (nbc.map Prod.snd),
        ∃ hv, tupleHash hash_any r.nattrs r.cv t = some hv ∧
          getLower hv (r.depth + 1) = r.npages := by
      intro t ht
      rw [h11] at ht
      obtain ⟨hm, hbit⟩ := mem_filter_movesAt hash_any r t _ ht
      obtain ⟨hv, hh, ha⟩ := inv.i1 r.sp hsp t hm
      refine ⟨hv, hh, ?_⟩
      unfold addrOK at ha
      rw [if_neg (by omega)] at ha
      rw [getLower_succ, hbit hv hh, ha]
      simp
      omega
    have hchs : ∀ b, splitChains ch r.sp r.npages spc nbc b =
        if b = r.sp then spc else if b = r.npages then nbc else ch b := fun _ => rfl
    split at h
    · rename_i hadv
      simp only [Option.some.injEq] at h
      rw [g3, g2] at hadv
      refine ⟨splitChains ch r.sp r.npages spc nbc, ?_, by rw [← h]; exact g1⟩
      refine
        { lay := layout_hdr lay1 (by rw [← h]) (by rw [← h]) (by rw [← h])
          sp_lt := by rw [← h]; simp only; rw [g3, g2]; exact hadv
          npages_eq := by rw [← h]; simp only; rw [g4, g3, g2]; omega
          i1 := ?_ }
      intro b hb t ht
      have hrs : rs.nattrs = r.nattrs ∧ rs.cv = r.cv ∧ rs.depth = r.depth ∧
          rs.sp = r.sp + 1 ∧ rs.npages = r.npages + 1 := by
        rw [← h]; simp only; exact ⟨g1, g6, g2, by rw [g3], g4⟩
      obtain ⟨e1, e2, e3, e4, e5⟩ := hrs
      rw [e1, e2]
      unfold addrOK
      rw [e3, e4]
      rw [hchs] at ht
      by_cases hb1 : b = r.sp
      · rw [if_pos hb1] at ht
        obtain ⟨hv, hh, ha⟩ := hstay t ht
        refine ⟨hv, hh, ?_⟩
        rw [if_pos (by omega), ha, hb1]
      · rw [if_neg hb1] at ht
        by_cases hb2 : b = r.npages
        · rw [if_pos hb2] at ht
          obtain ⟨hv, hh, ha⟩ := hmove t ht
          refine ⟨hv, hh, ?_⟩
          rw [if_pos (by omega), ha, hb2]
        · rw [if_neg hb2] at ht
          obtain ⟨hv, hh, ha⟩ := inv.i1 b (by omega) t ht
          refine ⟨hv, hh, ?_⟩
          unfold addrOK at ha
          by_cases hc : b < r.sp ∨ 2 ^ r.depth ≤ b
          · rw [if_pos hc] at ha
            rw [if_pos (by omega)]
            exact ha
          · rw [if_neg hc] at ha
            rw [if_neg (by omega)]
            exact ha
    · rename_i hadv
      simp only [Option.some.injEq] at h
      rw [g3, g2] at hadv
      refine ⟨splitChains ch r.sp r.npages spc nbc, ?_, by rw [← h]; exact g1⟩
      refine
        { lay := layout_hdr lay1 (by rw [← h]) (by rw [← h]) (by rw [← h])
          sp_lt := by rw [← h]; simp only; exact Nat.two_pow_pos _
          npages_eq := by rw [← h]; simp only; rw [g4, g2, hpow]; omega
          i1 := ?_ }
      intro b hb t ht
      have hrs : rs.nattrs = r.nattrs ∧ rs.cv = r.cv ∧ rs.depth = r.depth + 1 ∧
          rs.sp = 0 ∧ rs.npages = r.npages + 1 := by
        rw [← h]; simp only; exact ⟨g1, g6, by rw [g2], trivial, g4⟩
      obtain ⟨e1, e2, e3, e4, e5⟩ := hrs
      rw [e1, e2]
      unfold addrOK
      rw [e3, e4]
      have hcond : ¬(b < 0 ∨ 2 ^ (r.depth + 1) ≤ b) := by omega
      rw [hchs] at ht
      by_cases hb1 : b = r.sp
      · rw [if_pos hb1] at ht
        obtain ⟨hv, hh, ha⟩ := hstay t ht
        exact ⟨hv, hh, by rw [if_neg hcond, ha, hb1]⟩
      · rw [if_neg hb1] at ht
        by_cases hb2 : b = r.npages
        · rw [if_pos hb2] at ht
          obtain ⟨hv, hh, ha⟩ := hmove t ht
          exact ⟨hv, hh, by rw [if_neg hcond, ha, hb2]⟩
        · rw [if_neg hb2] at ht
          obtain ⟨hv, hh, ha⟩ := inv.i1 b (by omega) t ht
          refine ⟨hv, hh, ?_⟩
          unfold addrOK at ha
          rw [if_pos (by omega)] at ha
          rw [if_neg hcond]
          exact ha
  · simp only [Option.some.injEq] at h
    rw [← h]
    exact ⟨ch, inv, rfl⟩

/-! ## addToRelation: the insertion -/

/-- The bucket that `addToRelation` picks for a hash is a bucket of the file and is the one
that the addressing rule gives. -/
theorem bucketOf_addr (r : Reln) (hv : Nat) (hsp : r.sp < 2 ^ r.depth)
    (hnp : r.npages = 2 ^ r.depth + r.sp) :
    bucketOf r hv < r.npages ∧ addrOK r (bucketOf r hv) hv := by
  have hlt := getLower_lt hv r.depth
  have hsucc := getLower_succ hv r.depth
  unfold bucketOf addrOK
  by_cases hd : r.depth = 0
  · rw [if_pos hd]
    rw [hd] at hsp hlt hnp ⊢
    simp only [pow_zero] at hsp hlt hnp ⊢
    refine ⟨by omega, ?_⟩
    rw [if_neg (by omega)]
    omega
  · rw [if_neg hd]
    simp only
    by_cases hp : getLower hv r.depth < r.sp
    · rw [if_pos hp]
      by_cases hbit : bitIsSet hv r.depth = true
      · rw [hbit] at hsucc
        simp only [if_true, mul_one] at hsucc
        refine ⟨by omega, ?_⟩
        rw [if_pos (by omega)]
      · rw [Bool.not_eq_true] at hbit
        rw [hbit] at hsucc
        simp only [Bool.false_eq_true, if_false, mul_zero, add_zero] at hsucc
        refine ⟨by omega, ?_⟩
        rw [if_pos (by omega)]
    · rw [if_neg hp]
      refine ⟨by omega, ?_⟩
      rw [if_neg (by omega)]

/-- The nodes after the first of a bucket chain are overflow pages. -/
theorem layout_rest_ovf {r : Reln} {ch : Nat → List (Node × Page)} (lay : Layout r ch)
    (b : Nat) (hb : b < r.npages) (pg : Page) (rest : List (Node × Page))
    (hc : ch b = ((false, b), pg) :: rest) : ∀ x ∈ rest, x.1.1 = true := by
  intro x hx
  have hnd := lay.nodup b hb
  rw [hc, List.map_cons, List.nodup_cons] at hnd
  have hxn : x.1 ∈ rest.map Prod.fst := List.mem_map.mpr ⟨x, hx, rfl⟩
  rcases layout_node_cases lay b hb x.1 (by rw [hc, List.map_cons]; exact List.mem_cons_of_mem _ hxn)
    with e | e
  · exact absurd (e ▸ hxn) hnd.1
  · exact e.1

/-- A call of `addToRelation` that returns keeps the invariant of the relation, also when
it returns `NO_PAGE`. -/
theorem addToRelation_inv (hash_any : CStr → Nat) (r r1 : Reln) (ch : Nat → List (Node × Page))
    (t : CStr) (res : Option Nat) (inv : RelInv hash_any r ch) (ht : '\x00' ∉ t)
    (h : addToRelation hash_any r t = some (r1, res)) :
    ∃ ch1, RelInv hash_any r1 ch1 := by
  unfold addToRelation at h
  split at h
  · cases h
  · cases hs : splitIfDue hash_any r with
    | none => rw [hs] at h; cases h
    | some rs =>
      rw [hs] at h
      simp only at h
      obtain ⟨chs, invs, _⟩ := splitIfDue_inv hash_any r rs ch inv hs
      cases hh : tupleHash hash_any rs.nattrs rs.cv t with
      | none => rw [hh] at h; cases h
      | some hv =>
        rw [hh] at h
        simp only at h
        obtain ⟨hp, haddr⟩ := bucketOf_addr rs hv invs.sp_lt invs.npages_eq
        generalize bucketOf rs hv = p at h hp haddr
        obtain ⟨pg, rest, hc⟩ := layout_cons invs.lay p hp
        have hch := invs.lay.chain p hp
        have hnd := invs.lay.nodup p hp
        have hok := invs.lay.ok p hp
        have hrest := layout_rest_ovf invs.lay p hp pg rest hc
        rw [hc] at hch hnd hok
        have hch0 := hch
        rw [ChainW_cons] at hch0
        obtain ⟨hpg, hlink, _, _⟩ := hch0
        suffices hins : ∃ c1, Inserted rs r1 (chs p) c1 t by
          obtain ⟨c1, ins⟩ := hins
          obtain ⟨e1, e2, e3, e4, e5⟩ := ins.hdr
          refine ⟨Function.update chs p c1, ?_⟩
          have hadr : ∀ b1 x, addrOK rs b1 x → addrOK r1 b1 x := by
            intro b1 x hx
            unfold addrOK at hx ⊢
            rw [e2, e3]
            exact hx
          exact
            { lay := layout_update invs.lay p hp c1 t ins
              sp_lt := by rw [e3, e2]; exact invs.sp_lt
              npages_eq := by rw [e4, e3, e2]; exact invs.npages_eq
              i1 := by
                intro b1 hb1 t1 ht1
                rw [e1, e5]
                by_cases hb : b1 = p
                · rw [hb, Function.update_same] at ht1
                  rw [hb]
                  rcases ins.tuples t1 ht1 with e | e
                  · obtain ⟨x, hx, hax⟩ := invs.i1 p hp t1 e
                    exact ⟨x, hx, hadr p x hax⟩
                  · rw [e]
                    exact ⟨hv, hh, hadr p hv haddr⟩
                · rw [Function.update_noteq hb] at ht1
                  obtain ⟨x, hx, hax⟩ := invs.i1 b1 (by omega) t1 ht1
                  exact ⟨x, hx, hadr b1 x hax⟩ }
        rw [getPage_eq_pageAt, hpg] at h
        simp only at h
        rw [hc]
        cases hadd : addToPage pg t with
        | some pg1 =>
          rw [hadd] at h
          simp only at h
          obtain ⟨r2, hput, hh2, hd2, ho2, hat2, hfr2⟩ := putPage_spec rs (false, p) pg1 pg hpg
          simp only at hput
          rw [hput] at h
          simp only [Option.some.injEq, Prod.mk.injEq] at h
          obtain ⟨hr1, _⟩ := h
          refine ⟨_, inserted_replace rs r1 t ht (false, p) pg pg1 [] rest hch hnd hok hadd
            ?_ ?_ ?_ ?_ ?_⟩
          · rw [← hr1]
            exact ⟨hh2.1, hh2.2.1, hh2.2.2.1, hh2.2.2.2.1, hh2.2.2.2.2.2.1⟩
          · rw [← hr1]; exact hd2
          · rw [← hr1]; exact ho2
          · rw [← hr1]; exact hat2
          · rw [← hr1]; exact hfr2
        | none =>
          rw [hadd] at h
          simp only at h
          cases hov : pg.ovflow with
          | some ovp =>
            rw [hov] at h
            simp only at h
            exact ovflowInsert_spec t ht p rs rest [((false, p), pg)] _ (some ovp) none r1 res
              hch hnd hok hrest (by rw [← hov]; exact hlink)
              (by
                intro e
                rw [e, hov] at hlink
                cases hlink) h
          | none =>
            rw [hov] at h
            simp only at h
            have hrest0 : rest = [] := by
              rw [hov] at hlink
              cases rest with
              | nil => rfl
              | cons x xs => cases hlink
            subst hrest0
            obtain ⟨_, hh1, hd1, ho1, hat1, hfr1⟩ := addOvflowPage_spec rs
            have e0 : (addOvflowPage rs).1 = rs.ovflow.length := rfl
            have hpa : pageAt (addOvflowPage rs).2 (false, p) = some pg := by
              rw [hfr1 (false, p) (by simp)]; exact hpg
            obtain ⟨r2, hput2, hh2, hd2, ho2, hat2, hfr2⟩ :=
              putPage_spec (addOvflowPage rs).2 (false, p)
                { pg with ovflow := some rs.ovflow.length } pg hpa
            simp only at hput2
            rw [e0, hput2] at h
            simp only at h
            have hnew : pageAt r2 (true, rs.ovflow.length) = some newPage := by
              rw [hfr2 (true, rs.ovflow.length) (by simp)]; exact hat1
            rw [getPage_eq_pageAt, hnew] at h
            simp only at h
            cases hadd2 : addToPage newPage t with
            | none =>
              rw [hadd2] at h
              simp only [Option.some.injEq, Prod.mk.injEq] at h
              obtain ⟨hr1, _⟩ := h
              have hT := SameHdr.trans hh1 hh2
              refine ⟨_, inserted_append rs r1 t (false, p) pg newPage [] hch hnd hok
                pageOK_newPage (by rw [pageTuples_newPage]; intro t1 h1; cases h1) rfl
                ?_ ?_ ?_ ?_ ?_ ?_⟩
              · rw [← hr1]
                exact ⟨hT.1, hT.2.1, hT.2.2.1, hT.2.2.2.1, hT.2.2.2.2.2.1⟩
              · rw [← hr1, hd2, hd1]
              · rw [← hr1, ho2, ho1]
              · rw [← hr1]; exact hat2
              · rw [← hr1]; exact hnew
              · intro m hm1 hm2
                rw [← hr1, hfr2 m hm1, hfr1 m hm2]
            | some q1 =>
              rw [hadd2] at h
              simp only at h
              obtain ⟨b1, b2, b3, _, _⟩ := addToPage_some newPage q1 t pageOK_newPage ht hadd2
              obtain ⟨r3, hput3, hh3, hd3, ho3, hat3, hfr3⟩ :=
                putPage_spec r2 (true, rs.ovflow.length) q1 newPage hnew
              simp only at hput3
              rw [hput3] at h
              simp only [Option.some.injEq, Prod.mk.injEq] at h
              obtain ⟨hr1, _⟩ := h
              have hT := SameHdr.trans (SameHdr.trans hh1 hh2) hh3
              refine ⟨_, inserted_append rs r1 t (false, p) pg q1 [] hch hnd hok b1
                (by rw [b2, pageTuples_newPage]; intro t1 h1; simpa using h1) (b3.trans rfl) ?_ ?_ ?_ ?_ ?_ ?_⟩
              · rw [← hr1]
                exact ⟨hT.1, hT.2.1, hT.2.2.1, hT.2.2.2.1, hT.2.2.2.2.2.1⟩
              · rw [← hr1]; show r3.data.length = _; rw [hd3, hd2, hd1]
              · rw [← hr1]; show r3.ovflow.length = _; rw [ho3, ho2, ho1]
              · rw [← hr1]; show pageAt r3 _ = _
                rw [hfr3 (false, p) (by simp)]; exact hat2
              · rw [← hr1]; exact hat3
              · intro m hm1 hm2
                rw [← hr1]; show pageAt r3 _ = _
                rw [hfr3 m hm2, hfr2 m hm1, hfr1 m hm2]

/-! ## The invariant of the reachable relations -/

/-- A relation made by `newRelation` with `2^d` pages satisfies the invariant: every
bucket is one empty page. -/
theorem relInv_fresh (hash_any : CStr → Nat) (nattrs d : Nat) (cv : List ChVecItem) (r : Reln)
    (h : newRelation nattrs (2 ^ d) d cv = some r) :
    RelInv hash_any r (fun b => [((false, b), newPage)]) := by
  unfold newRelation at h
  split at h
  · simp only [Option.some.injEq] at h
    subst h
    exact
      { lay :=
          { data_len := by simp
            head := fun b _ => rfl
            chain := by
              intro b hb
              refine ⟨?_, rfl, (fun x hx => by cases hx), trivial⟩
              simp only at hb
              simp [pageAt, getPage, hb]
            nodup := fun b _ => by simp
            disj := by
              intro b b1 n _ _ h1 h2
              simp only [List.map_cons, List.map_nil, List.mem_singleton] at h1 h2
              rw [h1] at h2
              simpa using h2
            ok := by
              intro b _ x hx
              simp only [List.mem_singleton] at hx
              rw [hx]
              exact pageOK_newPage }
        sp_lt := Nat.two_pow_pos d
        npages_eq := rfl
        i1 := by
          intro b _ t ht
          simp [tuplesOfPages, pageTuples_newPage] at ht }
  · cases h

/-- Every reachable relation satisfies the invariant. -/
theorem reachable_inv (hash_any : CStr → Nat) (r : Reln) (hr : Reachable hash_any r) :
    ∃ ch, RelInv hash_any r ch := by
  induction hr with
  | fresh nattrs d cv r h => exact ⟨_, relInv_fresh hash_any nattrs d cv r h⟩
  | insert r r1 t res _ ht h ih =>
    obtain ⟨ch, inv⟩ := ih
    exact addToRelation_inv hash_any r r1 ch t res inv ht h

/-- C4, amended: in every relation state reached from a relation created by `newRelation`
with `npages = 2^d` through calls of `addToRelation`, the chain of every bucket `b` can be
read, and every tuple `t` stored in it has a hash `tupleHash(t)` such that: if `b < sp` or
`b ≥ 2^depth` then the low `depth+1` bits of the hash equal `b`, otherwise the low `depth`
bits of the hash equal `b`. -/
theorem reachable_addressing (hash_any : CStr → Nat) (r : Reln) (hr : Reachable hash_any r)
    (b : Nat) (hb : b < r.npages) :
    ∃ ts, bucketTuples r b = some ts ∧
      ∀ t ∈ ts, ∃ hv, tupleHash hash_any r.nattrs r.cv t = some hv ∧ addrOK r b hv := by
  obtain ⟨ch, inv⟩ := reachable_inv hash_any r hr
  exact ⟨_, bucketTuples_layout inv.lay b hb, inv.i1 b hb⟩

set_option maxRecDepth 100000 in
theorem insert_wide0 : addToRelation List.length wide0 wideTuple = some (wide1, some 0) := by
  decide!

set_option maxRecDepth 100000 in
theorem insert_wide1 : addToRelation List.length wide1 wideTuple = some (wide2, some 0) := by
  decide!

set_option maxRecDepth 100000 in
theorem insert_wide2 : addToRelation List.length wide2 wideTuple = some (wide3, some 2) := by
  decide!

theorem wide2_reachable : Reachable List.length wide2 :=
  Reachable.insert wide1 wide2 wideTuple (some 0)
    (Reachable.insert wide0 wide1 wideTuple (some 0)
      (Reachable.fresh 52 0 cvAttr0 wide0 (by decide!)) (by decide!) insert_wide0)
    (by decide!) insert_wide1

theorem wide3_reachable : Reachable List.length wide3 :=
  Reachable.insert wide2 wide3 wideTuple (some 2) wide2_reachable (by decide!) insert_wide2

/-- The amended invariant at the relation `wide3`, reached by three insertions, and its
bucket 2. -/
theorem reachable_addressing_witness :
    Reachable List.length wide3 ∧ 2 < wide3.npages ∧
      ∃ ts, bucketTuples wide3 2 = some ts ∧
        ∀ t ∈ ts, ∃ hv, tupleHash List.length wide3.nattrs wide3.cv t = some hv ∧
          addrOK wide3 2 hv :=
  ⟨wide3_reachable, by decide, reachable_addressing List.length wide3 wide3_reachable 2 (by decide)⟩

/-- C4: with the length of a string as its hash, three insertions of `wideTuple` into the
fresh relation `wide0` (52 attributes, so a split before every insertion but the first)
give `depth = 1`, `sp = 1` and the three tuples in bucket 2. Their hash is 2, bucket 2 is
not below `sp`, and the low `depth` bits of the hash are 0, not 2. -/
theorem stated_addressing_fails :
    Reachable List.length wide3 ∧ wide3.depth = 1 ∧ wide3.sp = 1 ∧ wide3.npages = 3 ∧
      bucketTuples wide3 2 = some [wideTuple, wideTuple, wideTuple] ∧
      tupleHash List.length wide3.nattrs wide3.cv wideTuple = some 2 ∧
      ¬ addrStated wide3 2 2 := by
  refine ⟨wide3_reachable, rfl, rfl, rfl, by decide!, by decide!, ?_⟩
  unfold addrStated
  decide

/-- The split of bucket 0 of the relation `wide2`: both tuples move to the new bucket 2. -/
theorem lh_split_redistributes_witness :
    (∃ ch, Layout wide2 ch) ∧ wide2.sp < wide2.npages ∧
      bucketTuples wide2 wide2.sp = some [wideTuple, wideTuple] ∧
      (∀ t ∈ [wideTuple, wideTuple], (tupleVals t).length = wide2.nattrs) ∧
      ((∃ r1, lh_split List.length wide2 = some r1) ↔
        ∀ t ∈ [wideTuple, wideTuple], t.length < MAXTUPLEN) ∧
      ∀ r1, lh_split List.length wide2 = some r1 →
        r1.npages = wide2.npages + 1 ∧
        bucketTuples r1 wide2.sp =
          some ([wideTuple, wideTuple].filter (staysAt List.length wide2)) ∧
        bucketTuples r1 wide2.npages =
          some ([wideTuple, wideTuple].filter (movesAt List.length wide2)) ∧
        ∀ b, b < wide2.npages → b ≠ wide2.sp → bucketTuples r1 b = bucketTuples wide2 b := by
  obtain ⟨ch, inv⟩ := reachable_inv List.length wide2 wide2_reachable
  exact ⟨⟨ch, inv.lay⟩, by decide, by decide!, by decide!,
    lh_split_redistributes List.length wide2 ch [wideTuple, wideTuple] inv.lay (by decide)
      (by decide!) (by decide!)⟩

set_option maxRecDepth 100000 in
theorem insert_longWide0 :
    addToRelation List.length wide0 longWide = some (wideLong1, some 0) := by
  decide!

set_option maxRecDepth 100000 in
theorem lh_split_wideLong1 : lh_split List.length wideLong1 = none := by
  decide!

theorem pageOK_sharedRel : ∀ p ∈ sharedRel.data ++ sharedRel.ovflow, PageOK p := by
  intro p hp
  simp only [sharedRel, List.cons_append, List.nil_append, List.mem_cons, List.mem_singleton,
    List.not_mem_nil, or_false] at hp
  rcases hp with e | e | e
  · rw [e]; exact pageOK_setOvflow _ _ pageOK_newPage
  · rw [e]; exact pageOK_setOvflow _ _ pageOK_newPage
  · rw [e]; exact ⟨by decide!, by decide, by decide!, by decide!⟩

set_option maxRecDepth 100000 in
/-- C5: two states at which the split does not redistribute. (1) After the tuple `longWide`
of 251 characters is inserted into the fresh relation `wide0`, bucket `sp = 0` is a single
page that satisfies P1, and `lh_split` does not return: the tuple does not fit the buffer
`tup`. (2) In the relation `sharedRel` every page satisfies P1 and P2 and the chain of
bucket `sp = 0` is data page 0 followed by overflow page 0, with no cycle. Overflow page 0
is also linked from data page 1. `lh_split` empties it, so the tuple `a` of bucket 1 is
lost from that bucket, which is neither the split bucket nor the new one. -/
theorem lh_split_shared_page :
    (addToRelation List.length wide0 longWide = some (wideLong1, some 0) ∧
      PageOK longWidePage ∧ ChainW wideLong1 [((false, 0), longWidePage)] ∧
      bucketTuples wideLong1 wideLong1.sp = some [longWide] ∧
      MAXTUPLEN < longWide.length ∧
      lh_split List.length wideLong1 = none) ∧
    (∀ p ∈ sharedRel.data ++ sharedRel.ovflow, PageOK p) ∧
      ChainW sharedRel [((false, 0), { newPage with ovflow := some 0 }),
        ((true, 0), ⟨2, none, 1, 'a' :: List.replicate (dataSize - 1) '\x00'⟩)] ∧
      sharedRel.sp = 0 ∧ sharedRel.npages = 2 ∧
      bucketTuples sharedRel 1 = some [['a']] ∧
      lh_split List.length sharedRel = some sharedAfter ∧
      bucketTuples sharedAfter 1 = some [] := by
  refine ⟨⟨insert_longWide0, ⟨by decide!, by decide, by decide!, by decide!⟩,
    ⟨rfl, rfl, (fun x hx => by cases hx), trivial⟩, by decide!, by decide!,
    lh_split_wideLong1⟩,
    pageOK_sharedRel, ?_, rfl, rfl, by decide!, by decide!, by decide!⟩
  exact ⟨rfl, rfl, (fun x hx => by cases hx; rfl), rfl, rfl, (fun x hx => by cases hx), trivial⟩

/-! ## setup: the known bits and the query hash -/

/-- A known attribute of a query matches a value only if it is that value. -/
theorem strMatch_known (q x : CStr) (hk : known_attr q = true) (hm : strMatch q x = true) :
    q = x := by
  have hp : '%' ∉ q := by
    intro hmem
    unfold known_attr at hk
    have : q.contains '%' = true := by simpa using hmem
    rw [this] at hk
    simp at hk
  unfold strMatch at hm
  rw [countKnown_noPct q hp] at hm
  simp only at hm
  by_cases hlen : ((q.length : Int) > -1 + 1 ∧ (x.length : Int) - q.length + -1 + 1 < 0)
  · rw [if_pos hlen] at hm
    cases hm
  · rw [if_neg hlen] at hm
    simpa using hm

/-- A known attribute of a query is not the string `?`. -/
theorem known_attr_ne (q : CStr) (hk : known_attr q = true) : q ≠ ['?'] := by
  intro e
  rw [e] at hk
  revert hk
  decide

/-- The bits set by the inner loop of `setup` for the unknown attribute `i`. -/
theorem unknownBits_testBit (r : Reln) (i b : Nat) :
    ∀ k j u u1, unknownBits r i k j u = some u1 →
      (u1.testBit b = true ↔ u.testBit b = true ∨
        (j ≤ b ∧ b < j + k ∧ b < MAXCHVEC ∧ (cvAt r.cv b).att = i)) := by
  intro k
  induction k with
  | zero =>
    intro j u u1 h
    simp only [unknownBits, Option.some.injEq] at h
    rw [← h]
    constructor
    · exact Or.inl
    · rintro (h1 | h1)
      · exact h1
      · omega
  | succ k ih =>
    intro j u u1 h
    unfold unknownBits at h
    by_cases hc : cvAttAt r j = i
    · rw [if_pos hc] at h
      by_cases hj : j < MAXCHVEC
      · rw [if_pos hj] at h
        rw [ih (j + 1) _ u1 h, testBit_setBit]
        have hcj : (cvAt r.cv j).att = i := by
          unfold cvAttAt at hc
          rw [if_pos hj] at hc
          exact hc
        constructor
        · rintro ((h1 | h1) | h1)
          · exact Or.inl h1
          · right; rw [← h1]; exact ⟨le_refl _, by omega, hj, hcj⟩
          · right; exact ⟨by omega, by omega, h1.2.2⟩
        · rintro (h1 | h1)
          · exact Or.inl (Or.inl h1)
          · by_cases e : j = b
            · exact Or.inl (Or.inr e)
            · right; exact ⟨by omega, by omega, h1.2.2⟩
      · rw [if_neg hj] at h
        cases h
    · rw [if_neg hc] at h
      rw [ih (j + 1) _ u1 h]
      constructor
      · rintro (h1 | h1)
        · exact Or.inl h1
        · right; exact ⟨by omega, by omega, h1.2.2⟩
      · rintro (h1 | h1)
        · exact Or.inl h1
        · by_cases e : j = b
          · exfalso
            apply hc
            unfold cvAttAt
            rw [e, if_pos h1.2.2.1]
            exact h1.2.2.2
          · right; exact ⟨by omega, by omega, h1.2.2⟩

/-- The bits set by the outer loop of `setup`: bit `b` is set when the attribute of
`cv[b]` is an unknown attribute of the query. -/
theorem unknownLoop_testBit (r : Reln) (qvals : List CStr) (b : Nat) :
    ∀ k i u u1, unknownLoop r qvals k i u = some u1 →
      (u1.testBit b = true ↔ u.testBit b = true ∨
        (b < MAXCHVEC ∧ i ≤ (cvAt r.cv b).att ∧ (cvAt r.cv b).att < i + k ∧
          known_attr (strAt qvals (cvAt r.cv b).att) = false)) := by
  intro k
  induction k with
  | zero =>
    intro i u u1 h
    simp only [unknownLoop, Option.some.injEq] at h
    rw [← h]
    constructor
    · exact Or.inl
    · rintro (h1 | h1)
      · exact h1
      · omega
  | succ k ih =>
    intro i u u1 h
    unfold unknownLoop at h
    by_cases hk : known_attr (strAt qvals i) = false
    · rw [if_pos hk] at h
      cases hu : unknownBits r i (MAXCHVEC + 1) 0 u with
      | none => rw [hu] at h; cases h
      | some u2 =>
        rw [hu] at h
        simp only at h
        rw [ih (i + 1) u2 u1 h, unknownBits_testBit r i b _ _ _ _ hu]
        constructor
        · rintro ((h1 | h1) | h1)
          · exact Or.inl h1
          · right
            refine ⟨h1.2.2.1, by omega, by omega, ?_⟩
            rw [h1.2.2.2]
            exact hk
          · right; exact ⟨h1.1, by omega, by omega, h1.2.2.2⟩
        · rintro (h1 | h1)
          · exact Or.inl (Or.inl h1)
          · by_cases e : (cvAt r.cv b).att = i
            · exact Or.inl (Or.inr ⟨Nat.zero_le _, by omega, h1.1, e⟩)
            · right; exact ⟨h1.1, by omega, by omega, h1.2.2.2⟩
    · rw [if_neg hk] at h
      rw [ih (i + 1) u u1 h]
      constructor
      · rintro (h1 | h1)
        · exact Or.inl h1
        · right; exact ⟨h1.1, by omega, by omega, h1.2.2.2⟩
      · rintro (h1 | h1)
        · exact Or.inl h1
        · by_cases e : (cvAt r.cv b).att = i
          · exfalso
            rw [e] at h1
            exact hk h1.2.2.2
          · right; exact ⟨h1.1, by omega, by omega, h1.2.2.2⟩

/-- The bits of the complement of a word whose bits are all below `MAXCHVEC`. -/
theorem bitsNot_testBit (u b : Nat) (hu : u.testBit b = true → b < MAXCHVEC) :
    (bitsNot u).testBit b = true ↔ b < MAXCHVEC ∧ u.testBit b = false := by
  unfold bitsNot
  have e : (4294967295 : Nat) = 2 ^ 32 - 1 := by norm_num
  rw [Nat.testBit_xor, e, Nat.testBit_two_pow_sub_one]
  unfold MAXCHVEC at hu ⊢
  by_cases hb : b < 32
  · cases hub : u.testBit b <;> simp [hb]
  · cases hub : u.testBit b
    · simp [hb]
    · exact absurd (hu hub) hb

/-- The values that `setup` stores: the fields of the query, the known bits (bit `b` is
known when `b < MAXCHVEC` and the attribute of `cv[b]` is not an unknown attribute of the
query) and the masked hash of the query. -/
theorem setup_spec (hash_any : CStr → Nat) (r : Reln) (q : CStr) (qvals : List CStr)
    (known qHash : Nat) (hs : setup hash_any r q = some (qvals, known, qHash)) :
    qvals = tupleVals q ∧ qvals.length = r.nattrs ∧
      (∀ b, known.testBit b = true ↔ b < MAXCHVEC ∧
        ¬((cvAt r.cv b).att < r.nattrs ∧ known_attr (strAt qvals (cvAt r.cv b).att) = false)) ∧
      qHash = tupleHashLoop hash_any r.cv qvals r.nattrs 0 0 &&& known := by
  unfold setup at hs
  cases hq : tupleValsN r.nattrs q with
  | none => rw [hq] at hs; cases hs
  | some qv =>
    rw [hq] at hs
    simp only at hs
    have hqv : qv = tupleVals q ∧ qv.length = r.nattrs := by
      unfold tupleValsN at hq
      split at hq
      · rename_i hl
        simp only [Option.some.injEq] at hq
        rw [← hq]
        exact ⟨rfl, hl⟩
      · cases hq
    cases hu : unknownLoop r qv r.nattrs 0 0 with
    | none => rw [hu] at hs; cases hs
    | some u =>
      rw [hu] at hs
      simp only at hs
      unfold tupleHash at hs
      rw [hq] at hs
      simp only [Option.some.injEq, Prod.mk.injEq] at hs
      obtain ⟨e1, e2, e3⟩ := hs
      subst e1
      have hbits := fun b => unknownLoop_testBit r qv b _ _ _ _ hu
      refine ⟨hqv.1, hqv.2, ?_, by rw [← e3, e2]⟩
      intro b
      rw [← e2, bitsNot_testBit u b (fun h => by
        rcases (hbits b).mp h with h1 | h1
        · simp at h1
        · exact h1.1)]
      constructor
      · rintro ⟨h1, h2⟩
        refine ⟨h1, ?_⟩
        intro h3
        have : u.testBit b = true := (hbits b).mpr (Or.inr ⟨h1, Nat.zero_le _, by omega, h3.2⟩)
        rw [h2] at this
        cases this
      · rintro ⟨h1, h2⟩
        refine ⟨h1, ?_⟩
        cases hub : u.testBit b
        · rfl
        · exfalso
          rcases (hbits b).mp hub with h3 | h3
          · simp at h3
          · exact h2 ⟨by omega, h3.2.2.2⟩

/-- C11: when `setup` computes `known` and `qHash` for the query `q` and
`tupValMatch(nattrs, values(q), t)` is TRUE, the hash of the tuple agrees with the query
hash on every known bit: `tupleHash(r, t) AND known = qHash`. -/
theorem hash_decomposable (hash_any : CStr → Nat) (r : Reln) (q t : CStr) (qvals : List CStr)
    (known qHash : Nat) (hs : setup hash_any r q = some (qvals, known, qHash))
    (hm : tupValMatch r.nattrs qvals t = some true) :
    ∃ h, tupleHash hash_any r.nattrs r.cv t = some h ∧ h &&& known = qHash := by
  obtain ⟨_, hlen, hknown, hqh⟩ := setup_spec hash_any r q qvals known qHash hs
  unfold tupValMatch at hm
  cases ht : tupleValsN r.nattrs t with
  | none => rw [ht] at hm; cases hm
  | some tv =>
    rw [ht] at hm
    simp only at hm
    have htl : tv.length = r.nattrs := by
      unfold tupleValsN at ht
      split at ht
      · rename_i hl
        simp only [Option.some.injEq] at ht
        rw [← ht]
        exact hl
      · cases ht
    obtain ⟨bb, hb, hbs⟩ := tupValLoop_spec qvals tv r.nattrs hlen htl r.nattrs 0 (by omega)
    rw [hm] at hb
    simp only [Option.some.injEq] at hb
    have hall := hbs.mp hb.symm
    refine ⟨_, by unfold tupleHash; rw [ht], ?_⟩
    rw [hqh]
    apply Nat.eq_of_testBit_eq
    intro b
    rw [Nat.testBit_and, Nat.testBit_and]
    cases hkb : known.testBit b
    · simp
    · simp only [Bool.and_true]
      obtain ⟨hb32, hnot⟩ := (hknown b).mp hkb
      rw [Bool.eq_iff_iff, tupleHash_bit, tupleHash_bit]
      by_cases hatt : (cvAt r.cv b).att < r.nattrs
      · have hk : known_attr (strAt qvals (cvAt r.cv b).att) = true := by
          cases hka : known_attr (strAt qvals (cvAt r.cv b).att)
          · exact absurd ⟨hatt, hka⟩ hnot
          · rfl
        have hq1 : qvals[(cvAt r.cv b).att]? = some (strAt qvals (cvAt r.cv b).att) := by
          unfold strAt
          rw [List.getD_eq_getElem?_getD, List.getElem?_eq_getElem (by omega)]
          rfl
        have ht1 : tv[(cvAt r.cv b).att]? = some (strAt tv (cvAt r.cv b).att) := by
          unfold strAt
          rw [List.getD_eq_getElem?_getD, List.getElem?_eq_getElem (by omega)]
          rfl
        have heq : strAt qvals (cvAt r.cv b).att = strAt tv (cvAt r.cv b).att := by
          rcases hall _ _ _ (Nat.zero_le _) hq1 ht1 with h1 | h1
          · exact absurd h1 (known_attr_ne _ hk)
          · exact strMatch_known _ _ hk h1
        rw [heq]
      · constructor
        · intro h1; exact absurd h1.2.1 hatt
        · intro h1; exact absurd h1.2.1 hatt

/-- The query `?,red` on the relation `appleStored` and its tuple `apple,red`. -/
theorem hash_decomposable_witness :
    setup List.length appleStored "?,red".toList =
        some (["?".toList, "red".toList], 2863311530, 10) ∧
      tupValMatch appleStored.nattrs ["?".toList, "red".toList] "apple,red".toList = some true ∧
      ∃ h, tupleHash List.length appleStored.nattrs appleStored.cv "apple,red".toList = some h ∧
        h &&& 2863311530 = 10 :=
  ⟨by decide!, by decide!,
    hash_decomposable List.length appleStored "?,red".toList "apple,red".toList
      ["?".toList, "red".toList] 2863311530 10 (by decide!) (by decide!)⟩

/-! ## The header fields across addToRelation

These facts hold in every relation state. -/

theorem putPage_hdr (r r1 : Reln) (o : Bool) (i : Nat) (p : Page)
    (h : putPage r o i p = some r1) : SameHdr r r1 := by
  unfold putPage at h
  split at h <;> split at h
  all_goals first
    | (simp only [Option.some.injEq] at h; rw [← h]; exact ⟨rfl, rfl, rfl, rfl, rfl, rfl, rfl⟩)
    | cases h

theorem addOvflowPage_hdr (r : Reln) : SameHdr r (addOvflowPage r).2 :=
  (addOvflowPage_spec r).2.1

theorem flushLoop_hdr (buf : Page) :
    ∀ (fuel : Nat) (r : Reln) (p : Page) (pid : Nat) (isOvf : Bool) (r1 : Reln),
      flushLoop r buf fuel p pid isOvf = some r1 → SameHdr r r1 := by
  intro fuel
  induction fuel with
  | zero => intro r p pid isOvf r1 h; cases h
  | succ fuel ih =>
    intro r p pid isOvf r1 h
    unfold flushLoop at h
    split at h
    · exact putPage_hdr _ _ _ _ _ h
    · split at h
      · simp only at h
        split at h
        · cases h
        · rename_i r2 h2
          exact SameHdr.trans (SameHdr.trans (addOvflowPage_hdr r) (putPage_hdr _ _ _ _ _ h2))
            (putPage_hdr _ _ _ _ _ h)
      · split at h
        · cases h
        · exact ih _ _ _ _ _ h

theorem flushToBuck_hdr (r r1 : Reln) (bid : Nat) (buf : Page)
    (h : flushToBuck r bid buf = some r1) : SameHdr r r1 := by
  unfold flushToBuck at h
  split at h
  · cases h
  · exact flushLoop_hdr _ _ _ _ _ _ _ h

theorem splitTuple_hdr (hash_any : CStr → Nat) (newBid : Nat) (tup : CStr) (r r1 : Reln)
    (stay move stay1 move1 : Page)
    (h : splitTuple hash_any newBid tup r stay move = some (r1, stay1, move1)) :
    SameHdr r r1 := by
  unfold splitTuple at h
  split at h
  · cases h
  · split at h
    · split at h
      · simp only [Option.some.injEq, Prod.mk.injEq] at h
        rw [← h.1]
        exact SameHdr.refl _
      · split at h
        · cases h
        · rename_i r2 h2
          simp only [Option.some.injEq, Prod.mk.injEq] at h
          rw [← h.1]
          exact flushToBuck_hdr _ _ _ _ h2
    · split at h
      · simp only [Option.some.injEq, Prod.mk.injEq] at h
        rw [← h.1]
        exact SameHdr.refl _
      · split at h
        · cases h
        · rename_i r2 h2
          simp only [Option.some.injEq, Prod.mk.injEq] at h
          rw [← h.1]
          exact flushToBuck_hdr _ _ _ _ h2

theorem splitScan_hdr (hash_any : CStr → Nat) (newBid : Nat) :
    ∀ (bytes : List Char) (cur : CStr) (r : Reln) (stay move : Page) (r1 : Reln)
      (stay1 move1 : Page),
      splitScan hash_any newBid bytes cur r stay move = some (r1, stay1, move1) →
      SameHdr r r1 := by
  intro bytes
  induction bytes with
  | nil =>
    intro cur r stay move r1 stay1 move1 h
    simp only [splitScan, Option.some.injEq, Prod.mk.injEq] at h
    rw [← h.1]
    exact SameHdr.refl _
  | cons c cs ih =>
    intro cur r stay move r1 stay1 move1 h
    unfold splitScan at h
    split at h
    · split at h
      · split at h
        · cases h
        · rename_i r2 s2 m2 h2
          exact SameHdr.trans (splitTuple_hdr _ _ _ _ _ _ _ _ _ h2) (ih _ _ _ _ _ _ _ h)
      · cases h
    · exact ih _ _ _ _ _ _ _ h

theorem splitLoop_hdr (hash_any : CStr → Nat) (newBid : Nat) :
    ∀ (fuel : Nat) (r : Reln) (curPid : Nat) (isOvf : Bool) (stay move : Page) (r1 : Reln)
      (stay1 move1 : Page),
      splitLoop hash_any newBid fuel r curPid isOvf stay move = some (r1, stay1, move1) →
      SameHdr r r1 := by
  intro fuel
  induction fuel with
  | zero => intro r curPid isOvf stay move r1 stay1 move1 h; cases h
  | succ fuel ih =>
    intro r curPid isOvf stay move r1 stay1 move1 h
    unfold splitLoop at h
    split at h
    · cases h
    · split at h
      · cases h
      · rename_i r2 s2 m2 h2
        split at h
        · cases h
        · rename_i r3 h3
          have h23 := SameHdr.trans (splitScan_hdr _ _ _ _ _ _ _ _ _ _ h2)
            (putPage_hdr _ _ _ _ _ h3)
          split at h
          · simp only [Option.some.injEq, Prod.mk.injEq] at h
            rw [← h.1]
            exact h23
          · exact SameHdr.trans h23 (ih _ _ _ _ _ _ _ _ h)

/-- The header after `lh_split`: `npages` is one more, the other fields are the same. -/
theorem lh_split_hdr (hash_any : CStr → Nat) (r r1 : Reln) (h : lh_split hash_any r = some r1) :
    r1.nattrs = r.nattrs ∧ r1.depth = r.depth ∧ r1.sp = r.sp ∧ r1.npages = r.npages + 1 ∧
      r1.ntups = r.ntups ∧ r1.cv = r.cv ∧ r1.mode = r.mode := by
  unfold lh_split at h
  simp only at h
  split at h
  · cases h
  · rename_i r2 stay move h2
    have a := splitLoop_hdr _ _ _ _ _ _ _ _ _ _ _ h2
    split at h
    · cases h
    · rename_i r3 h3
      have b : SameHdr r2 r3 := by
        split at h3
        · exact flushToBuck_hdr _ _ _ _ h3
        · simp only [Option.some.injEq] at h3
          rw [← h3]
          exact SameHdr.refl _
      have c : SameHdr r3 r1 := by
        split at h
        · exact flushToBuck_hdr _ _ _ _ h
        · simp only [Option.some.injEq] at h
          rw [← h]
          exact SameHdr.refl _
      exact SameHdr.trans (SameHdr.trans a b) c

theorem insertHdr_some (r r3 : Reln) (p : Nat) (h : SameHdr r r3) :
    InsertHdr r { r3 with ntups := r3.ntups + 1 } p (some p) :=
  ⟨h.1, h.2.1, h.2.2.1, h.2.2.2.1, h.2.2.2.2.2.1, by simp [h.2.2.2.2.1],
    fun b hb => (Option.some.inj hb).symm⟩

theorem insertHdr_none (r r3 : Reln) (p : Nat) (h : SameHdr r r3) : InsertHdr r r3 p none :=
  ⟨h.1, h.2.1, h.2.2.1, h.2.2.2.1, h.2.2.2.2.2.1, by simp [h.2.2.2.2.1],
    fun b hb => by cases hb⟩

theorem ovflowInsert_hdr (t : CStr) (p : Nat) :
    ∀ (fuel : Nat) (r : Reln) (ovp : Option Nat) (prev : Option (Nat × Page)) (r1 : Reln)
      (res : Option Nat),
      ovflowInsert t p fuel r ovp prev = some (r1, res) → InsertHdr r r1 p res := by
  intro fuel
  induction fuel with
  | zero => intro r ovp prev r1 res h; cases h
  | succ fuel ih =>
    intro r ovp prev r1 res h
    unfold ovflowInsert at h
    split at h
    · split at h
      · cases h
      · split at h
        · exact ih _ _ _ _ _ h
        · split at h
          · cases h
          · rename_i r2 h2
            simp only [Option.some.injEq, Prod.mk.injEq] at h
            rw [← h.1, ← h.2]
            exact insertHdr_some r r2 p (putPage_hdr _ _ _ _ _ h2)
    · split at h
      · cases h
      · simp only at h
        split at h
        · cases h
        · split at h
          · simp only [Option.some.injEq, Prod.mk.injEq] at h
            rw [← h.1, ← h.2]
            exact insertHdr_none r _ p (addOvflowPage_hdr r)
          · split at h
            · cases h
            · rename_i r2 h2
              split at h
              · cases h
              · rename_i r3 h3
                simp only [Option.some.injEq, Prod.mk.injEq] at h
                rw [← h.1, ← h.2]
                exact insertHdr_some r r3 p
                  (SameHdr.trans (SameHdr.trans (addOvflowPage_hdr r) (putPage_hdr _ _ _ _ _ h2))
                    (putPage_hdr _ _ _ _ _ h3))

/-- The split step of `addToRelation` in any relation state: when a split is due,
`lh_split` runs once, `npages` grows by one and the split pointer moves on; otherwise
nothing changes. -/
theorem splitIfDue_hdr (hash_any : CStr → Nat) (r rs : Reln)
    (h : splitIfDue hash_any r = some rs) :
    rs.nattrs = r.nattrs ∧ rs.ntups = r.ntups ∧ rs.cv = r.cv ∧
      if r.ntups > 0 ∧ r.ntups % Pcap r.nattrs = 0 then
        (∃ r1, lh_split hash_any r = some r1) ∧ rs.npages = r.npages + 1 ∧
          if r.sp + 1 < 2 ^ r.depth then rs.sp = r.sp + 1 ∧ rs.depth = r.depth
          else rs.sp = 0 ∧ rs.depth = r.depth + 1
      else rs = r := by
  unfold splitIfDue at h
  by_cases hc : r.ntups > 0 ∧ r.ntups % Pcap r.nattrs = 0
  · rw [if_pos hc] at h
    rw [if_pos hc]
    cases hl : lh_split hash_any r with
    | none => rw [hl] at h; cases h
    | some r1 =>
      rw [hl] at h
      simp only at h
      obtain ⟨a1, a2, a3, a4, a5, a6, _⟩ := lh_split_hdr hash_any r r1 hl
      rw [a3, a2] at h
      by_cases hadv : r.sp + 1 < 2 ^ r.depth
      · rw [if_pos hadv] at h
        rw [if_pos hadv]
        simp only [Option.some.injEq] at h
        rw [← h]
        exact ⟨a1, a5, a6, ⟨r1, rfl⟩, a4, rfl, rfl⟩
      · rw [if_neg hadv] at h
        rw [if_neg hadv]
        simp only [Option.some.injEq] at h
        rw [← h]
        exact ⟨a1, a5, a6, ⟨r1, rfl⟩, a4, rfl, rfl⟩
  · rw [if_neg hc] at h
    rw [if_neg hc]
    simp only [Option.some.injEq] at h
    rw [← h]
    exact ⟨rfl, rfl, rfl, rfl⟩

/-- The two steps of `addToRelation` in any relation state: the split step gives `rs`, the
tuple is hashed in `rs` and inserted into the bucket of its hash. -/
theorem addToRelation_hdr (hash_any : CStr → Nat) (r r1 : Reln) (t : CStr) (res : Option Nat)
    (h : addToRelation hash_any r t = some (r1, res)) :
    r.nattrs ≠ 0 ∧ Pcap r.nattrs ≠ 0 ∧
      ∃ rs hv, splitIfDue hash_any r = some rs ∧
        tupleHash hash_any rs.nattrs rs.cv t = some hv ∧ InsertHdr rs r1 (bucketOf rs hv) res := by
  unfold addToRelation at h
  split at h
  · cases h
  · rename_i hn
    refine ⟨fun e => hn (Or.inl e), fun e => hn (Or.inr e), ?_⟩
    cases hs : splitIfDue hash_any r with
    | none => rw [hs] at h; cases h
    | some rs =>
      rw [hs] at h
      simp only at h
      cases hh : tupleHash hash_any rs.nattrs rs.cv t with
      | none => rw [hh] at h; cases h
      | some hv =>
        rw [hh] at h
        simp only at h
        refine ⟨rs, hv, rfl, hh, ?_⟩
        generalize bucketOf rs hv = p at h
        split at h
        · cases h
        · split at h
          · split at h
            · cases h
            · rename_i r2 h2
              simp only [Option.some.injEq, Prod.mk.injEq] at h
              rw [← h.1, ← h.2]
              exact insertHdr_some rs r2 p (putPage_hdr _ _ _ _ _ h2)
          · split at h
            · split at h
              · cases h
              · rename_i r2 h2
                have a := SameHdr.trans (addOvflowPage_hdr rs) (putPage_hdr _ _ _ _ _ h2)
                split at h
                · cases h
                · split at h
                  · simp only [Option.some.injEq, Prod.mk.injEq] at h
                    rw [← h.1, ← h.2]
                    exact insertHdr_none rs r2 p a
                  · split at h
                    · cases h
                    · rename_i r3 h3
                      simp only [Option.some.injEq, Prod.mk.injEq] at h
                      rw [← h.1, ← h.2]
                      exact insertHdr_some rs r3 p
                        (SameHdr.trans a (putPage_hdr _ _ _ _ _ h3))
            · exact ovflowInsert_hdr t p _ _ _ _ _ _ h

/-! ## addToRelation: counter, split pointer and split threshold -/

/-- C13: a call of `addToRelation` that returns a page id leaves `ntups` one higher than
before the call, and a call that returns `NO_PAGE` leaves `ntups` as it was. -/
theorem ntups_counter (hash_any : CStr → Nat) (r r1 : Reln) (t : CStr) (res : Option Nat)
    (h : addToRelation hash_any r t = some (r1, res)) :
    (∀ b, res = some b → r1.ntups = r.ntups + 1) ∧ (res = none → r1.ntups = r.ntups) := by
  obtain ⟨_, _, rs, hv, hs, _, hi⟩ := addToRelation_hdr hash_any r r1 t res h
  obtain ⟨_, e, _, _⟩ := splitIfDue_hdr hash_any r rs hs
  obtain ⟨_, _, _, _, _, hn, _⟩ := hi
  rw [e] at hn
  constructor
  · intro b hb
    rw [hn, hb]
    rfl
  · intro hb
    rw [hn, hb]
    rfl

/-- C14: across a call of `addToRelation` in any relation state, `npages` and `depth` do
not decrease and the pair `(depth, sp)` does not decrease in the lexicographic order. -/
theorem split_pointer_monotone (hash_any : CStr → Nat) (r r1 : Reln) (t : CStr)
    (res : Option Nat) (h : addToRelation hash_any r t = some (r1, res)) :
    r.npages ≤ r1.npages ∧ r.depth ≤ r1.depth ∧
      (r.depth < r1.depth ∨ (r1.depth = r.depth ∧ r.sp ≤ r1.sp)) := by
  obtain ⟨_, _, rs, hv, hs, _, hi⟩ := addToRelation_hdr hash_any r r1 t res h
  obtain ⟨_, _, _, hsplit⟩ := splitIfDue_hdr hash_any r rs hs
  obtain ⟨_, e2, e3, e4, _, _, _⟩ := hi
  rw [e2, e3, e4]
  split at hsplit
  · obtain ⟨_, hnp, hadv⟩ := hsplit
    split at hadv
    · exact ⟨by omega, by omega, Or.inr ⟨hadv.2, by omega⟩⟩
    · exact ⟨by omega, by omega, Or.inl (by omega)⟩
  · rw [hsplit]
    exact ⟨le_refl _, le_refl _, Or.inr ⟨rfl, le_refl _⟩⟩

/-- The capacity computed in double arithmetic is `floor(1024 / (10 * nattrs))`. -/
theorem pcapDouble_eq : ∀ n < 103, 1 ≤ n → PcapDouble n = 1024 / (10 * n) := by
  decide!

/-- C15: for `1 ≤ nattrs ≤ 102` the capacity that `addToRelation` computes as
`floor(102.4 / nattrs)` in double arithmetic is `C = floor(1024 / (10 * nattrs))`; a call
of `addToRelation` runs `lh_split` once and leaves `npages` one higher if `ntups > 0` and
`ntups mod C = 0` before the call, and otherwise leaves `npages`, `depth` and `sp` as
they were. -/
theorem split_threshold (hash_any : CStr → Nat) (r r1 : Reln) (t : CStr) (res : Option Nat)
    (hn : 1 ≤ r.nattrs ∧ r.nattrs ≤ 102)
    (h : addToRelation hash_any r t = some (r1, res)) :
    PcapDouble r.nattrs = 1024 / (10 * r.nattrs) ∧
      if r.ntups > 0 ∧ r.ntups % (1024 / (10 * r.nattrs)) = 0 then
        (∃ r2, lh_split hash_any r = some r2) ∧ r1.npages = r.npages + 1
      else r1.npages = r.npages ∧ r1.depth = r.depth ∧ r1.sp = r.sp := by
  refine ⟨pcapDouble_eq r.nattrs (by omega) hn.1, ?_⟩
  obtain ⟨_, _, rs, hv, hs, _, hi⟩ := addToRelation_hdr hash_any r r1 t res h
  obtain ⟨_, _, _, hsplit⟩ := splitIfDue_hdr hash_any r rs hs
  obtain ⟨_, e2, e3, e4, _, _, _⟩ := hi
  rw [e2, e3, e4]
  have hP : Pcap r.nattrs = 1024 / (10 * r.nattrs) := rfl
  rw [hP] at hsplit
  split at hsplit
  · rename_i hc
    rw [if_pos hc]
    exact ⟨hsplit.1, hsplit.2.1⟩
  · rename_i hc
    rw [if_neg hc, hsplit]
    exact ⟨rfl, rfl, rfl⟩

/-- The first insertion into `wide0`. -/
theorem ntups_counter_witness :
    addToRelation List.length wide0 wideTuple = some (wide1, some 0) ∧
      (∀ b, some 0 = some b → wide1.ntups = wide0.ntups + 1) ∧
      ((some 0 : Option Nat) = none → wide1.ntups = wide0.ntups) :=
  ⟨by decide!, ntups_counter List.length wide0 wide1 wideTuple (some 0) (by decide!)⟩

/-- The second insertion into the relation of 52 attributes: the split ends a round. -/
theorem split_pointer_monotone_witness :
    addToRelation List.length wide1 wideTuple = some (wide2, some 0) ∧
      wide1.npages ≤ wide2.npages ∧ wide1.depth ≤ wide2.depth ∧
      (wide1.depth < wide2.depth ∨ (wide2.depth = wide1.depth ∧ wide1.sp ≤ wide2.sp)) :=
  ⟨by decide!, split_pointer_monotone List.length wide1 wide2 wideTuple (some 0) (by decide!)⟩

/-- The third insertion into the relation of 52 attributes, where `C = 1`. -/
theorem split_threshold_witness :
    (1 ≤ wide2.nattrs ∧ wide2.nattrs ≤ 102) ∧
      addToRelation List.length wide2 wideTuple = some (wide3, some 2) ∧
      PcapDouble wide2.nattrs = 1024 / (10 * wide2.nattrs) ∧
      if wide2.ntups > 0 ∧ wide2.ntups % (1024 / (10 * wide2.nattrs)) = 0 then
        (∃ r2, lh_split List.length wide2 = some r2) ∧ wide3.npages = wide2.npages + 1
      else wide3.npages = wide2.npages ∧ wide3.depth = wide2.depth ∧ wide3.sp = wide2.sp :=
  ⟨by decide, by decide!,
    split_threshold List.length wide2 wide3 wideTuple (some 2) (by decide) (by decide!)⟩

/-! ## addToRelation: where the tuple is stored -/

/-- The scan of the overflow chain in `addToRelation`, when it returns a page id: the
tuple is on a page of the chain afterwards. -/
theorem ovflowInsert_stored (t : CStr) (ht : '\x00' ∉ t) (p : Nat) (r : Reln) :
    ∀ (suf pre : List (Node × Page)) (fuel : Nat) (ovp : Option Nat)
      (prev : Option (Nat × Page)) (r1 : Reln) (b : Nat),
      ChainW r (pre ++ suf) → ((pre ++ suf).map Prod.fst).Nodup →
      (∀ x ∈ pre ++ suf, PageOK x.2) → (∀ x ∈ suf, x.1.1 = true) →
      ovp = suf.head?.map (fun x => x.1.2) →
      (suf = [] → ∃ a n q, pre = a ++ [(n, q)] ∧ n.1 = true ∧ prev = some (n.2, q)) →
      ovflowInsert t p fuel r ovp prev = some (r1, some b) →
      ∃ c1, Inserted r r1 (pre ++ suf) c1 t ∧ t ∈ tuplesOfPages (c1.map Prod.snd) := by
  intro suf
  induction suf with
  | nil =>
    intro pre fuel ovp prev r1 b hch hnd hok _ hovp hprev h
    obtain ⟨a, n, q, hpre, hn1, hpv⟩ := hprev rfl
    simp only [List.head?_nil, Option.map_none'] at hovp
    subst hovp hpv hpre
    rw [List.append_nil] at hch hnd hok ⊢
    cases fuel with
    | zero => simp [ovflowInsert] at h
    | succ fuel =>
      obtain ⟨_, hh1, hd1, ho1, hat1, hfr1⟩ := addOvflowPage_spec r
      have hnq : pageAt r n = some q := ChainW_mem r _ hch (n, q) (by simp)
      have hnL : n ≠ (true, r.ovflow.length) := by
        intro e
        have := (pageAt_lt r n q hnq).1 hn1
        rw [e] at this
        simp at this
      unfold ovflowInsert at h
      simp only at h
      rw [getPage_eq_pageAt] at h
      have e0 : (addOvflowPage r).1 = r.ovflow.length := rfl
      rw [e0, hat1] at h
      simp only at h
      cases hadd : addToPage newPage t with
      | none =>
        rw [hadd] at h
        simp at h
      | some q1 =>
        rw [hadd] at h
        simp only at h
        obtain ⟨b1, b2, b3, _, _⟩ := addToPage_some newPage q1 t pageOK_newPage ht hadd
        obtain ⟨r2, hput2, hh2, hd2, ho2, hat2, hfr2⟩ :=
          putPage_spec (addOvflowPage r).2 (true, r.ovflow.length) q1 newPage hat1
        rw [hput2] at h
        simp only at h
        have hn2 : pageAt r2 n = some q := by
          rw [hfr2 n hnL, hfr1 n hnL]; exact hnq
        obtain ⟨r3, hput3, hh3, hd3, ho3, hat3, hfr3⟩ :=
          putPage_spec r2 n { q with ovflow := some r.ovflow.length } q hn2
        have en : n = (true, n.2) := by rw [← hn1]
        rw [en] at hput3
        simp only at hput3
        rw [hput3] at h
        simp only [Option.some.injEq, Prod.mk.injEq] at h
        obtain ⟨hr1, _⟩ := h
        have hT := SameHdr.trans (SameHdr.trans hh1 hh2) hh3
        refine ⟨_, inserted_append r r1 t n q q1 a hch hnd hok b1
          (by rw [b2, pageTuples_newPage]; intro t1 h1; simpa using h1) (b3.trans rfl)
          ?_ ?_ ?_ ?_ ?_ ?_, mem_tuplesOfPages _ q1 (by simp) t (by rw [b2]; simp)⟩
        · rw [← hr1]
          exact ⟨hT.1, hT.2.1, hT.2.2.1, hT.2.2.2.1, hT.2.2.2.2.2.1⟩
        · rw [← hr1]; exact hd3.trans (hd2.trans hd1)
        · rw [← hr1]; exact ho3.trans (ho2.trans ho1)
        · rw [← hr1, pageAt_ntups]; exact hat3
        · rw [← hr1, pageAt_ntups, hfr3 _ (fun e => hnL e.symm)]; exact hat2
        · intro m hm1 hm2
          rw [← hr1, pageAt_ntups, hfr3 m hm1, hfr2 m hm2, hfr1 m hm2]
  | cons x suf ih =>
    intro pre fuel ovp prev r1 b hch hnd hok hovf hovp _ h
    obtain ⟨n, q⟩ := x
    have hn1 : n.1 = true := hovf (n, q) (List.mem_cons_self _ _)
    simp only [List.head?_cons, Option.map_some'] at hovp
    subst hovp
    have hnq : pageAt r n = some q := ChainW_mem r _ hch (n, q) (by simp)
    have en : n = (true, n.2) := by rw [← hn1]
    cases fuel with
    | zero => simp [ovflowInsert] at h
    | succ fuel =>
      unfold ovflowInsert at h
      simp only at h
      rw [getPage_eq_pageAt, ← en, hnq] at h
      simp only at h
      cases hadd : addToPage q t with
      | none =>
        rw [hadd] at h
        simp only at h
        have hlist : pre ++ (n, q) :: suf = (pre ++ [(n, q)]) ++ suf := by simp
        obtain ⟨hlink, _⟩ := ChainW_mid r n q pre suf hch
        obtain ⟨c1, hc1⟩ := ih (pre ++ [(n, q)]) fuel q.ovflow (some (n.2, q)) r1 b
          (by rw [← hlist]; exact hch) (by rw [← hlist]; exact hnd)
          (by rw [← hlist]; exact hok) (fun y hy => hovf y (List.mem_cons_of_mem _ hy))
          hlink (fun _ => ⟨pre, n, q, rfl, hn1, rfl⟩) h
        rw [← hlist] at hc1
        exact ⟨c1, hc1⟩
      | some q1 =>
        rw [hadd] at h
        simp only at h
        obtain ⟨_, a2, _⟩ := addToPage_some q q1 t (hok (n, q) (by simp)) ht hadd
        obtain ⟨r2, hput2, hh2, hd2, ho2, hat2, hfr2⟩ := putPage_spec r n q1 q hnq
        rw [en] at hput2
        simp only at hput2
        rw [hput2] at h
        simp only [Option.some.injEq, Prod.mk.injEq] at h
        obtain ⟨hr1, _⟩ := h
        refine ⟨_, inserted_replace r r1 t ht n q q1 pre suf hch hnd hok hadd ?_ ?_ ?_ ?_ ?_,
          mem_tuplesOfPages _ q1 (by simp) t (by rw [a2]; simp)⟩
        · rw [← hr1]
          exact ⟨hh2.1, hh2.2.1, hh2.2.2.1, hh2.2.2.2.1, hh2.2.2.2.2.2.1⟩
        · rw [← hr1]; exact hd2
        · rw [← hr1]; exact ho2
        · rw [← hr1, pageAt_ntups]; exact hat2
        · intro m hm
          rw [← hr1, pageAt_ntups]; exact hfr2 m hm

/-- A call of `addToRelation` that returns the page id `b`: the chain of bucket `b` after
the split step takes the tuple. -/
theorem addToRelation_stored (hash_any : CStr → Nat) (r r1 : Reln)
    (ch : Nat → List (Node × Page)) (t : CStr) (b : Nat) (inv : RelInv hash_any r ch)
    (ht : '\x00' ∉ t) (h : addToRelation hash_any r t = some (r1, some b)) :
    ∃ rs chs c1, splitIfDue hash_any r = some rs ∧ RelInv hash_any rs chs ∧ b < rs.npages ∧
      Inserted rs r1 (chs b) c1 t ∧ t ∈ tuplesOfPages (c1.map Prod.snd) := by
  obtain ⟨_, _, rs, hv, hs, hh, hi⟩ := addToRelation_hdr hash_any r r1 t (some b) h
  have hb : b = bucketOf rs hv := hi.2.2.2.2.2.2 b rfl
  obtain ⟨chs, invs, _⟩ := splitIfDue_inv hash_any r rs ch inv hs
  obtain ⟨hp, _⟩ := bucketOf_addr rs hv invs.sp_lt invs.npages_eq
  rw [← hb] at hp
  refine ⟨rs, chs, ?_⟩
  suffices hins : ∃ c1, Inserted rs r1 (chs b) c1 t ∧ t ∈ tuplesOfPages (c1.map Prod.snd) by
    obtain ⟨c1, h1, h2⟩ := hins
    exact ⟨c1, hs, invs, hp, h1, h2⟩
  unfold addToRelation at h
  split at h
  · cases h
  · rw [hs] at h
    simp only at h
    rw [hh] at h
    simp only at h
    rw [← hb] at h
    obtain ⟨pg, rest, hc⟩ := layout_cons invs.lay b hp
    have hch := invs.lay.chain b hp
    have hnd := invs.lay.nodup b hp
    have hok := invs.lay.ok b hp
    have hrest := layout_rest_ovf invs.lay b hp pg rest hc
    rw [hc] at hch hnd hok
    have hch0 := hch
    rw [ChainW_cons] at hch0
    obtain ⟨hpg, hlink, _, _⟩ := hch0
    rw [getPage_eq_pageAt, hpg] at h
    simp only at h
    rw [hc]
    cases hadd : addToPage pg t with
    | some pg1 =>
      rw [hadd] at h
      simp only at h
      obtain ⟨_, a2, _⟩ := addToPage_some pg pg1 t (hok ((false, b), pg) (by simp)) ht hadd
      obtain ⟨r2, hput, hh2, hd2, ho2, hat2, hfr2⟩ := putPage_spec rs (false, b) pg1 pg hpg
      simp only at hput
      rw [hput] at h
      simp only [Option.some.injEq, Prod.mk.injEq] at h
      obtain ⟨hr1, _⟩ := h
      refine ⟨_, inserted_replace rs r1 t ht (false, b) pg pg1 [] rest hch hnd hok hadd
        ?_ ?_ ?_ ?_ ?_, mem_tuplesOfPages _ pg1 (by simp) t (by rw [a2]; simp)⟩
      · rw [← hr1]
        exact ⟨hh2.1, hh2.2.1, hh2.2.2.1, hh2.2.2.2.1, hh2.2.2.2.2.2.1⟩
      · rw [← hr1]; exact hd2
      · rw [← hr1]; exact ho2
      · rw [← hr1]; exact hat2
      · rw [← hr1]; exact hfr2
    | none =>
      rw [hadd] at h
      simp only at h
      cases hov : pg.ovflow with
      | some ovp =>
        rw [hov] at h
        simp only at h
        exact ovflowInsert_stored t ht b rs rest [((false, b), pg)] _ (some ovp) none r1 b
          hch hnd hok hrest (by rw [← hov]; exact hlink)
          (by
            intro e
            rw [e, hov] at hlink
            cases hlink) h
      | none =>
        rw [hov] at h
        simp only at h
        have hrest0 : rest = [] := by
          rw [hov] at hlink
          cases rest with
          | nil => rfl
          | cons x xs => cases hlink
        subst hrest0
        obtain ⟨_, hh1, hd1, ho1, hat1, hfr1⟩ := addOvflowPage_spec rs
        have e0 : (addOvflowPage rs).1 = rs.ovflow.length := rfl
        have hpa : pageAt (addOvflowPage rs).2 (false, b) = some pg := by
          rw [hfr1 (false, b) (by simp)]; exact hpg
        obtain ⟨r2, hput2, hh2, hd2, ho2, hat2, hfr2⟩ :=
          putPage_spec (addOvflowPage rs).2 (false, b)
            { pg with ovflow := some rs.ovflow.length } pg hpa
        simp only at hput2
        rw [e0, hput2] at h
        simp only at h
        have hnew : pageAt r2 (true, rs.ovflow.length) = some newPage := by
          rw [hfr2 (true, rs.ovflow.length) (by simp)]; exact hat1
        rw [getPage_eq_pageAt, hnew] at h
        simp only at h
        cases hadd2 : addToPage newPage t with
        | none =>
          rw [hadd2] at h
          simp at h
        | some q1 =>
          rw [hadd2] at h
          simp only at h
          obtain ⟨b1, b2, b3, _, _⟩ := addToPage_some newPage q1 t pageOK_newPage ht hadd2
          obtain ⟨r3, hput3, hh3, hd3, ho3, hat3, hfr3⟩ :=
            putPage_spec r2 (true, rs.ovflow.length) q1 newPage hnew
          simp only at hput3
          rw [hput3] at h
          simp only [Option.some.injEq, Prod.mk.injEq] at h
          obtain ⟨hr1, _⟩ := h
          have hT := SameHdr.trans (SameHdr.trans hh1 hh2) hh3
          refine ⟨_, inserted_append rs r1 t (false, b) pg q1 [] hch hnd hok b1
            (by rw [b2, pageTuples_newPage]; intro t1 h1; simpa using h1) (b3.trans rfl)
            ?_ ?_ ?_ ?_ ?_ ?_, mem_tuplesOfPages _ q1 (by simp) t (by rw [b2]; simp)⟩
          · rw [← hr1]
            exact ⟨hT.1, hT.2.1, hT.2.2.1, hT.2.2.2.1, hT.2.2.2.2.2.1⟩
          · rw [← hr1]; show r3.data.length = _; rw [hd3, hd2, hd1]
          · rw [← hr1]; show r3.ovflow.length = _; rw [ho3, ho2, ho1]
          · rw [← hr1]; show pageAt r3 _ = _
            rw [hfr3 (false, b) (by simp)]; exact hat2
          · rw [← hr1]; exact hat3
          · intro m hm1 hm2
            rw [← hr1]; show pageAt r3 _ = _
            rw [hfr3 m hm2, hfr2 m hm1, hfr1 m hm2]

/-- C12: a call of `addToRelation` that returns a page id `b`, in any relation state:
with `h = tupleHash(r, t)` and the `depth` and `sp` after the split step of the call, `b`
is 0 if `depth = 0`, else with `p` the low `depth` bits of `h` it is the low `depth+1`
bits of `h` if `p < sp` and `p` otherwise. When the relation satisfies the invariant of
the reachable relations, `b` is a bucket of the file and the tuple is among the tuples on
the chain of bucket `b`, its primary page or any of its overflow pages. -/
theorem addToRelation_bucket (hash_any : CStr → Nat) (r r1 : Reln) (t : CStr) (b : Nat)
    (h : addToRelation hash_any r t = some (r1, some b)) :
    ∃ hv, tupleHash hash_any r.nattrs r.cv t = some hv ∧
      (b = if r1.depth = 0 then 0
        else if getLower hv r1.depth < r1.sp then getLower hv (r1.depth + 1)
        else getLower hv r1.depth) ∧
      ∀ ch, RelInv hash_any r ch → '\x00' ∉ t →
        b < r1.npages ∧ ∃ ts, bucketTuples r1 b = some ts ∧ t ∈ ts := by
  obtain ⟨_, _, rs, hv, hs, hh, hi⟩ := addToRelation_hdr hash_any r r1 t (some b) h
  obtain ⟨e1, _, e3, _⟩ := splitIfDue_hdr hash_any r rs hs
  obtain ⟨_, i2, i3, i4, _, _, i7⟩ := hi
  rw [e1, e3] at hh
  refine ⟨hv, hh, ?_, ?_⟩
  · rw [i2, i3, i7 b rfl]
    rfl
  · intro ch inv ht
    obtain ⟨rs1, chs, c1, hs1, invs, hp, ins, hmem⟩ :=
      addToRelation_stored hash_any r r1 ch t b inv ht h
    rw [hs] at hs1
    simp only [Option.some.injEq] at hs1
    subst hs1
    refine ⟨by rw [i4]; exact hp, _, ?_, hmem⟩
    have lay1 := layout_update invs.lay b hp c1 t ins
    rw [bucketTuples_layout lay1 b (by rw [ins.hdr.2.2.2.1]; exact hp), Function.update_same]

/-- The third insertion of `wideTuple`, into the reachable relation `wide2`: bucket 2. -/
theorem addToRelation_bucket_witness :
    addToRelation List.length wide2 wideTuple = some (wide3, some 2) ∧
      ∃ hv, tupleHash List.length wide2.nattrs wide2.cv wideTuple = some hv ∧
        (2 = if wide3.depth = 0 then 0
          else if getLower hv wide3.depth < wide3.sp then getLower hv (wide3.depth + 1)
          else getLower hv wide3.depth) ∧
        2 < wide3.npages ∧ ∃ ts, bucketTuples wide3 2 = some ts ∧ wideTuple ∈ ts := by
  obtain ⟨hv, h1, h2, h3⟩ :=
    addToRelation_bucket List.length wide2 wide3 wideTuple 2 (by decide!)
  obtain ⟨ch, inv⟩ := reachable_inv List.length wide2 wide2_reachable
  exact ⟨by decide!, hv, h1, h2, h3 ch inv (by decide!)⟩

/-! ## lh_split: the pages of the two chains -/

theorem tupleVals_length (s : CStr) : (tupleVals s).length = s.count ',' + 1 := by
  induction s with
  | nil => rfl
  | cons c cs ih =>
    unfold tupleVals
    by_cases hc : c = ','
    · rw [if_pos hc, hc, List.count_cons_self, List.length_cons, ih]
    · rw [if_neg hc, List.count_cons_of_ne (fun e => hc e.symm)]
      cases hv : tupleVals cs with
      | nil => rw [hv] at ih; simp at ih
      | cons v vs =>
        rw [hv] at ih
        simpa using ih

theorem atoi_le (a : CStr) (n : Int) (h : atoi a = some n) : n ≤ 2147483647 := by
  unfold atoi at h
  split at h <;> split at h
  all_goals first
    | (simp only [Option.some.injEq] at h; omega)
    | cases h

theorem trailComma_dropLast (vs : List CStr) (h : vs ≠ []) :
    (trailComma vs).dropLast = joinComma vs ∧ trailComma vs ≠ [] ∧
      (trailComma vs).length = (joinComma vs).length + 1 := by
  induction vs with
  | nil => exact absurd rfl h
  | cons v vs ih =>
    cases vs with
    | nil => simp [trailComma, joinComma]
    | cons w ws =>
      obtain ⟨h1, h2, h3⟩ := ih (by simp)
      refine ⟨?_, by simp [trailComma], ?_⟩
      · show (v ++ ',' :: trailComma (w :: ws)).dropLast = v ++ ',' :: joinComma (w :: ws)
        rw [← h1, List.dropLast_append_of_ne_nil _ (by simp), List.dropLast_cons_of_ne_nil h2]
      · show (v ++ ',' :: trailComma (w :: ws)).length = (v ++ ',' :: joinComma (w :: ws)).length + 1
        simp only [List.length_append, List.length_cons]
        omega

/-- The loop of `projectTuple` over the entries that `atoi` reads as the indices `idx`. -/
theorem projectLoop_spec (maxLen : Nat) (projected vals : List CStr) :
    ∀ (idx : List Nat) (i : Nat) (buf : List Char),
      (∀ m (hm : m < idx.length), ∃ a, projected[i + m]? = some a ∧
        atoi a = some ((idx.get ⟨m, hm⟩ : Nat) : Int)) →
      (∀ j ∈ idx, 1 ≤ j ∧ j ≤ vals.length) →
      buf.length + (trailComma (idx.map (fun j => strAt vals (j - 1)))).length ≤ maxLen →
      projectLoop maxLen projected vals idx.length i buf =
        some (buf ++ trailComma (idx.map (fun j => strAt vals (j - 1)))) := by
  intro idx
  induction idx with
  | nil =>
    intro i buf _ _ _
    simp [projectLoop, trailComma]
  | cons j idx ih =>
    intro i buf hent hrange hfit
    obtain ⟨a, ha, hat⟩ := hent 0 (by simp)
    simp only [List.get_eq_getElem, List.getElem_cons_zero, Nat.add_zero] at ha hat
    obtain ⟨hj1, hj2⟩ := hrange j (List.mem_cons_self _ _)
    have hjle := atoi_le a _ hat
    have hidx : ((((j : Nat) : Int) - 1) % 4294967296).toNat = j - 1 := by omega
    have hv : vals[j - 1]? = some (strAt vals (j - 1)) := by
      unfold strAt
      rw [List.getD_eq_getElem?_getD, List.getElem?_eq_getElem (by omega)]
      rfl
    simp only [List.map_cons, trailComma, List.length_append, List.length_cons] at hfit
    simp only [List.length_cons]
    unfold projectLoop
    rw [ha]
    simp only
    rw [hat]
    simp only
    rw [hidx, hv]
    simp only
    rw [if_pos (by omega)]
    rw [ih (i + 1) (buf ++ strAt vals (j - 1) ++ [','])
      (by
        intro m hm
        obtain ⟨a1, h1, h2⟩ := hent (m + 1) (by simp; omega)
        refine ⟨a1, ?_, ?_⟩
        · rw [← h1]; congr 1; omega
        · simpa using h2)
      (fun j1 hj1 => hrange j1 (List.mem_cons_of_mem _ hj1))
      (by simp only [List.length_append, List.length_cons, List.length_nil]; omega)]
    simp [trailComma]

/-- C18, amended: for a tuple `t` with `nattrs` values and a buffer of `maxLen` bytes,
`projectTuple` with the attribute string `*` leaves `t` in the buffer if `t` is shorter
than the buffer; and with an attribute string other than `*` whose comma-separated entries
`atoi` reads as the indices `i_1, ..., i_k`, each in `1..nattrs`, it leaves the values
`v_{i_1}, ..., v_{i_k}` joined by `,` in the buffer, in the order of the list, if that
string is shorter than the buffer. -/
theorem projectTuple_spec (maxLen : Nat) (r : Reln) (t : CStr)
    (ht : (tupleVals t).length = r.nattrs) :
    (t.length < maxLen →
      ∃ p, startProjection r ['*'] = some p ∧ projectTuple maxLen p t = some t) ∧
    ∀ (attrstr : CStr) (idx : List Nat), attrstr ≠ ['*'] →
      (tupleVals attrstr).map atoi = idx.map (fun (i : Nat) => some (i : Int)) →
      (∀ i ∈ idx, 1 ≤ i ∧ i ≤ r.nattrs) →
      (joinComma (idx.map (fun i => strAt (tupleVals t) (i - 1)))).length < maxLen →
      ∃ p, startProjection r attrstr = some p ∧
        projectTuple maxLen p t = some (joinComma (idx.map (fun i => strAt (tupleVals t) (i - 1)))) := by
  constructor
  · intro hlen
    refine ⟨⟨r, r.nattrs, none⟩, by simp [startProjection], ?_⟩
    simp [projectTuple, hlen]
  · intro attrstr idx hstar hidx hrange hfit
    have hlen := tupleVals_length attrstr
    have hil : idx.length = attrstr.count ',' + 1 := by
      have := congrArg List.length hidx
      simp only [List.length_map] at this
      omega
    have hne : idx.map (fun i => strAt (tupleVals t) (i - 1)) ≠ [] := by
      intro e
      have := congrArg List.length e
      simp only [List.length_map, List.length_nil] at this
      omega
    obtain ⟨h1, h2, h3⟩ := trailComma_dropLast _ hne
    refine ⟨⟨r, attrstr.count ',' + 1, some (tupleVals attrstr)⟩, ?_, ?_⟩
    · unfold startProjection tupleValsN
      rw [if_neg hstar, if_pos hlen]
    · unfold projectTuple tupleValsN
      simp only
      rw [if_pos ht]
      simp only
      rw [← hil, projectLoop_spec maxLen (tupleVals attrstr) (tupleVals t) idx 0 []
        (by
          intro m hm
          have hm2 : m < (tupleVals attrstr).length := by omega
          refine ⟨(tupleVals attrstr)[m], by simp [List.getElem?_eq_getElem hm2], ?_⟩
          have e1 : ((tupleVals attrstr).map atoi)[m]? =
              (idx.map (fun (i : Nat) => some (i : Int)))[m]? := by rw [hidx]
          rw [List.getElem?_map, List.getElem?_map, List.getElem?_eq_getElem hm2,
            List.getElem?_eq_getElem hm] at e1
          simpa using e1)
        (fun j hj => by rw [ht]; exact hrange j hj)
        (by simp only [List.length_nil]; omega)]
      simp only [List.nil_append]
      rw [if_neg h2, h1]

/-- The projection `2,1,2` of the tuple `apple,red`, in a buffer of 200 bytes. -/
theorem projectTuple_spec_witness :
    (tupleVals "apple,red".toList).length = appleStored.nattrs ∧
      (∃ p, startProjection appleStored ['*'] = some p ∧
        projectTuple 200 p "apple,red".toList = some "apple,red".toList) ∧
      ∃ p, startProjection appleStored "2,1,2".toList = some p ∧
        projectTuple 200 p "apple,red".toList = some "red,apple,red".toList :=
  ⟨by decide,
    (projectTuple_spec 200 appleStored "apple,red".toList (by decide)).1 (by decide),
    (projectTuple_spec 200 appleStored "apple,red".toList (by decide)).2 "2,1,2".toList
      [2, 1, 2] (by decide) (by decide) (by decide) (by decide)⟩

/-- C18: in the one-attribute relation `fresh1`, the tuple of 150 letters `a` has one
value and the attribute string `1,1` names the index 1 twice; the projection is 301
characters long, and in a buffer of 200 bytes `projectTuple` writes outside the buffer. -/
theorem projectTuple_overflows :
    (tupleVals (List.replicate 150 'a')).length = fresh1.nattrs ∧
      (tupleVals "1,1".toList).map atoi = [some 1, some 1] ∧
      ∃ p, startProjection fresh1 "1,1".toList = some p ∧
        projectTuple 200 p (List.replicate 150 'a') = none :=
  ⟨by decide!, by decide!, ⟨fresh1, 2, some ["1".toList, "1".toList]⟩, by decide!, by decide!⟩

/-- Every NUL of the bytes of a list of tuples ends a tuple. -/
theorem nul_boundary (ts : List CStr) (hts : ∀ t ∈ ts, '\x00' ∉ t) :
    ∀ c, (encode ts)[c]? = some '\x00' → Boundary ts (c + 1) := by
  induction ts with
  | nil => intro c h; simp [encode] at h
  | cons t ts ih =>
    intro c h
    have ht := hts t (List.mem_cons_self _ _)
    simp only [encode] at h
    by_cases h1 : c < t.length
    · rw [List.getElem?_append_left h1] at h
      exfalso
      apply ht
      rw [List.getElem?_eq_getElem h1] at h
      simp only [Option.some.injEq] at h
      rw [← h]
      exact List.getElem_mem _
    · by_cases h2 : c = t.length
      · exact ⟨[t], ts, rfl, by simp [encode, h2]⟩
      · rw [List.getElem?_append_right (by omega)] at h
        have e : c - t.length = (c - t.length - 1) + 1 := by omega
        rw [e, List.getElem?_cons_succ] at h
        obtain ⟨pre, post, h3, h4⟩ := ih (fun x hx => hts x (List.mem_cons_of_mem _ hx)) _ h
        refine ⟨t :: pre, post, by rw [h3]; rfl, ?_⟩
        simp only [encode, List.length_append, List.length_cons]
        omega

/-- The string that `nextMatchTup` copies from a tuple start `c0` up to a later NUL at `c`
is the tuple stored at `c0`. -/
theorem cstr_at_boundary (data : List Char) (free : Nat) (pre : List CStr) (t0 : CStr)
    (post : List CStr) (hd : data.take free = encode (pre ++ t0 :: post))
    (ht0 : '\x00' ∉ t0) (c : Nat) (hc0 : (encode pre).length < c) (hc : c < free)
    (hnul : data[c]? = some '\x00') :
    cstr ((data.drop (encode pre).length).take (c - (encode pre).length + 1)) = t0 := by
  have henc : encode (pre ++ t0 :: post) = encode pre ++ (t0 ++ '\x00' :: encode post) := by
    rw [encode_append]; rfl
  have hlen : c - (encode pre).length ≥ t0.length := by
    by_contra hcon
    have h3 : (data.take free)[c]? = some '\x00' := by
      rw [List.getElem?_take_of_lt hc]; exact hnul
    rw [hd, henc, List.getElem?_append_right (by omega),
      List.getElem?_append_left (by omega)] at h3
    apply ht0
    rw [List.getElem?_eq_getElem (by omega)] at h3
    simp only [Option.some.injEq] at h3
    rw [← h3]
    exact List.getElem_mem _
  have e1 : (data.drop (encode pre).length).take (c - (encode pre).length + 1) =
      ((data.take free).drop (encode pre).length).take (c - (encode pre).length + 1) := by
    rw [List.drop_take, List.take_take]
    congr 1
    omega
  rw [e1, hd, henc, List.drop_left']
  · have e2 : c - (encode pre).length + 1 = t0.length + (c - (encode pre).length - t0.length + 1) := by
      omega
    rw [e2, List.take_append, List.take_succ_cons]
    unfold cstr
    rw [List.takeWhile_append_of_pos (by
      intro x hx
      simp only [bne_iff_ne, ne_eq, decide_not, Bool.not_eq_true', decide_eq_false_iff_not]
      intro e
      exact ht0 (e ▸ hx))]
    simp [List.takeWhile]
  · rfl

theorem tupValMatch_isSome (nAttr : Nat) (qvals : List CStr) (t : CStr)
    (hq : qvals.length = nAttr) (ht : (tupleVals t).length = nAttr) :
    ∃ b, tupValMatch nAttr qvals t = some b := by
  obtain ⟨b, hb, _⟩ := tupValLoop_spec qvals (tupleVals t) nAttr hq ht nAttr 0 (by omega)
  refine ⟨b, ?_⟩
  unfold tupValMatch tupleValsN
  rw [if_pos ht]
  exact hb

/-- The byte after the tuples `pre` and the tuple `t0` is a NUL. -/
theorem encode_nul_at (pre : List CStr) (t0 : CStr) (post : List CStr) :
    (encode (pre ++ t0 :: post))[(encode pre).length + t0.length]? = some '\x00' := by
  have henc : encode (pre ++ t0 :: post) = encode pre ++ (t0 ++ '\x00' :: encode post) := by
    rw [encode_append]; rfl
  rw [henc, List.getElem?_append_right (by omega)]
  have e : (encode pre).length + t0.length - (encode pre).length = t0.length := by omega
  rw [e, List.getElem?_append_right (by omega)]
  simp

/-- The bytes that `nextMatchTup` copies into `temp` fit it: from a tuple start `c0` to a
later offset `c` with no NUL strictly between them there are fewer than `MAXTUPLEN` bytes,
when every stored tuple is at most `MAXTUPLEN - 2` characters long. -/
theorem scan_span (ts : List CStr) (hshort : ∀ t ∈ ts, t.length + 2 ≤ MAXTUPLEN)
    (c0 c : Nat) (hb : Boundary ts c0) (hc0 : c0 < c) (hc : c < (encode ts).length)
    (hno : ∀ k, c0 < k → k < c → (encode ts)[k]? ≠ some '\x00') :
    c - c0 + 1 ≤ MAXTUPLEN := by
  obtain ⟨pre, post, hsplit, hpre⟩ := hb
  subst hsplit
  cases post with
  | nil =>
    rw [List.append_nil] at hc
    omega
  | cons t0 post =>
    have h0 := hshort t0 (by simp)
    by_cases hl : t0.length = 0
    · cases post with
      | nil =>
        exfalso
        rw [encode_append] at hc
        simp only [encode, List.length_append, List.length_cons, List.length_nil] at hc
        omega
      | cons t1 post =>
        have h1 := hshort t1 (by simp)
        by_contra hcon
        have e : pre ++ t0 :: t1 :: post = (pre ++ [t0]) ++ t1 :: post := by simp
        have hn := encode_nul_at (pre ++ [t0]) t1 post
        rw [← e] at hn
        have hlen : (encode (pre ++ [t0])).length = c0 + 1 := by
          rw [encode_append]
          simp only [encode, List.length_append, List.length_cons, List.length_nil]
          omega
        rw [hlen] at hn
        exact hno (c0 + 1 + t1.length) (by omega) (by omega) hn
    · by_contra hcon
      have hn := encode_nul_at pre t0 post
      rw [← hpre] at hn
      exact hno (c0 + t0.length) (by omega) (by omega) hn

/-- The loop of `nextMatchTup` on a page that satisfies P1 and holds tuples of `nAttr`
fields of at most `MAXTUPLEN - 2` characters: it returns, and the offset it leaves is the
start of a stored tuple or the end of the data, past the start offset if a tuple was
found. -/
theorem matchScan_total (nAttr : Nat) (qvals : List CStr) (data : List Char) (free : Nat)
    (ts : List CStr) (hd : data.take free = encode ts) (hfl : free ≤ data.length)
    (hts : ∀ t ∈ ts, '\x00' ∉ t ∧ (tupleVals t).length = nAttr) (hq : qvals.length = nAttr)
    (hshort : ∀ t ∈ ts, t.length + 2 ≤ MAXTUPLEN) :
    ∀ fuel c0 c, Boundary ts c0 → c0 < c →
      (∀ k, c0 < k → k < c → data[k]? ≠ some '\x00') →
      ∃ res off, matchScan nAttr qvals data free fuel c0 c = some (res, off) ∧
        Boundary ts off ∧ c0 ≤ off ∧ (∀ t, res = some t → c0 < off) := by
  have hfree : free = (encode ts).length := by
    have := congrArg List.length hd
    rw [List.length_take] at this
    omega
  intro fuel
  induction fuel with
  | zero =>
    intro c0 c hb _ _
    exact ⟨none, c0, rfl, hb, le_refl _, fun t ht => by cases ht⟩
  | succ fuel ih =>
    intro c0 c hb hc hno
    unfold matchScan
    by_cases hcf : c < free
    · rw [if_pos hcf]
      have hlt : c < data.length := by omega
      obtain ⟨ch, hget⟩ : ∃ ch, data[c]? = some ch := ⟨data[c], List.getElem?_eq_getElem hlt⟩
      rw [hget]
      simp only
      by_cases hnul : ch = '\x00'
      · rw [if_pos hnul]
        rw [hnul] at hget
        have hspan : c - c0 + 1 ≤ MAXTUPLEN :=
          scan_span ts hshort c0 c hb hc (by omega) (by
            intro k hk1 hk2
            rw [← hd, List.getElem?_take_of_lt (by omega)]
            exact hno k hk1 hk2)
        rw [if_pos hspan]
        obtain ⟨pre, post, hsplit, hc0⟩ := hb
        have hencnul : (encode ts)[c]? = some '\x00' := by
          rw [← hd, List.getElem?_take_of_lt hcf]; exact hget
        have hb1 : Boundary ts (c + 1) := nul_boundary ts (fun t ht => (hts t ht).1) c hencnul
        cases post with
        | nil =>
          exfalso
          rw [hsplit, List.append_nil] at hfree
          omega
        | cons t0 post =>
          have ht0 := hts t0 (by rw [hsplit]; simp)
          have hstr := cstr_at_boundary data free pre t0 post (by rw [hd, hsplit]) ht0.1 c
            (by omega) hcf hget
          rw [hc0, hstr]
          obtain ⟨b, hbm⟩ := tupValMatch_isSome nAttr qvals t0 hq ht0.2
          rw [hbm]
          cases b with
          | true =>
            exact ⟨some t0, c + 1, rfl, hb1, by omega, fun _ _ => by omega⟩
          | false =>
            simp only
            obtain ⟨res, off, h1, h2, h3, _⟩ := ih (c + 1) (c + 2) hb1 (by omega)
              (fun k hk1 hk2 => by omega)
            exact ⟨res, off, h1, h2, by omega, fun _ _ => by omega⟩
      · rw [if_neg hnul]
        exact ih c0 (c + 1) hb (by omega) (by
          intro k hk1 hk2
          by_cases hkc : k = c
          · rw [hkc, hget]
            simp only [ne_eq, Option.some.injEq]
            exact hnul
          · exact hno k hk1 (by omega))
    · rw [if_neg hcf]
      exact ⟨none, c0, rfl, hb, le_refl _, fun t ht => by cases ht⟩

/-- The function `nextMatchTup` on a selection whose page satisfies P1 and P2 and holds
tuples of `nattrs` fields of at most `MAXTUPLEN - 2` characters, at an offset where a
tuple starts: it returns and changes the offset only, to the start of a tuple or the end
of the data, further on if a tuple was found. -/
theorem nextMatchTup_total (s : Selection) (hok : PageOK s.curPage)
    (hts : ∀ t ∈ pageTuples s.curPage, (tupleVals t).length = s.rel.nattrs)
    (hshort : ∀ t ∈ pageTuples s.curPage, t.length + 2 ≤ MAXTUPLEN)
    (hq : s.qvals.length = s.rel.nattrs)
    (hb : Boundary (pageTuples s.curPage) s.curtupOffset) :
    ∃ res off, nextMatchTup s = some (res, { s with curtupOffset := off }) ∧
      Boundary (pageTuples s.curPage) off ∧ s.curtupOffset ≤ off ∧
      (∀ t, res = some t → s.curtupOffset < off) := by
  unfold nextMatchTup
  by_cases hn : s.curPage.ntuples = 0
  · rw [if_pos hn]
    exact ⟨none, s.curtupOffset, rfl, hb, le_refl _, fun t ht => by cases ht⟩
  · rw [if_neg hn]
    obtain ⟨res, off, h1, h2, h3, h4⟩ :=
      matchScan_total s.rel.nattrs s.qvals s.curPage.data s.curPage.free (pageTuples s.curPage)
        hok.packed (by rw [hok.size]; exact hok.fits)
        (fun t ht => ⟨pageTuples_nulFree _ t ht, hts t ht⟩) hq hshort s.curPage.free
        s.curtupOffset (s.curtupOffset + 1) hb (by omega) (fun k hk1 hk2 => by omega)
    rw [h1]
    exact ⟨res, off, rfl, h2, h3, h4⟩

/-- An offset where a tuple starts is within the data. -/
theorem boundary_le (ts : List CStr) (off : Nat) (h : Boundary ts off) :
    off ≤ (encode ts).length := by
  obtain ⟨pre, post, h1, h2⟩ := h
  rw [h1, encode_append, List.length_append, h2]
  omega

theorem boundary_zero (ts : List CStr) : Boundary ts 0 := ⟨[], ts, rfl, rfl⟩

/-! ## select.c: the buckets that a scan reads -/

theorem sameScan_refl (s : Selection) : SameScan s s := ⟨rfl, rfl, rfl, rfl, rfl⟩

theorem sameScan_trans {s0 s1 s2 : Selection} (h1 : SameScan s0 s1) (h2 : SameScan s1 s2) :
    SameScan s0 s2 :=
  ⟨h2.rel.trans h1.rel, h2.qHash.trans h1.qHash, h2.known.trans h1.known,
    h2.maxBid.trans h1.maxBid, h2.qvals.trans h1.qvals⟩

theorem isCandidate_same (s0 s : Selection) (h : SameScan s0 s) (b : Nat) :
    isCandidate s b = isCandidate s0 b := by
  unfold isCandidate
  rw [h.known, h.qHash, h.rel]

/-- The bucket that the loop of `moveToNextPage` finds is the first candidate from `bid`
on, among `k` bucket ids. -/
theorem nextBucket_some (s : Selection) :
    ∀ k bid b, nextBucket s k bid = some b →
      bid ≤ b ∧ b < bid + k ∧ isCandidate s b = true ∧
        ∀ b1, bid ≤ b1 → b1 < b → isCandidate s b1 = false := by
  intro k
  induction k with
  | zero => intro bid b h; cases h
  | succ k ih =>
    intro bid b h
    unfold nextBucket at h
    by_cases hc : isCandidate s bid = true
    · rw [if_pos hc] at h
      simp only [Option.some.injEq] at h
      rw [← h]
      exact ⟨le_refl _, by omega, hc, fun b1 h1 h2 => by omega⟩
    · rw [if_neg hc] at h
      obtain ⟨h1, h2, h3, h4⟩ := ih _ _ h
      refine ⟨by omega, by omega, h3, ?_⟩
      intro b1 hb1 hb2
      by_cases e : b1 = bid
      · rw [e]; simpa using hc
      · exact h4 b1 (by omega) hb2

/-- The loop of `moveToNextPage` finds a bucket when there is a candidate in its range. -/
theorem nextBucket_finds (s : Selection) :
    ∀ k bid b, bid ≤ b → b < bid + k → isCandidate s b = true →
      ∃ b1, nextBucket s k bid = some b1 := by
  intro k
  induction k with
  | zero => intro bid b h1 h2 _; omega
  | succ k ih =>
    intro bid b h1 h2 h3
    unfold nextBucket
    by_cases hc : isCandidate s bid = true
    · rw [if_pos hc]; exact ⟨bid, rfl⟩
    · rw [if_neg hc]
      have : b ≠ bid := fun e => hc (e ▸ h3)
      exact ih (bid + 1) b (by omega) (by omega) h3

theorem nextMatchTup_same (s s1 : Selection) (res : Option CStr)
    (h : nextMatchTup s = some (res, s1)) :
    SameScan s s1 ∧ s1.curBid = s.curBid ∧ s1.is_ovflow = s.is_ovflow ∧
      s1.curPage = s.curPage := by
  unfold nextMatchTup at h
  split at h
  · simp only [Option.some.injEq, Prod.mk.injEq] at h
    rw [← h.2]
    exact ⟨sameScan_refl _, rfl, rfl, rfl⟩
  · split at h
    · cases h
    · simp only [Option.some.injEq, Prod.mk.injEq] at h
      rw [← h.2]
      exact ⟨⟨rfl, rfl, rfl, rfl, rfl⟩, rfl, rfl, rfl⟩

/-- The two ways in which `moveToNextPage` moves on: to the next overflow page of the
bucket, or to the primary page of the next candidate bucket. -/
theorem moveToNextPage_cases (s s1 : Selection) (h : moveToNextPage s = some (some s1)) :
    SameScan s s1 ∧ s1.curtupOffset = 0 ∧
      ((∃ o, s.curPage.ovflow = some o ∧ getPage s.rel true o = some s1.curPage ∧
          s1.is_ovflow = true ∧ s1.curBid = s.curBid) ∨
        (s.curPage.ovflow = none ∧
          nextBucket s (s.maxBid - s.curBid) (s.curBid + 1) = some s1.curBid ∧
          getPage s.rel false s1.curBid = some s1.curPage ∧ s1.is_ovflow = false)) := by
  unfold moveToNextPage at h
  split at h
  · rename_i o ho
    split at h
    · cases h
    · rename_i pg hpg
      simp only [Option.some.injEq] at h
      rw [← h]
      exact ⟨⟨rfl, rfl, rfl, rfl, rfl⟩, rfl, Or.inl ⟨o, ho, hpg, rfl, rfl⟩⟩
  · rename_i ho
    split at h
    · simp at h
    · rename_i bid hbid
      split at h
      · cases h
      · rename_i pg hpg
        simp only [Option.some.injEq] at h
        rw [← h]
        exact ⟨⟨rfl, rfl, rfl, rfl, rfl⟩, rfl, Or.inr ⟨ho, hbid, hpg, rfl⟩⟩

/-- The selection that `startSelection` makes. -/
theorem startSelection_spec (hash_any : CStr → Nat) (r : Reln) (q : CStr) (s0 : Selection)
    (h : startSelection hash_any r q = some s0) :
    ∃ qvals known qHash, setup hash_any r q = some (qvals, known, qHash) ∧
      s0.rel = r ∧ s0.qHash = qHash ∧ s0.known = known ∧ s0.qvals = qvals ∧
      s0.is_ovflow = false ∧ s0.curtupOffset = 0 ∧
      s0.curBid = (if r.depth = 0 then 0 else getLower qHash r.depth) ∧
      s0.maxBid = (if r.depth ≠ 0 ∧
          (if r.depth = 0 then 0 else getLower (qHash ||| bitsNot known) (1 + r.depth)) ≥ r.npages
        then r.npages - 1
        else if r.depth = 0 then 0 else getLower (qHash ||| bitsNot known) (1 + r.depth)) ∧
      getPage r false s0.curBid = some s0.curPage := by
  unfold startSelection at h
  split at h
  · cases h
  · rename_i qvals known qHash hs
    simp only at h
    split at h
    · cases h
    · rename_i pg hpg
      simp only [Option.some.injEq] at h
      rw [← h]
      exact ⟨qvals, known, qHash, hs, rfl, rfl, rfl, rfl, rfl, rfl, rfl, rfl, hpg⟩

/-- Every bucket whose primary page the scan reads is the start bucket or a candidate
between the start bucket and `maxBid`. -/
theorem scanAt_bucket (hash_any : CStr → Nat) (r : Reln) (q : CStr) (s0 : Selection)
    (h0 : startSelection hash_any r q = some s0) (s : Selection)
    (h : ScanAt hash_any r q s) :
    SameScan s0 s ∧ (s.curBid = s0.curBid ∨
      (s0.curBid < s.curBid ∧ s.curBid ≤ s0.maxBid ∧ isCandidate s0 s.curBid = true)) := by
  induction h with
  | start s hs =>
    rw [h0] at hs
    simp only [Option.some.injEq] at hs
    rw [← hs]
    exact ⟨sameScan_refl _, Or.inl rfl⟩
  | found s s1 t _ hn ih =>
    obtain ⟨a1, a2, _, _⟩ := nextMatchTup_same s s1 _ hn
    rw [a2]
    exact ⟨sameScan_trans ih.1 a1, ih.2⟩
  | moved s s1 s2 _ hn hm ih =>
    obtain ⟨a1, a2, _, _⟩ := nextMatchTup_same s s1 _ hn
    obtain ⟨b1, _, b3⟩ := moveToNextPage_cases s1 s2 hm
    have hsame1 := sameScan_trans ih.1 a1
    refine ⟨sameScan_trans hsame1 b1, ?_⟩
    rcases b3 with ⟨o, _, _, _, e⟩ | ⟨_, hnb, _, _⟩
    · rw [e, a2]
      exact ih.2
    · obtain ⟨c1, c2, c3, _⟩ := nextBucket_some s1 _ _ _ hnb
      rw [isCandidate_same s0 s1 hsame1] at c3
      rw [a2] at c1 c2
      rw [hsame1.maxBid] at c2
      right
      rcases ih.2 with e | ⟨e1, e2, _⟩
      · rw [e] at c1 c2
        exact ⟨by omega, by omega, c3⟩
      · exact ⟨by omega, by omega, c3⟩

/-- The scan leaves a page whose tuples are at most `MAXTUPLEN - 2` characters long: after
finitely many tuples found on it, `nextMatchTup` finds no further one. -/
theorem page_done (hash_any : CStr → Nat) (r : Reln) (q : CStr) (s0 : Selection)
    (hrel : s0.rel = r) (hq : s0.qvals.length = r.nattrs) :
    ∀ (n : Nat) (s : Selection), ScanAt hash_any r q s → SameScan s0 s → PageOK s.curPage →
      (∀ t ∈ pageTuples s.curPage, (tupleVals t).length = r.nattrs) →
      (∀ t ∈ pageTuples s.curPage, t.length + 2 ≤ MAXTUPLEN) →
      Boundary (pageTuples s.curPage) s.curtupOffset →
      (encode (pageTuples s.curPage)).length - s.curtupOffset ≤ n →
      ∃ s1 s2, ScanAt hash_any r q s1 ∧ nextMatchTup s1 = some (none, s2) ∧
        s2.curPage = s.curPage ∧ s2.curBid = s.curBid ∧ s2.is_ovflow = s.is_ovflow ∧
        SameScan s0 s2 := by
  intro n
  induction n with
  | zero =>
    intro s hs hsame hok hts hshort hb hn
    obtain ⟨res, off, h1, h2, h3, h4⟩ := nextMatchTup_total s hok
      (by rw [hsame.rel, hrel]; exact hts) hshort
      (by rw [hsame.qvals, hsame.rel, hrel]; exact hq) hb
    cases res with
    | none =>
      exact ⟨s, _, hs, h1, rfl, rfl, rfl, sameScan_trans hsame ⟨rfl, rfl, rfl, rfl, rfl⟩⟩
    | some t =>
      have := h4 t rfl
      have := boundary_le _ _ h2
      omega
  | succ n ih =>
    intro s hs hsame hok hts hshort hb hn
    obtain ⟨res, off, h1, h2, h3, h4⟩ := nextMatchTup_total s hok
      (by rw [hsame.rel, hrel]; exact hts) hshort
      (by rw [hsame.qvals, hsame.rel, hrel]; exact hq) hb
    cases res with
    | none =>
      exact ⟨s, _, hs, h1, rfl, rfl, rfl, sameScan_trans hsame ⟨rfl, rfl, rfl, rfl, rfl⟩⟩
    | some t =>
      have h5 := h4 t rfl
      exact ih { s with curtupOffset := off } (ScanAt.found s _ t hs h1)
        (sameScan_trans hsame ⟨rfl, rfl, rfl, rfl, rfl⟩) hok hts hshort h2
        (by
          show (encode (pageTuples s.curPage)).length - off ≤ n
          omega)

/-- The scan reaches the end of a bucket chain whose tuples are at most `MAXTUPLEN - 2`
characters long: from its page `pg`, it goes through the pages linked from `pg` and comes
to a page without a successor on which `nextMatchTup` finds no further tuple. -/
theorem chain_done (hash_any : CStr → Nat) (r : Reln) (q : CStr) (s0 : Selection)
    (hrel : s0.rel = r) (hq : s0.qvals.length = r.nattrs) :
    ∀ (rest : List (Node × Page)) (n : Node) (pg : Page) (s : Selection),
      ChainW r ((n, pg) :: rest) →
      (∀ x ∈ (n, pg) :: rest, PageOK x.2 ∧
        ∀ t ∈ pageTuples x.2, (tupleVals t).length = r.nattrs) →
      (∀ x ∈ (n, pg) :: rest, ∀ t ∈ pageTuples x.2, t.length + 2 ≤ MAXTUPLEN) →
      ScanAt hash_any r q s → SameScan s0 s → s.curPage = pg → s.curtupOffset = 0 →
      ∃ s1 s2, ScanAt hash_any r q s1 ∧ nextMatchTup s1 = some (none, s2) ∧
        s2.curPage.ovflow = none ∧ s2.curBid = s.curBid ∧ SameScan s0 s2 := by
  intro rest
  induction rest with
  | nil =>
    intro n pg s hch hok hshort hs hsame hpg hoff
    obtain ⟨hok1, hts1⟩ := hok (n, pg) (List.mem_cons_self _ _)
    obtain ⟨s1, s2, a1, a2, a3, a4, _, a6⟩ := page_done hash_any r q s0 hrel hq _ s hs hsame
      (by rw [hpg]; exact hok1) (by rw [hpg]; exact hts1)
      (by rw [hpg]; exact hshort (n, pg) (List.mem_cons_self _ _))
      (by rw [hoff]; exact boundary_zero _) (le_refl _)
    rw [ChainW_cons] at hch
    refine ⟨s1, s2, a1, a2, ?_, a4, a6⟩
    rw [a3, hpg, hch.2.1]
    rfl
  | cons x rest ih =>
    intro n pg s hch hok hshort hs hsame hpg hoff
    obtain ⟨n1, pg1⟩ := x
    obtain ⟨hok1, hts1⟩ := hok (n, pg) (List.mem_cons_self _ _)
    obtain ⟨s1, s2, a1, a2, a3, a4, _, a6⟩ := page_done hash_any r q s0 hrel hq _ s hs hsame
      (by rw [hpg]; exact hok1) (by rw [hpg]; exact hts1)
      (by rw [hpg]; exact hshort (n, pg) (List.mem_cons_self _ _))
      (by rw [hoff]; exact boundary_zero _) (le_refl _)
    have hch0 := hch
    rw [ChainW_cons] at hch0
    obtain ⟨_, hlink, hovf, hch1⟩ := hch0
    have hn1 : n1.1 = true := hovf (n1, pg1) rfl
    have hpg1 : pageAt r n1 = some pg1 := ChainW_mem r _ hch1 (n1, pg1) (List.mem_cons_self _ _)
    have hmove : moveToNextPage s2 =
        some (some { s2 with curPage := pg1, curtupOffset := 0, is_ovflow := true }) := by
      unfold moveToNextPage
      have e1 : s2.curPage.ovflow = some n1.2 := by
        rw [a3, hpg, hlink]
        rfl
      rw [e1]
      simp only
      have e2 : getPage s2.rel true n1.2 = some pg1 := by
        rw [a6.rel, hrel, ← hpg1]
        show pageAt r (true, n1.2) = pageAt r n1
        rw [← hn1]
      rw [e2]
    obtain ⟨t1, t2, b1, b2, b3, b4, b5⟩ :=
      ih n1 pg1 { s2 with curPage := pg1, curtupOffset := 0, is_ovflow := true } hch1
        (fun y hy => hok y (List.mem_cons_of_mem _ hy))
        (fun y hy => hshort y (List.mem_cons_of_mem _ hy))
        (ScanAt.moved s1 s2 _ a1 a2 hmove) (sameScan_trans a6 ⟨rfl, rfl, rfl, rfl, rfl⟩) rfl rfl
    exact ⟨t1, t2, b1, b2, b3, b4.trans a4, b5⟩

theorem tupleHash_fields (hash_any : CStr → Nat) (n : Nat) (cv : List ChVecItem) (t : CStr)
    (hv : Nat) (h : tupleHash hash_any n cv t = some hv) : (tupleVals t).length = n := by
  unfold tupleHash tupleValsN at h
  split at h
  · cases h
  · rename_i vals hvals
    split at hvals
    · rename_i hl; exact hl
    · cases hvals

/-- The pages of a bucket of a relation that satisfies the invariant satisfy P1 and P2 and
hold tuples of `nattrs` fields. -/
theorem relInv_pages (hash_any : CStr → Nat) (r : Reln) (ch : Nat → List (Node × Page))
    (inv : RelInv hash_any r ch) (b : Nat) (hb : b < r.npages) :
    ∀ x ∈ ch b, PageOK x.2 ∧ ∀ t ∈ pageTuples x.2, (tupleVals t).length = r.nattrs := by
  intro x hx
  refine ⟨inv.lay.ok b hb x hx, ?_⟩
  intro t ht
  obtain ⟨hv, hh, _⟩ := inv.i1 b hb t
    (mem_tuplesOfPages _ x.2 (List.mem_map.mpr ⟨x, hx, rfl⟩) t ht)
  exact tupleHash_fields hash_any _ _ t hv hh

/-- From the primary page of bucket `b1` the scan reaches the primary page of every
candidate bucket `b` with `b1 < b ≤ maxBid`, when every stored tuple is at most
`MAXTUPLEN - 2` characters long. -/
theorem reads_candidate (hash_any : CStr → Nat) (r : Reln) (ch : Nat → List (Node × Page))
    (inv : RelInv hash_any r ch)
    (hshort : ∀ b1, b1 < r.npages → ∀ x ∈ ch b1, ∀ t ∈ pageTuples x.2,
      t.length + 2 ≤ MAXTUPLEN)
    (q : CStr) (s0 : Selection) (hrel : s0.rel = r)
    (hq : s0.qvals.length = r.nattrs) (b : Nat) (hb : b < r.npages) (hmax : b ≤ s0.maxBid)
    (hcand : isCandidate s0 b = true) :
    ∀ (n b1 : Nat) (s : Selection), ScanAt hash_any r q s → SameScan s0 s → s.curBid = b1 →
      getPage r false b1 = some s.curPage → s.curtupOffset = 0 → b1 < b → b - b1 ≤ n →
      ReadsBucket hash_any r q b := by
  intro n
  induction n with
  | zero => intro b1 s _ _ _ _ _ h1 h2; omega
  | succ n ih =>
    intro b1 s hs hsame hcur hpage hoff hlt hn
    have hb1 : b1 < r.npages := by omega
    obtain ⟨pg, rest, hc⟩ := layout_cons inv.lay b1 hb1
    have hch := inv.lay.chain b1 hb1
    rw [hc] at hch
    have hpg : s.curPage = pg := by
      have h1 : pageAt r (false, b1) = some pg := ChainW_mem r _ hch _ (List.mem_cons_self _ _)
      have h2 : pageAt r (false, b1) = some s.curPage := hpage
      rw [h1] at h2
      exact (Option.some.inj h2).symm
    obtain ⟨s1, s2, a1, a2, a3, a4, a5⟩ :=
      chain_done hash_any r q s0 hrel hq rest (false, b1) pg s hch
        (by rw [← hc]; exact relInv_pages hash_any r ch inv b1 hb1)
        (by rw [← hc]; exact hshort b1 hb1) hs hsame hpg hoff
    rw [hcur] at a4
    obtain ⟨b2, hnb⟩ := nextBucket_finds s2 (s2.maxBid - s2.curBid) (s2.curBid + 1) b
      (by omega) (by rw [a5.maxBid]; omega) (by rw [isCandidate_same s0 s2 a5]; exact hcand)
    obtain ⟨c1, _, c3, c4⟩ := nextBucket_some s2 _ _ _ hnb
    have hb2 : b2 ≤ b := by
      by_contra hcon
      have := c4 b (by omega) (by omega)
      rw [isCandidate_same s0 s2 a5, hcand] at this
      cases this
    obtain ⟨pg2, rest2, hc2⟩ := layout_cons inv.lay b2 (by omega)
    have hch2 := inv.lay.chain b2 (by omega)
    rw [hc2] at hch2
    have hpg2 : getPage r false b2 = some pg2 :=
      ChainW_mem r _ hch2 _ (List.mem_cons_self _ _)
    have hmove : moveToNextPage s2 =
        some (some { s2 with curBid := b2, curPage := pg2, curtupOffset := 0,
                             is_ovflow := false }) := by
      unfold moveToNextPage
      rw [a3]
      simp only
      rw [hnb]
      simp only
      rw [a5.rel, hrel, hpg2]
    have hs3 := ScanAt.moved s1 s2 _ a1 a2 hmove
    by_cases e : b2 = b
    · exact ⟨_, hs3, rfl, e⟩
    · exact ih b2 _ hs3 (sameScan_trans a5 ⟨rfl, rfl, rfl, rfl, rfl⟩) rfl hpg2 rfl
        (by omega) (by omega)

/-- The buckets whose primary page a scan reads, in a relation that satisfies the
invariant and whose tuples are at most `MAXTUPLEN - 2` characters long: the bucket `curBid` that `startSelection` starts with, and every bucket after
it up to `maxBid` that passes the test of `moveToNextPage`. -/
theorem readsBucket_iff (hash_any : CStr → Nat) (r : Reln) (ch : Nat → List (Node × Page))
    (inv : RelInv hash_any r ch)
    (hshort : ∀ b1, b1 < r.npages → ∀ x ∈ ch b1, ∀ t ∈ pageTuples x.2,
      t.length + 2 ≤ MAXTUPLEN)
    (q : CStr) (s0 : Selection)
    (h0 : startSelection hash_any r q = some s0) (b : Nat) (hb : b < r.npages) :
    ReadsBucket hash_any r q b ↔
      b = s0.curBid ∨ (s0.curBid < b ∧ b ≤ s0.maxBid ∧ isCandidate s0 b = true) := by
  obtain ⟨qvals, known, qHash, hsetup, e1, _, _, e4, e5, e6, _, _, e9⟩ :=
    startSelection_spec hash_any r q s0 h0
  obtain ⟨_, hql, _, _⟩ := setup_spec hash_any r q qvals known qHash hsetup
  constructor
  · rintro ⟨s, hs, _, hcur⟩
    obtain ⟨_, h2⟩ := scanAt_bucket hash_any r q s0 h0 s hs
    rw [hcur] at h2
    exact h2
  · rintro (h | ⟨h1, h2, h3⟩)
    · exact ⟨s0, ScanAt.start s0 h0, e5, h.symm⟩
    · exact reads_candidate hash_any r ch inv hshort q s0 e1 (by rw [e4]; exact hql) b hb h2 h3
        (b - s0.curBid) s0.curBid s0 (ScanAt.start s0 h0) (sameScan_refl _) rfl e9 e6 h1
        (le_refl _)

/-! ## The buckets read, in terms of the values of setup -/

/-- The low `k` bits of `a XOR b` are zero when `a` and `b` have the same low `k` bits. -/
theorem getLower_xor_zero (a b k : Nat) :
    getLower (a ^^^ b) k = 0 ↔ getLower a k = getLower b k := by
  unfold getLower
  constructor
  · intro h
    apply Nat.eq_of_testBit_eq
    intro i
    have h1 := congrArg (fun x => x.testBit i) h
    simp only [Nat.testBit_mod_two_pow, Nat.testBit_xor, Nat.zero_testBit] at h1
    rw [Nat.testBit_mod_two_pow, Nat.testBit_mod_two_pow]
    by_cases hi : i < k
    · simp only [hi, decide_True, Bool.true_and] at h1 ⊢
      cases ha : a.testBit i <;> cases hb : b.testBit i <;> simp [ha, hb] at h1 ⊢
    · simp [hi]
  · intro h
    apply Nat.eq_of_testBit_eq
    intro i
    have h1 := congrArg (fun x => x.testBit i) h
    simp only [Nat.testBit_mod_two_pow] at h1
    rw [Nat.testBit_mod_two_pow, Nat.testBit_xor, Nat.zero_testBit]
    by_cases hi : i < k
    · simp only [hi, decide_True, Bool.true_and] at h1 ⊢
      rw [h1]
      simp
    · simp [hi]

/-- The candidate test of `moveToNextPage`, spelled out. -/
theorem isCandidate_iff (s : Selection) (b : Nat) :
    isCandidate s b = true ↔
      (getLower ((s.known &&& b) ^^^ s.qHash) (s.rel.depth + 1) = 0 ∨
        (s.rel.sp ≤ b ∧ getLower ((s.known &&& b) ^^^ s.qHash) s.rel.depth = 0)) := by
  unfold isCandidate
  simp

/-- In a relation that satisfies the invariant, `startSelection` returns for a query for
which `setup` returns. -/
theorem startSelection_of_setup (hash_any : CStr → Nat) (r : Reln)
    (ch : Nat → List (Node × Page)) (inv : RelInv hash_any r ch) (q : CStr)
    (qvals : List CStr) (known qHash : Nat)
    (hs : setup hash_any r q = some (qvals, known, qHash)) :
    ∃ s0, startSelection hash_any r q = some s0 := by
  have hcur : (if r.depth = 0 then 0 else getLower qHash r.depth) < r.npages := by
    have h1 := inv.sp_lt
    have h2 := inv.npages_eq
    have h3 := getLower_lt qHash r.depth
    split <;> omega
  obtain ⟨pg, rest, hc⟩ := layout_cons inv.lay _ hcur
  have hch := inv.lay.chain _ hcur
  rw [hc] at hch
  have hpg : getPage r false (if r.depth = 0 then 0 else getLower qHash r.depth) = some pg :=
    ChainW_mem r _ hch _ (List.mem_cons_self _ _)
  unfold startSelection
  rw [hs]
  simp only
  rw [hpg]
  exact ⟨_, rfl⟩

/-- The start bucket and the upper bound of a scan, in a relation that satisfies the
invariant: for a bucket `b` of the file, `b ≤ maxBid` is `b ≤` the low `depth+1` bits of
`qHash | ~known`, and `curBid` is the low `depth` bits of `qHash`. -/
theorem startSelection_bounds (hash_any : CStr → Nat) (r : Reln)
    (ch : Nat → List (Node × Page)) (inv : RelInv hash_any r ch) (q : CStr)
    (qvals : List CStr) (known qHash : Nat) (s0 : Selection)
    (hs : setup hash_any r q = some (qvals, known, qHash))
    (h0 : startSelection hash_any r q = some s0) :
    s0.rel = r ∧ s0.qHash = qHash ∧ s0.known = known ∧ s0.curBid = getLower qHash r.depth ∧
      ∀ b, b < r.npages → s0.curBid < b →
        (b ≤ s0.maxBid ↔ b ≤ getLower (qHash ||| bitsNot known) (r.depth + 1)) := by
  obtain ⟨qvals1, known1, qHash1, hs1, e1, e2, e3, _, _, _, e7, e8, _⟩ :=
    startSelection_spec hash_any r q s0 h0
  rw [hs] at hs1
  simp only [Option.some.injEq, Prod.mk.injEq] at hs1
  obtain ⟨_, hk, hh⟩ := hs1
  subst hk hh
  have h1 := inv.sp_lt
  have h2 := inv.npages_eq
  refine ⟨e1, e2, e3, ?_, ?_⟩
  · rw [e7]
    split
    · rename_i hd
      rw [hd]
      unfold getLower
      rw [pow_zero, Nat.mod_one]
    · rfl
  · intro b hb hlt
    rw [e8]
    by_cases hd : r.depth = 0
    · rw [hd] at h1 h2 ⊢
      simp only [pow_zero] at h1 h2
      rw [e7, if_pos hd] at hlt
      omega
    · rw [Nat.add_comm 1 r.depth]
      simp only [if_neg hd]
      split
      · rename_i hc
        constructor
        · intro _; omega
        · intro _; omega
      · exact Iff.rfl

theorem scanAt_start (hash_any : CStr → Nat) (r : Reln) (q : CStr) (s : Selection)
    (hs : ScanAt hash_any r q s) : ∃ s0, startSelection hash_any r q = some s0 := by
  induction hs with
  | start s h => exact ⟨s, h⟩
  | found _ _ _ _ _ ih => exact ih
  | moved _ _ _ _ _ _ ih => exact ih

/-- Every bucket whose primary page a scan reads is a bucket of the file. -/
theorem readsBucket_lt (hash_any : CStr → Nat) (r : Reln) (ch : Nat → List (Node × Page))
    (inv : RelInv hash_any r ch) (q : CStr) (b : Nat) (h : ReadsBucket hash_any r q b) :
    b < r.npages := by
  obtain ⟨s, hs, _, hcur⟩ := h
  obtain ⟨s0, h0⟩ := scanAt_start hash_any r q s hs
  obtain ⟨_, _, _, _, _, _, _, _, _, _, _, e8, e9⟩ := startSelection_spec hash_any r q s0 h0
  obtain ⟨_, h2⟩ := scanAt_bucket hash_any r q s0 h0 s hs
  have hnp : 0 < r.npages := by
    have := inv.npages_eq
    have := Nat.two_pow_pos r.depth
    omega
  have hcur0 : s0.curBid < r.npages := by
    have := (pageAt_lt r (false, s0.curBid) _ e9).2 rfl
    rw [inv.lay.data_len] at this
    exact this
  have hmax : s0.maxBid < r.npages := by
    rw [e8]
    by_cases hd : r.depth = 0
    · simp only [hd, ne_eq, not_true_eq_false, false_and, if_false, if_true]
      exact hnp
    · simp only [hd, ne_eq, not_false_eq_true, true_and, if_false]
      split <;> omega
  rw [hcur] at h2
  rcases h2 with e | ⟨_, e, _⟩
  · rw [e]; exact hcur0
  · omega

/-- A query without unknown attributes: all 32 bits are known and the query hash is the
hash of the query. -/
theorem setup_all_known (hash_any : CStr → Nat) (r : Reln) (q : CStr) (qvals : List CStr)
    (known qHash : Nat) (hs : setup hash_any r q = some (qvals, known, qHash))
    (hk : ∀ v ∈ qvals, known_attr v = true) :
    known = 2 ^ 32 - 1 ∧ tupleHash hash_any r.nattrs r.cv q = some qHash ∧ qHash < 2 ^ 32 := by
  obtain ⟨hqv, hlen, hbits, hqh⟩ := setup_spec hash_any r q qvals known qHash hs
  have hknown : known = 2 ^ 32 - 1 := by
    apply Nat.eq_of_testBit_eq
    intro i
    rw [Nat.testBit_two_pow_sub_one, Bool.eq_iff_iff, hbits i]
    simp only [decide_eq_true_eq]
    unfold MAXCHVEC
    constructor
    · exact fun h => h.1
    · intro h
      refine ⟨h, ?_⟩
      rintro ⟨h1, h2⟩
      have hmem : strAt qvals (cvAt r.cv i).att ∈ qvals := by
        unfold strAt
        rw [List.getD_eq_getElem?_getD, List.getElem?_eq_getElem (by omega)]
        exact List.getElem_mem _
      rw [hk _ hmem] at h2
      cases h2
  have hlt : tupleHashLoop hash_any r.cv qvals r.nattrs 0 0 < 2 ^ 32 := by
    apply Nat.lt_pow_two_of_testBit
    intro i hi
    cases hb : (tupleHashLoop hash_any r.cv qvals r.nattrs 0 0).testBit i
    · rfl
    · have := ((tupleHash_bit hash_any r.cv qvals r.nattrs i).mp hb).1
      unfold MAXCHVEC at this
      omega
  have hq : qHash = tupleHashLoop hash_any r.cv qvals r.nattrs 0 0 := by
    rw [hqh, hknown, Nat.and_pow_two_sub_one_eq_mod, Nat.mod_eq_of_lt hlt]
  refine ⟨hknown, ?_, by rw [hq]; exact hlt⟩
  unfold tupleHash tupleValsN
  rw [if_pos (by rw [← hqv]; exact hlen), hq, hqv]

/-- A number above `p` and at most `p + P` that is `p` modulo `P` is `p + P`. -/
theorem eq_add_of_mod (b P p : Nat) (h1 : b % P = p) (h2 : p < b) (h3 : b ≤ p + P) :
    b = p + P := by
  have h4 := Nat.div_add_mod b P
  rw [h1] at h4
  have h5 : b / P ≠ 0 := by
    intro e
    rw [e] at h4
    omega
  have h6 : P ≤ P * (b / P) := Nat.le_mul_of_pos_right P (Nat.pos_of_ne_zero h5)
  omega

/-- The candidates of a query without unknown attributes between the start bucket and the
upper bound: only the bucket `p + 2^depth`, when bit `depth` of the hash is 1. -/
theorem exact_candidate (h d sp b : Nat) (hb : b < 2 ^ 32) :
    (getLower h d < b ∧ b ≤ getLower (h ||| bitsNot (2 ^ 32 - 1)) (d + 1) ∧
      (getLower (((2 ^ 32 - 1) &&& b) ^^^ h) (d + 1) = 0 ∨
        (sp ≤ b ∧ getLower (((2 ^ 32 - 1) &&& b) ^^^ h) d = 0))) ↔
      (b = getLower h d + 2 ^ d ∧ bitIsSet h d = true) := by
  have e1 : bitsNot (2 ^ 32 - 1) = 0 := by decide
  have e2 : (2 ^ 32 - 1) &&& b = b := by
    rw [Nat.land_comm, Nat.and_pow_two_sub_one_eq_mod, Nat.mod_eq_of_lt hb]
  rw [e1, Nat.or_zero, e2, getLower_xor_zero, getLower_xor_zero]
  have hsucc := getLower_succ h d
  have hp := getLower_lt h d
  have hpos := Nat.two_pow_pos d
  have hpow : 2 ^ (d + 1) = 2 * 2 ^ d := by rw [pow_succ]; omega
  cases hbit : bitIsSet h d
  · rw [hbit] at hsucc
    simp only [Bool.false_eq_true, if_false, mul_zero, add_zero] at hsucc
    constructor
    · rintro ⟨h1, h2, _⟩
      omega
    · rintro ⟨_, h2⟩
      cases h2
  · rw [hbit] at hsucc
    simp only [if_true, mul_one] at hsucc
    constructor
    · rintro ⟨h1, h2, h3⟩
      refine ⟨?_, rfl⟩
      rcases h3 with h3 | ⟨_, h3⟩
      · have : getLower b (d + 1) = b := by
          unfold getLower
          exact Nat.mod_eq_of_lt (by omega)
        omega
      · exact eq_add_of_mod b (2 ^ d) (getLower h d) h3 h1 (by omega)
    · rintro ⟨h1, _⟩
      refine ⟨by omega, by omega, Or.inl ?_⟩
      have : getLower b (d + 1) = b := by
        unfold getLower
        exact Nat.mod_eq_of_lt (by omega)
      omega

/-! ## The buckets read by a scan -/

/-- The tuples of the bucket chains are tuples of the pages of the two files. -/
theorem chain_short (r : Reln) (ch : Nat → List (Node × Page)) (lay : Layout r ch) (k : Nat)
    (h : ∀ pg ∈ r.data ++ r.ovflow, ∀ t ∈ pageTuples pg, t.length + k ≤ MAXTUPLEN) :
    ∀ b1, b1 < r.npages → ∀ x ∈ ch b1, ∀ t ∈ pageTuples x.2, t.length + k ≤ MAXTUPLEN := by
  intro b1 hb1 x hx t ht
  have hp := ChainW_mem r _ (lay.chain b1 hb1) x hx
  refine h x.2 ?_ t ht
  unfold pageAt getPage at hp
  rw [List.mem_append]
  split at hp
  · exact Or.inr (List.getElem?_mem hp)
  · exact Or.inl (List.getElem?_mem hp)

theorem wide3_short :
    ∀ pg ∈ wide3.data ++ wide3.ovflow, ∀ t ∈ pageTuples pg, t.length + 2 ≤ MAXTUPLEN := by
  decide!

theorem insert_longWide2 :
    addToRelation List.length wide2 longWide = some (wideLong3, some 0) := by
  decide!

theorem wideLongSel_start :
    startSelection List.length wideLong3 wideTuple = some wideLongSel := by
  decide!

/-- The tuple `longWide` of 251 characters does not fit the buffer `temp` of
`nextMatchTup`. -/
theorem wideLongSel_fault : nextMatchTup wideLongSel = none := by
  decide!

/-- The scan of `wideLong3` for the query `wideTuple` does not get past its first call of
`nextMatchTup`. -/
theorem wideLong3_scanAt (s : Selection) (h : ScanAt List.length wideLong3 wideTuple s) :
    s = wideLongSel := by
  induction h with
  | start s h0 =>
    rw [wideLongSel_start] at h0
    exact (Option.some.inj h0).symm
  | found s s1 t _ h1 ih =>
    rw [ih, wideLongSel_fault] at h1
    cases h1
  | moved s s1 s2 _ h1 _ ih =>
    rw [ih, wideLongSel_fault] at h1
    cases h1

/-- The scan of `wideLong3` for the query `wideTuple` does not read bucket 2. -/
theorem wideLong3_not_reads : ¬ ReadsBucket List.length wideLong3 wideTuple 2 := by
  rintro ⟨s, hs, _, hcur⟩
  rw [wideLong3_scanAt s hs] at hcur
  exact absurd hcur (by decide)

theorem wideLong3_setup :
    setup List.length wideLong3 wideTuple = some (tupleVals wideTuple, 4294967295, 2) := by
  decide!

/-- C20, amended: in a relation that satisfies the invariant of the reachable relations
and whose stored tuples are at most `MAXTUPLEN - 2` characters long, for a query `q` for which `setup` computes `known` and `qHash`, a bucket id `b` in
`[0, npages)` has its primary page read by the scan for `q` if and only if `b` is the low
`depth` bits of `qHash`, the start bucket, or `b` lies above the start bucket and at most
at the low `depth+1` bits of `qHash | ~known` and is a candidate: the low `depth+1` bits
of `(b AND known) XOR qHash` are all zero, or `b ≥ sp` and the low `depth` bits of that
value are all zero. -/
theorem scan_reads_buckets (hash_any : CStr → Nat) (r : Reln)
    (ch : Nat → List (Node × Page)) (q : CStr) (qvals : List CStr) (known qHash : Nat)
    (inv : RelInv hash_any r ch)
    (hshort : ∀ b1, b1 < r.npages → ∀ x ∈ ch b1, ∀ t ∈ pageTuples x.2,
      t.length + 2 ≤ MAXTUPLEN)
    (hs : setup hash_any r q = some (qvals, known, qHash))
    (b : Nat) (hb : b < r.npages) :
    ReadsBucket hash_any r q b ↔
      b = getLower qHash r.depth ∨
      (getLower qHash r.depth < b ∧ b ≤ getLower (qHash ||| bitsNot known) (r.depth + 1) ∧
        (getLower ((known &&& b) ^^^ qHash) (r.depth + 1) = 0 ∨
          (r.sp ≤ b ∧ getLower ((known &&& b) ^^^ qHash) r.depth = 0))) := by
  obtain ⟨s0, h0⟩ := startSelection_of_setup hash_any r ch inv q qvals known qHash hs
  obtain ⟨e1, e2, e3, e4, e5⟩ := startSelection_bounds hash_any r ch inv q qvals known qHash s0 hs h0
  rw [readsBucket_iff hash_any r ch inv hshort q s0 h0 b hb, isCandidate_iff, e1, e2, e3, e4]
  constructor
  · rintro (h | ⟨h1, h2, h3⟩)
    · exact Or.inl h
    · exact Or.inr ⟨h1, (e5 b hb (by rw [e4]; exact h1)).mp h2, h3⟩
  · rintro (h | ⟨h1, h2, h3⟩)
    · exact Or.inl h
    · exact Or.inr ⟨h1, (e5 b hb (by rw [e4]; exact h1)).mpr h2, h3⟩

/-- C16, amended: in a relation that satisfies the invariant of the reachable relations,
has at most `2^32` buckets and whose stored tuples are at most `MAXTUPLEN - 2` characters
long, for a query in which every attribute is known, the query
hash is the hash `h` of the query, and the scan reads the primary page of bucket
`p`, the low `depth` bits of `h`, and besides that only of bucket `p + 2^depth`, which it
reads exactly when `p < sp` and bit `depth` of `h` is 1. -/
theorem exact_match_reads (hash_any : CStr → Nat) (r : Reln) (ch : Nat → List (Node × Page))
    (q : CStr) (qvals : List CStr) (known qHash : Nat) (inv : RelInv hash_any r ch)
    (hshort : ∀ b1, b1 < r.npages → ∀ x ∈ ch b1, ∀ t ∈ pageTuples x.2,
      t.length + 2 ≤ MAXTUPLEN)
    (hs : setup hash_any r q = some (qvals, known, qHash))
    (hk : ∀ v ∈ qvals, known_attr v = true) (hw : r.npages ≤ 2 ^ 32) :
    tupleHash hash_any r.nattrs r.cv q = some qHash ∧
      ∀ b, ReadsBucket hash_any r q b ↔
        b = getLower qHash r.depth ∨
        (b = getLower qHash r.depth + 2 ^ r.depth ∧ getLower qHash r.depth < r.sp ∧
          bitIsSet qHash r.depth = true) := by
  obtain ⟨hknown, hhash, _⟩ := setup_all_known hash_any r q qvals known qHash hs hk
  refine ⟨hhash, ?_⟩
  intro b
  obtain ⟨s0, h0⟩ := startSelection_of_setup hash_any r ch inv q qvals known qHash hs
  obtain ⟨e1, e2, e3, e4, e5⟩ := startSelection_bounds hash_any r ch inv q qvals known qHash s0 hs h0
  have hsp := inv.sp_lt
  have hnp := inv.npages_eq
  have hp := getLower_lt qHash r.depth
  constructor
  · intro hread
    have hb := readsBucket_lt hash_any r ch inv q b hread
    rw [readsBucket_iff hash_any r ch inv hshort q s0 h0 b hb, isCandidate_iff, e1, e2, e3, e4] at hread
    rcases hread with h | ⟨h1, h2, h3⟩
    · exact Or.inl h
    · right
      have h2a := (e5 b hb (by rw [e4]; exact h1)).mp h2
      rw [hknown] at h2a h3
      obtain ⟨a1, a2⟩ := (exact_candidate qHash r.depth r.sp b (by omega)).mp ⟨h1, h2a, h3⟩
      exact ⟨a1, by omega, a2⟩
  · rintro (h | ⟨h1, h2, h3⟩)
    · have hb : b < r.npages := by omega
      rw [readsBucket_iff hash_any r ch inv hshort q s0 h0 b hb, e4]
      exact Or.inl h
    · have hb : b < r.npages := by omega
      rw [readsBucket_iff hash_any r ch inv hshort q s0 h0 b hb, isCandidate_iff, e1, e2, e3, e4]
      right
      obtain ⟨a1, a2, a3⟩ := (exact_candidate qHash r.depth r.sp b (by omega)).mpr ⟨h1, h3⟩
      rw [← hknown] at a2 a3
      exact ⟨a1, (e5 b hb (by rw [e4]; exact a1)).mpr a2, a3⟩

theorem wideSel0_start : startSelection List.length wide3 wideTuple = some wideSel0 := by
  decide!

theorem wideSel2_scanAt : ScanAt List.length wide3 wideTuple wideSel2 :=
  ScanAt.moved wideSel0 wideSel0 wideSel2 (ScanAt.start wideSel0 wideSel0_start)
    (by decide!) (by decide!)

theorem wide3_setup :
    setup List.length wide3 wideTuple = some (tupleVals wideTuple, 4294967295, 2) := by
  decide!

/-- The scan of `wide3` for the query `wideTuple` and bucket 2. -/
theorem scan_reads_buckets_witness :
    (∃ ch, RelInv List.length wide3 ch ∧
        ∀ b1, b1 < wide3.npages → ∀ x ∈ ch b1, ∀ t ∈ pageTuples x.2,
          t.length + 2 ≤ MAXTUPLEN) ∧
      setup List.length wide3 wideTuple = some (tupleVals wideTuple, 4294967295, 2) ∧
      2 < wide3.npages ∧
      (ReadsBucket List.length wide3 wideTuple 2 ↔
        2 = getLower 2 wide3.depth ∨
        (getLower 2 wide3.depth < 2 ∧
          2 ≤ getLower (2 ||| bitsNot 4294967295) (wide3.depth + 1) ∧
          (getLower ((4294967295 &&& 2) ^^^ 2) (wide3.depth + 1) = 0 ∨
            (wide3.sp ≤ 2 ∧ getLower ((4294967295 &&& 2) ^^^ 2) wide3.depth = 0)))) := by
  obtain ⟨ch, inv⟩ := reachable_inv List.length wide3 wide3_reachable
  have hshort := chain_short wide3 ch inv.lay 2 wide3_short
  exact ⟨⟨ch, inv, hshort⟩, wide3_setup, by decide,
    scan_reads_buckets List.length wide3 ch wideTuple (tupleVals wideTuple) 4294967295 2 inv
      hshort wide3_setup 2 (by decide)⟩

/-- The scan of `wide3` for the query `wideTuple`, in which every attribute is known. -/
theorem exact_match_reads_witness :
    (∃ ch, RelInv List.length wide3 ch ∧
        ∀ b1, b1 < wide3.npages → ∀ x ∈ ch b1, ∀ t ∈ pageTuples x.2,
          t.length + 2 ≤ MAXTUPLEN) ∧
      setup List.length wide3 wideTuple = some (tupleVals wideTuple, 4294967295, 2) ∧
      (∀ v ∈ tupleVals wideTuple, known_attr v = true) ∧ wide3.npages ≤ 2 ^ 32 ∧
      tupleHash List.length wide3.nattrs wide3.cv wideTuple = some 2 ∧
      ∀ b, ReadsBucket List.length wide3 wideTuple b ↔
        b = getLower 2 wide3.depth ∨
        (b = getLower 2 wide3.depth + 2 ^ wide3.depth ∧ getLower 2 wide3.depth < wide3.sp ∧
          bitIsSet 2 wide3.depth = true) := by
  obtain ⟨ch, inv⟩ := reachable_inv List.length wide3 wide3_reachable
  have hshort := chain_short wide3 ch inv.lay 2 wide3_short
  exact ⟨⟨ch, inv, hshort⟩, wide3_setup, by decide!, by decide,
    exact_match_reads List.length wide3 ch wideTuple (tupleVals wideTuple) 4294967295 2 inv
      hshort wide3_setup (by decide!) (by decide)⟩

/-- C16: the relation `wide3` has `depth = 1`, `sp = 1 < 2^depth` and
`npages = 3 = 2^depth + sp`, and every attribute of the query `wideTuple` is known; the
scan reads the primary page of bucket 0, where `startSelection` starts, and then that of
bucket 2: two buckets. In the relation `wideLong3`, with the same header, which
`addToRelation` makes from `wide2` and the tuple `longWide` of 251 characters, the scan
for the same query, with hash 2, does not read bucket 2: `nextMatchTup` does not return on
bucket 0, where `longWide` exceeds the buffer `temp`. -/
theorem exact_match_reads_two :
    (wide3.sp < 2 ^ wide3.depth ∧ wide3.npages = 2 ^ wide3.depth + wide3.sp ∧
      (∀ v ∈ tupleVals wideTuple, known_attr v = true) ∧
      ReadsBucket List.length wide3 wideTuple 0 ∧
      ReadsBucket List.length wide3 wideTuple 2) ∧
    (addToRelation List.length wide2 longWide = some (wideLong3, some 0) ∧
      wideLong3.sp < 2 ^ wideLong3.depth ∧
      wideLong3.npages = 2 ^ wideLong3.depth + wideLong3.sp ∧
      setup List.length wideLong3 wideTuple = some (tupleVals wideTuple, 4294967295, 2) ∧
      getLower 2 wideLong3.depth < wideLong3.sp ∧ bitIsSet 2 wideLong3.depth = true ∧
      getLower 2 wideLong3.depth + 2 ^ wideLong3.depth = 2 ∧
      MAXTUPLEN < longWide.length ∧
      nextMatchTup wideLongSel = none ∧
      ¬ ReadsBucket List.length wideLong3 wideTuple 2) :=
  ⟨⟨by decide, by decide, by decide!,
    ⟨wideSel0, ScanAt.start wideSel0 wideSel0_start, rfl, rfl⟩,
    ⟨wideSel2, wideSel2_scanAt, rfl, rfl⟩⟩,
    insert_longWide2, by decide, by decide, wideLong3_setup, by decide, by decide, by decide,
    by decide!, wideLongSel_fault, wideLong3_not_reads⟩

theorem emptySel0_start : startSelection List.length wide3 emptyQuery = some emptySel0 := by
  decide!

/-- C20: in the relation `wide3`, with `depth = 1 > 0` and `sp = 1`, the scan for the
query `wideTuple` (`known` all ones, `qHash = 2`) reads the primary page of bucket 0, which
is not a candidate; and in the scan for the query `emptyQuery` (`known` all ones,
`qHash = 0`) bucket 2 is a candidate, by `b ≥ sp` and the low `depth` bits, but its primary
page is not read, since `maxBid = 0`. In the relation `wideLong3`, which `addToRelation`
makes from `wide2` and the tuple `longWide` of 251 characters, bucket 2 is within the
bounds of the scan for the query `wideTuple` and passes the test on the low `depth+1`
bits, but its primary page is not read: `nextMatchTup` does not return on bucket 0, where
`longWide` exceeds the buffer `temp`. -/
theorem scan_reads_not_candidates :
    (wide3.depth = 1 ∧ wide3.sp = 1 ∧ wide3.npages = 3 ∧
      setup List.length wide3 wideTuple = some (tupleVals wideTuple, 4294967295, 2) ∧
      ReadsBucket List.length wide3 wideTuple 0 ∧
      getLower ((4294967295 &&& 0) ^^^ 2) (wide3.depth + 1) ≠ 0 ∧ ¬ wide3.sp ≤ 0 ∧
      setup List.length wide3 emptyQuery = some (tupleVals emptyQuery, 4294967295, 0) ∧
      (wide3.sp ≤ 2 ∧ getLower ((4294967295 &&& 2) ^^^ 0) wide3.depth = 0) ∧
      ¬ ReadsBucket List.length wide3 emptyQuery 2) ∧
    (addToRelation List.length wide2 longWide = some (wideLong3, some 0) ∧
      wideLong3.depth = 1 ∧ wideLong3.sp = 1 ∧ wideLong3.npages = 3 ∧
      setup List.length wideLong3 wideTuple = some (tupleVals wideTuple, 4294967295, 2) ∧
      getLower 2 wideLong3.depth < 2 ∧
      2 ≤ getLower (2 ||| bitsNot 4294967295) (wideLong3.depth + 1) ∧
      getLower ((4294967295 &&& 2) ^^^ 2) (wideLong3.depth + 1) = 0 ∧
      MAXTUPLEN < longWide.length ∧
      nextMatchTup wideLongSel = none ∧
      ¬ ReadsBucket List.length wideLong3 wideTuple 2) := by
  refine ⟨⟨rfl, rfl, rfl, wide3_setup,
    ⟨wideSel0, ScanAt.start wideSel0 wideSel0_start, rfl, rfl⟩, by decide, by decide,
    by decide!, by decide, ?_⟩,
    insert_longWide2, rfl, rfl, rfl, wideLong3_setup, by decide, by decide, by decide,
    by decide!, wideLongSel_fault, wideLong3_not_reads⟩
  rintro ⟨s, hs, _, hcur⟩
  obtain ⟨_, h⟩ := scanAt_bucket List.length wide3 emptyQuery emptySel0 emptySel0_start s hs
  rw [hcur] at h
  rcases h with h | ⟨_, h, _⟩
  · cases h
  · exact absurd h (by decide)

/-- The loop of `getNextTuple` goes through selections of the scan. -/
theorem getNextLoop_scanAt (hash_any : CStr → Nat) (r : Reln) (q : CStr) (t : CStr)
    (s1 : Selection) :
    ∀ (fuel : Nat) (sp s : Selection), ScanAt hash_any r q sp →
      nextMatchTup sp = some (none, s) → getNextLoop fuel s = some (some t, s1) →
      ScanAt hash_any r q s1 := by
  intro fuel
  induction fuel with
  | zero => intro sp s _ _ h; cases h
  | succ fuel ih =>
    intro sp s hsp hn h
    unfold getNextLoop at h
    split at h
    · cases h
    · simp at h
    · rename_i s2 hmv
      have hs2 := ScanAt.moved sp s s2 hsp hn hmv
      split at h
      · cases h
      · rename_i t1 s3 hn2
        simp only [Option.some.injEq, Prod.mk.injEq] at h
        rw [← h.2]
        exact ScanAt.found s2 s3 t1 hs2 hn2
      · rename_i s3 hn2
        exact ih s2 s3 hs2 hn2 h

/-- A call of `getNextTuple` that returns a tuple leads from a selection of the scan to a
selection of the scan. -/
theorem getNextTuple_scanAt (hash_any : CStr → Nat) (r : Reln) (q : CStr) (s s1 : Selection)
    (t : CStr) (hs : ScanAt hash_any r q s) (h : getNextTuple s = some (some t, s1)) :
    ScanAt hash_any r q s1 := by
  unfold getNextTuple at h
  split at h
  · cases h
  · rename_i t1 s2 hn
    simp only [Option.some.injEq, Prod.mk.injEq] at h
    rw [← h.2]
    exact ScanAt.found s s2 t1 hs hn
  · rename_i s2 hn
    exact getNextLoop_scanAt hash_any r q t s1 _ s s2 hs hn h

/-! ## addToRelation returns -/

theorem addToPage_some_fits (p p1 : Page) (t : CStr) (h : addToPage p t = some p1) :
    t.length + 1 ≤ dataSize := by
  unfold addToPage pageFreeSpace at h
  split at h
  · omega
  · cases h

/-- The scan of the overflow chain in `addToRelation` returns when the chain is linked in
the file, and it returns `NO_PAGE` exactly when the tuple does not fit an empty page. -/
theorem ovflowInsert_returns (t : CStr) (p : Nat) (r : Reln) :
    ∀ (suf : List (Node × Page)) (fuel : Nat) (ovp : Option Nat) (prev : Option (Nat × Page)),
      ChainW r suf → (∀ x ∈ suf, x.1.1 = true) → ovp = suf.head?.map (fun x => x.1.2) →
      (∀ pp pq, prev = some (pp, pq) → pp < r.ovflow.length) → (suf = [] → prev ≠ none) →
      suf.length < fuel →
      ∃ r1 res, ovflowInsert t p fuel r ovp prev = some (r1, res) ∧
        (res = none ↔ dataSize < t.length + 1) := by
  intro suf
  induction suf with
  | nil =>
    intro fuel ovp prev _ _ hovp hprev hne hfuel
    simp only [List.head?_nil, Option.map_none'] at hovp
    subst hovp
    cases fuel with
    | zero => simp at hfuel
    | succ fuel =>
      cases prev with
      | none => exact absurd rfl (hne rfl)
      | some pv =>
        obtain ⟨pp, pq⟩ := pv
        have hpp := hprev pp pq rfl
        obtain ⟨_, hh1, hd1, ho1, hat1, hfr1⟩ := addOvflowPage_spec r
        unfold ovflowInsert
        simp only
        rw [getPage_eq_pageAt]
        have e0 : (addOvflowPage r).1 = r.ovflow.length := rfl
        rw [e0, hat1]
        simp only
        cases hadd : addToPage newPage t with
        | none =>
          simp only
          refine ⟨_, none, rfl, ?_⟩
          have := addToPage_none newPage t hadd
          simp only [newPage] at this
          constructor
          · intro _; omega
          · intro _; rfl
        | some q1 =>
          simp only
          have hfit := addToPage_some_fits newPage q1 t hadd
          obtain ⟨r2, hput2, _, _, ho2, _, _⟩ :=
            putPage_spec (addOvflowPage r).2 (true, r.ovflow.length) q1 newPage hat1
          simp only at hput2
          rw [hput2]
          simp only
          have hlt : pp < r2.ovflow.length := by rw [ho2, ho1]; omega
          have hput3 : ∃ r3, putPage r2 true pp { pq with ovflow := some r.ovflow.length } =
              some r3 := by
            unfold putPage
            simp only [if_true]
            rw [if_pos hlt]
            exact ⟨_, rfl⟩
          obtain ⟨r3, hput3⟩ := hput3
          rw [hput3]
          refine ⟨_, some p, rfl, ?_⟩
          constructor
          · intro h; cases h
          · intro h; omega
  | cons x suf ih =>
    intro fuel ovp prev hch hovf hovp hprev _ hfuel
    obtain ⟨n, q⟩ := x
    have hn1 : n.1 = true := hovf (n, q) (List.mem_cons_self _ _)
    simp only [List.head?_cons, Option.map_some'] at hovp
    subst hovp
    have hch0 := hch
    rw [ChainW_cons] at hch0
    obtain ⟨hnq, hlink, _, hch1⟩ := hch0
    have en : n = (true, n.2) := by rw [← hn1]
    cases fuel with
    | zero => simp at hfuel
    | succ fuel =>
      unfold ovflowInsert
      simp only
      rw [getPage_eq_pageAt, ← en, hnq]
      simp only
      cases hadd : addToPage q t with
      | none =>
        simp only
        exact ih fuel q.ovflow (some (n.2, q)) hch1
          (fun y hy => hovf y (List.mem_cons_of_mem _ hy)) hlink
          (by
            intro pp pq h
            simp only [Option.some.injEq, Prod.mk.injEq] at h
            rw [← h.1]
            exact (pageAt_lt r n q hnq).1 hn1)
          (fun _ h => by cases h)
          (by simp only [List.length_cons] at hfuel; omega)
      | some q1 =>
        simp only
        have hfit := addToPage_some_fits q q1 t hadd
        obtain ⟨r2, hput2, _⟩ := putPage_spec r n q1 q hnq
        rw [en] at hput2
        simp only at hput2
        rw [hput2]
        refine ⟨_, some p, rfl, ?_⟩
        constructor
        · intro h; cases h
        · intro h; omega

/-- The split step of `addToRelation` returns in a relation that satisfies the invariant
and in which the tuples of bucket `sp` are shorter than `MAXTUPLEN`. -/
theorem splitIfDue_returns (hash_any : CStr → Nat) (r : Reln) (ch : Nat → List (Node × Page))
    (inv : RelInv hash_any r ch)
    (hshort : ∀ x ∈ ch r.sp, ∀ t ∈ pageTuples x.2, t.length + 1 ≤ MAXTUPLEN) :
    ∃ rs, splitIfDue hash_any r = some rs := by
  unfold splitIfDue
  split
  · have hsp : r.sp < r.npages := by
      have := inv.sp_lt
      have := inv.npages_eq
      omega
    obtain ⟨r1, _, _, h1, _⟩ := lh_split_layout hash_any r ch inv.lay hsp (by
      intro x hx t ht
      obtain ⟨hv, hh, _⟩ := inv.i1 r.sp hsp t
        (mem_tuplesOfPages _ x.2 (List.mem_map.mpr ⟨x, hx, rfl⟩) t ht)
      exact ⟨hv, hh⟩) hshort
    rw [h1]
    simp only
    split <;> exact ⟨_, rfl⟩
  · exact ⟨r, rfl⟩

/-- In a relation that satisfies the invariant, has between 1 and 102 attributes and in
which the tuples of bucket `sp` are shorter than `MAXTUPLEN`, `addToRelation` returns for
every tuple of `nattrs` fields, and it returns `NO_PAGE` exactly when the tuple does not
fit an empty page. -/
theorem addToRelation_returns (hash_any : CStr → Nat) (r : Reln)
    (ch : Nat → List (Node × Page)) (t : CStr) (inv : RelInv hash_any r ch)
    (hshort : ∀ x ∈ ch r.sp, ∀ t ∈ pageTuples x.2, t.length + 1 ≤ MAXTUPLEN)
    (hn : 1 ≤ r.nattrs ∧ r.nattrs ≤ 102) (ht : (tupleVals t).length = r.nattrs) :
    ∃ r1 res, addToRelation hash_any r t = some (r1, res) ∧
      (res = none ↔ dataSize < t.length + 1) := by
  obtain ⟨rs, hs⟩ := splitIfDue_returns hash_any r ch inv hshort
  obtain ⟨chs, invs, hna⟩ := splitIfDue_inv hash_any r rs ch inv hs
  obtain ⟨hv, hh⟩ := tupleHash_isSome hash_any rs.nattrs rs.cv t (by rw [hna]; exact ht)
  obtain ⟨hp, _⟩ := bucketOf_addr rs hv invs.sp_lt invs.npages_eq
  have hpc : Pcap r.nattrs ≠ 0 := by
    unfold Pcap
    have : 10 * r.nattrs ≤ 1024 := by omega
    have := Nat.div_pos this (by omega)
    omega
  unfold addToRelation
  rw [if_neg (by
    intro h
    rcases h with h | h
    · omega
    · exact hpc h), hs]
  simp only
  rw [hh]
  simp only
  generalize bucketOf rs hv = p at hp
  obtain ⟨pg, rest, hc⟩ := layout_cons invs.lay p hp
  have hch := invs.lay.chain p hp
  have hnd := invs.lay.nodup p hp
  have hrest := layout_rest_ovf invs.lay p hp pg rest hc
  rw [hc] at hch hnd
  have hch0 := hch
  rw [ChainW_cons] at hch0
  obtain ⟨hpg, hlink, _, hch1⟩ := hch0
  rw [getPage_eq_pageAt, hpg]
  simp only
  cases hadd : addToPage pg t with
  | some pg1 =>
    simp only
    have hfit := addToPage_some_fits pg pg1 t hadd
    obtain ⟨r2, hput, _⟩ := putPage_spec rs (false, p) pg1 pg hpg
    simp only at hput
    rw [hput]
    refine ⟨_, some p, rfl, ?_⟩
    constructor
    · intro h; cases h
    · intro h; omega
  | none =>
    simp only
    cases hov : pg.ovflow with
    | some ovp =>
      simp only
      have hlen : rest.length ≤ rs.ovflow.length := by
        rw [List.map_cons, List.nodup_cons] at hnd
        exact chain_length_le rs _ _ rest hch hnd.2
      exact ovflowInsert_returns t p rs rest (rs.ovflow.length + 1) (some ovp) none hch1 hrest
        (by rw [← hov]; exact hlink) (fun _ _ h => by cases h)
        (by
          intro e
          rw [e, hov] at hlink
          cases hlink)
        (by omega)
    | none =>
      simp only
      obtain ⟨_, hh1, hd1, ho1, hat1, hfr1⟩ := addOvflowPage_spec rs
      have e0 : (addOvflowPage rs).1 = rs.ovflow.length := rfl
      have hpa : pageAt (addOvflowPage rs).2 (false, p) = some pg := by
        rw [hfr1 (false, p) (by simp)]; exact hpg
      obtain ⟨r2, hput2, hh2, hd2, ho2, hat2, hfr2⟩ :=
        putPage_spec (addOvflowPage rs).2 (false, p)
          { pg with ovflow := some rs.ovflow.length } pg hpa
      simp only at hput2
      rw [e0, hput2]
      simp only
      have hnew : pageAt r2 (true, rs.ovflow.length) = some newPage := by
        rw [hfr2 (true, rs.ovflow.length) (by simp)]; exact hat1
      rw [getPage_eq_pageAt, hnew]
      simp only
      cases hadd2 : addToPage newPage t with
      | none =>
        simp only
        refine ⟨_, none, rfl, ?_⟩
        have := addToPage_none newPage t hadd2
        simp only [newPage] at this
        constructor
        · intro _; omega
        · intro _; rfl
      | some q1 =>
        simp only
        have hfit := addToPage_some_fits newPage q1 t hadd2
        obtain ⟨r3, hput3, _⟩ := putPage_spec r2 (true, rs.ovflow.length) q1 newPage hnew
        simp only at hput3
        rw [hput3]
        refine ⟨_, some p, rfl, ?_⟩
        constructor
        · intro h; cases h
        · intro h; omega

/-! ## addToRelation: a call that returns NO_PAGE -/

theorem putPage_ovflow_length (r r1 : Reln) (o : Bool) (i : Nat) (p : Page)
    (h : putPage r o i p = some r1) : r1.ovflow.length = r.ovflow.length := by
  unfold putPage at h
  split at h <;> split at h
  all_goals first
    | (simp only [Option.some.injEq] at h; subst h; simp)
    | cases h

/-- The scan of the overflow chain in `addToRelation`, when it returns `NO_PAGE`: the
overflow file has one more page. -/
theorem ovflowInsert_fail_len (t : CStr) (p : Nat) :
    ∀ (fuel : Nat) (r : Reln) (ovp : Option Nat) (prev : Option (Nat × Page)) (r1 : Reln),
      ovflowInsert t p fuel r ovp prev = some (r1, none) →
      r1.ovflow.length = r.ovflow.length + 1 := by
  intro fuel
  induction fuel with
  | zero => intro r ovp prev r1 h; cases h
  | succ fuel ih =>
    intro r ovp prev r1 h
    unfold ovflowInsert at h
    split at h
    · split at h
      · cases h
      · split at h
        · exact ih _ _ _ _ h
        · split at h
          · cases h
          · simp at h
    · split at h
      · cases h
      · simp only at h
        split at h
        · cases h
        · split at h
          · simp only [Option.some.injEq, Prod.mk.injEq, and_true] at h
            rw [← h]
            exact (addOvflowPage_spec r).2.2.2.1
          · split at h
            · cases h
            · split at h
              · cases h
              · simp at h

/-- A call of `addToRelation` that returns `NO_PAGE` has added a page to the overflow file
after its split step. -/
theorem addToRelation_fail_len (hash_any : CStr → Nat) (r r1 : Reln) (t : CStr)
    (h : addToRelation hash_any r t = some (r1, none)) :
    ∃ rs, splitIfDue hash_any r = some rs ∧ r1.ovflow.length = rs.ovflow.length + 1 := by
  unfold addToRelation at h
  split at h
  · cases h
  · cases hs : splitIfDue hash_any r with
    | none => rw [hs] at h; cases h
    | some rs =>
      rw [hs] at h
      simp only at h
      refine ⟨rs, rfl, ?_⟩
      split at h
      · cases h
      · generalize bucketOf rs _ = p at h
        split at h
        · cases h
        · split at h
          · split at h
            · cases h
            · simp at h
          · split at h
            · split at h
              · cases h
              · rename_i r2 h2
                split at h
                · cases h
                · split at h
                  · simp only [Option.some.injEq, Prod.mk.injEq, and_true] at h
                    rw [← h, putPage_ovflow_length _ _ _ _ _ h2]
                    exact (addOvflowPage_spec rs).2.2.2.1
                  · split at h
                    · cases h
                    · simp at h
            · exact ovflowInsert_fail_len t p _ _ _ _ _ h

/-- The split step of `addToRelation` does not shorten the overflow file. -/
theorem splitIfDue_ovflow_le (hash_any : CStr → Nat) (r rs : Reln)
    (ch : Nat → List (Node × Page)) (inv : RelInv hash_any r ch)
    (h : splitIfDue hash_any r = some rs) : r.ovflow.length ≤ rs.ovflow.length := by
  unfold splitIfDue at h
  split at h
  · have hsp : r.sp < r.npages := by
      have := inv.sp_lt
      have := inv.npages_eq
      omega
    obtain ⟨r1, _, _, h1, _, _, _, _, _, _, _, hle, _⟩ :=
      lh_split_layout hash_any r ch inv.lay hsp (by
        intro x hx t ht
        obtain ⟨hv, hh, _⟩ := inv.i1 r.sp hsp t
          (mem_tuplesOfPages _ x.2 (List.mem_map.mpr ⟨x, hx, rfl⟩) t ht)
        exact ⟨hv, hh⟩)
        (by
          cases hl : lh_split hash_any r with
          | none => rw [hl] at h; simp at h
          | some r1x =>
            exact lh_split_short hash_any r r1x ch inv.lay hsp (by
              intro x hx t ht
              obtain ⟨hv, hh, _⟩ := inv.i1 r.sp hsp t
                (mem_tuplesOfPages _ x.2 (List.mem_map.mpr ⟨x, hx, rfl⟩) t ht)
              exact ⟨hv, hh⟩) hl)
    rw [h1] at h
    simp only at h
    split at h <;>
      (simp only [Option.some.injEq] at h; rw [← h]; exact hle)
  · simp only [Option.some.injEq] at h
    rw [← h]

/-- C17, amended: in a relation that satisfies the invariant of the reachable relations,
has between 1 and 102 attributes and in which the tuples of bucket `sp` are shorter than
`MAXTUPLEN`, `addToRelation` returns for every tuple of `nattrs` fields, and it returns
`NO_PAGE` exactly when the tuple does not fit an empty page
(`strlen(t) + 1 > PAGESIZE - header_size`). In that case `ntups` is as before and the
relation still satisfies the invariant, but the overflow file has more pages than before
the call. -/
theorem insert_failure (hash_any : CStr → Nat) (r : Reln) (ch : Nat → List (Node × Page))
    (t : CStr) (inv : RelInv hash_any r ch)
    (hshort : ∀ x ∈ ch r.sp, ∀ t ∈ pageTuples x.2, t.length < MAXTUPLEN)
    (hn : 1 ≤ r.nattrs ∧ r.nattrs ≤ 102)
    (ht : (tupleVals t).length = r.nattrs) (hnul : '\x00' ∉ t) :
    ∃ r1 res, addToRelation hash_any r t = some (r1, res) ∧
      (res = none ↔ dataSize < t.length + 1) ∧
      (res = none → r1.ntups = r.ntups ∧ r.ovflow.length < r1.ovflow.length ∧
        ∃ ch1, RelInv hash_any r1 ch1) := by
  obtain ⟨r1, res, h, hiff⟩ := addToRelation_returns hash_any r ch t inv
    (fun x hx t ht => by have := hshort x hx t ht; omega) hn ht
  refine ⟨r1, res, h, hiff, ?_⟩
  intro hres
  subst hres
  obtain ⟨_, _, rs, hv, hs, _, hi⟩ := addToRelation_hdr hash_any r r1 t none h
  obtain ⟨_, e, _, _⟩ := splitIfDue_hdr hash_any r rs hs
  obtain ⟨rs1, hs1, hlen⟩ := addToRelation_fail_len hash_any r r1 t h
  rw [hs] at hs1
  simp only [Option.some.injEq] at hs1
  subst hs1
  have hle := splitIfDue_ovflow_le hash_any r rs ch inv hs
  refine ⟨?_, by omega, addToRelation_inv hash_any r r1 ch t none inv hnul h⟩
  have := hi.2.2.2.2.2.1
  rw [this, e]
  rfl

theorem fresh1_reachable : Reachable List.length fresh1 :=
  Reachable.fresh 1 0 cvAttr0 fresh1 (by decide!)

/-- The insertion of `longTuple` into the fresh relation `fresh1`. -/
theorem insert_failure_witness :
    (∃ ch, RelInv List.length fresh1 ch ∧
        ∀ x ∈ ch fresh1.sp, ∀ t ∈ pageTuples x.2, t.length < MAXTUPLEN) ∧
      (1 ≤ fresh1.nattrs ∧ fresh1.nattrs ≤ 102) ∧
      (tupleVals longTuple).length = fresh1.nattrs ∧ '\x00' ∉ longTuple ∧
      ∃ r1 res, addToRelation List.length fresh1 longTuple = some (r1, res) ∧
        (res = none ↔ dataSize < longTuple.length + 1) ∧
        (res = none → r1.ntups = fresh1.ntups ∧ fresh1.ovflow.length < r1.ovflow.length ∧
          ∃ ch1, RelInv List.length r1 ch1) := by
  obtain ⟨ch, inv⟩ := reachable_inv List.length fresh1 fresh1_reachable
  have hshort : ∀ x ∈ ch fresh1.sp, ∀ t ∈ pageTuples x.2, t.length < MAXTUPLEN := by
    intro x hx t ht
    have := chain_short fresh1 ch inv.lay 1 (by decide!) fresh1.sp (by decide) x hx t ht
    omega
  exact ⟨⟨ch, inv, hshort⟩, by decide, by decide!, by decide!,
    insert_failure List.length fresh1 ch longTuple inv hshort (by decide) (by decide!)
      (by decide!)⟩

theorem insert_hugeWide : addToRelation List.length wideLong1 hugeWide = none := by
  decide!

/-- C17: the tuple `longTuple` of 1012 characters does not fit an empty page, and
`addToRelation` on the fresh relation `fresh1` returns `NO_PAGE` for it; yet afterwards the
overflow file has a page that it did not have before and data page 0 is linked to it. And
in the relation `wideLong1`, which `addToRelation` makes from the fresh relation `wide0`
and the tuple `longWide` of 251 characters, the call for the tuple `hugeWide` of 52 fields,
which does not fit an empty page, does not return `NO_PAGE`: a split is due, and
`lh_split` does not return, since `longWide` exceeds its buffer `tup`. -/
theorem failed_insert_not_atomic :
    (longTuple.length + 1 > dataSize ∧
      addToRelation List.length fresh1 longTuple = some (fresh1Failed, none) ∧
      fresh1Failed.ovflow.length = fresh1.ovflow.length + 1 ∧
      fresh1Failed.data ≠ fresh1.data) ∧
    (addToRelation List.length wide0 longWide = some (wideLong1, some 0) ∧
      MAXTUPLEN < longWide.length ∧
      (tupleVals hugeWide).length = wideLong1.nattrs ∧
      hugeWide.length + 1 > dataSize ∧
      lh_split List.length wideLong1 = none ∧
      addToRelation List.length wideLong1 hugeWide = none) :=
  ⟨⟨by decide!, by decide!, rfl, by decide!⟩,
    insert_longWide0, by decide!, by decide!, by decide!, lh_split_wideLong1,
    insert_hugeWide⟩

/-! ## setup: the indices used and the known mask -/

/-- The inner loop of `setup` started at index 0 reads `cv[MAXCHVEC].att`. -/
theorem unknownBitsReads_last (r : Reln) (i : Nat) :
    ∀ k j, j ≤ MAXCHVEC → MAXCHVEC < j + k → MAXCHVEC ∈ unknownBitsReads r i k j := by
  intro k
  induction k with
  | zero => intro j h1 h2; omega
  | succ k ih =>
    intro j h1 h2
    unfold unknownBitsReads
    by_cases hj : j = MAXCHVEC
    · subst hj
      split
      · rw [if_neg (lt_irrefl _)]
        exact List.mem_singleton.mpr rfl
      · exact List.mem_cons_self _ _
    · have hlt : j < MAXCHVEC := by omega
      have := ih (j + 1) (by omega) (by omega)
      split
      · exact List.mem_cons_of_mem _ this
      · exact List.mem_cons_of_mem _ this

/-- A query with an unknown attribute makes `setup` read `cv[MAXCHVEC].att`. -/
theorem setupReads_unknown (r : Reln) (qvals : List CStr) (a : Nat)
    (ha : known_attr (strAt qvals a) = false) :
    ∀ k i u, i ≤ a → a < i + k → MAXCHVEC ∈ setupReads r qvals k i u := by
  intro k
  induction k with
  | zero => intro i u h1 h2; omega
  | succ k ih =>
    intro i u h1 h2
    unfold setupReads
    by_cases hk : known_attr (strAt qvals i) = false
    · rw [if_pos hk]
      exact List.mem_append_left _ (unknownBitsReads_last r i _ 0 (Nat.zero_le _) (by omega))
    · rw [if_neg hk]
      have hne : i ≠ a := by
        intro e
        rw [e] at hk
        exact hk ha
      exact ih (i + 1) u (by omega) (by omega)

/-- The inner loop of `setup` returns when the byte behind the choice vector is not the
number of the attribute. -/
theorem unknownBits_isSome (r : Reln) (i : Nat) (hm : cvAttAt r MAXCHVEC ≠ i) :
    ∀ k j u, j + k ≤ MAXCHVEC + 1 → ∃ u1, unknownBits r i k j u = some u1 := by
  intro k
  induction k with
  | zero => intro j u _; exact ⟨u, rfl⟩
  | succ k ih =>
    intro j u hj
    unfold unknownBits
    by_cases hc : cvAttAt r j = i
    · rw [if_pos hc]
      have hlt : j < MAXCHVEC := by
        rcases Nat.lt_or_ge j MAXCHVEC with h | h
        · exact h
        · have : j = MAXCHVEC := by omega
          rw [this] at hc
          exact absurd hc hm
      rw [if_pos hlt]
      exact ih (j + 1) _ (by omega)
    · rw [if_neg hc]
      exact ih (j + 1) _ (by omega)

/-- The loop of `setup` over the attributes returns when the byte behind the choice vector
is not the number of an unknown attribute. -/
theorem unknownLoop_isSome (r : Reln) (qvals : List CStr) :
    ∀ k i u, (∀ a, i ≤ a → a < i + k → known_attr (strAt qvals a) = false →
        r.mode.toNat ≠ a) →
      ∃ u1, unknownLoop r qvals k i u = some u1 := by
  intro k
  induction k with
  | zero => intro i u _; exact ⟨u, rfl⟩
  | succ k ih =>
    intro i u hm
    unfold unknownLoop
    by_cases hk : known_attr (strAt qvals i) = false
    · rw [if_pos hk]
      have h32 : cvAttAt r MAXCHVEC ≠ i := by
        unfold cvAttAt
        rw [if_neg (lt_irrefl _)]
        exact hm i (le_refl _) (by omega) hk
      obtain ⟨u1, h1⟩ := unknownBits_isSome r i h32 (MAXCHVEC + 1) 0 u (by omega)
      rw [h1]
      exact ih (i + 1) u1 (fun a h1 h2 => hm a (by omega) (by omega))
    · rw [if_neg hk]
      exact ih (i + 1) u (fun a h1 h2 => hm a (by omega) (by omega))

/-- C28: the loop `for (int j = 0; j <= MAXCHVEC; j++)` of `setup` uses the index
`MAXCHVEC`. For the query `?` on the relation `fresh1`, `setup` returns and has read
`cv[MAXCHVEC].att`. For the query `query120` on the relation `rel120`, whose last attribute
has the number of the byte `mode`, `setup` calls `setBit(unknown, MAXCHVEC)`, which is a
fault. -/
theorem setup_index_out_of_range :
    setup List.length fresh1 ['?'] = some ([['?']], 0, 0) ∧
      MAXCHVEC ∈ setupReads fresh1 [['?']] fresh1.nattrs 0 0 ∧
      tupleValsN rel120.nattrs query120 = some (tupleVals query120) ∧
      MAXCHVEC ∈ setupReads rel120 (tupleVals query120) rel120.nattrs 0 0 ∧
      MAXCHVEC ∈ setupSets rel120 (tupleVals query120) rel120.nattrs 0 0 ∧
      setup List.length rel120 query120 = none :=
  ⟨by decide!, by decide!, by decide!, by decide!, by decide!, by decide!⟩

/-- C23: for a relation whose choice-vector entries name attributes below `nattrs` and a
query `q` of `nattrs` fields, `setup` returns unless the byte behind the choice vector
(`mode`) is the number of an unknown attribute; and whenever it returns, bit `j` of `known`
for `j < MAXCHVEC` is 1 exactly when the query value of attribute `cv[j].att` is known,
`qHash` is `tupleHash(r, q) & known`, and every bit of `qHash` outside `known` is 0. -/
theorem setup_known_mask (hash_any : CStr → Nat) (r : Reln) (q : CStr) (qvals : List CStr)
    (hcv : ∀ j, j < MAXCHVEC → (cvAt r.cv j).att < r.nattrs)
    (hq : tupleValsN r.nattrs q = some qvals) :
    ((∀ a, a < r.nattrs → known_attr (strAt qvals a) = false → r.mode.toNat ≠ a) →
        ∃ known qHash, setup hash_any r q = some (qvals, known, qHash)) ∧
      ∀ known qHash, setup hash_any r q = some (qvals, known, qHash) →
        (∀ j, j < MAXCHVEC →
          (known.testBit j = true ↔ known_attr (strAt qvals (cvAt r.cv j).att) = true)) ∧
        (∃ h, tupleHash hash_any r.nattrs r.cv q = some h ∧ qHash = h &&& known) ∧
        ∀ j, known.testBit j = false → qHash.testBit j = false := by
  have hth : tupleHash hash_any r.nattrs r.cv q =
      some (tupleHashLoop hash_any r.cv qvals r.nattrs 0 0) := by
    unfold tupleHash
    rw [hq]
  constructor
  · intro hm
    obtain ⟨u, hu⟩ := unknownLoop_isSome r qvals r.nattrs 0 0
      (fun a _ h2 hk => hm a (by omega) hk)
    unfold setup
    rw [hq]
    simp only
    rw [hu, hth]
    exact ⟨_, _, rfl⟩
  · intro known qHash hs
    obtain ⟨_, _, hbits, hqh⟩ := setup_spec hash_any r q qvals known qHash hs
    refine ⟨?_, ⟨_, hth, hqh⟩, ?_⟩
    · intro j hj
      rw [hbits j]
      constructor
      · rintro ⟨_, h⟩
        cases hk : known_attr (strAt qvals (cvAt r.cv j).att) with
        | true => rfl
        | false => exact absurd ⟨hcv j hj, hk⟩ h
      · intro hk
        refine ⟨hj, ?_⟩
        rintro ⟨_, h⟩
        rw [hk] at h
        cases h
    · intro j hj
      rw [hqh, Nat.testBit_land, hj, Bool.and_false]

/-- The query `?,red` on the relation `appleStored`: attribute 0 is unknown, attribute 1 is
known. -/
theorem setup_known_mask_witness :
    (∀ j, j < MAXCHVEC → (cvAt appleStored.cv j).att < appleStored.nattrs) ∧
      tupleValsN appleStored.nattrs "?,red".toList = some ["?".toList, "red".toList] ∧
      ((∀ a, a < appleStored.nattrs → known_attr (strAt ["?".toList, "red".toList] a) = false →
          appleStored.mode.toNat ≠ a) →
        ∃ known qHash, setup List.length appleStored "?,red".toList =
          some (["?".toList, "red".toList], known, qHash)) ∧
      ∀ known qHash, setup List.length appleStored "?,red".toList =
          some (["?".toList, "red".toList], known, qHash) →
        (∀ j, j < MAXCHVEC → (known.testBit j = true ↔
          known_attr (strAt ["?".toList, "red".toList] (cvAt appleStored.cv j).att) = true)) ∧
        (∃ h, tupleHash List.length appleStored.nattrs appleStored.cv "?,red".toList = some h ∧
          qHash = h &&& known) ∧
        ∀ j, known.testBit j = false → qHash.testBit j = false :=
  ⟨by decide, by decide!,
    setup_known_mask List.length appleStored "?,red".toList ["?".toList, "red".toList]
      (by decide) (by decide!)⟩

/-! ## addToRelation: the address space and the growth of the file -/

/-- The new data page of `lh_split` is page `newBid r`. -/
theorem lh_split_newBid (hash_any : CStr → Nat) (r : Reln) :
    lh_split hash_any r =
      (match splitLoop hash_any (newBid r) (r.ovflow.length + 1)
          { r with data := r.data ++ [newPage], npages := r.npages + 1 } r.sp false newPage
          newPage with
        | none => none
        | some (r1, stay, move) =>
          match (if stay.ntuples > 0 then flushToBuck r1 r1.sp stay else some r1) with
          | none => none
          | some r2 => if move.ntuples > 0 then flushToBuck r2 (newBid r) move else some r2) :=
  rfl

/-- The header after a call of `addToRelation` that returns, from the header before. -/
theorem addToRelation_header (hash_any : CStr → Nat) (r r1 : Reln) (t : CStr)
    (res : Option Nat) (h : addToRelation hash_any r t = some (r1, res)) :
    r1.nattrs = r.nattrs ∧ Pcap r.nattrs ≠ 0 ∧
      r1.ntups = r.ntups + (if res.isSome then 1 else 0) ∧
      if r.ntups > 0 ∧ r.ntups % Pcap r.nattrs = 0 then
        (∃ r2, lh_split hash_any r = some r2) ∧ r1.npages = r.npages + 1 ∧
          if r.sp + 1 < 2 ^ r.depth then r1.sp = r.sp + 1 ∧ r1.depth = r.depth
          else r1.sp = 0 ∧ r1.depth = r.depth + 1
      else r1.npages = r.npages ∧ r1.sp = r.sp ∧ r1.depth = r.depth := by
  obtain ⟨_, hp, rs, hv, hs, _, a1, a2, a3, a4, _, a6, _⟩ := addToRelation_hdr hash_any r r1 t res h
  obtain ⟨b1, b2, _, b4⟩ := splitIfDue_hdr hash_any r rs hs
  refine ⟨a1.trans b1, hp, by rw [a6, b2], ?_⟩
  by_cases hc : r.ntups > 0 ∧ r.ntups % Pcap r.nattrs = 0
  · rw [if_pos hc] at b4 ⊢
    obtain ⟨c1, c2, c3⟩ := b4
    refine ⟨c1, a4.trans c2, ?_⟩
    by_cases hsp : r.sp + 1 < 2 ^ r.depth
    · rw [if_pos hsp] at c3 ⊢
      exact ⟨a3.trans c3.1, a2.trans c3.2⟩
    · rw [if_neg hsp] at c3 ⊢
      exact ⟨a3.trans c3.1, a2.trans c3.2⟩
  · rw [if_neg hc] at b4 ⊢
    subst b4
    exact ⟨a4, a3, a2⟩

/-- C26: if `sp < 2^depth` and `npages = 2^depth + sp` hold before a call of
`addToRelation` that returns, they hold after it. When the call splits (`ntups > 0` and
`ntups mod Pcap = 0`), `lh_split` returns, the new bucket `newBid` of a data file of `npages`
pages is `2^depth + sp` in the old values, `npages` is one more, and the pointer moves by
the rule `sp := sp + 1` if `sp < 2^depth - 1`, else `sp := 0` and `depth := depth + 1`.
When the call does not split, `sp`, `depth` and `npages` are as before. -/
theorem address_space_invariant (hash_any : CStr → Nat) (r r1 : Reln) (t : CStr)
    (res : Option Nat) (h1 : r.sp < 2 ^ r.depth) (h2 : r.npages = 2 ^ r.depth + r.sp)
    (h : addToRelation hash_any r t = some (r1, res)) :
    r1.sp < 2 ^ r1.depth ∧ r1.npages = 2 ^ r1.depth + r1.sp ∧
      if r.ntups > 0 ∧ r.ntups % Pcap r.nattrs = 0 then
        (∃ r2, lh_split hash_any r = some r2) ∧
          (r.data.length = r.npages → newBid r = 2 ^ r.depth + r.sp) ∧
          r1.npages = r.npages + 1 ∧
          if r.sp < 2 ^ r.depth - 1 then r1.sp = r.sp + 1 ∧ r1.depth = r.depth
          else r1.sp = 0 ∧ r1.depth = r.depth + 1
      else r1.sp = r.sp ∧ r1.depth = r.depth ∧ r1.npages = r.npages := by
  obtain ⟨_, _, _, hh⟩ := addToRelation_header hash_any r r1 t res h
  by_cases hc : r.ntups > 0 ∧ r.ntups % Pcap r.nattrs = 0
  · rw [if_pos hc] at hh ⊢
    obtain ⟨c1, c2, c3⟩ := hh
    by_cases hsp : r.sp + 1 < 2 ^ r.depth
    · rw [if_pos hsp] at c3
      rw [if_pos (by omega : r.sp < 2 ^ r.depth - 1)]
      refine ⟨by rw [c3.1, c3.2]; exact hsp, by rw [c2, c3.1, c3.2, h2]; omega,
        c1, fun hd => by unfold newBid; rw [hd, h2], c2, c3⟩
    · rw [if_neg hsp] at c3
      rw [if_neg (by omega : ¬ r.sp < 2 ^ r.depth - 1)]
      refine ⟨by rw [c3.1, c3.2]; exact Nat.two_pow_pos _,
        by rw [c2, c3.1, c3.2, h2, pow_succ]; omega,
        c1, fun hd => by unfold newBid; rw [hd, h2], c2, c3⟩
  · rw [if_neg hc] at hh ⊢
    obtain ⟨c1, c2, c3⟩ := hh
    exact ⟨by rw [c2, c3]; exact h1, by rw [c1, c2, c3]; exact h2, c2, c3, c1⟩

/-- The third insertion of `wideTuple`, which splits bucket 0 of `wide2`. -/
theorem address_space_invariant_witness :
    wide2.sp < 2 ^ wide2.depth ∧ wide2.npages = 2 ^ wide2.depth + wide2.sp ∧
      addToRelation List.length wide2 wideTuple = some (wide3, some 2) ∧
      wide3.sp < 2 ^ wide3.depth ∧ wide3.npages = 2 ^ wide3.depth + wide3.sp ∧
      if wide2.ntups > 0 ∧ wide2.ntups % Pcap wide2.nattrs = 0 then
        (∃ r2, lh_split List.length wide2 = some r2) ∧
          (wide2.data.length = wide2.npages → newBid wide2 = 2 ^ wide2.depth + wide2.sp) ∧
          wide3.npages = wide2.npages + 1 ∧
          if wide2.sp < 2 ^ wide2.depth - 1 then wide3.sp = wide2.sp + 1 ∧ wide3.depth = wide2.depth
          else wide3.sp = 0 ∧ wide3.depth = wide2.depth + 1
      else wide3.sp = wide2.sp ∧ wide3.depth = wide2.depth ∧ wide3.npages = wide2.npages :=
  ⟨by decide, by decide, insert_wide2,
    address_space_invariant List.length wide2 wide3 wideTuple (some 2) (by decide) (by decide)
      insert_wide2⟩

/-- The quotient `(k - 1) / c` steps exactly at the multiples of `c`. -/
theorem div_pred_step (k c : Nat) :
    k / c = (k - 1) / c + (if k > 0 ∧ k % c = 0 then 1 else 0) := by
  cases k with
  | zero => simp
  | succ a =>
    rw [Nat.succ_div]
    simp only [Nat.add_sub_cancel, Nat.succ_eq_add_one, gt_iff_lt, Nat.zero_lt_succ, true_and,
      Nat.dvd_iff_mod_eq_zero]

/-- Successful insertions from a state in which `npages` is `n0 + (ntups - 1) / Pcap`. -/
theorem insertAll_growth (hash_any : CStr → Nat) (n0 : Nat) :
    ∀ (ts : List CStr) (r r1 : Reln), r.npages = n0 + (r.ntups - 1) / Pcap r.nattrs →
      insertAll hash_any r ts = some r1 →
      r1.nattrs = r.nattrs ∧ r1.ntups = r.ntups + ts.length ∧
        r1.npages = n0 + (r1.ntups - 1) / Pcap r.nattrs ∧ (ts ≠ [] → Pcap r.nattrs ≠ 0) := by
  intro ts
  induction ts with
  | nil =>
    intro r r1 h0 h
    simp only [insertAll, Option.some.injEq] at h
    subst h
    exact ⟨rfl, rfl, h0, fun e => absurd rfl e⟩
  | cons t ts ih =>
    intro r r1 h0 h
    unfold insertAll at h
    cases ha : addToRelation hash_any r t with
    | none => rw [ha] at h; cases h
    | some x =>
      obtain ⟨r2, res⟩ := x
      rw [ha] at h
      cases res with
      | none => cases h
      | some b =>
        simp only at h
        obtain ⟨e1, hp, e2, e3⟩ := addToRelation_header hash_any r r2 t (some b) ha
        simp only [Option.isSome_some, if_true] at e2
        have hstep := div_pred_step r.ntups (Pcap r.nattrs)
        have h2 : r2.npages = n0 + (r2.ntups - 1) / Pcap r2.nattrs := by
          rw [e1, e2, Nat.add_sub_cancel, hstep]
          by_cases hc : r.ntups > 0 ∧ r.ntups % Pcap r.nattrs = 0
          · rw [if_pos hc] at e3 ⊢
            rw [e3.2.1, h0]
            omega
          · rw [if_neg hc] at e3 ⊢
            rw [e3.1, h0]
            omega
        obtain ⟨f1, f2, f3, _⟩ := ih r2 r1 h2 h
        refine ⟨f1.trans e1, ?_, ?_, fun _ => hp⟩
        · rw [f2, e2, List.length_cons]
          omega
        · rw [f3, e1]

/-- C24: after `k >= 1` successful calls of `addToRelation` (the tuples of `ts`, with
`k = ts.length`) on the relation that `newRelation` makes with `n0` primary pages,
`ntups = k` and `npages = n0 + floor((k - 1) / C)` with `C = floor(1024 / (10 * nattrs))`.
With `n0 = 1` this is `ceil(k / C)`, and 500 insertions with `nattrs = 2` give
`npages = 10`. -/
theorem file_growth (hash_any : CStr → Nat) (nattrs n0 d : Nat) (cv : List ChVecItem)
    (r0 r : Reln) (ts : List CStr) (h0 : newRelation nattrs n0 d cv = some r0)
    (h : insertAll hash_any r0 ts = some r) (hk : 1 ≤ ts.length) :
    r.ntups = ts.length ∧
      r.npages = n0 + (ts.length - 1) / (1024 / (10 * nattrs)) ∧
      (n0 = 1 → r.npages = (ts.length + 1024 / (10 * nattrs) - 1) / (1024 / (10 * nattrs))) ∧
      (n0 = 1 → nattrs = 2 → ts.length = 500 → r.npages = 10) := by
  unfold newRelation at h0
  split at h0
  · simp only [Option.some.injEq] at h0
    subst h0
    obtain ⟨_, f2, f3, f4⟩ := insertAll_growth hash_any n0 ts _ r (by simp) h
    simp only [Nat.zero_add] at f2
    rw [f2] at f3
    have hne : ts ≠ [] := by
      intro e
      rw [e] at hk
      simp at hk
    have hp : 0 < 1024 / (10 * nattrs) := Nat.pos_of_ne_zero (f4 hne)
    have hnp : r.npages = n0 + (ts.length - 1) / (1024 / (10 * nattrs)) := f3
    refine ⟨f2, hnp, ?_, ?_⟩
    · intro e1
      rw [hnp, e1]
      have : ts.length + 1024 / (10 * nattrs) - 1 = ts.length - 1 + 1024 / (10 * nattrs) := by
        omega
      rw [this, Nat.add_div_right _ hp]
      omega
    · intro e1 e2 e3
      rw [hnp, e1, e2, e3]
  · cases h0

set_option maxRecDepth 100000 in
/-- Three insertions of `wideTuple` into the relation `wide0` of 52 attributes, for which
`C = 1`. -/
theorem file_growth_witness :
    newRelation 52 1 0 cvAttr0 = some wide0 ∧
      insertAll List.length wide0 [wideTuple, wideTuple, wideTuple] = some wide3 ∧
      1 ≤ [wideTuple, wideTuple, wideTuple].length ∧
      wide3.ntups = [wideTuple, wideTuple, wideTuple].length ∧
      wide3.npages = 1 + ([wideTuple, wideTuple, wideTuple].length - 1) / (1024 / (10 * 52)) ∧
      ((1 : Nat) = 1 → wide3.npages =
        ([wideTuple, wideTuple, wideTuple].length + 1024 / (10 * 52) - 1) / (1024 / (10 * 52))) ∧
      ((1 : Nat) = 1 → (52 : Nat) = 2 → [wideTuple, wideTuple, wideTuple].length = 500 →
        wide3.npages = 10) :=
  have hall : insertAll List.length wide0 [wideTuple, wideTuple, wideTuple] = some wide3 := by
    simp only [insertAll, insert_wide0, insert_wide1, insert_wide2]
  ⟨by decide!, hall, by decide,
    file_growth List.length 52 1 0 cvAttr0 wide0 wide3 [wideTuple, wideTuple, wideTuple]
      (by decide!) hall (by decide)⟩

/-! ## Selection: the bucket of a matching tuple lies within the start bounds -/

/-- A word whose bits are among those of another is not larger. -/
theorem le_of_testBit (a b : Nat) (h : ∀ i, a.testBit i = true → b.testBit i = true) :
    a ≤ b := by
  have e : a &&& b = a := by
    apply Nat.eq_of_testBit_eq
    intro i
    rw [Nat.testBit_and]
    cases ha : a.testBit i
    · simp
    · simp [h i ha]
  rw [← e]
  exact Nat.and_le_right

/-- Bit `i` of the low `k` bits of a word. -/
theorem getLower_testBit (x k i : Nat) :
    (getLower x k).testBit i = (decide (i < k) && x.testBit i) := by
  unfold getLower
  exact Nat.testBit_mod_two_pow x k i

/-- The low bits of a masked hash are not above the low bits of the hash. -/
theorem getLower_and_le (h known d : Nat) : getLower (h &&& known) d ≤ getLower h d := by
  apply le_of_testBit
  intro i hi
  rw [getLower_testBit, Nat.testBit_and] at hi
  rw [getLower_testBit]
  revert hi
  cases decide (i < d) <;> cases h.testBit i <;> simp

/-- The low bits of a hash are not above those of the masked hash with the unknown bits
set. -/
theorem getLower_le_or_not (h known k : Nat) (hh : ∀ i, h.testBit i = true → i < MAXCHVEC)
    (hk : ∀ i, known.testBit i = true → i < MAXCHVEC) :
    getLower h k ≤ getLower ((h &&& known) ||| bitsNot known) k := by
  apply le_of_testBit
  intro i hi
  rw [getLower_testBit] at hi
  rw [getLower_testBit, Nat.testBit_or, Nat.testBit_and]
  have h1 : h.testBit i = true := by
    revert hi
    cases decide (i < k) <;> simp
  have h2 : decide (i < k) = true := by
    revert hi
    cases decide (i < k) <;> simp
  rw [h1, h2]
  cases hkn : known.testBit i
  · have := (bitsNot_testBit known i (hk i)).mpr ⟨hh i h1, hkn⟩
    rw [this]
    rfl
  · rfl

/-- The candidate test on the low `k` bits of the hash of a matching tuple. -/
theorem getLower_masked (h known k : Nat) :
    getLower ((known &&& getLower h k) ^^^ (h &&& known)) k = 0 := by
  apply Nat.eq_of_testBit_eq
  intro i
  rw [getLower_testBit, Nat.testBit_xor, Nat.testBit_and, Nat.testBit_and, getLower_testBit,
    Nat.zero_testBit]
  cases decide (i < k) <;> cases h.testBit i <;> cases known.testBit i <;> rfl

/-- The hash of a tuple that matches the query agrees with the query hash on the known
bits, and its bits are below `MAXCHVEC`. -/
theorem match_hash_bits (hash_any : CStr → Nat) (r : Reln) (q t : CStr) (qvals : List CStr)
    (known qHash : Nat) (hs : setup hash_any r q = some (qvals, known, qHash))
    (hm : tupValMatch r.nattrs qvals t = some true) :
    ∃ h, tupleHash hash_any r.nattrs r.cv t = some h ∧ qHash = h &&& known ∧
      (∀ i, h.testBit i = true → i < MAXCHVEC) ∧
      ∀ i, known.testBit i = true → i < MAXCHVEC := by
  obtain ⟨_, hlen, hknown, hqh⟩ := setup_spec hash_any r q qvals known qHash hs
  unfold tupValMatch at hm
  cases ht : tupleValsN r.nattrs t with
  | none => rw [ht] at hm; cases hm
  | some tv =>
    rw [ht] at hm
    simp only at hm
    have htl : tv.length = r.nattrs := by
      unfold tupleValsN at ht
      split at ht
      · rename_i hl
        simp only [Option.some.injEq] at ht
        rw [← ht]
        exact hl
      · cases ht
    obtain ⟨bb, hb, hbs⟩ := tupValLoop_spec qvals tv r.nattrs hlen htl r.nattrs 0 (by omega)
    rw [hm] at hb
    simp only [Option.some.injEq] at hb
    have hall := hbs.mp hb.symm
    refine ⟨_, by unfold tupleHash; rw [ht], ?_, fun i hi => ((tupleHash_bit _ _ _ _ _).mp hi).1,
      fun i hi => ((hknown i).mp hi).1⟩
    rw [hqh]
    apply Nat.eq_of_testBit_eq
    intro b
    rw [Nat.testBit_and, Nat.testBit_and]
    cases hkb : known.testBit b
    · simp
    · simp only [Bool.and_true]
      obtain ⟨hb32, hnot⟩ := (hknown b).mp hkb
      rw [Bool.eq_iff_iff, tupleHash_bit, tupleHash_bit]
      by_cases hatt : (cvAt r.cv b).att < r.nattrs
      · have hk : known_attr (strAt qvals (cvAt r.cv b).att) = true := by
          cases hka : known_attr (strAt qvals (cvAt r.cv b).att)
          · exact absurd ⟨hatt, hka⟩ hnot
          · rfl
        have hq1 : qvals[(cvAt r.cv b).att]? = some (strAt qvals (cvAt r.cv b).att) := by
          unfold strAt
          rw [List.getD_eq_getElem?_getD, List.getElem?_eq_getElem (by omega)]
          rfl
        have ht1 : tv[(cvAt r.cv b).att]? = some (strAt tv (cvAt r.cv b).att) := by
          unfold strAt
          rw [List.getD_eq_getElem?_getD, List.getElem?_eq_getElem (by omega)]
          rfl
        have heq : strAt qvals (cvAt r.cv b).att = strAt tv (cvAt r.cv b).att := by
          rcases hall _ _ _ (Nat.zero_le _) hq1 ht1 with h1 | h1
          · exact absurd h1 (known_attr_ne _ hk)
          · exact strMatch_known _ _ hk h1
        rw [heq]
      · constructor
        · intro h1; exact absurd h1.2.1 hatt
        · intro h1; exact absurd h1.2.1 hatt

/-- Invariant I1 as the specification words it gives the addressing rule of the reachable
relations: no hash has its low `depth` bits equal to a bucket `b >= 2^depth`. -/
theorem addrStated_addrOK (r : Reln) (b hv : Nat) (h : addrStated r b hv) :
    addrOK r b hv := by
  unfold addrStated at h
  unfold addrOK
  have hlt := getLower_lt hv r.depth
  by_cases h1 : b < r.sp
  · rw [if_pos h1] at h
    rw [if_pos (Or.inl h1)]
    exact h
  · rw [if_neg h1] at h
    by_cases h2 : 2 ^ r.depth ≤ b
    · omega
    · rw [if_neg (by omega)]
      exact h

/-- A well-formed relation with `sp < 2^depth`, `npages = 2^depth + sp` and invariant I1 as
the specification words it satisfies the invariant of the reachable relations. -/
theorem relInv_of_stated (hash_any : CStr → Nat) (r : Reln) (ch : Nat → List (Node × Page))
    (lay : Layout r ch) (hsp : r.sp < 2 ^ r.depth) (hnp : r.npages = 2 ^ r.depth + r.sp)
    (h : ∀ b, b < r.npages → ∀ t ∈ tuplesOfPages ((ch b).map Prod.snd),
      ∃ hv, tupleHash hash_any r.nattrs r.cv t = some hv ∧ addrStated r b hv) :
    RelInv hash_any r ch :=
  { lay := lay
    sp_lt := hsp
    npages_eq := hnp
    i1 := fun b hb t ht => by
      obtain ⟨hv, hh, ha⟩ := h b hb t ht
      exact ⟨hv, hh, addrStated_addrOK r b hv ha⟩ }

/-- C21, amended: in a well-formed relation state with `sp < 2^depth`,
`npages = 2^depth + sp` and I1 for the stored tuples (in the form `addrOK`, which I1 as the
specification words it implies), for a query on which `setup` returns and a tuple `t`
stored in bucket `b` with `tupValMatch` TRUE, `startSelection` returns with
`curBid = low depth bits of qHash` and
`maxBid = min(low depth+1 bits of (qHash | ~known), npages - 1)`, the bucket satisfies
`curBid <= b <= maxBid` and the candidate test of `moveToNextPage`, and, when every stored
tuple is at most `MAXTUPLEN - 2` characters long, the scan reads the primary page of
bucket `b`. -/
theorem start_bounds_lose_no_bucket (hash_any : CStr → Nat) (r : Reln)
    (ch : Nat → List (Node × Page)) (q : CStr) (qvals : List CStr) (known qHash : Nat)
    (inv : RelInv hash_any r ch) (hs : setup hash_any r q = some (qvals, known, qHash))
    (b : Nat) (hb : b < r.npages) (ts : List CStr) (hts : bucketTuples r b = some ts)
    (t : CStr) (ht : t ∈ ts) (hm : tupValMatch r.nattrs qvals t = some true) :
    ∃ s0, startSelection hash_any r q = some s0 ∧
      s0.curBid = getLower qHash r.depth ∧
      s0.maxBid = min (getLower (qHash ||| bitsNot known) (r.depth + 1)) (r.npages - 1) ∧
      s0.curBid ≤ b ∧ b ≤ s0.maxBid ∧ isCandidate s0 b = true ∧
      ((∀ b1, b1 < r.npages → ∀ x ∈ ch b1, ∀ t1 ∈ pageTuples x.2,
          t1.length + 2 ≤ MAXTUPLEN) →
        ReadsBucket hash_any r q b) := by
  obtain ⟨s0, h0⟩ := startSelection_of_setup hash_any r ch inv q qvals known qHash hs
  obtain ⟨qv, kn, qh, hs1, e_rel, e_qh, e_kn, _, _, _, e_cur, e_max, _⟩ :=
    startSelection_spec hash_any r q s0 h0
  rw [hs] at hs1
  simp only [Option.some.injEq, Prod.mk.injEq] at hs1
  obtain ⟨_, e1, e2⟩ := hs1
  subst e1 e2
  obtain ⟨h, hth, hq, hhb, hkb⟩ := match_hash_bits hash_any r q t qvals known qHash hs hm
  rw [bucketTuples_layout inv.lay b hb] at hts
  simp only [Option.some.injEq] at hts
  rw [← hts] at ht
  obtain ⟨hv, hhv, haddr⟩ := inv.i1 b hb t ht
  rw [hth] at hhv
  simp only [Option.some.injEq] at hhv
  subst hhv
  have hnp := inv.npages_eq
  have hsp := inv.sp_lt
  have hcase : b = getLower h (r.depth + 1) ∨ (r.sp ≤ b ∧ b = getLower h r.depth) := by
    unfold addrOK at haddr
    split at haddr
    · exact Or.inl haddr.symm
    · rename_i hn
      exact Or.inr ⟨by omega, haddr.symm⟩
  have hle1 : getLower h r.depth ≤ getLower h (r.depth + 1) := by
    rw [getLower_succ]
    omega
  have hlow : getLower qHash r.depth ≤ b := by
    rw [hq]
    have := getLower_and_le h known r.depth
    rcases hcase with e | ⟨_, e⟩ <;> omega
  have hhigh : b ≤ getLower (qHash ||| bitsNot known) (r.depth + 1) := by
    rw [hq]
    have := getLower_le_or_not h known (r.depth + 1) hhb hkb
    rcases hcase with e | ⟨_, e⟩ <;> omega
  have hcur : s0.curBid = getLower qHash r.depth := by
    rw [e_cur]
    split
    · rename_i hd
      rw [hd]
      unfold getLower
      rw [pow_zero, Nat.mod_one]
    · rfl
  have hmax : s0.maxBid =
      min (getLower (qHash ||| bitsNot known) (r.depth + 1)) (r.npages - 1) := by
    rw [e_max, Nat.add_comm 1 r.depth, Nat.min_def]
    by_cases hd : r.depth = 0
    · have : r.npages = 1 := by
        have h1 := hnp
        have h2 := hsp
        rw [hd] at h1 h2
        simp only [pow_zero] at h1 h2
        omega
      simp only [hd, ne_eq, not_true_eq_false, false_and, if_false, if_true, this]
      split <;> omega
    · simp only [hd, ne_eq, not_false_eq_true, true_and, if_false]
      split <;> split <;> omega
  have hcand : isCandidate s0 b = true := by
    rw [isCandidate_iff, e_rel, e_qh, e_kn, hq]
    rcases hcase with e | ⟨e1, e⟩
    · left
      rw [e]
      exact getLower_masked h known (r.depth + 1)
    · right
      refine ⟨e1, ?_⟩
      rw [e]
      exact getLower_masked h known r.depth
  have hbmax : b ≤ s0.maxBid := by
    rw [hmax]
    omega
  refine ⟨s0, h0, hcur, hmax, by omega, hbmax, hcand, ?_⟩
  intro hshort
  rw [readsBucket_iff hash_any r ch inv hshort q s0 h0 b hb]
  rcases Nat.eq_or_lt_of_le (hcur ▸ hlow : s0.curBid ≤ b) with e | e
  · exact Or.inl e.symm
  · exact Or.inr ⟨e, hbmax, hcand⟩

/-- The query `wideTuple` on the relation `wide3`, whose bucket 2 holds the three copies of
`wideTuple`. -/
theorem start_bounds_lose_no_bucket_witness :
    (∃ ch, RelInv List.length wide3 ch) ∧
      setup List.length wide3 wideTuple = some (tupleVals wideTuple, 4294967295, 2) ∧
      2 < wide3.npages ∧
      bucketTuples wide3 2 = some [wideTuple, wideTuple, wideTuple] ∧
      wideTuple ∈ [wideTuple, wideTuple, wideTuple] ∧
      tupValMatch wide3.nattrs (tupleVals wideTuple) wideTuple = some true ∧
      ∃ s0, startSelection List.length wide3 wideTuple = some s0 ∧
        s0.curBid = getLower 2 wide3.depth ∧
        s0.maxBid = min (getLower (2 ||| bitsNot 4294967295) (wide3.depth + 1))
          (wide3.npages - 1) ∧
        s0.curBid ≤ 2 ∧ 2 ≤ s0.maxBid ∧ isCandidate s0 2 = true ∧
        ReadsBucket List.length wide3 wideTuple 2 := by
  obtain ⟨ch, inv⟩ := reachable_inv List.length wide3 wide3_reachable
  obtain ⟨s0, a1, a2, a3, a4, a5, a6, a7⟩ :=
    start_bounds_lose_no_bucket List.length wide3 ch wideTuple (tupleVals wideTuple)
      4294967295 2 inv wide3_setup 2 (by decide) [wideTuple, wideTuple, wideTuple]
      (by decide!) wideTuple (List.mem_cons_self _ _) (by decide!)
  exact ⟨⟨ch, inv⟩, wide3_setup, by decide, by decide!, List.mem_cons_self _ _, by decide!,
    s0, a1, a2, a3, a4, a5, a6, a7 (chain_short wide3 ch inv.lay 2 wide3_short)⟩

theorem wideLong3_reachable : Reachable List.length wideLong3 :=
  Reachable.insert wide2 wideLong3 longWide (some 0) wide2_reachable (by decide!)
    insert_longWide2

/-- C21: the relation `wideLong3`, which `addToRelation` makes from `wide2` and the tuple
`longWide` of 251 characters, has `sp = 1 < 2^depth`, `npages = 3 = 2^depth + sp` and
satisfies the invariant; its bucket 2 holds the tuple `wideTuple`, which matches the query
`wideTuple`; but the scan for that query does not read the primary page of bucket 2:
it starts at bucket 0, where `nextMatchTup` does not return, since `longWide` exceeds the
buffer `temp`. -/
theorem start_bounds_long_tuple :
    addToRelation List.length wide2 longWide = some (wideLong3, some 0) ∧
      (∃ ch, RelInv List.length wideLong3 ch) ∧
      wideLong3.sp < 2 ^ wideLong3.depth ∧
      wideLong3.npages = 2 ^ wideLong3.depth + wideLong3.sp ∧
      setup List.length wideLong3 wideTuple = some (tupleVals wideTuple, 4294967295, 2) ∧
      bucketTuples wideLong3 2 = some [wideTuple, wideTuple] ∧
      tupValMatch wideLong3.nattrs (tupleVals wideTuple) wideTuple = some true ∧
      bucketTuples wideLong3 0 = some [longWide] ∧ MAXTUPLEN < longWide.length ∧
      startSelection List.length wideLong3 wideTuple = some wideLongSel ∧
      nextMatchTup wideLongSel = none ∧
      ¬ ReadsBucket List.length wideLong3 wideTuple 2 :=
  ⟨insert_longWide2, reachable_inv List.length wideLong3 wideLong3_reachable, by decide,
    by decide, wideLong3_setup, by decide!, by decide!, by decide!, by decide!,
    wideLongSel_start, wideLongSel_fault, wideLong3_not_reads⟩

/-! ## nextMatchTup: the tuples of one page -/

set_option maxRecDepth 100000 in
/-- C22: the page `emptyAPage` satisfies P1 with the tuples `""` and `a`; it is the page of
the one-attribute relation after `addToRelation(r, "")` and `addToRelation(r, "a")`. From
offset 0 and for the pattern `?`, the first call of `nextMatchTup` returns `""` and moves
the offset to 3, the end of the data, and the second call reports that no tuple remains:
the tuple `a` is not returned. -/
theorem nextMatchTup_skips_after_empty :
    insertAll List.length fresh1 [[], ['a']] = some emptyAStored ∧
      emptyAPage.data.take emptyAPage.free = encode [[], ['a']] ∧
      pageTuples emptyAPage = [[], ['a']] ∧ emptyAPage.ntuples = 2 ∧
      startSelection List.length emptyAStored ['?'] = some emptyASel ∧
      tupValMatch 1 [['?']] ['a'] = some true ∧
      nextMatchTup emptyASel = some (some [], { emptyASel with curtupOffset := 3 }) ∧
      nextMatchTup { emptyASel with curtupOffset := 3 } =
        some (none, { emptyASel with curtupOffset := 3 }) ∧
      pageScan 2 emptyASel = some [[]] :=
  ⟨by decide!, by decide!, by decide!, rfl, by decide!, by decide!, by decide!, by decide!,
    by decide!⟩

/-- The byte at position `i` of a stored tuple and its terminator, read from the page. -/
theorem data_at_tuple (data : List Char) (free : Nat) (pre : List CStr) (t : CStr)
    (post : List CStr) (hd : data.take free = encode (pre ++ t :: post)) (i : Nat)
    (hi : i ≤ t.length) :
    (encode pre).length + i < free ∧
      data[(encode pre).length + i]? = (t ++ ['\x00'])[i]? := by
  have henc : encode (pre ++ t :: post) = encode pre ++ (t ++ '\x00' :: encode post) := by
    rw [encode_append]; rfl
  have hlen := congrArg List.length hd
  rw [henc, List.length_take] at hlen
  simp only [List.length_append, List.length_cons] at hlen
  have hlt : (encode pre).length + i < free := by omega
  refine ⟨hlt, ?_⟩
  have h3 : (data.take free)[(encode pre).length + i]? = data[(encode pre).length + i]? :=
    List.getElem?_take_of_lt hlt
  rw [← h3, hd, henc, List.getElem?_append_right (by omega), Nat.add_sub_cancel_left]
  by_cases h1 : i < t.length
  · rw [List.getElem?_append_left h1, List.getElem?_append_left h1]
  · have e : i = t.length := by omega
    rw [e, List.getElem?_append_right (le_refl _), List.getElem?_append_right (le_refl _)]
    simp

/-- The loop of `nextMatchTup` from the start of a stored tuple that is not empty, is
shorter than `MAXTUPLEN` and matches: it returns that tuple and the offset behind its
terminator. -/
theorem matchScan_next (nAttr : Nat) (qvals : List CStr) (data : List Char) (free : Nat)
    (pre : List CStr) (t : CStr) (post : List CStr)
    (hd : data.take free = encode (pre ++ t :: post)) (hnul : '\x00' ∉ t)
    (hshort : t.length + 1 ≤ MAXTUPLEN)
    (hm : tupValMatch nAttr qvals t = some true) :
    ∀ n j fuel, t.length - j = n → 1 ≤ j → j ≤ t.length → n < fuel →
      matchScan nAttr qvals data free fuel (encode pre).length ((encode pre).length + j) =
        some (some t, (encode pre).length + t.length + 1) := by
  intro n
  induction n with
  | zero =>
    intro j fuel hn h1 h2 hf
    have ej : j = t.length := by omega
    subst ej
    obtain ⟨hlt, hget⟩ := data_at_tuple data free pre t post hd t.length (le_refl _)
    rw [List.getElem?_append_right (le_refl _)] at hget
    simp only [Nat.sub_self, List.getElem?_cons_zero] at hget
    cases fuel with
    | zero => omega
    | succ fuel =>
      unfold matchScan
      rw [if_pos hlt, hget]
      simp only [if_true]
      rw [if_pos (by omega)]
      have hc := cstr_at_boundary data free pre t post hd hnul ((encode pre).length + t.length)
        (by omega) hlt hget
      rw [hc, hm]
  | succ n ih =>
    intro j fuel hn h1 h2 hf
    obtain ⟨hlt, hget⟩ := data_at_tuple data free pre t post hd j h2
    have hj : j < t.length := by omega
    rw [List.getElem?_append_left hj, List.getElem?_eq_getElem hj] at hget
    have hne : t[j] ≠ '\x00' := by
      intro e
      apply hnul
      rw [← e]
      exact List.getElem_mem _
    cases fuel with
    | zero => omega
    | succ fuel =>
      unfold matchScan
      rw [if_pos hlt, hget]
      simp only [if_neg hne]
      exact ih (j + 1) fuel (by omega) (by omega) (by omega) (by omega)

/-- A call of `nextMatchTup` at the start of a stored tuple that is not empty, is shorter
than `MAXTUPLEN` and matches returns that tuple and moves the offset behind it. -/
theorem nextMatchTup_next (s : Selection) (pre : List CStr) (t : CStr) (post : List CStr)
    (hok : PageOK s.curPage) (hts : pageTuples s.curPage = pre ++ t :: post)
    (hoff : s.curtupOffset = (encode pre).length) (hne : t ≠ [])
    (hshort : t.length + 1 ≤ MAXTUPLEN)
    (hm : tupValMatch s.rel.nattrs s.qvals t = some true) :
    nextMatchTup s =
      some (some t, { s with curtupOffset := (encode (pre ++ [t])).length }) := by
  have hnul : '\x00' ∉ t := pageTuples_nulFree s.curPage t (by rw [hts]; simp)
  have hd := hok.packed
  rw [hts] at hd
  have hcount := hok.count
  rw [hts] at hcount
  have hlen : 1 ≤ t.length := by
    cases t with
    | nil => exact absurd rfl hne
    | cons c cs => simp
  obtain ⟨hlt, _⟩ := data_at_tuple s.curPage.data s.curPage.free pre t post hd t.length
    (le_refl _)
  unfold nextMatchTup
  rw [if_neg (by rw [hcount]; simp), hoff,
    matchScan_next s.rel.nattrs s.qvals s.curPage.data s.curPage.free pre t post hd hnul
      hshort hm
      (t.length - 1) 1 s.curPage.free rfl (le_refl _) hlen (by omega)]
  simp only [encode_length_append]
  rfl

/-- A call of `nextMatchTup` at the end of the stored tuples reports that no tuple
remains. -/
theorem nextMatchTup_end (s : Selection) (hok : PageOK s.curPage)
    (hoff : s.curtupOffset = (encode (pageTuples s.curPage)).length) :
    nextMatchTup s = some (none, s) := by
  have hfree := hok.free_eq
  unfold nextMatchTup
  split
  · rfl
  · have hms : matchScan s.rel.nattrs s.qvals s.curPage.data s.curPage.free s.curPage.free
        s.curtupOffset (s.curtupOffset + 1) = some (none, s.curtupOffset) := by
      cases hf : s.curPage.free with
      | zero => rfl
      | succ k =>
        unfold matchScan
        rw [if_neg (by omega)]
    rw [hms]

/-- On a page that satisfies P1 and whose tuples from the offset on are not empty, are
shorter than `MAXTUPLEN` and match the pattern, successive calls of `nextMatchTup` return these tuples in stored order, one
per call, and then report that no tuple remains. -/
theorem pageScan_nonempty :
    ∀ (post pre : List CStr) (s : Selection), PageOK s.curPage →
      pageTuples s.curPage = pre ++ post → s.curtupOffset = (encode pre).length →
      (∀ t ∈ post, t ≠ [] ∧ t.length + 1 ≤ MAXTUPLEN ∧
        tupValMatch s.rel.nattrs s.qvals t = some true) →
      pageScan post.length s = some post := by
  intro post
  induction post with
  | nil =>
    intro pre s hok hts hoff _
    rw [List.append_nil] at hts
    have he := nextMatchTup_end s hok (by rw [hoff, hts])
    simp only [List.length_nil, pageScan, he]
  | cons t post ih =>
    intro pre s hok hts hoff hall
    obtain ⟨hne, hsh, hm⟩ := hall t (List.mem_cons_self _ _)
    have hn := nextMatchTup_next s pre t post hok hts hoff hne hsh hm
    have hr := ih (pre ++ [t]) { s with curtupOffset := (encode (pre ++ [t])).length } hok
      (by rw [hts]; simp) rfl (fun x hx => hall x (List.mem_cons_of_mem _ hx))
    simp only [List.length_cons, pageScan, hn, hr]

/-! ## addToRelation: first-fit placement -/

theorem addToPage_none_free (p : Page) (t : CStr) (h : addToPage p t = none) :
    pageFreeSpace p < t.length + 1 := by
  unfold addToPage at h
  split at h
  · cases h
  · omega

theorem addToPage_some_free (p p1 : Page) (t : CStr) (h : addToPage p t = some p1) :
    t.length + 1 ≤ pageFreeSpace p := by
  unfold addToPage at h
  split at h
  · assumption
  · cases h

/-- The scan of the overflow chain in `addToRelation`, when it returns: the placement of
the tuple. The pages `pre` have been tried and have no room. -/
theorem ovflowInsert_placed (t : CStr) (p : Nat) (r : Reln) :
    ∀ (suf pre : List (Node × Page)) (fuel : Nat) (ovp : Option Nat)
      (prev : Option (Nat × Page)) (r1 : Reln) (res : Option Nat),
      ChainW r (pre ++ suf) → (∀ x ∈ suf, x.1.1 = true) →
      ovp = suf.head?.map (fun x => x.1.2) →
      (suf = [] → ∃ a n q, pre = a ++ [(n, q)] ∧ n.1 = true ∧ prev = some (n.2, q)) →
      (∀ x ∈ pre, pageFreeSpace x.2 < t.length + 1) →
      ovflowInsert t p fuel r ovp prev = some (r1, res) →
      ∃ c1, (res = some p ∧
          (PlacedOn r r1 t (pre ++ suf) c1 ∨ PlacedNew r r1 t (pre ++ suf) c1)) ∨
        (res = none ∧ PlaceFailed r r1 t (pre ++ suf) c1) := by
  intro suf
  induction suf with
  | nil =>
    intro pre fuel ovp prev r1 res hch _ hovp hprev hfull h
    obtain ⟨a, n, q, hpre, hn1, hpv⟩ := hprev rfl
    simp only [List.head?_nil, Option.map_none'] at hovp
    subst hovp hpv
    rw [List.append_nil] at hch ⊢
    cases fuel with
    | zero => simp [ovflowInsert] at h
    | succ fuel =>
      obtain ⟨_, hh1, hd1, ho1, hat1, hfr1⟩ := addOvflowPage_spec r
      have hnq : pageAt r n = some q := ChainW_mem r _ hch (n, q) (by rw [hpre]; simp)
      have hnL : n ≠ (true, r.ovflow.length) := by
        intro e
        have := (pageAt_lt r n q hnq).1 hn1
        rw [e] at this
        simp at this
      unfold ovflowInsert at h
      simp only at h
      rw [getPage_eq_pageAt] at h
      have e0 : (addOvflowPage r).1 = r.ovflow.length := rfl
      rw [e0, hat1] at h
      simp only at h
      cases hadd : addToPage newPage t with
      | none =>
        rw [hadd] at h
        simp only [Option.some.injEq, Prod.mk.injEq] at h
        obtain ⟨hr1, hres⟩ := h
        rw [← hr1]
        exact ⟨pre, Or.inr ⟨hres.symm, hadd, hd1, ho1, hat1, Or.inl ⟨rfl, hfr1⟩⟩⟩
      | some q1 =>
        rw [hadd] at h
        simp only at h
        obtain ⟨r2, hput2, hh2, hd2, ho2, hat2, hfr2⟩ :=
          putPage_spec (addOvflowPage r).2 (true, r.ovflow.length) q1 newPage hat1
        rw [hput2] at h
        simp only at h
        have hn2 : pageAt r2 n = some q := by
          rw [hfr2 n hnL, hfr1 n hnL]; exact hnq
        obtain ⟨r3, hput3, hh3, hd3, ho3, hat3, hfr3⟩ :=
          putPage_spec r2 n { q with ovflow := some r.ovflow.length } q hn2
        have en : n = (true, n.2) := by rw [← hn1]
        rw [en] at hput3
        simp only at hput3
        rw [hput3] at h
        simp only [Option.some.injEq, Prod.mk.injEq] at h
        obtain ⟨hr1, hres⟩ := h
        refine ⟨_, Or.inl ⟨hres.symm, Or.inr ⟨hfull, a, n, q, q1, hpre, rfl, hadd, ?_, ?_, ?_, ?_,
          ?_⟩⟩⟩
        · rw [← hr1]; exact hd3.trans (hd2.trans hd1)
        · rw [← hr1]; exact ho3.trans (ho2.trans ho1)
        · rw [← hr1, pageAt_ntups]; exact hat3
        · rw [← hr1, pageAt_ntups, hfr3 _ (fun e => hnL e.symm)]; exact hat2
        · intro m hm1 hm2
          rw [← hr1, pageAt_ntups, hfr3 m hm1, hfr2 m hm2, hfr1 m hm2]
  | cons x suf ih =>
    intro pre fuel ovp prev r1 res hch hovf hovp _ hfull h
    obtain ⟨n, q⟩ := x
    have hn1 : n.1 = true := hovf (n, q) (List.mem_cons_self _ _)
    simp only [List.head?_cons, Option.map_some'] at hovp
    subst hovp
    have hnq : pageAt r n = some q := ChainW_mem r _ hch (n, q) (by simp)
    have en : n = (true, n.2) := by rw [← hn1]
    cases fuel with
    | zero => simp [ovflowInsert] at h
    | succ fuel =>
      unfold ovflowInsert at h
      simp only at h
      rw [getPage_eq_pageAt, ← en, hnq] at h
      simp only at h
      cases hadd : addToPage q t with
      | none =>
        rw [hadd] at h
        simp only at h
        have hlist : pre ++ (n, q) :: suf = (pre ++ [(n, q)]) ++ suf := by simp
        obtain ⟨hlink, _⟩ := ChainW_mid r n q pre suf hch
        obtain ⟨c1, hc1⟩ := ih (pre ++ [(n, q)]) fuel q.ovflow (some (n.2, q)) r1 res
          (by rw [← hlist]; exact hch) (fun y hy => hovf y (List.mem_cons_of_mem _ hy))
          hlink (fun _ => ⟨pre, n, q, rfl, hn1, rfl⟩)
          (by
            intro y hy
            rcases List.mem_append.mp hy with h1 | h1
            · exact hfull y h1
            · rw [List.mem_singleton] at h1
              rw [h1]
              exact addToPage_none_free q t hadd) h
        rw [← hlist] at hc1
        exact ⟨c1, hc1⟩
      | some q1 =>
        rw [hadd] at h
        simp only at h
        obtain ⟨r2, hput2, hh2, hd2, ho2, hat2, hfr2⟩ := putPage_spec r n q1 q hnq
        rw [en] at hput2
        simp only at hput2
        rw [hput2] at h
        simp only [Option.some.injEq, Prod.mk.injEq] at h
        obtain ⟨hr1, hres⟩ := h
        refine ⟨_, Or.inl ⟨hres.symm, Or.inl ⟨pre, n, q, q1, suf, rfl, rfl, hfull,
          addToPage_some_free q q1 t hadd, hadd, ?_, ?_, ?_, ?_⟩⟩⟩
        · rw [← hr1]; exact hd2
        · rw [← hr1]; exact ho2
        · rw [← hr1, pageAt_ntups]; exact hat2
        · intro m hm
          rw [← hr1, pageAt_ntups]; exact hfr2 m hm

/-- A call of `addToRelation` that returns: the placement of the tuple on the chain of its
bucket in the relation `rs` that the split step leaves. -/
theorem addToRelation_placed (hash_any : CStr → Nat) (r r1 rs : Reln) (t : CStr)
    (res : Option Nat) (hv : Nat) (pg : Page) (rest : List (Node × Page))
    (h : addToRelation hash_any r t = some (r1, res))
    (hs : splitIfDue hash_any r = some rs)
    (hh : tupleHash hash_any rs.nattrs rs.cv t = some hv)
    (hch : ChainW rs (((false, bucketOf rs hv), pg) :: rest))
    (hrest : ∀ x ∈ rest, x.1.1 = true) :
    ∃ c1, (res = some (bucketOf rs hv) ∧
        (PlacedOn rs r1 t (((false, bucketOf rs hv), pg) :: rest) c1 ∨
          PlacedNew rs r1 t (((false, bucketOf rs hv), pg) :: rest) c1)) ∨
      (res = none ∧ PlaceFailed rs r1 t (((false, bucketOf rs hv), pg) :: rest) c1) := by
  unfold addToRelation at h
  split at h
  · cases h
  · rw [hs] at h
    simp only at h
    rw [hh] at h
    simp only at h
    generalize bucketOf rs hv = p at h hch
    have hch0 := hch
    rw [ChainW_cons] at hch0
    obtain ⟨hpg, hlink, _, _⟩ := hch0
    rw [getPage_eq_pageAt, hpg] at h
    simp only at h
    cases hadd : addToPage pg t with
    | some pg1 =>
      rw [hadd] at h
      simp only at h
      obtain ⟨r2, hput, hh2, hd2, ho2, hat2, hfr2⟩ := putPage_spec rs (false, p) pg1 pg hpg
      simp only at hput
      rw [hput] at h
      simp only [Option.some.injEq, Prod.mk.injEq] at h
      obtain ⟨hr1, hres⟩ := h
      refine ⟨_, Or.inl ⟨hres.symm, Or.inl ⟨[], (false, p), pg, pg1, rest, rfl, rfl,
        (fun x hx => by cases hx), addToPage_some_free pg pg1 t hadd, hadd, ?_, ?_, ?_, ?_⟩⟩⟩
      · rw [← hr1]; exact hd2
      · rw [← hr1]; exact ho2
      · rw [← hr1]; exact hat2
      · rw [← hr1]; exact hfr2
    | none =>
      rw [hadd] at h
      simp only at h
      have hfull : ∀ x ∈ [((false, p), pg)], pageFreeSpace x.2 < t.length + 1 := by
        intro x hx
        rw [List.mem_singleton] at hx
        rw [hx]
        exact addToPage_none_free pg t hadd
      cases hov : pg.ovflow with
      | some ovp =>
        rw [hov] at h
        simp only at h
        exact ovflowInsert_placed t p rs rest [((false, p), pg)] _ (some ovp) none r1 res
          hch hrest (by rw [← hov]; exact hlink)
          (by
            intro e
            rw [e, hov] at hlink
            cases hlink) hfull h
      | none =>
        rw [hov] at h
        simp only at h
        have hrest0 : rest = [] := by
          rw [hov] at hlink
          cases rest with
          | nil => rfl
          | cons x xs => cases hlink
        subst hrest0
        obtain ⟨_, hh1, hd1, ho1, hat1, hfr1⟩ := addOvflowPage_spec rs
        have e0 : (addOvflowPage rs).1 = rs.ovflow.length := rfl
        have hpa : pageAt (addOvflowPage rs).2 (false, p) = some pg := by
          rw [hfr1 (false, p) (by simp)]; exact hpg
        obtain ⟨r2, hput2, hh2, hd2, ho2, hat2, hfr2⟩ :=
          putPage_spec (addOvflowPage rs).2 (false, p)
            { pg with ovflow := some rs.ovflow.length } pg hpa
        simp only at hput2
        rw [e0, hput2] at h
        simp only at h
        have hnew : pageAt r2 (true, rs.ovflow.length) = some newPage := by
          rw [hfr2 (true, rs.ovflow.length) (by simp)]; exact hat1
        rw [getPage_eq_pageAt, hnew] at h
        simp only at h
        cases hadd2 : addToPage newPage t with
        | none =>
          rw [hadd2] at h
          simp only [Option.some.injEq, Prod.mk.injEq] at h
          obtain ⟨hr1, hres⟩ := h
          refine ⟨_, Or.inr ⟨hres.symm, hadd2, ?_, ?_, ?_,
            Or.inr ⟨(false, p), pg, rfl, rfl, ?_, ?_⟩⟩⟩
          · rw [← hr1, hd2, hd1]
          · rw [← hr1, ho2, ho1]
          · rw [← hr1]; exact hnew
          · rw [← hr1]; exact hat2
          · intro m hm1 hm2
            rw [← hr1, hfr2 m hm1, hfr1 m hm2]
        | some q1 =>
          rw [hadd2] at h
          simp only at h
          obtain ⟨r3, hput3, hh3, hd3, ho3, hat3, hfr3⟩ :=
            putPage_spec r2 (true, rs.ovflow.length) q1 newPage hnew
          simp only at hput3
          rw [hput3] at h
          simp only [Option.some.injEq, Prod.mk.injEq] at h
          obtain ⟨hr1, hres⟩ := h
          refine ⟨_, Or.inl ⟨hres.symm, Or.inr ⟨hfull, [], (false, p), pg, q1, rfl, rfl, hadd2,
            ?_, ?_, ?_, ?_, ?_⟩⟩⟩
          · rw [← hr1]; show r3.data.length = _; rw [hd3, hd2, hd1]
          · rw [← hr1]; show r3.ovflow.length = _; rw [ho3, ho2, ho1]
          · rw [← hr1]; show pageAt r3 _ = _
            rw [hfr3 (false, p) (by simp)]; exact hat2
          · rw [← hr1]; exact hat3
          · intro m hm1 hm2
            rw [← hr1]; show pageAt r3 _ = _
            rw [hfr3 m hm2, hfr2 m hm1, hfr1 m hm2]

/-- C25, amended: in a relation with the invariant and between 1 and 102 attributes, in
which the tuples of bucket `sp` are shorter than `MAXTUPLEN`, for a tuple `t` of `nattrs`
fields that fits an empty page, `addToRelation` returns the bucket
`b = bucketOf rs hv` of the hash of `t` in the relation `rs` that the split step leaves,
and on the chain `chs b` of that bucket in `rs` the tuple is placed first-fit: either it is
appended (`addToPage`) to the first page of the chain with `strlen(t) + 1 <= free_space`
and no other page is modified, or no page of the chain has room, a new page is added to
the overflow file, `t` is written into it, the last page of the chain is linked to it, and
no other page is modified. The primary page receives `t` exactly when
`strlen(t) + 1 <= free_space(primary page)`. -/
theorem first_fit_placement (hash_any : CStr → Nat) (r : Reln)
    (ch : Nat → List (Node × Page)) (t : CStr) (inv : RelInv hash_any r ch)
    (hshort : ∀ x ∈ ch r.sp, ∀ t1 ∈ pageTuples x.2, t1.length < MAXTUPLEN)
    (hn : 1 ≤ r.nattrs ∧ r.nattrs ≤ 102) (ht : (tupleVals t).length = r.nattrs)
    (hfit : t.length + 1 ≤ dataSize) :
    ∃ rs chs hv r1, splitIfDue hash_any r = some rs ∧ RelInv hash_any rs chs ∧
      tupleHash hash_any rs.nattrs rs.cv t = some hv ∧ bucketOf rs hv < rs.npages ∧
      addToRelation hash_any r t = some (r1, some (bucketOf rs hv)) ∧
      (∃ c1, PlacedOn rs r1 t (chs (bucketOf rs hv)) c1 ∨
        PlacedNew rs r1 t (chs (bucketOf rs hv)) c1) ∧
      ∀ pg, pageAt rs (false, bucketOf rs hv) = some pg →
        (t.length + 1 ≤ pageFreeSpace pg ↔
          ∃ pg1, addToPage pg t = some pg1 ∧ pageAt r1 (false, bucketOf rs hv) = some pg1) := by
  obtain ⟨r1, res, h, hiff⟩ := addToRelation_returns hash_any r ch t inv
    (fun x hx t1 ht1 => by have := hshort x hx t1 ht1; omega) hn ht
  obtain ⟨_, _, rs, hv, hs, hh, hi⟩ := addToRelation_hdr hash_any r r1 t res h
  obtain ⟨chs, invs, _⟩ := splitIfDue_inv hash_any r rs ch inv hs
  obtain ⟨hp, _⟩ := bucketOf_addr rs hv invs.sp_lt invs.npages_eq
  obtain ⟨pg, rest, hc⟩ := layout_cons invs.lay _ hp
  have hch := invs.lay.chain _ hp
  rw [hc] at hch
  have hrest := layout_rest_ovf invs.lay _ hp pg rest hc
  have hres : res ≠ none := by
    intro e
    have := hiff.mp e
    omega
  obtain ⟨c1, hpl⟩ := addToRelation_placed hash_any r r1 rs t res hv pg rest h hs hh hch hrest
  rcases hpl with ⟨e, hpl⟩ | ⟨e, _⟩
  · subst e
    refine ⟨rs, chs, hv, r1, hs, invs, hh, hp, h, ⟨c1, by rw [hc]; exact hpl⟩, ?_⟩
    intro pg0 hpg0
    have hpg : pageAt rs (false, bucketOf rs hv) = some pg := ((ChainW_cons _ _ _ _).mp hch).1
    rw [hpg] at hpg0
    simp only [Option.some.injEq] at hpg0
    subst hpg0
    constructor
    · intro hroom
      rcases hpl with ⟨a, n, q, q1, post, e1, _, hfull, _, hadd, _, _, hat, _⟩ | ⟨hfull, _⟩
      · cases a with
        | nil =>
          simp only [List.nil_append, List.cons.injEq, Prod.mk.injEq] at e1
          obtain ⟨⟨en, eq⟩, _⟩ := e1
          subst en eq
          exact ⟨q1, hadd, hat⟩
        | cons x a =>
          simp only [List.cons_append, List.cons.injEq] at e1
          have := hfull x (List.mem_cons_self _ _)
          rw [← e1.1] at this
          simp only at this
          omega
      · have := hfull _ (List.mem_cons_self _ _)
        simp only at this
        omega
    · rintro ⟨pg1, hadd, _⟩
      exact addToPage_some_free pg pg1 t hadd
  · exact absurd e hres

/-- The third insertion of `wideTuple` into the relation `wide2`. -/
theorem first_fit_placement_witness :
    (∃ ch, RelInv List.length wide2 ch ∧
        ∀ x ∈ ch wide2.sp, ∀ t1 ∈ pageTuples x.2, t1.length < MAXTUPLEN) ∧
      (1 ≤ wide2.nattrs ∧ wide2.nattrs ≤ 102) ∧
      (tupleVals wideTuple).length = wide2.nattrs ∧ wideTuple.length + 1 ≤ dataSize ∧
      ∃ rs chs hv r1, splitIfDue List.length wide2 = some rs ∧ RelInv List.length rs chs ∧
        tupleHash List.length rs.nattrs rs.cv wideTuple = some hv ∧ bucketOf rs hv < rs.npages ∧
        addToRelation List.length wide2 wideTuple = some (r1, some (bucketOf rs hv)) ∧
        (∃ c1, PlacedOn rs r1 wideTuple (chs (bucketOf rs hv)) c1 ∨
          PlacedNew rs r1 wideTuple (chs (bucketOf rs hv)) c1) ∧
        ∀ pg, pageAt rs (false, bucketOf rs hv) = some pg →
          (wideTuple.length + 1 ≤ pageFreeSpace pg ↔
            ∃ pg1, addToPage pg wideTuple = some pg1 ∧
              pageAt r1 (false, bucketOf rs hv) = some pg1) := by
  obtain ⟨ch, inv⟩ := reachable_inv List.length wide2 wide2_reachable
  have hshort : ∀ x ∈ ch wide2.sp, ∀ t1 ∈ pageTuples x.2, t1.length < MAXTUPLEN := by
    intro x hx t1 ht1
    have := chain_short wide2 ch inv.lay 1 (by decide!) wide2.sp (by decide) x hx t1 ht1
    omega
  exact ⟨⟨ch, inv, hshort⟩, by decide, by decide!, by decide!,
    first_fit_placement List.length wide2 ch wideTuple inv hshort (by decide) (by decide!)
      (by decide!)⟩

theorem insert_wideLong1 : addToRelation List.length wideLong1 wideTuple = none := by
  decide!

/-- C25: in the relation `wideLong1`, which `addToRelation` makes from the fresh relation
`wide0` and the tuple `longWide` of 251 characters, the call for the tuple `wideTuple`,
which has `nattrs` fields and fits an empty page, does not return, and the tuple is
appended to no page: a split is due, and `lh_split` does not return, since `longWide`
exceeds its buffer `tup`. -/
theorem placement_long_tuple :
    addToRelation List.length wide0 longWide = some (wideLong1, some 0) ∧
      (tupleVals wideTuple).length = wideLong1.nattrs ∧ wideTuple.length + 1 ≤ dataSize ∧
      bucketTuples wideLong1 wideLong1.sp = some [longWide] ∧ MAXTUPLEN < longWide.length ∧
      lh_split List.length wideLong1 = none ∧
      addToRelation List.length wideLong1 wideTuple = none :=
  ⟨insert_longWide0, by decide!, by decide!, by decide!, by decide!, lh_split_wideLong1,
    insert_wideLong1⟩

/-! ## The number of stored tuples -/

theorem countUpTo_congr (ch ch1 : Nat → List (Node × Page)) :
    ∀ n, (∀ b, b < n → (tuplesOfPages ((ch1 b).map Prod.snd)).length =
        (tuplesOfPages ((ch b).map Prod.snd)).length) →
      countUpTo ch1 n = countUpTo ch n := by
  intro n
  induction n with
  | zero => intro _; rfl
  | succ n ih =>
    intro h
    unfold countUpTo
    rw [ih (fun b hb => h b (by omega)), h n (by omega)]

/-- The count after the chain of one bucket is replaced. -/
theorem countUpTo_update (ch : Nat → List (Node × Page)) (b : Nat) (c1 : List (Node × Page)) :
    ∀ n, b < n →
      countUpTo (Function.update ch b c1) n + (tuplesOfPages ((ch b).map Prod.snd)).length =
        countUpTo ch n + (tuplesOfPages (c1.map Prod.snd)).length := by
  intro n
  induction n with
  | zero => intro h; omega
  | succ n ih =>
    intro h
    unfold countUpTo
    by_cases hb : b = n
    · subst hb
      rw [Function.update_same, countUpTo_congr ch (Function.update ch b c1) b
        (fun x hx => by rw [Function.update_noteq (by omega)])]
      omega
    · rw [Function.update_noteq (fun e => hb e.symm)]
      have := ih (by omega)
      omega

/-- The two tests of `lh_split` divide the tuples that have a hash. -/
theorem filter_stays_moves (hash_any : CStr → Nat) (r : Reln) (l : List CStr)
    (h : ∀ t ∈ l, ∃ hv, tupleHash hash_any r.nattrs r.cv t = some hv) :
    (l.filter (staysAt hash_any r)).length + (l.filter (movesAt hash_any r)).length =
      l.length := by
  induction l with
  | nil => rfl
  | cons t l ih =>
    have := ih (fun x hx => h x (List.mem_cons_of_mem _ hx))
    obtain ⟨hv, hh⟩ := h t (List.mem_cons_self _ _)
    have hs : staysAt hash_any r t = !bitIsSet hv r.depth := by
      unfold staysAt; rw [hh]
    have hm : movesAt hash_any r t = bitIsSet hv r.depth := by
      unfold movesAt; rw [hh]
    rw [List.filter_cons, List.filter_cons, hs, hm]
    cases bitIsSet hv r.depth
    · simp only [Bool.not_false, if_true, Bool.false_eq_true, if_false, List.length_cons]
      omega
    · simp only [Bool.not_true, if_true, Bool.false_eq_true, if_false, List.length_cons]
      omega

/-- The count over the chains after `lh_split`. -/
theorem countUpTo_split (ch : Nat → List (Node × Page)) (sp np : Nat)
    (spc nbc : List (Node × Page)) (hsp : sp < np)
    (hlen : (tuplesOfPages (spc.map Prod.snd)).length +
      (tuplesOfPages (nbc.map Prod.snd)).length =
        (tuplesOfPages ((ch sp).map Prod.snd)).length) :
    countUpTo (splitChains ch sp np spc nbc) (np + 1) = countUpTo ch np := by
  have e1 : countUpTo (splitChains ch sp np spc nbc) np =
      countUpTo (Function.update ch sp spc) np := by
    apply countUpTo_congr
    intro b hb
    unfold splitChains
    by_cases h1 : b = sp
    · rw [h1, Function.update_same, if_pos rfl]
    · rw [Function.update_noteq h1, if_neg h1, if_neg (by omega)]
  have e2 := countUpTo_update ch sp spc np hsp
  have e3 : splitChains ch sp np spc nbc np = nbc := by
    unfold splitChains
    rw [if_neg (by omega), if_pos rfl]
  show countUpTo (splitChains ch sp np spc nbc) np +
    (tuplesOfPages ((splitChains ch sp np spc nbc np).map Prod.snd)).length = countUpTo ch np
  rw [e1, e3]
  omega

/-- The number of tuples on a chain in which one page is replaced. -/
theorem tuples_length_replace (a b : List (Node × Page)) (n : Node) (q q1 : Page) (k : Nat)
    (h : (pageTuples q1).length = (pageTuples q).length + k) :
    (tuplesOfPages ((a ++ (n, q1) :: b).map Prod.snd)).length =
      (tuplesOfPages ((a ++ (n, q) :: b).map Prod.snd)).length + k := by
  simp only [List.map_append, List.map_cons, tuplesOfPages_append, tuplesOfPages,
    List.length_append]
  omega

/-- First-fit placement on a page with room, as a change of the chain. -/
theorem placedOn_inserted (rs r1 : Reln) (t : CStr) (c c1 : List (Node × Page))
    (hpl : PlacedOn rs r1 t c c1) (ht : '\x00' ∉ t) (hch : ChainW rs c)
    (hnd : (c.map Prod.fst).Nodup) (hok : ∀ x ∈ c, PageOK x.2)
    (hhdr : r1.nattrs = rs.nattrs ∧ r1.depth = rs.depth ∧ r1.sp = rs.sp ∧
      r1.npages = rs.npages ∧ r1.cv = rs.cv) :
    Inserted rs r1 c c1 t ∧
      (tuplesOfPages (c1.map Prod.snd)).length = (tuplesOfPages (c.map Prod.snd)).length + 1 := by
  obtain ⟨a, n, q, q1, post, e1, e2, _, _, hadd, hd, ho, hat, hfr⟩ := hpl
  subst e1 e2
  obtain ⟨_, b2, _, _, _⟩ := addToPage_some q q1 t (hok (n, q) (by simp)) ht hadd
  exact ⟨inserted_replace rs r1 t ht n q q1 a post hch hnd hok hadd hhdr hd ho hat hfr,
    tuples_length_replace a post n q q1 1 (by rw [b2]; simp)⟩

/-- First-fit placement on a new overflow page, as a change of the chain. -/
theorem placedNew_inserted (rs r1 : Reln) (t : CStr) (c c1 : List (Node × Page))
    (hpl : PlacedNew rs r1 t c c1) (ht : '\x00' ∉ t) (hch : ChainW rs c)
    (hnd : (c.map Prod.fst).Nodup) (hok : ∀ x ∈ c, PageOK x.2)
    (hhdr : r1.nattrs = rs.nattrs ∧ r1.depth = rs.depth ∧ r1.sp = rs.sp ∧
      r1.npages = rs.npages ∧ r1.cv = rs.cv) :
    Inserted rs r1 c c1 t ∧
      (tuplesOfPages (c1.map Prod.snd)).length = (tuplesOfPages (c.map Prod.snd)).length + 1 := by
  obtain ⟨_, a, n, q, q1, e1, e2, hadd, hd, ho, hat, hat2, hfr⟩ := hpl
  subst e1 e2
  obtain ⟨b1, b2, b3, _, _⟩ := addToPage_some newPage q1 t pageOK_newPage ht hadd
  rw [pageTuples_newPage, List.nil_append] at b2
  refine ⟨inserted_append rs r1 t n q q1 a hch hnd hok b1
    (by rw [b2]; intro t1 h1; simpa using h1) (b3.trans rfl) hhdr hd ho hat hat2 hfr, ?_⟩
  simp only [List.map_append, List.map_cons, List.map_nil, tuplesOfPages_append, tuplesOfPages,
    List.length_append, b2, pageTuples_setOvflow, List.length_singleton, List.append_nil,
    List.length_nil]
  omega

/-- The insertion that returns `NO_PAGE`, as a change of the chain. -/
theorem placeFailed_inserted (rs r1 : Reln) (t : CStr) (c c1 : List (Node × Page))
    (hpl : PlaceFailed rs r1 t c c1) (hch : ChainW rs c)
    (hnd : (c.map Prod.fst).Nodup) (hok : ∀ x ∈ c, PageOK x.2)
    (hhdr : r1.nattrs = rs.nattrs ∧ r1.depth = rs.depth ∧ r1.sp = rs.sp ∧
      r1.npages = rs.npages ∧ r1.cv = rs.cv) :
    Inserted rs r1 c c1 t ∧
      (tuplesOfPages (c1.map Prod.snd)).length = (tuplesOfPages (c.map Prod.snd)).length := by
  obtain ⟨_, hd, ho, hnew, hcase⟩ := hpl
  rcases hcase with ⟨e, hfr⟩ | ⟨n, q, e1, e2, hat, hfr⟩
  · subst e
    exact ⟨inserted_orphan rs r1 t c1 hch hnd hok hhdr hd ho hfr, rfl⟩
  · subst e1 e2
    refine ⟨inserted_append rs r1 t n q newPage [] hch hnd hok pageOK_newPage
      (by rw [pageTuples_newPage]; intro t1 h1; cases h1) rfl hhdr hd ho hat hnew hfr, ?_⟩
    simp only [List.map_cons, List.map_nil, tuplesOfPages, pageTuples_newPage,
      pageTuples_setOvflow, List.append_nil, List.length_append, List.length_nil]

/-- The split step keeps the invariant of the tuple count. -/
theorem splitIfDue_count (hash_any : CStr → Nat) (r rs : Reln) (ch : Nat → List (Node × Page))
    (inv : CountInv hash_any r ch) (h : splitIfDue hash_any r = some rs) :
    ∃ chs, CountInv hash_any rs chs := by
  unfold splitIfDue at h
  split at h
  · rename_i hdue
    have hsp : r.sp < r.npages := by
      rcases inv.sp_lt with e | e
      · have hc := inv.count
        rw [e] at hc
        have : countUpTo ch 0 = 0 := rfl
        omega
      · exact e
    have hhash := inv.hashed r.sp hsp
    obtain ⟨r1, spc, nbc, h1, g1, g2, g3, g4, g5, g6, _, _, lay1, h10, h11⟩ :=
      lh_split_layout hash_any r ch inv.lay hsp (by
        intro x hx t ht
        exact hhash t (mem_tuplesOfPages _ x.2 (List.mem_map.mpr ⟨x, hx, rfl⟩) t ht))
        (by
          cases hl : lh_split hash_any r with
          | none => rw [hl] at h; simp at h
          | some r1x =>
            exact lh_split_short hash_any r r1x ch inv.lay hsp (by
              intro x hx t ht
              exact hhash t (mem_tuplesOfPages _ x.2 (List.mem_map.mpr ⟨x, hx, rfl⟩) t ht))
              hl)
    rw [h1] at h
    simp only at h
    have hrs : Layout rs (splitChains ch r.sp r.npages spc nbc) ∧ rs.ntups = r.ntups ∧
        rs.npages = r.npages + 1 ∧ rs.nattrs = r.nattrs ∧ rs.cv = r.cv ∧
        rs.sp < r.npages + 1 := by
      split at h
      · simp only [Option.some.injEq] at h
        rw [← h]
        exact ⟨layout_hdr lay1 rfl rfl rfl, g5, g4, g1, g6, by show r1.sp + 1 < _; omega⟩
      · simp only [Option.some.injEq] at h
        rw [← h]
        exact ⟨layout_hdr lay1 rfl rfl rfl, g5, g4, g1, g6, Nat.succ_pos _⟩
    obtain ⟨hlay, e1, e2, e3, e4, e5⟩ := hrs
    have hsplit := countUpTo_split ch r.sp r.npages spc nbc hsp (by
      rw [h10, h11]
      exact filter_stays_moves hash_any r _ hhash)
    refine ⟨splitChains ch r.sp r.npages spc nbc, hlay, Or.inr (by rw [e2]; exact e5), ?_,
      by rw [e1, e2, hsplit]; exact inv.count⟩
    intro b hb t ht
    rw [e3, e4]
    unfold splitChains at ht
    by_cases hb1 : b = r.sp
    · rw [if_pos hb1, h10] at ht
      exact hhash t (List.mem_filter.mp ht).1
    · rw [if_neg hb1] at ht
      by_cases hb2 : b = r.npages
      · rw [if_pos hb2, h11] at ht
        exact hhash t (List.mem_filter.mp ht).1
      · rw [if_neg hb2] at ht
        exact inv.hashed b (by omega) t ht
  · simp only [Option.some.injEq] at h
    subst h
    exact ⟨ch, inv⟩

/-- A call of `addToRelation` that returns has read the primary page of the bucket. -/
theorem addToRelation_primary (hash_any : CStr → Nat) (r r1 rs : Reln) (t : CStr)
    (res : Option Nat) (hv : Nat) (h : addToRelation hash_any r t = some (r1, res))
    (hs : splitIfDue hash_any r = some rs)
    (hh : tupleHash hash_any rs.nattrs rs.cv t = some hv) :
    ∃ pg, getPage rs false (bucketOf rs hv) = some pg := by
  unfold addToRelation at h
  split at h
  · cases h
  · rw [hs] at h
    simp only at h
    rw [hh] at h
    simp only at h
    cases hg : getPage rs false (bucketOf rs hv) with
    | none => rw [hg] at h; cases h
    | some pg => exact ⟨pg, rfl⟩

/-- A call of `addToRelation` that returns keeps the invariant of the tuple count. -/
theorem addToRelation_count (hash_any : CStr → Nat) (r r1 : Reln)
    (ch : Nat → List (Node × Page)) (t : CStr) (res : Option Nat)
    (inv : CountInv hash_any r ch) (ht : '\x00' ∉ t)
    (h : addToRelation hash_any r t = some (r1, res)) :
    ∃ ch1, CountInv hash_any r1 ch1 := by
  obtain ⟨_, _, rs, hv, hs, hh, a1, a2, a3, a4, a5, a6, _⟩ :=
    addToRelation_hdr hash_any r r1 t res h
  obtain ⟨chs, invs⟩ := splitIfDue_count hash_any r rs ch inv hs
  obtain ⟨pg0, hpg0⟩ := addToRelation_primary hash_any r r1 rs t res hv h hs hh
  have hp : bucketOf rs hv < rs.npages := by
    have := (pageAt_lt rs (false, bucketOf rs hv) pg0 hpg0).2 rfl
    rw [← invs.lay.data_len]
    exact this
  obtain ⟨pg, rest, hc⟩ := layout_cons invs.lay _ hp
  have hch := invs.lay.chain _ hp
  have hnd := invs.lay.nodup _ hp
  have hok := invs.lay.ok _ hp
  have hrest := layout_rest_ovf invs.lay _ hp pg rest hc
  rw [hc] at hch
  obtain ⟨c1, hpl⟩ := addToRelation_placed hash_any r r1 rs t res hv pg rest h hs hh hch hrest
  rw [← hc] at hpl hch
  have hhdr : r1.nattrs = rs.nattrs ∧ r1.depth = rs.depth ∧ r1.sp = rs.sp ∧
      r1.npages = rs.npages ∧ r1.cv = rs.cv := ⟨a1, a2, a3, a4, a5⟩
  have key : Inserted rs r1 (chs (bucketOf rs hv)) c1 t ∧
      (tuplesOfPages (c1.map Prod.snd)).length =
        (tuplesOfPages ((chs (bucketOf rs hv)).map Prod.snd)).length +
          (if res.isSome then 1 else 0) := by
    rcases hpl with ⟨e, hpl | hpl⟩ | ⟨e, hpl⟩
    · rw [e]
      exact placedOn_inserted rs r1 t _ c1 hpl ht hch hnd hok hhdr
    · rw [e]
      exact placedNew_inserted rs r1 t _ c1 hpl ht hch hnd hok hhdr
    · rw [e]
      exact placeFailed_inserted rs r1 t _ c1 hpl hch hnd hok hhdr
  obtain ⟨ins, hlen⟩ := key
  have hupd := countUpTo_update chs (bucketOf rs hv) c1 rs.npages hp
  have hcs := invs.count
  refine ⟨Function.update chs (bucketOf rs hv) c1,
    layout_update invs.lay _ hp c1 t ins, ?_, ?_, by rw [a4, a6]; omega⟩
  · rw [a4, a3]
    exact invs.sp_lt
  · intro b hb t1 ht1
    rw [a1, a5]
    by_cases hbp : b = bucketOf rs hv
    · rw [hbp, Function.update_same] at ht1
      rcases ins.tuples t1 ht1 with e | e
      · exact invs.hashed _ hp t1 e
      · rw [e]
        exact ⟨hv, hh⟩
    · rw [Function.update_noteq hbp] at ht1
      exact invs.hashed b (by omega) t1 ht1

/-- A relation made by `newRelation` satisfies the invariant of the tuple count. -/
theorem countInv_fresh (hash_any : CStr → Nat) (nattrs npages d : Nat) (cv : List ChVecItem)
    (r : Reln) (h : newRelation nattrs npages d cv = some r) :
    CountInv hash_any r (fun b => [((false, b), newPage)]) := by
  have hz : ∀ n, countUpTo (fun b => [((false, b), newPage)]) n = 0 := by
    intro n
    induction n with
    | zero => rfl
    | succ n ih =>
      unfold countUpTo
      rw [ih]
      simp [tuplesOfPages, pageTuples_newPage]
  unfold newRelation at h
  split at h
  · simp only [Option.some.injEq] at h
    subst h
    exact
      { lay :=
          { data_len := by simp
            head := fun b _ => rfl
            chain := by
              intro b hb
              refine ⟨?_, rfl, (fun x hx => by cases hx), trivial⟩
              simp only at hb
              simp [pageAt, getPage, hb]
            nodup := fun b _ => by simp
            disj := by
              intro b b1 n _ _ h1 h2
              simp only [List.map_cons, List.map_nil, List.mem_singleton] at h1 h2
              rw [h1] at h2
              simpa using h2
            ok := by
              intro b _ x hx
              simp only [List.mem_singleton] at hx
              rw [hx]
              exact pageOK_newPage }
        sp_lt := by
          rcases Nat.eq_zero_or_pos npages with e | e
          · exact Or.inl e
          · exact Or.inr e
        hashed := by
          intro b _ t ht
          simp [tuplesOfPages, pageTuples_newPage] at ht
        count := (hz npages).symm }
  · cases h

/-- In every relation built by insertions `ntups` is the number of stored tuples. -/
theorem built_count (hash_any : CStr → Nat) (r : Reln) (hr : Built hash_any r) :
    ∃ ch, CountInv hash_any r ch := by
  induction hr with
  | fresh nattrs npages d cv r h => exact ⟨_, countInv_fresh hash_any nattrs npages d cv r h⟩
  | insert r r1 t res _ ht h ih =>
    obtain ⟨ch, inv⟩ := ih
    exact addToRelation_count hash_any r r1 ch t res inv ht h

/-! ## The pages of a relation and their tuple counts -/

theorem ovflowPages_chain (r : Reln) :
    ∀ (rest : List (Node × Page)) (fuel : Nat) (start : Option Nat),
      ChainW r rest → (∀ x ∈ rest, x.1.1 = true) →
      start = rest.head?.map (fun x => x.1.2) → rest.length ≤ fuel →
      ovflowPages r.ovflow fuel start = some (rest.map Prod.snd) := by
  intro rest
  induction rest with
  | nil =>
    intro fuel start _ _ hs _
    simp only [List.head?_nil, Option.map_none'] at hs
    subst hs
    cases fuel <;> rfl
  | cons x rest ih =>
    intro fuel start hc hovf hs hf
    obtain ⟨⟨b, i⟩, p⟩ := x
    have hb : b = true := hovf ((b, i), p) (List.mem_cons_self _ _)
    subst hb
    simp only [List.head?_cons, Option.map_some'] at hs
    subst hs
    rw [ChainW_cons] at hc
    obtain ⟨h1, h2, _, h4⟩ := hc
    cases fuel with
    | zero => simp at hf
    | succ fuel =>
      have hp : r.ovflow[i]? = some p := h1
      unfold ovflowPages
      rw [hp]
      simp only
      rw [ih fuel p.ovflow h4 (fun y hy => hovf y (List.mem_cons_of_mem _ hy)) h2
        (by simp at hf; omega)]
      rfl

/-- In a well-formed relation `bucketPages` returns the pages of the chain. -/
theorem bucketPages_layout {r : Reln} {ch : Nat → List (Node × Page)} (lay : Layout r ch)
    (b : Nat) (hb : b < r.npages) : bucketPages r b = some ((ch b).map Prod.snd) := by
  obtain ⟨p, rest, hc⟩ := layout_cons lay b hb
  have hch := lay.chain b hb
  have hnd := lay.nodup b hb
  rw [hc] at hch hnd ⊢
  have hlen := chain_length_le r _ _ rest hch (List.nodup_cons.mp hnd).2
  have hovf := ChainW_head_lt r _ _ rest hch
  rw [ChainW_cons] at hch
  obtain ⟨h1, h2, _, h4⟩ := hch
  have hp : r.data[b]? = some p := h1
  unfold bucketPages
  rw [hp]
  simp only
  rw [ovflowPages_chain r rest r.ovflow.length p.ovflow h4 (fun x hx => (hovf x hx).1) h2 hlen]
  rfl

/-- The `ntuples` fields of pages that satisfy P1 add up to the number of their tuples. -/
theorem sum_ntuples (ps : List Page) (h : ∀ p ∈ ps, PageOK p) :
    (ps.map (fun p => p.ntuples)).sum = (tuplesOfPages ps).length := by
  induction ps with
  | nil => rfl
  | cons p ps ih =>
    simp only [List.map_cons, List.sum_cons, tuplesOfPages, List.length_append]
    rw [ih (fun x hx => h x (List.mem_cons_of_mem _ hx)), (h p (List.mem_cons_self _ _)).count]

/-- The pages of the first `n` buckets of a well-formed relation. -/
theorem pagesUpTo_layout {r : Reln} {ch : Nat → List (Node × Page)} (lay : Layout r ch) :
    ∀ n, n ≤ r.npages →
      ∃ ps, pagesUpTo r n = some ps ∧ (ps.map (fun p => p.ntuples)).sum = countUpTo ch n ∧
        ∀ p ∈ ps, PageOK p := by
  intro n
  induction n with
  | zero => intro _; exact ⟨[], rfl, rfl, fun p hp => by cases hp⟩
  | succ n ih =>
    intro hn
    obtain ⟨ps, h1, h2, h3⟩ := ih (by omega)
    have hb := bucketPages_layout lay n (by omega)
    have hok : ∀ p ∈ (ch n).map Prod.snd, PageOK p := by
      intro p hp
      obtain ⟨x, hx, e⟩ := List.mem_map.mp hp
      rw [← e]
      exact lay.ok n (by omega) x hx
    refine ⟨ps ++ (ch n).map Prod.snd, ?_, ?_, ?_⟩
    · unfold pagesUpTo
      rw [h1, hb]
    · rw [List.map_append, List.sum_append, h2, sum_ntuples _ hok]
      rfl
    · intro p hp
      rcases List.mem_append.mp hp with e | e
      · exact h3 p e
      · exact hok p e

/-- C27: in every relation state reached from a relation made by `newRelation` (all pages
empty, `ntups = 0`) through calls of `addToRelation`, the pages reached from the primary
pages `0 .. npages-1` through their overflow chains can be listed, `ntups` is the sum of
their `ntuples` fields, and the `ntuples` field of each of them is the number of
NUL-terminated tuples in its `data[0 .. free)`. -/
theorem ntups_agrees_with_storage (hash_any : CStr → Nat) (r : Reln)
    (hr : Built hash_any r) :
    ∃ ps, storedPages r = some ps ∧ r.ntups = (ps.map (fun p => p.ntuples)).sum ∧
      ∀ p ∈ ps, p.ntuples = (pageTuples p).length := by
  obtain ⟨ch, inv⟩ := built_count hash_any r hr
  obtain ⟨ps, h1, h2, h3⟩ := pagesUpTo_layout inv.lay r.npages (le_refl _)
  exact ⟨ps, h1, by rw [h2, inv.count], fun p hp => (h3 p hp).count⟩

theorem wide3_built : Built List.length wide3 :=
  Built.insert wide2 wide3 wideTuple (some 2)
    (Built.insert wide1 wide2 wideTuple (some 0)
      (Built.insert wide0 wide1 wideTuple (some 0)
        (Built.fresh 52 1 0 cvAttr0 wide0 (by decide!)) (by decide!) insert_wide0)
      (by decide!) insert_wide1)
    (by decide!) insert_wide2

set_option maxRecDepth 100000 in
/-- The relation `wide3`, reached by three insertions: its pages are two empty pages and
the page with the three tuples. -/
theorem ntups_agrees_with_storage_witness :
    Built List.length wide3 ∧ storedPages wide3 = some [newPage, newPage, widePage 3] ∧
      ∃ ps, storedPages wide3 = some ps ∧ wide3.ntups = (ps.map (fun p => p.ntuples)).sum ∧
        ∀ p ∈ ps, p.ntuples = (pageTuples p).length :=
  ⟨wide3_built, by decide!, ntups_agrees_with_storage List.length wide3 wide3_built⟩

end MALH
